import Mathlib

/-!
# strdict: a shallow embedding of the entry record and the hash table

The development follows `src/StringDictEntry.c`, `src/LEB128.h`, `src/src/KeyInfo.c`
and `src/src/StringDict.cpp`.

Conventions of the embedding.

* The code is read as it is compiled for a Python extension module: `NDEBUG` is
  defined, so `assert(e)` expands to nothing and `e` is not evaluated.  The
  assertions are kept as comments next to the statement they guard.
* A `PyObject*` is its address, a natural number; `0` is the null pointer.
  `uintptr_t` is 64 bits wide.  Reference counts are not represented.
* `alignof(PyObject)` comes from the host headers and is a parameter `A`.
* `Py_ssize_t` and `Py_hash_t` values are integers.  A conversion to an unsigned
  type is written out where a negative value can reach it.  Indices into the two
  vectors are natural numbers: they are bounded by the vector sizes, so products
  such as `idx * 5 + 5` do not wrap.
* An `Entry*` pointing into the `entries` vector is the index of the slot.
* A loop that may fail to stop takes a fuel argument and returns `none` when the
  fuel is used up; `none` is also the result of reading a vector outside its
  bounds.
-/

namespace StrDict

/-! ## KeyInfo.h / KeyInfo.c -/

/-- Enumerator `PY_BYTES` of `DataKind`. -/
def PY_BYTES : Nat := 0

/-- Enumerator `PY_UCS1` of `DataKind`. -/
def PY_UCS1 : Nat := 1

/-- Enumerator `PY_UCS2` of `DataKind`. -/
def PY_UCS2 : Nat := 2

/-- Enumerator `PY_UCS4` of `DataKind`. -/
def PY_UCS4 : Nat := 3

/-- The struct `KeyInfo`: `data` holds the bytes found at the `data` pointer. -/
structure KeyInfo where
  key : Nat
  hash : Int
  data : List Nat
  data_size : Nat
  kind : Nat
deriving DecidableEq, Repr

/-- The function `DataKind_ItemSize`: `kind + ((kind == PY_BYTES) || (kind == PY_UCS4))`. -/
def DataKind_ItemSize (kind : Nat) : Nat :=
  kind + (if kind = PY_BYTES ∨ kind = PY_UCS4 then 1 else 0)

/-! ## LEB128.h -/

/-- The struct `Leb128Encoding`. -/
structure Leb128Encoding where
  encoding : List Nat
  len : Nat
deriving DecidableEq, Repr

/-- The do-while loop of `leb128_encode`; a 64-bit value needs at most ten rounds. -/
def leb128_encode_loop : Nat → Nat → List Nat
  | 0, _ => []
  | fuel + 1, value =>
    let low := value &&& 0x7f
    let value := value >>> 7
    let byte := low ||| ((if value ≠ 0 then 1 else 0) <<< 7)
    if value ≠ 0 then byte :: leb128_encode_loop fuel value else [byte]

/-- The function `leb128_encode` on a `uint_least64_t` argument. -/
def leb128_encode (value : Nat) : Leb128Encoding :=
  let bytes := leb128_encode_loop 10 (value % 2 ^ 64)
  { encoding := bytes, len := bytes.length }

/-- The do-while loop of `leb128_decode`, returning `value` and `shift`. -/
def leb128_decode_loop : List Nat → Nat → Nat → Nat × Nat
  | [], value, shift => (value, shift)
  | b :: rest, value, shift =>
    let value := (value ||| ((0x7f &&& b) <<< shift)) % 2 ^ 64
    let shift := (shift + 7) % 256
    if b &&& 0x80 ≠ 0 then leb128_decode_loop rest value shift else (value, shift)

/-- The function `leb128_decode`: the decoded value and `*count`. -/
def leb128_decode (data : List Nat) : Nat × Nat :=
  let r := leb128_decode_loop data 0 0
  (r.1, r.2 / 7)

/-! ## StringDictEntry.c -/

/-- The constant `pyobject_pointer_lowbits`, computed from `alignof(PyObject)`. -/
def pyobject_pointer_lowbits (A : Nat) : Nat :=
  if A = 1 then 0
  else if A = 2 then 1
  else if A = 4 then 2
  else if A = 8 then 3
  else if A = 16 then 4
  else 0

/-- The macro `PYOBJECT_MASKED_`: `op & ~pyobject_pointer_lowbits` on `uintptr_t`. -/
def PYOBJECT_MASKED_ (A op : Nat) : Nat :=
  op &&& (2 ^ 64 - 1 - pyobject_pointer_lowbits A)

/-- The macro `PYOBJECT_TAG_`: `op & pyobject_pointer_lowbits`. -/
def PYOBJECT_TAG_ (A op : Nat) : Nat :=
  op &&& pyobject_pointer_lowbits A

/-- The struct `string_dict_entry`; `data` is the flexible array member. -/
structure StringDictEntry where
  cached_key : Nat
  value : Nat
  data : List Nat
deriving DecidableEq, Repr

/-- The function `Entry_GetValue`. -/
def Entry_GetValue (A : Nat) (self : StringDictEntry) : Nat :=
  PYOBJECT_MASKED_ A self.value

/-- The function `Entry_GetKey`. -/
def Entry_GetKey (A : Nat) (self : StringDictEntry) : Nat :=
  if self.cached_key ≠ 0 then PYOBJECT_MASKED_ A self.cached_key else self.cached_key

/-- The function `Entry_ValueTag`. -/
def Entry_ValueTag (A : Nat) (self : StringDictEntry) : Nat :=
  PYOBJECT_TAG_ A self.value

/-- The function `Entry_KeyTag`. -/
def Entry_KeyTag (A : Nat) (self : StringDictEntry) : Nat :=
  PYOBJECT_TAG_ A self.cached_key

/-- The function `Entry_Kind`: the switch over `pyobject_pointer_lowbits`; the result is
an `unsigned char`. -/
def Entry_Kind (A : Nat) (self : StringDictEntry) : Nat :=
  match pyobject_pointer_lowbits A with
  | 0 => self.data.headD 0
  | 1 => (Entry_KeyTag A self ||| (Entry_ValueTag A self <<< 1)) % 256
  | 2 => Entry_KeyTag A self % 256
  | 3 => Entry_KeyTag A self % 256
  | _ => 0

/-- The function `tag_pyobject`: `obj | tag`. -/
def tag_pyobject (obj tag : Nat) : Nat :=
  obj ||| tag

/-- The function `Entry_DataAndSize`: the bytes after the length header, and the
decoded length. -/
def Entry_DataAndSize (A : Nat) (self : StringDictEntry) : List Nat × Nat :=
  let data_header := self.data.drop (if pyobject_pointer_lowbits A = 0 then 1 else 0)
  let r := leb128_decode data_header
  (data_header.drop r.2, r.1)

/-- The function `Entry_ExchangeValue`: the entry after the store and the old value. -/
def Entry_ExchangeValue (A : Nat) (self : StringDictEntry) (new_value : Nat) :
    StringDictEntry × Nat :=
  let old := Entry_GetValue A self
  let tag := Entry_ValueTag A self
  ({ self with value := tag_pyobject new_value tag }, old)

/-- The function `Entry_SetValue`. -/
def Entry_SetValue (A : Nat) (self : StringDictEntry) (new_value : Nat) : StringDictEntry :=
  (Entry_ExchangeValue A self new_value).1

/-- The function `Entry_FromKeyInfo` when `malloc` succeeds.  The call of
`Entry_SetKind` is the argument of an `assert` and is not evaluated. -/
def Entry_FromKeyInfo (A : Nat) (ki : KeyInfo) (value : Nat) : StringDictEntry :=
  let enc := leb128_encode ki.data_size
  let data_bytes := ki.data_size * DataKind_ItemSize ki.kind
  { cached_key := ki.key
    value := value
    data := (if pyobject_pointer_lowbits A = 0 then [ki.kind % 256] else [])
      ++ enc.encoding.take enc.len ++ ki.data.take data_bytes ++ [0] }

/-- The function `Entry_Data`: the code-unit count, the bytes from `*begin` on, and
`*end - *begin`. -/
def Entry_Data (A : Nat) (self : StringDictEntry) (kind : Nat) : Nat × List Nat × Nat :=
  let r := Entry_DataAndSize A self
  (r.2, r.1, r.2 * DataKind_ItemSize kind)

/-- The function `Entry_Matches`. -/
def Entry_Matches (A : Nat) (self : StringDictEntry) (ki : KeyInfo) : Bool :=
  if ki.key = Entry_GetKey A self then true
  else
    let kind := Entry_Kind A self
    if ki.kind ≠ kind then false
    else
      let r := Entry_Data A self kind
      if ki.data_size ≠ r.1 then false
      else ki.data.take r.2.2 == r.2.1.take r.2.2

/-- A key object handed to Python: the cached object, or a bytes object that
`PyBytes_FromStringAndSize` creates from the inline data (given by its contents). -/
inductive KeyObject where
  | cached (addr : Nat)
  | bytes (contents : List Nat)
deriving DecidableEq, Repr

/-- The function `Entry_Key`, the object it returns: the cached object, or the bytes
object it creates from the inline data.  In the second case the function also stores
the new object in `cached_key`; `Entry_Key_store` gives the entry afterwards. -/
def Entry_Key (A : Nat) (self : StringDictEntry) : KeyObject :=
  let key := Entry_GetKey A self
  if key ≠ 0 then KeyObject.cached key
  else
    let r := Entry_Data A self PY_BYTES
    KeyObject.bytes (r.2.1.take r.1)

/-- The function `Entry_Key`, the entry afterwards and the pointer it returns;
`bytes_obj` is what `PyBytes_FromStringAndSize` returns, null for a failed allocation.
Without a cached key the new object is stored in `cached_key` with the tag bits kept. -/
def Entry_Key_store (A : Nat) (self : StringDictEntry) (bytes_obj : Nat) :
    StringDictEntry × Nat :=
  let key := Entry_GetKey A self
  if key ≠ 0 then (self, key)
  else if bytes_obj = 0 then (self, 0)
  else
    let tag := Entry_KeyTag A self
    let self1 : StringDictEntry := { self with cached_key := bytes_obj ||| tag }
    (self1, Entry_GetKey A self1)

/-- The function `Entry_Value`. -/
def Entry_Value (A : Nat) (self : StringDictEntry) : Nat :=
  Entry_GetValue A self

/-- The function `Entry_AsTuple`: the pair packed by `PyTuple_Pack`. -/
def Entry_AsTuple (A : Nat) (self : StringDictEntry) : KeyObject × Nat :=
  (Entry_Key A self, Entry_Value A self)

/-! ## StringDict.cpp: the class `Entry` -/

/-- The class `Entry`: an owning pointer to a `StringDictEntry` (null when the slot is
empty) and the hash of the key. -/
structure Entry where
  entry_ : Option StringDictEntry
  hash_ : Int
deriving DecidableEq, Repr

/-- The constructor `Entry(const KeyInfo&, PyObject*)`. -/
def Entry.ofKeyInfo (A : Nat) (ki : KeyInfo) (value : Nat) : Entry :=
  { entry_ := some (Entry_FromKeyInfo A ki value), hash_ := ki.hash }

/-- The method `Entry::is_empty`. -/
def Entry.is_empty (e : Entry) : Bool :=
  e.entry_.isNone

/-- The functor `Entry::is_closed`, the negation of `is_empty`. -/
def Entry.is_closed (e : Entry) : Bool :=
  !e.is_empty

/-- The method `Entry::get_value` (and `get_value_newref`); only called on a slot that
holds an entry. -/
def Entry.get_value (A : Nat) (e : Entry) : Nat :=
  match e.entry_ with
  | some s => Entry_Value A s
  | none => 0

/-- The method `Entry::get_key`, as the object handed out.  An entry with a cached key
is left as it is; in an entry without one `Entry_Key` stores the bytes object it
creates (`Entry_Key_store`). -/
def Entry.get_key (A : Nat) (e : Entry) : Option KeyObject :=
  e.entry_.map (Entry_Key A)

/-- The method `Entry::as_tuple`. -/
def Entry.as_tuple (A : Nat) (e : Entry) : Option (KeyObject × Nat) :=
  e.entry_.map (Entry_AsTuple A)

/-- The method `Entry::set_value`. -/
def Entry.set_value (A : Nat) (e : Entry) (value : Nat) : Entry :=
  { e with entry_ := e.entry_.map (fun s => Entry_SetValue A s value) }

/-- The method `Entry::set_empty`: `entry_.reset(nullptr)`; `hash_` stays. -/
def Entry.set_empty (e : Entry) : Entry :=
  { e with entry_ := none }

/-- The method `Entry::matches`: `(hash_ == ki.hash) and Entry_Matches(self(), &ki)`. -/
def Entry.matches (A : Nat) (e : Entry) (ki : KeyInfo) : Bool :=
  match e.entry_ with
  | some s => decide (e.hash_ = ki.hash) && Entry_Matches A s ki
  | none => false

/-- The method `Entry::assign_from`: build a temporary from the key and swap with it. -/
def Entry.assign_from (A : Nat) (_e : Entry) (ki : KeyInfo) (value : Nat) : Entry :=
  Entry.ofKeyInfo A ki value

/-- The method `Entry::hash`. -/
def Entry.hash (e : Entry) : Int :=
  e.hash_

/-! ## StringDict.cpp: the class `StringDictBase` -/

/-- The data members of `StringDictBase`. -/
structure StringDictBase where
  entries : List Entry
  offsets : List Int
  mask : Nat
  occupied : Int
deriving DecidableEq, Repr

/-- The constant `min_buckets`. -/
def min_buckets : Nat := 8

/-- The constant `perturb_shift`. -/
def perturb_shift : Nat := 5

/-- The default member initialisers: no entries, eight offsets of `-1`, mask `7`. -/
def StringDictBase.new : StringDictBase :=
  { entries := [], offsets := List.replicate min_buckets (-1), mask := min_buckets - 1,
    occupied := 0 }

/-- The conversion of a `Py_ssize_t` value to `std::size_t`. -/
def to_size_t (n : Int) : Nat :=
  if 0 ≤ n then n.toNat else (n + 2 ^ 64).toNat

/-- The conversion of a `std::size_t` value to `Py_ssize_t`. -/
def to_ssize_t (n : Nat) : Int :=
  if n < 2 ^ 63 then (n : Int) else (n : Int) - 2 ^ 64

/-- The bit-for-bit copy of a `Py_hash_t` into a `uhash_t`. -/
def to_uhash (h : Int) : Nat :=
  (h % 2 ^ 64).toNat

/-- The method `size`. -/
def StringDictBase.size (t : StringDictBase) : Nat :=
  to_size_t t.occupied

/-- The method `bucket_count`. -/
def StringDictBase.bucket_count (t : StringDictBase) : Nat :=
  t.offsets.length

/-- The method `entry_slot_count`. -/
def StringDictBase.entry_slot_count (t : StringDictBase) : Nat :=
  t.entries.length

/-- The method `advance_index`: `perturb >>= perturb_shift; idx = mask & (idx * 5 +
perturb_shift)`.  Returns the new `idx` and `perturb`. -/
def advance_index (mask idx perturb : Nat) : Nat × Nat :=
  let perturb := perturb >>> perturb_shift
  (mask &&& (idx * 5 + perturb_shift), perturb)

/-- The loop of `visit_with_hash`.  The predicate reads and updates the variables its
lambda captures (the state `s`); it returns `none` when it reads outside a vector. -/
def visit_with_hash_loop {σ : Type} (mask : Nat) (pred : σ → Nat → Option (σ × Bool)) :
    Nat → σ → Nat → Nat → Option σ
  | 0, _, _, _ => none
  | fuel + 1, s, idx, perturb =>
    match pred s idx with
    | none => none
    | some (s1, true) => some s1
    | some (s1, false) =>
      visit_with_hash_loop mask pred fuel s1 (advance_index mask idx perturb).1
        (advance_index mask idx perturb).2

/-- The method `visit_with_hash`: start at `hash_value & mask` with `perturb` a copy of
the hash. -/
def visit_with_hash {σ : Type} (fuel : Nat) (t : StringDictBase) (hash_value : Int)
    (pred : σ → Nat → Option (σ × Bool)) (s : σ) : Option σ :=
  visit_with_hash_loop t.mask pred fuel s (to_uhash hash_value &&& t.mask)
    (to_uhash hash_value)

/-- The lambda `visit_pred` of `find_existing`; the state is `(offsets_index, found)`. -/
def find_existing_pred (A : Nat) (t : StringDictBase) (ki : KeyInfo)
    (s : Int × Option Nat) (ofs_index : Nat) : Option ((Int × Option Nat) × Bool) :=
  match t.offsets[ofs_index]? with
  | none => none
  | some ofs =>
    if ofs < 0 then some (((ofs_index : Int), s.2), true)
    else
      match t.entries[ofs.toNat]? with
      | none => none
      | some ent =>
        if !ent.is_empty && ent.matches A ki then
          some (((ofs_index : Int), some ofs.toNat), true)
        else some (s, false)

/-- The method `find_existing`: the pair `(offsets_index, found)`. -/
def find_existing (A fuel : Nat) (t : StringDictBase) (ki : KeyInfo) :
    Option (Int × Option Nat) :=
  visit_with_hash fuel t ki.hash (find_existing_pred A t ki) (-1, none)

/-- The lambda `visit_pred` of `find_insertion`; the state is `(offsets_index, found)`. -/
def find_insertion_pred (A : Nat) (t : StringDictBase) (ki : KeyInfo)
    (s : Int × Option Nat) (ofs_index : Nat) : Option ((Int × Option Nat) × Bool) :=
  match t.offsets[ofs_index]? with
  | none => none
  | some ofs =>
    if ofs < 0 then
      if s.2.isNone then some (((ofs_index : Int), s.2), true) else some (s, true)
    else
      match t.entries[ofs.toNat]? with
      | none => none
      | some ent =>
        if ent.is_empty then
          if s.2.isNone then some (((ofs_index : Int), some ofs.toNat), false)
          else some (s, false)
        else if ent.matches A ki then some (((ofs_index : Int), some ofs.toNat), true)
        else some (s, false)

/-- The method `find_insertion`: the pair `(offsets_index, found)`. -/
def find_insertion (A fuel : Nat) (t : StringDictBase) (ki : KeyInfo) :
    Option (Int × Option Nat) :=
  visit_with_hash fuel t ki.hash (find_insertion_pred A t ki) (-1, none)

/-- The method `clear`. -/
def StringDictBase.clear (t : StringDictBase) : StringDictBase :=
  if t.size = 0 then t
  else
    let offsets := List.replicate min_buckets (-1 : Int)
    { entries := [], offsets := offsets, mask := offsets.length - 1, occupied := 0 }

/-- The lambda `visit_pred` of `grow_relocate_entry`; the state is `idx`. -/
def grow_relocate_pred (t : StringDictBase) (s : Int) (ofs_idx : Nat) :
    Option (Int × Bool) :=
  match t.offsets[ofs_idx]? with
  | none => none
  | some ofs => if ofs < 0 then some ((ofs_idx : Int), true) else some (s, false)

/-- The method `grow_relocate_entry` for the entry in slot `j`. -/
def grow_relocate_entry (fuel : Nat) (t : StringDictBase) (ent : Entry) (j : Nat) :
    Option StringDictBase :=
  match visit_with_hash fuel t ent.hash (grow_relocate_pred t) (-1) with
  | none => none
  | some idx => some { t with offsets := t.offsets.set idx.toNat (j : Int) }

/-- The method `grow_remove_empty_entries`.  When the test fails the empty entries are
moved to the end by `std::partition` and erased; `std::partition` need not keep the
order of the survivors, which are listed here in their old order.  For a counter that
is a `Py_ssize_t` value the test never fails (`grow_remove_empty_entries_id`). -/
def grow_remove_empty_entries (t : StringDictBase) : StringDictBase :=
  if t.occupied = to_ssize_t t.size then t
  else { t with entries := t.entries.filter Entry.is_closed }

/-- The range-for loop of `grow` over the entries from slot `j` on. -/
def grow_relocate_from (fuel : Nat) : List Entry → Nat → StringDictBase → Option StringDictBase
  | [], _, t => some t
  | ent :: rest, j, t =>
    match grow_relocate_entry fuel t ent j with
    | none => none
    | some t1 => grow_relocate_from fuel rest (j + 1) t1

/-- The method `grow`. -/
def grow (fuel : Nat) (t : StringDictBase) : Option StringDictBase :=
  let t1 : StringDictBase :=
    { t with offsets := List.replicate (t.offsets.length * 2) (-1),
             mask := (t.mask <<< 1) ||| 1 }
  let t2 := grow_remove_empty_entries t1
  grow_relocate_from fuel t2.entries 0 t2

/-- The method `reserve_load_factor` when the reservation succeeds: `1` when the load
factor `double(occupied) / offsets.size()` has reached `max_load_factor = 0.667`.
The quotient of the doubles is exact for a power-of-two divisor; for a table of fewer
than `2 ^ 43` buckets it differs from `0.667` by at least `1 / (1000 * 2 ^ 42)`, more
than the rounding of that constant, so the comparison of the doubles is the comparison
of the exact numbers. -/
def reserve_load_factor (t : StringDictBase) : Int :=
  if t.occupied * 1000 ≥ 667 * (t.offsets.length : Int) then 1 else 0

/-- The method `add_entry` when no allocation fails: the table and the slot of the new
entry. -/
def add_entry (A fuel : Nat) (t : StringDictBase) (ki : KeyInfo) (offsets_index : Int)
    (value : Nat) : Option (StringDictBase × Nat) :=
  let t1 : StringDictBase := { t with occupied := t.occupied + 1 }
  let did_reserve := reserve_load_factor t1
  let t2 : StringDictBase := { t1 with entries := t1.entries ++ [Entry.ofKeyInfo A ki value] }
  -- assert(offset_at(offsets_index) == -1);
  let t3 : StringDictBase :=
    { t2 with offsets := t2.offsets.set offsets_index.toNat ((t2.entries.length : Int) - 1) }
  if did_reserve ≠ 0 then
    match grow fuel t3 with
    | none => none
    | some t4 => some (t4, t4.entries.length - 1)
  else some (t3, t3.entries.length - 1)

/-- The method `assign_entry` when no allocation fails; `ent` is the slot index. -/
def assign_entry (A fuel : Nat) (t : StringDictBase) (ki : KeyInfo) (ent : Nat)
    (value : Nat) : Option StringDictBase :=
  match t.entries[ent]? with
  | none => none
  | some e =>
    if e.is_empty then
      let t1 : StringDictBase := { t with occupied := t.occupied + 1 }
      let did_reserve := reserve_load_factor t1
      let grown := if did_reserve ≠ 0 then grow fuel t1 else some t1
      match grown with
      | none => none
      | some t2 =>
        match t2.entries[ent]? with
        | none => none
        | some e2 => some { t2 with entries := t2.entries.set ent (e2.assign_from A ki value) }
    else
      -- assert(ent->matches(ki));
      some { t with entries := t.entries.set ent (e.set_value A value) }

/-- The method `try_assign_entry`; `ent` is the slot index. -/
def try_assign_entry (A : Nat) (t : StringDictBase) (ki : KeyInfo) (ent : Nat)
    (value : Nat) : Option (StringDictBase × Bool) :=
  match t.entries[ent]? with
  | none => none
  | some e =>
    if e.is_empty then
      some ({ t with entries := t.entries.set ent (e.assign_from A ki value) }, true)
    else
      -- assert(ent->matches(ki));
      some (t, false)

/-- The method `remove_entry`; `ent` is the slot index. -/
def remove_entry (t : StringDictBase) (ent : Nat) : Option StringDictBase :=
  match t.entries[ent]? with
  | none => none
  | some e =>
    some { t with entries := t.entries.set ent e.set_empty, occupied := t.occupied - 1 }

/-- The loop of `visit_nonempty_entries`: `count` rounds of `std::find_if` for the next
closed entry from `pos` on.  Dereferencing `entries.end()` has no result. -/
def visit_nonempty_entries_loop {σ : Type} (visit : σ → Entry → σ × Bool) :
    Nat → List Entry → σ → Option (σ × Bool)
  | 0, _, s => some (s, false)
  | count + 1, pos, s =>
    match pos.dropWhile Entry.is_empty with
    | [] => none
    | e :: rest =>
      if (visit s e).2 then some ((visit s e).1, true)
      else visit_nonempty_entries_loop visit count rest (visit s e).1

/-- The method `visit_nonempty_entries`: the final state of the visitor and the
returned flag. -/
def visit_nonempty_entries {σ : Type} (t : StringDictBase) (visit : σ → Entry → σ × Bool)
    (s : σ) : Option (σ × Bool) :=
  if t.size = 0 then some (s, false)
  else visit_nonempty_entries_loop visit (to_ssize_t t.size).toNat t.entries s

/-! ## StringDict.cpp: the class `StringDict` -/

/-- The Python exceptions set by the table. -/
inductive PyErr where
  | KeyError
  | MemoryError
  | SystemError
  | OtherError
deriving DecidableEq, Repr

/-- The outcome of a call that returns an object or sets an exception. -/
inductive PyResult (α : Type) where
  | ok (value : α)
  | raised (e : PyErr)
deriving DecidableEq, Repr

/-- The class `StringDict` adds no data member to `StringDictBase`. -/
abbrev StringDict := StringDictBase

/-- The method `StringDict::pop`, after `make_key_info` has produced `ki`;
`default_value` is `none` for a null pointer. -/
def StringDict.pop (A fuel : Nat) (t : StringDict) (ki : KeyInfo) (default_value : Option Nat) :
    Option (StringDict × PyResult Nat) :=
  if t.size = 0 then
    match default_value with
    | some d => some (t, PyResult.ok d)
    | none => some (t, PyResult.raised PyErr.KeyError)
  else
    match find_existing A fuel t ki with
    | none => none
    | some (_, some ent) =>
      match t.entries[ent]?, remove_entry t ent with
      | some e, some t1 => some (t1, PyResult.ok (e.get_value A))
      | _, _ => none
    | some (_, none) =>
      match default_value with
      | some d => some (t, PyResult.ok d)
      | none => some (t, PyResult.raised PyErr.KeyError)

/-- The method `StringDict::popitem`.  The entry whose key `as_tuple` hands out is
emptied by `remove_entry`, so what `Entry_Key` stores in it is gone with it. -/
def StringDict.popitem (A : Nat) (t : StringDict) :
    Option (StringDict × PyResult (KeyObject × Nat)) :=
  if t.size = 0 then some (t, PyResult.raised PyErr.KeyError)
  else
    let pos := (t.entries.takeWhile Entry.is_empty).length
    match t.entries[pos]? with
    | none => none
    | some e =>
      match e.as_tuple A, remove_entry t pos with
      | some kvp, some t1 => some (t1, PyResult.ok kvp)
      | _, _ => none

/-- The method `StringDict::getdefault`. -/
def StringDict.getdefault (A fuel : Nat) (t : StringDict) (ki : KeyInfo) (default_value : Nat) :
    Option Nat :=
  match find_existing A fuel t ki with
  | none => none
  | some (_, some ent) => (t.entries[ent]?).map (Entry.get_value A)
  | some (_, none) => some default_value

/-- The method `StringDict::set`, after `make_key_info` has produced `ki`. -/
def StringDict.set (A fuel : Nat) (t : StringDict) (ki : KeyInfo) (value : Nat)
    (setdefault : Bool) : Option (StringDict × PyResult Nat) :=
  match find_insertion A fuel t ki with
  | none => none
  | some (idx, none) =>
    match add_entry A fuel t ki idx value with
    | none => none
    | some (t1, ent) => (t1.entries[ent]?).map (fun e => (t1, PyResult.ok (e.get_value A)))
  | some (_, some ent) =>
    if setdefault then
      match try_assign_entry A t ki ent value with
      | none => none
      | some (t1, true) => some (t1, PyResult.ok value)
      | some (t1, false) => (t1.entries[ent]?).map (fun e => (t1, PyResult.ok (e.get_value A)))
    else
      match assign_entry A fuel t ki ent value with
      | none => none
      | some t1 => some (t1, PyResult.ok value)

/-- The method `StringDict::remove`, after `make_key_info` has produced `ki`. -/
def StringDict.remove (A fuel : Nat) (t : StringDict) (ki : KeyInfo) :
    Option (StringDict × PyResult Unit) :=
  match find_existing A fuel t ki with
  | none => none
  | some (_, none) => some (t, PyResult.raised PyErr.KeyError)
  | some (_, some ent) => (remove_entry t ent).map (fun t1 => (t1, PyResult.ok ()))

/-- The method `StringDict::contains`, after `make_key_info` has produced `ki`. -/
def StringDict.contains (A fuel : Nat) (t : StringDict) (ki : KeyInfo) : Option Bool :=
  match find_existing A fuel t ki with
  | none => none
  | some (_, found) => some found.isSome

/-- What `_PyObject_LookupSpecial(this, &PyId___missing__)` finds on a subtype: no
method, no method and an exception, or a method, given by the outcome of calling it
with the key. -/
inductive MissingHook where
  | absent
  | lookup_raised (e : PyErr)
  | present (outcome : PyResult Nat)
deriving DecidableEq, Repr

/-- The method `StringDict::subscript`, after `make_key_info` has produced `ki`;
`check_exact` is `StringDict_CheckExact(this)`. -/
def StringDict.subscript (A fuel : Nat) (t : StringDict) (check_exact : Bool)
    (hook : MissingHook) (ki : KeyInfo) : Option (PyResult Nat) :=
  match find_existing A fuel t ki with
  | none => none
  | some (_, none) =>
    if !check_exact then
      match hook with
      | MissingHook.present outcome => some outcome
      | MissingHook.lookup_raised e => some (PyResult.raised e)
      | MissingHook.absent => some (PyResult.raised PyErr.KeyError)
    else some (PyResult.raised PyErr.KeyError)
  | some (_, some ent) => (t.entries[ent]?).map (fun e => PyResult.ok (e.get_value A))

/-- The lambda `visit_ent` of `make_itemlist`; the state is the list built so far,
`none` once `itemlist.reset()` has run. -/
def make_itemlist_visit {α : Type} (get_item : Entry → Option α) (s : Option (List α))
    (ent : Entry) : Option (List α) × Bool :=
  match get_item ent, s with
  | some item, some items => (some (items ++ [item]), false)
  | _, _ => (none, true)

/-- The method `make_itemlist`; `PyList_New` rejects a negative size. -/
def StringDict.make_itemlist {α : Type} (t : StringDict) (get_item : Entry → Option α) :
    Option (PyResult (List α)) :=
  if to_ssize_t t.size < 0 then some (PyResult.raised PyErr.SystemError)
  else
    match visit_nonempty_entries t (make_itemlist_visit get_item) (some []) with
    | none => none
    | some (some items, _) => some (PyResult.ok items)
    | some (none, _) => some (PyResult.raised PyErr.MemoryError)

/-- The method `StringDict::get_values`. -/
def StringDict.get_values (A : Nat) (t : StringDict) : Option (PyResult (List Nat)) :=
  StringDict.make_itemlist t (fun e => e.entry_.map (Entry_Value A))

/-- The method `StringDict::get_keys`: the list it returns.  The table is read only,
but for the store of `Entry_Key` in entries without a cached key. -/
def StringDict.get_keys (A : Nat) (t : StringDict) : Option (PyResult (List KeyObject)) :=
  StringDict.make_itemlist t (Entry.get_key A)

/-- The method `StringDict::get_items`: the list it returns.  The table is read only,
but for the store of `Entry_Key` in entries without a cached key. -/
def StringDict.get_items (A : Nat) (t : StringDict) :
    Option (PyResult (List (KeyObject × Nat))) :=
  StringDict.make_itemlist t (Entry.as_tuple A)

/-! ## Sequences of public calls -/

/-- A public call on a table, with the key already turned into a `KeyInfo`. -/
inductive Op where
  | set (ki : KeyInfo) (value : Nat)
  | setdefault (ki : KeyInfo) (value : Nat)
  | remove (ki : KeyInfo)
  | pop (ki : KeyInfo) (default_value : Option Nat)
  | popitem
  | clear
deriving DecidableEq, Repr

/-- The table after one public call; an exception leaves the call through the error
return and the next call sees the table as it is then. -/
def apply_op (A fuel : Nat) (t : StringDict) : Op → Option StringDict
  | Op.set ki value => (StringDict.set A fuel t ki value false).map Prod.fst
  | Op.setdefault ki value => (StringDict.set A fuel t ki value true).map Prod.fst
  | Op.remove ki => (StringDict.remove A fuel t ki).map Prod.fst
  | Op.pop ki default_value => (StringDict.pop A fuel t ki default_value).map Prod.fst
  | Op.popitem => (StringDict.popitem A t).map Prod.fst
  | Op.clear => some (StringDictBase.clear t)

/-- The table after a sequence of public calls, `none` if one of them does not return. -/
def run_ops (A fuel : Nat) : List Op → StringDict → Option StringDict
  | [], t => some t
  | op :: rest, t =>
    match apply_op A fuel t op with
    | none => none
    | some t1 => run_ops A fuel rest t1

/-- A table is reachable when a sequence of public calls builds it from the empty
table. -/
def Reachable (A : Nat) (t : StringDict) : Prop :=
  ∃ fuel ops, run_ops A fuel ops StringDictBase.new = some t

/-- A byte-string key for the examples: the bytes object at address `1000 + 8 * i`
holding the single byte `i`, with hash `i`. -/
def sample_key (i : Nat) : KeyInfo :=
  { key := 1000 + 8 * i, hash := (i : Int), data := [i], data_size := 1, kind := PY_BYTES }

/-- Five keys in an eight-bucket table, a tombstone in slot 0 on the probe chain of
`sample_key 8`: the table built by `lost_key_calls`. -/
def lost_key_table : StringDict :=
  { entries := [{ entry_ := none, hash_ := 0 },
      Entry.ofKeyInfo 8 (sample_key 1) 16, Entry.ofKeyInfo 8 (sample_key 2) 16,
      Entry.ofKeyInfo 8 (sample_key 3) 16, Entry.ofKeyInfo 8 (sample_key 4) 16,
      Entry.ofKeyInfo 8 (sample_key 5) 16],
    offsets := [0, 1, 2, 3, 4, 5, -1, -1],
    mask := 7,
    occupied := 5 }

/-- The calls that build `lost_key_table` from the empty table. -/
def lost_key_calls : List Op :=
  [Op.set (sample_key 0) 16, Op.set (sample_key 1) 16, Op.set (sample_key 2) 16,
   Op.set (sample_key 3) 16, Op.set (sample_key 4) 16, Op.remove (sample_key 0),
   Op.set (sample_key 5) 16]

/-- The table after `set(sample_key 0, 16)` on the empty table. -/
def one_key_table : StringDict :=
  { entries := [Entry.ofKeyInfo 8 (sample_key 0) 16],
    offsets := [0, -1, -1, -1, -1, -1, -1, -1],
    mask := 7,
    occupied := 1 }

/-- The calls that leave two entries for `sample_key 8` reachable by its probe chain
once it is set again: the key is first stored in the tombstone of `sample_key 13`
while the table grows. -/
def duplicate_key_calls : List Op :=
  [Op.set (sample_key 0) 16, Op.set (sample_key 13) 16, Op.set (sample_key 1) 16,
   Op.set (sample_key 2) 16, Op.set (sample_key 3) 16, Op.remove (sample_key 13),
   Op.set (sample_key 4) 16, Op.set (sample_key 8) 24]

/-- The calls `set(k0, 16); remove(k0)` on the empty table. -/
def tombstone_calls : List Op :=
  [Op.set (sample_key 0) 16, Op.remove (sample_key 0)]

/-- The table after `tombstone_calls`: one Empty slot, still referenced by offset 0. -/
def tombstone_table : StringDict :=
  { entries := [{ entry_ := none, hash_ := 0 }],
    offsets := [0, -1, -1, -1, -1, -1, -1, -1],
    mask := 7,
    occupied := 0 }

/-- The calls `set(k0, 16); remove(k0); setdefault(k0, 32)` on the empty table. -/
def miscount_calls : List Op :=
  [Op.set (sample_key 0) 16, Op.remove (sample_key 0), Op.setdefault (sample_key 0) 32]

/-- The table after `miscount_calls`: one Occupied slot and `occupied = 0`. -/
def miscount_table : StringDict :=
  { entries := [Entry.ofKeyInfo 8 (sample_key 0) 32],
    offsets := [0, -1, -1, -1, -1, -1, -1, -1],
    mask := 7,
    occupied := 0 }

/-- The table after `miscount_calls` followed by `set(k1, 64)`. -/
def miscount_table_two : StringDict :=
  { entries := [Entry.ofKeyInfo 8 (sample_key 0) 32, Entry.ofKeyInfo 8 (sample_key 1) 64],
    offsets := [0, 1, -1, -1, -1, -1, -1, -1],
    mask := 7,
    occupied := 1 }

/-- The index update of `advance_index` alone: `mask & (idx * 5 + perturb_shift)`. -/
def next_index (mask idx : Nat) : Nat :=
  mask &&& (idx * 5 + perturb_shift)

/-- The `n`-th index visited by `visit_with_hash` when it starts at `idx`. -/
def probe_index (mask idx : Nat) : Nat → Nat
  | 0 => idx
  | n + 1 => probe_index mask (next_index mask idx) n

/-- The sum `1 + 5 + ... + 5 ^ (n - 1)`. -/
def geom5 : Nat → Nat
  | 0 => 0
  | n + 1 => 5 * geom5 n + 1

/-- The number of offsets that refer to a slot. -/
def used_offsets (offsets : List Int) : Nat :=
  offsets.countP (fun o => decide (0 ≤ o))

/-- The state of a table built from the empty table by `set` calls with pairwise
different keys `kvs`: no slot is empty, and fewer offsets are used than the load
factor allows. -/
structure SetOnlyInv (A : Nat) (t : StringDictBase) (kvs : List (KeyInfo × Nat)) : Prop where
  pow2 : ∃ k, 3 ≤ k ∧ t.mask = 2 ^ k - 1 ∧ t.offsets.length = 2 ^ k
  entries_eq : t.entries = kvs.map (fun kv => Entry.ofKeyInfo A kv.1 kv.2)
  occupied_eq : t.occupied = (kvs.length : Int)
  in_range : ∀ o ∈ t.offsets, o < (t.entries.length : Int)
  used : used_offsets t.offsets ≤ kvs.length
  load : (kvs.length : Int) * 1000 < 667 * (t.offsets.length : Int)
  size_bound : t.offsets.length ≤ 8 * 2 ^ kvs.length

/-- The calls `set(k_1, v_1); set(k_2, v_2); ...` for a list of key-value pairs. -/
def set_calls (kvs : List (KeyInfo × Nat)) : List Op :=
  kvs.map (fun kv => Op.set kv.1 kv.2)

/-- The key object Python sees for a key view: the object the view came from, or, for a
view of a raw buffer, a bytes object with the `data_size` bytes of the view. -/
def KeyInfo.object (ki : KeyInfo) : KeyObject :=
  if ki.key ≠ 0 then KeyObject.cached ki.key else KeyObject.bytes (ki.data.take ki.data_size)

/-- A key view as `KeyInfo_Init` produces it: the handle is aligned, a view without a
handle is a byte string, the length fits `Py_ssize_t`, and `data` holds all the code
units. -/
def KeyInfo.well_formed (A : Nat) (ki : KeyInfo) : Prop :=
  PYOBJECT_MASKED_ A ki.key = ki.key ∧ (ki.key = 0 → ki.kind = PY_BYTES)
    ∧ ki.data_size < 2 ^ 63 ∧ ki.data_size * DataKind_ItemSize ki.kind ≤ ki.data.length

instance (A : Nat) (ki : KeyInfo) : Decidable (KeyInfo.well_formed A ki) := by
  unfold KeyInfo.well_formed
  exact inferInstance

/-- Twelve key-value pairs with different keys: setting them makes the table grow
twice, to 16 and to 32 buckets. -/
def twelve_pairs : List (KeyInfo × Nat) :=
  (List.range 12).map (fun i => (sample_key i, 16 * (i + 1)))

/-! ## The insertion-ordered dictionary of the specification -/

/-- Follows the spec's words ("bytewise keying"): the key a view denotes is its kind and
its `data_size` code units; the object the view came from plays no part. -/
def KeyInfo.spec_key (ki : KeyInfo) : Nat × Nat × List Nat :=
  (ki.kind, ki.data_size, ki.data.take (ki.data_size * DataKind_ItemSize ki.kind))

/-- Follows the spec's words: `set` of a present key replaces its value in place; the
key object stored first stays. -/
def spec_update (m : List (KeyInfo × Nat)) (k : KeyInfo) (v : Nat) : List (KeyInfo × Nat) :=
  m.map (fun kv => if kv.1.spec_key = k.spec_key then (kv.1, v) else kv)

/-- Follows the spec's words: `set` replaces the value of a present key and appends an
absent key after all present ones. -/
def spec_set (m : List (KeyInfo × Nat)) (k : KeyInfo) (v : Nat) : List (KeyInfo × Nat) :=
  if k.spec_key ∈ m.map (fun kv => kv.1.spec_key) then spec_update m k v else m ++ [(k, v)]

/-- Follows the spec's words: `remove` deletes the key and keeps the order of the
others. -/
def spec_remove (m : List (KeyInfo × Nat)) (k : KeyInfo) : List (KeyInfo × Nat) :=
  m.filter (fun kv => decide (kv.1.spec_key ≠ k.spec_key))

/-- Follows the spec's words ("the insertion order of currently-occupied keys"): the
items present after a sequence of `set` and `remove` calls, earliest insertion
first. -/
def spec_items : List (KeyInfo × Nat) → List Op → List (KeyInfo × Nat)
  | m, [] => m
  | m, Op.set k v :: rest => spec_items (spec_set m k v) rest
  | m, Op.remove k :: rest => spec_items (spec_remove m k) rest
  | m, _ :: rest => spec_items m rest

/-- The keys of `spec_items` on the empty dictionary. -/
def spec_keys (ops : List Op) : List KeyInfo :=
  (spec_items [] ops).map Prod.fst

/-! ## Runs that never store a key in an Empty slot -/

/-- Whether `set(ki, _)` would store the key in an Empty slot found by
`find_insertion`. -/
def lands_in_empty_slot (A fuel : Nat) (t : StringDict) (ki : KeyInfo) : Bool :=
  match find_insertion A fuel t ki with
  | some (_, some j) =>
    match t.entries[j]? with
    | some e => e.is_empty
    | none => false
  | _ => false

/-- The table after a sequence of `set` and `remove` calls; `none` if a call does not
return, if a `set` stores its key in an Empty slot, or if the sequence has another
call. -/
def run_ops_fresh (A fuel : Nat) : List Op → StringDict → Option StringDict
  | [], t => some t
  | Op.set ki value :: rest, t =>
    if lands_in_empty_slot A fuel t ki then none
    else
      match StringDict.set A fuel t ki value false with
      | none => none
      | some r => run_ops_fresh A fuel rest r.1
  | Op.remove ki :: rest, t =>
    match StringDict.remove A fuel t ki with
    | none => none
    | some r => run_ops_fresh A fuel rest r.1
  | _ :: _, _ => none

/-- The key views used by a sequence of calls. -/
def op_keys : List Op → List KeyInfo
  | [] => []
  | Op.set k _ :: rest => k :: op_keys rest
  | Op.setdefault k _ :: rest => k :: op_keys rest
  | Op.remove k :: rest => k :: op_keys rest
  | Op.pop k _ :: rest => k :: op_keys rest
  | _ :: rest => op_keys rest

/-- The values stored by a sequence of calls. -/
def op_values : List Op → List Nat
  | [] => []
  | Op.set _ v :: rest => v :: op_values rest
  | Op.setdefault _ v :: rest => v :: op_values rest
  | _ :: rest => op_values rest

/-- Key views `K` and values `V` on which the comparison of the table is equality of
keys: the values are aligned handles, an entry built from a view of `K` matches a view
of `K` exactly when the two have the same kind and content, and views of the same kind
and content have the same hash. -/
def content_views (A : Nat) (K : List KeyInfo) (V : List Nat) : Prop :=
  (∀ v ∈ V, PYOBJECT_MASKED_ A v = v)
    ∧ (∀ a ∈ K, ∀ v ∈ V, ∀ b ∈ K,
        (Entry.ofKeyInfo A a v).matches A b = decide (a.spec_key = b.spec_key))
    ∧ ∀ a ∈ K, ∀ b ∈ K, a.spec_key = b.spec_key → a.hash = b.hash

instance (A : Nat) (K : List KeyInfo) (V : List Nat) : Decidable (content_views A K V) := by
  unfold content_views
  exact inferInstance

/-- Key views of bytes objects, as `KeyInfo_Init` produces them: the kind is `PY_BYTES`,
the origin is a non-null aligned handle, views of one object have the same content, and
views with the same content have the same hash. -/
def bytes_keys (A : Nat) (K : List KeyInfo) : Prop :=
  (∀ a ∈ K, a.kind = PY_BYTES ∧ a.key ≠ 0 ∧ a.well_formed A)
    ∧ (∀ a ∈ K, ∀ b ∈ K, a.key = b.key → a.spec_key = b.spec_key)
    ∧ ∀ a ∈ K, ∀ b ∈ K, a.spec_key = b.spec_key → a.hash = b.hash

instance (A : Nat) (K : List KeyInfo) : Decidable (bytes_keys A K) := by
  unfold bytes_keys
  exact inferInstance

/-- The key view of a second bytes object with the content of `sample_key i`. -/
def sample_key_copy (i : Nat) : KeyInfo :=
  { key := 5000 + 8 * i, hash := (i : Int), data := [i], data_size := 1, kind := PY_BYTES }

/-- The calls `set(k0, 16); set(k1, 32); remove(c0); set(k2, 48); set(c1, 64)`, where
`c0` and `c1` are second objects with the content of `k0` and `k1`: no call stores a key
in an Empty slot. -/
def equal_object_calls : List Op :=
  [Op.set (sample_key 0) 16, Op.set (sample_key 1) 32, Op.remove (sample_key_copy 0),
   Op.set (sample_key 2) 48, Op.set (sample_key_copy 1) 64]

/-- The calls `set(k0, 16); set(k1, 32); remove(k0); set(k8, 48)`: the last key takes
the slot of the removed one. -/
def reuse_calls : List Op :=
  [Op.set (sample_key 0) 16, Op.set (sample_key 1) 32, Op.remove (sample_key 0),
   Op.set (sample_key 8) 48]

/-! ## Tables with Empty slots, as the proofs describe them -/

/-- A slot of `entries`: an entry built from a key view and holding a value, or an
Empty slot that keeps the hash of the entry it held. -/
inductive Cell where
  | live (ki : KeyInfo) (v : Nat)
  | dead (hash : Int)
deriving DecidableEq, Repr

/-- The `Entry` of a slot. -/
def Cell.entry (A : Nat) : Cell → Entry
  | Cell.live ki v => Entry.ofKeyInfo A ki v
  | Cell.dead h => { entry_ := none, hash_ := h }

/-- The item of an Occupied slot. -/
def Cell.item : Cell → Option (KeyInfo × Nat)
  | Cell.live ki v => some (ki, v)
  | Cell.dead _ => none

/-- The items of the Occupied slots, in slot order. -/
def live_items (cells : List Cell) : List (KeyInfo × Nat) :=
  cells.filterMap Cell.item

/-- Slot `j` is referenced from the probe chain of hash `h` before any free offset. -/
def Chain (t : StringDictBase) (h : Int) (j : Nat) : Prop :=
  ∃ n, t.offsets[probe_index t.mask (to_uhash h &&& t.mask) n]? = some (j : Int)
    ∧ ∀ n1, n1 < n →
      ∃ o, t.offsets[probe_index t.mask (to_uhash h &&& t.mask) n1]? = some o ∧ ¬ o < 0

/-- The state of a table in a run of `set` and `remove` calls that stores no key in an
Empty slot: every Occupied slot is referenced from the probe chain of its key, no two
Occupied slots hold keys of the same kind and content, and `occupied` counts the
Occupied slots. -/
structure TombInv (A : Nat) (K : List KeyInfo) (V : List Nat) (t : StringDictBase)
    (cells : List Cell) : Prop where
  entries_eq : t.entries = cells.map (Cell.entry A)
  chain : ∀ j ki v, cells[j]? = some (Cell.live ki v) → Chain t ki.hash j
  occupied_eq : t.occupied = ((live_items cells).length : Int)
  nodup : ((live_items cells).map (fun kv => kv.1.spec_key)).Nodup
  members : ∀ ki v, Cell.live ki v ∈ cells → ki ∈ K ∧ v ∈ V

/-- An Occupied slot of the table described by `cells` holds a key of the same kind and
content as `k`. -/
def holds_key (cells : List Cell) (k : KeyInfo) : Prop :=
  ∃ (j : Nat) (a : KeyInfo) (v : Nat),
    cells[j]? = some (Cell.live a v) ∧ a.spec_key = k.spec_key

/-! ## StringDict.cpp: copy, comparison and update from another table -/

/-- The function `Entry_AsKeyInfo`: it fills `key`, `data`, `data_size` and `kind` of
`*ki` and leaves `hash`.  The `data` pointer points into the block of the entry, so
`data` holds the bytes from the first code unit to the end of the block. -/
def Entry_AsKeyInfo (A : Nat) (self : StringDictEntry) (ki : KeyInfo) : KeyInfo :=
  let kind := Entry_Kind A self
  let r := Entry_Data A self kind
  { ki with key := Entry_GetKey A self, data := r.2.1, data_size := r.1, kind := kind }

/-- Modelled from the spec: `Entry_Copy` is declared in `include/StringDictEntry.h` and
defined in none of the source files.  The spec has the copy duplicate each entry,
"reallocating its block and incrementing handle references": the new block holds what
the old one holds.  A null result (`none`) is a failed allocation. -/
def Entry_Copy (other : StringDictEntry) : Option StringDictEntry :=
  some other

/-- The method `Entry::as_key_info`: `ki.hash = -1`, then `Entry_AsKeyInfo`, then
`ki.hash = hash()`. -/
def Entry.as_key_info (A : Nat) (e : Entry) : Option KeyInfo :=
  e.entry_.map (fun s =>
    { Entry_AsKeyInfo A s { key := 0, hash := -1, data := [], data_size := 0, kind := 0 } with
      hash := e.hash })

/-- The method `Entry::make_copy`: `std::nullopt` is `none`. -/
def Entry.make_copy (e : Entry) : Option Entry :=
  match e.entry_ with
  | none => some { entry_ := none, hash_ := -1 }
  | some s =>
    match Entry_Copy s with
    | none => none
    | some ent_cpy => some { entry_ := some ent_cpy, hash_ := e.hash }

/-- The range-for loop of `StringDict::make_copy`: the entries pushed to `other`, and
whether every copy was made (`false` when `make_copy` of an entry has no value and the
exception is thrown). -/
def make_copy_loop : List Entry → List Entry → List Entry × Bool
  | [], acc => (acc, true)
  | ent :: rest, acc =>
    match ent.make_copy with
    | none => (acc, false)
    | some opt_ent => make_copy_loop rest (acc ++ [opt_ent])

/-- The method `StringDict::make_copy` when no allocation of a vector fails: the table
`other` afterwards and the outcome (`RuntimeError` is `OtherError`). -/
def StringDict.make_copy (t other : StringDict) : StringDict × PyResult Unit :=
  let other1 : StringDict := { other with offsets := t.offsets }
  match make_copy_loop t.entries other1.entries with
  | (ents, false) => ({ other1 with entries := ents }, PyResult.raised PyErr.OtherError)
  | (ents, true) =>
    ({ other1 with entries := ents, mask := t.mask, occupied := t.occupied }, PyResult.ok ())

/-- The function `strdict_copy`: `make_copy` into a table made by `strdict_new`. -/
def strdict_copy (t : StringDict) : PyResult StringDict :=
  match StringDict.make_copy t StringDictBase.new with
  | (new_dict, PyResult.ok _) => PyResult.ok new_dict
  | (_, PyResult.raised e) => PyResult.raised e

/-- The method `contains_entry`: `0` when the key of `other_ent` is not found, else the
result of `PyObject_RichCompareBool(value, other_value, Py_EQ)`, which is given by
`rich_compare`. -/
def StringDict.contains_entry (A fuel : Nat) (rich_compare : Nat → Nat → Int)
    (t : StringDict) (other_ent : Entry) : Option Int :=
  match other_ent.as_key_info A with
  | none => none
  | some ki =>
    match find_existing A fuel t ki with
    | none => none
    | some (_, none) => some 0
    | some (_, some ent) =>
      (t.entries[ent]?).map (fun e => rich_compare (e.get_value A) (other_ent.get_value A))

/-- The range-for loop of `operator==` over the entries of `iter_dict`, with the counter
`nonempty_count`; the result is the returned `int`. -/
def operator_eq_loop (A fuel : Nat) (rich_compare : Nat → Nat → Int) (other_dict : StringDict) :
    List Entry → Int → Option Int
  | [], _ => some 1
  | ent :: rest, nonempty_count =>
    if !ent.is_empty then
      match StringDict.contains_entry A fuel rich_compare other_dict ent with
      | none => none
      | some has_ent =>
        if has_ent < 0 then some has_ent
        else if has_ent = 0 then some 0
        else if nonempty_count - 1 = 0 then some 1
        else operator_eq_loop A fuel rich_compare other_dict rest (nonempty_count - 1)
    else operator_eq_loop A fuel rich_compare other_dict rest nonempty_count

/-- The method `operator==`. -/
def StringDict.operator_eq (A fuel : Nat) (rich_compare : Nat → Nat → Int)
    (t other : StringDict) : Option Int :=
  if t.size ≠ other.size then some 0
  else
    let iter_dict := if t.entry_slot_count ≤ other.entry_slot_count then t else other
    let other_dict := if t.entry_slot_count ≤ other.entry_slot_count then other else t
    operator_eq_loop A fuel rich_compare other_dict iter_dict.entries (to_ssize_t iter_dict.size)

/-- The lambda `visit_other` of `update_from_string_dict`; the state is the table and
`err`, or `none` once a lookup or a growth has not returned. -/
def update_visit_other (A fuel : Nat) (s : Option (StringDict × Int)) (other_ent : Entry) :
    Option (StringDict × Int) × Bool :=
  match s with
  | none => (none, true)
  | some (t, err) =>
    match other_ent.as_key_info A with
    | none => (none, true)
    | some ki =>
      match find_insertion A fuel t ki with
      | none => (none, true)
      | some (idx, none) =>
        match add_entry A fuel t ki idx (other_ent.get_value A) with
        | none => (none, true)
        | some (t1, _) => (some (t1, err), false)
      | some (_, some ent) =>
        match t.entries[ent]? with
        | none => (none, true)
        | some e =>
          if e.is_empty then
            match assign_entry A fuel t ki ent (other_ent.get_value A) with
            | none => (none, true)
            | some t1 => (some (t1, err), false)
          else
            (some ({ t with entries := t.entries.set ent (e.set_value A (other_ent.get_value A)) },
              err), false)

/-- The method `update_from_string_dict` for a table `other` that is not the table
updated: the table afterwards and the returned `int`. -/
def StringDict.update_from_string_dict (A fuel : Nat) (t other : StringDict) :
    Option (StringDict × Int) :=
  if other.size = 0 then some (t, 0)
  else
    match visit_nonempty_entries other (update_visit_other A fuel) (some (t, 0)) with
    | some (some r, _) => some r
    | _ => none

/-- An argument `o` of `update_from_object` that passes `StringDict_Check`: the table
itself, or another table. -/
inductive StringDictArg where
  | this
  | other (u : StringDict)
deriving DecidableEq, Repr

/-- The loop of `visit_nonempty_entries` when the table walked is the table that the
visitor `visit_other` writes to (`update_from_string_dict(*this)`): `count` rounds of
`std::find_if` for the next closed entry from `pos` on, in the vector as it is in that
round, so the visitor sees the values and the slots its earlier rounds have left.  The
iterator `pos` is kept as the index of its slot.  Dereferencing `entries.end()` has no
result. -/
def update_from_self_loop (A fuel : Nat) :
    Nat → Nat → StringDict → Int → Option (StringDict × Int)
  | 0, _, t, err => some (t, err)
  | count + 1, pos, t, err =>
    match (t.entries.drop pos).dropWhile Entry.is_empty with
    | [] => none
    | e :: _ =>
      match update_visit_other A fuel (some (t, err)) e with
      | (some (t1, err1), false) =>
        update_from_self_loop A fuel count
          (pos + ((t.entries.drop pos).takeWhile Entry.is_empty).length + 1) t1 err1
      | (some r, true) => some r
      | (none, _) => none

/-- The method `update_from_string_dict` called with the table itself as `other`: the
table afterwards and the returned `int`. -/
def StringDict.update_from_self (A fuel : Nat) (t : StringDict) : Option (StringDict × Int) :=
  if t.size = 0 then some (t, 0)
  else update_from_self_loop A fuel (to_ssize_t t.size).toNat 0 t 0

/-- The method `update_from_object` on an argument that passes `StringDict_Check`:
`if(o != this) return 0; else return update_from_string_dict(*o);`. -/
def StringDict.update_from_object (A fuel : Nat) (t : StringDict) (o : StringDictArg) :
    Option (StringDict × Int) :=
  match o with
  | StringDictArg.other _ => some (t, 0)
  | StringDictArg.this => StringDict.update_from_self A fuel t

/-! ## Further example tables and keys -/

/-- The calls of `lost_key_calls` followed by `set(k8, 24); set(k8, 40)`: the first
stores the key in the slot left by `k0` while the table grows, where no lookup of `k8`
finds it, and the second appends another entry for `k8`. -/
def lost_key_twice_calls : List Op :=
  lost_key_calls ++ [Op.set (sample_key 8) 24, Op.set (sample_key 8) 40]

/-- A value comparison for the examples: an object is equal to itself only. -/
def identity_compare (a b : Nat) : Int :=
  if a = b then 1 else 0

/-- The key view `KeyInfo_Init` makes of the text string `"abc"` (one-byte code units),
held by the object at address 2000. -/
def text_abc_view : KeyInfo :=
  { key := 2000, hash := 77, data := [97, 98, 99], data_size := 3, kind := PY_UCS1 }

/-- The key view `KeyInfo_Init` makes of the byte string `b"abc"`, held by the object at
address 3000; the hash is the hash of `text_abc_view`. -/
def bytes_abc_view : KeyInfo :=
  { key := 3000, hash := 77, data := [97, 98, 99], data_size := 3, kind := PY_BYTES }

/-- The key view `KeyInfo_Init` makes of a raw buffer holding the bytes `abc`. -/
def raw_abc_view : KeyInfo :=
  { key := 0, hash := 77, data := [97, 98, 99], data_size := 3, kind := PY_BYTES }

/-- A byte-string key for the load-factor example: the bytes object at address
`1000 + 8 * i` holding the two bytes of `i` (low byte first), with hash `i`. -/
def load_key (i : Nat) : KeyInfo :=
  { key := 1000 + 8 * i, hash := (i : Int), data := [i % 256, i / 256], data_size := 2,
    kind := PY_BYTES }

/-- The pairs `(load_key i, 16)` for `i < 2731`: 2731 different keys. -/
def load_pairs : List (KeyInfo × Nat) :=
  (List.range 2731).map (fun i => (load_key i, 16))

/-! ## What a storing call changes, as the proofs describe it -/

/-- What a call that stores a new key does to the counter and the offsets: `occupied`
is one more, and the offsets vector keeps its length while the load factor stays below
`0.667`, or doubles once the load factor has reached it. -/
def StoresKey (t t1 : StringDictBase) : Prop :=
  t1.occupied = t.occupied + 1
    ∧ ((t1.offsets.length = t.offsets.length
          ∧ (t.occupied + 1) * 1000 < 667 * (t.offsets.length : Int))
      ∨ (t1.offsets.length = 2 * t.offsets.length
          ∧ 667 * (t.offsets.length : Int) ≤ (t.occupied + 1) * 1000))

/-- The entries a call `set(ki, value)` can leave in a table: an entry that was there,
an entry that was there with its value replaced, or the entry built from the key. -/
def FromSet (A : Nat) (t : StringDictBase) (ki : KeyInfo) (value : Nat) (e : Entry) : Prop :=
  e ∈ t.entries ∨ (∃ e0 ∈ t.entries, e = e0.set_value A value) ∨ e = Entry.ofKeyInfo A ki value

/-! ## StringDict.cpp: reserving space and update from keyword arguments -/

/-- The constant `max_load_factor = 0.667` as a double is
`3003900951456121 / 2 ^ 52`. -/
def max_load_factor_mantissa : Nat := 3003900951456121

/-- The initialisation `std::size_t ofs_count_needed = len / max_load_factor` for
`0 < len < 2 ^ 52`: the quotient of the two doubles, rounded to the nearest double (ties
to even) and then truncated.  `x` is the integer part of the exact quotient, `s` the
number of fraction bits of a 53-bit significand of that size, `m` the significand. -/
def ofs_count_needed (len : Nat) : Nat :=
  let x := len * 2 ^ 52 / max_load_factor_mantissa
  let s := 52 - Nat.log2 x
  let a := len * 2 ^ (52 + s)
  let q := a / max_load_factor_mantissa
  let r := a % max_load_factor_mantissa
  let m :=
    if max_load_factor_mantissa < 2 * r ∨ (2 * r = max_load_factor_mantissa ∧ q % 2 = 1)
    then q + 1 else q
  m / 2 ^ s

/-- The loop `while(count < ofs_count_needed) count <<= 1;` on `std::size_t`. -/
def reserve_count_loop : Nat → Nat → Nat → Option Nat
  | 0, _, _ => none
  | fuel + 1, count, needed =>
    if count < needed then reserve_count_loop fuel ((count <<< 1) % 2 ^ 64) needed
    else some count

/-- The method `reserve_space` when no allocation fails, for `len < 2 ^ 52`: the table
afterwards and the returned `int`.  `offsets.resize(n, -1)` keeps the first `n` offsets
and fills up with `-1`. -/
def reserve_space (fuel : Nat) (t : StringDictBase) (len : Int) :
    Option (StringDictBase × Int) :=
  if len = 0 then some (t, 0)
  else if len < 0 ∨ 2 ^ 52 ≤ len then none
  else
    let needed := ofs_count_needed len.toNat
    if needed < to_size_t len then some (t, -1)
    else
      match reserve_count_loop 64 min_buckets needed with
      | none => none
      | some count =>
        if count ≤ t.bucket_count then some (t, 0)
        else if t.size > 0 then
          let n := count >>> 1
          let t1 : StringDictBase :=
            { t with offsets := t.offsets.take n ++ List.replicate (n - t.offsets.length) (-1) }
          (grow fuel t1).map (fun t2 => (t2, 0))
        else some (t, 0)

/-- The loop `while(PyDict_Next(...))` of `update_from_kwargs` over the items of the
dictionary, the keys already turned into key views. -/
def update_from_kwargs_loop (A fuel : Nat) :
    List (KeyInfo × Nat) → StringDict → Option (StringDict × Int)
  | [], t => some (t, 0)
  | kv :: rest, t =>
    match StringDict.set A fuel t kv.1 kv.2 false with
    | none => none
    | some (t1, PyResult.ok _) => update_from_kwargs_loop A fuel rest t1
    | some (t1, PyResult.raised _) => some (t1, -1)

/-- The method `update_from_kwargs`; `kwarg_dict` lists the items of the dictionary in
the order of `PyDict_Next`. -/
def StringDict.update_from_kwargs (A fuel : Nat) (t : StringDict)
    (kwarg_dict : List (KeyInfo × Nat)) : Option (StringDict × Int) :=
  let len : Int := (kwarg_dict.length : Int)
  match reserve_space fuel t (to_ssize_t ((t.size + to_size_t len) % 2 ^ 64)) with
  | none => none
  | some (t1, r) =>
    if r ≠ 0 then some (t1, -1)
    else if len = 0 then some (t1, 0)
    else update_from_kwargs_loop A fuel kwarg_dict t1

/-- A public call on a table: one of the calls of `Op`, `update` with a dictionary or
keyword arguments, or `update` with a table. -/
inductive Call where
  | op (o : Op)
  | update_kwargs (kwarg_dict : List (KeyInfo × Nat))
  | update_object (o : StringDictArg)
deriving DecidableEq, Repr

/-- The table after one public call. -/
def apply_call (A fuel : Nat) (t : StringDict) : Call → Option StringDict
  | Call.op o => apply_op A fuel t o
  | Call.update_kwargs kwarg_dict =>
    (StringDict.update_from_kwargs A fuel t kwarg_dict).map Prod.fst
  | Call.update_object o => (StringDict.update_from_object A fuel t o).map Prod.fst

/-- The table after a sequence of public calls, `none` if one of them does not return. -/
def run_calls (A fuel : Nat) : List Call → StringDict → Option StringDict
  | [], t => some t
  | c :: rest, t =>
    match apply_call A fuel t c with
    | none => none
    | some t1 => run_calls A fuel rest t1

/-! ## Inserting when `malloc` fails -/

/-- The constructor `Entry(const KeyInfo&, PyObject*)` with the outcome of `malloc` in
`Entry_FromKeyInfo`: a null result is stored as it is, with the hash of the key. -/
def Entry.construct (A : Nat) (malloc_ok : Bool) (ki : KeyInfo) (value : Nat) : Entry :=
  { entry_ := if malloc_ok then some (Entry_FromKeyInfo A ki value) else none,
    hash_ := ki.hash }

/-- The method `add_entry` with the outcome of `malloc` in `Entry_FromKeyInfo`; no
allocation of a vector fails.  The result is the table and the slot returned. -/
def add_entry_malloc (A fuel : Nat) (malloc_ok : Bool) (t : StringDictBase) (ki : KeyInfo)
    (offsets_index : Int) (value : Nat) : Option (StringDictBase × Nat) :=
  let t1 : StringDictBase := { t with occupied := t.occupied + 1 }
  let did_reserve := reserve_load_factor t1
  let t2 : StringDictBase :=
    { t1 with entries := t1.entries ++ [Entry.construct A malloc_ok ki value] }
  let t3 : StringDictBase :=
    { t2 with offsets := t2.offsets.set offsets_index.toNat ((t2.entries.length : Int) - 1) }
  if did_reserve ≠ 0 then
    match grow fuel t3 with
    | none => none
    | some t4 => some (t4, t4.entries.length - 1)
  else some (t3, t3.entries.length - 1)

/-- The method `assign_entry` with the outcome of `malloc` in `Entry_FromKeyInfo`: the
table and the returned `int`. -/
def assign_entry_malloc (A fuel : Nat) (malloc_ok : Bool) (t : StringDictBase) (ki : KeyInfo)
    (ent : Nat) (value : Nat) : Option (StringDictBase × Int) :=
  match t.entries[ent]? with
  | none => none
  | some e =>
    if e.is_empty then
      let t1 : StringDictBase := { t with occupied := t.occupied + 1 }
      let did_reserve := reserve_load_factor t1
      let grown := if did_reserve ≠ 0 then grow fuel t1 else some t1
      match grown with
      | none => none
      | some t2 =>
        match t2.entries[ent]? with
        | none => none
        | some _ =>
          some ({ t2 with entries := t2.entries.set ent (Entry.construct A malloc_ok ki value) }, 0)
    else
      some ({ t with entries := t.entries.set ent (e.set_value A value) }, 0)

/-- The method `StringDict::set` (with `setdefault = false`) with the outcome of
`malloc` in `Entry_FromKeyInfo`.  `get_value_newref` on a slot without an entry reads
through a null pointer and has no result; the `int` returned by `assign_entry` is not
looked at. -/
def StringDict.set_malloc (A fuel : Nat) (malloc_ok : Bool) (t : StringDict) (ki : KeyInfo)
    (value : Nat) : Option (StringDict × PyResult Nat) :=
  match find_insertion A fuel t ki with
  | none => none
  | some (idx, none) =>
    match add_entry_malloc A fuel malloc_ok t ki idx value with
    | none => none
    | some (t1, ent) =>
      match t1.entries[ent]? with
      | none => none
      | some e => if e.is_empty then none else some (t1, PyResult.ok (e.get_value A))
  | some (_, some ent) =>
    match assign_entry_malloc A fuel malloc_ok t ki ent value with
    | none => none
    | some (t1, _) => some (t1, PyResult.ok value)

/-! ## The probing step of the specification -/

/-- Follows the spec's words: `p ← p >> 5`, then `i ← (i·5 + 5 + p) & mask`. -/
def spec_advance_index (mask idx perturb : Nat) : Nat × Nat :=
  ((idx * 5 + 5 + (perturb >>> 5)) &&& mask, perturb >>> 5)

/-- A predicate for `visit_with_hash` that records the indices it is called with and
stops at the `n`-th call. -/
def record_index (n : Nat) (s : List Nat) (idx : Nat) : Option (List Nat × Bool) :=
  some (s ++ [idx], decide (n ≤ s.length + 1))

/-- The indices of the spec's probing sequence for hash `h`: the first `n` of them. -/
def spec_probe_indices (mask : Nat) : Nat → Nat → Nat → List Nat
  | 0, _, _ => []
  | n + 1, idx, perturb =>
    idx :: spec_probe_indices mask n (spec_advance_index mask idx perturb).1
      (spec_advance_index mask idx perturb).2

/-! ## Example calls for the invariants -/

/-- Eleven items for `update`: the keys `sample_key 1 .. sample_key 11`. -/
def eleven_kwargs : List (KeyInfo × Nat) :=
  (List.range 11).map (fun i => (sample_key (i + 1), 16))

/-- The calls `set(k0, 16); update(k1=24); remove(k0); update(self); update(k1=16, ...,
k11=16)`: the last one reserves space for twelve keys. -/
def update_example_calls : List Call :=
  [Call.op (Op.set (sample_key 0) 16), Call.update_kwargs [(sample_key 1, 24)],
   Call.op (Op.remove (sample_key 0)), Call.update_object StringDictArg.this,
   Call.update_kwargs eleven_kwargs]

/-- The calls `set(k_i, 16); remove(k_i)` for `i = 0 .. 6`, followed by `set(k7, 16)`:
every key goes to a bucket of its own. -/
def full_offsets_calls : List Op :=
  [Op.set (sample_key 0) 16, Op.remove (sample_key 0),
   Op.set (sample_key 1) 16, Op.remove (sample_key 1),
   Op.set (sample_key 2) 16, Op.remove (sample_key 2),
   Op.set (sample_key 3) 16, Op.remove (sample_key 3),
   Op.set (sample_key 4) 16, Op.remove (sample_key 4),
   Op.set (sample_key 5) 16, Op.remove (sample_key 5),
   Op.set (sample_key 6) 16, Op.remove (sample_key 6),
   Op.set (sample_key 7) 16]

/-- The table after `full_offsets_calls` and `remove(k7)`: eight Empty slots, each
referenced by one of the eight offsets. -/
def all_tombstones_table : StringDict :=
  { entries := [{ entry_ := none, hash_ := 0 }, { entry_ := none, hash_ := 1 },
      { entry_ := none, hash_ := 2 }, { entry_ := none, hash_ := 3 },
      { entry_ := none, hash_ := 4 }, { entry_ := none, hash_ := 5 },
      { entry_ := none, hash_ := 6 }, { entry_ := none, hash_ := 7 }],
    offsets := [0, 1, 2, 3, 4, 5, 6, 7],
    mask := 7,
    occupied := 0 }

/-! ## The shape of the offsets vector, as the proofs describe it -/

/-- The offsets refer to each of the slots `0 .. n - 1` exactly once, and every other
offset is `-1`. -/
def Indexed (offsets : List Int) (n : Nat) : Prop :=
  (∀ o ∈ offsets, -1 ≤ o ∧ o < (n : Int))
    ∧ (∀ (i1 i2 : Nat) (o : Int),
        offsets[i1]? = some o → offsets[i2]? = some o → 0 ≤ o → i1 = i2)
    ∧ (∀ j : Nat, j < n → ∃ i : Nat, offsets[i]? = some (j : Int))

/-- The shape every call keeps: the number of offsets is a power of two, at least 8,
and the offsets refer to each slot of `entries` exactly once. -/
structure ShapeInv (t : StringDictBase) : Prop where
  pow2 : ∃ k, 3 ≤ k ∧ t.offsets.length = 2 ^ k
  indexed : Indexed t.offsets t.entries.length

/-! ## StringDictEntry.c: storing the kind in the tag bits -/

/-- The function `Entry_SetKind`: the entry afterwards and the returned `int`.  The
additions are pointer arithmetic on `char*`, taken on `uintptr_t`. -/
def Entry_SetKind (A : Nat) (self : StringDictEntry) (kind : Nat) : StringDictEntry × Int :=
  match pyobject_pointer_lowbits A with
  | 0 => (self, 0)
  | 1 =>
    let s1 : StringDictEntry :=
      if kind &&& 0x01 ≠ 0 then { self with cached_key := (self.cached_key + 1) % 2 ^ 64 }
      else self
    let s2 : StringDictEntry :=
      if kind &&& 0x02 ≠ 0 then { s1 with value := (s1.value + 1) % 2 ^ 64 } else s1
    (s2, 1)
  | 2 => ({ self with cached_key := (self.cached_key + kind) % 2 ^ 64 }, 1)
  | 3 => ({ self with cached_key := (self.cached_key + kind) % 2 ^ 64 }, 1)
  | _ => (self, 1)

/-- Follows the spec's words for `Entry_Matches`: the origin of the view is non-null and
identical to the cached key of the entry, or the kind of the entry equals the kind of
the view, the decoded code-unit length equals the length of the view, and the
`len * codeUnitSize(kind)` inline data bytes equal the data of the view. -/
def spec_matches (A : Nat) (e : StringDictEntry) (v : KeyInfo) : Bool :=
  (decide (v.key ≠ 0) && decide (v.key = Entry_GetKey A e))
    || (decide (Entry_Kind A e = v.kind)
        && decide ((Entry_DataAndSize A e).2 = v.data_size)
        && decide ((Entry_DataAndSize A e).1.take (v.data_size * DataKind_ItemSize v.kind)
            = v.data.take (v.data_size * DataKind_ItemSize v.kind)))

/-! ## The probe chain of a key, as the claims describe it -/

/-- The `n`-th bucket of the probe chain of hash `h`: `n` steps of `advance_index` from
`h & mask`. -/
def chain_bucket (t : StringDictBase) (h : Int) (n : Nat) : Nat :=
  probe_index t.mask (to_uhash h &&& t.mask) n

/-- The slot that bucket `i` refers to, `none` for a free bucket (a negative offset). -/
def bucket_slot (t : StringDictBase) (i : Nat) : Option Nat :=
  match t.offsets[i]? with
  | some o => if o < 0 then none else some o.toNat
  | none => none

/-- Slot `j` is Occupied and its entry matches the key view. -/
def slot_matches (A : Nat) (t : StringDictBase) (ki : KeyInfo) (j : Nat) : Bool :=
  match t.entries[j]? with
  | some e => !e.is_empty && e.matches A ki
  | none => false

/-- Slot `j` is Empty. -/
def slot_empty (t : StringDictBase) (j : Nat) : Bool :=
  match t.entries[j]? with
  | some e => e.is_empty
  | none => false

/-- Slot `j` is Empty, or `find_existing` with the key view of its entry
(`Entry::as_key_info`) returns this slot. -/
def found_by_own_key (A fuel : Nat) (t : StringDictBase) (j : Nat) : Bool :=
  match t.entries[j]? with
  | some e =>
    match e.as_key_info A with
    | some ki =>
      match find_existing A fuel t ki with
      | some (_, some j1) => decide (j1 = j)
      | _ => false
    | none => true
  | none => true

/-! ## Example views and tables for the lookups -/

/-- The key view `KeyInfo_Init` makes of a raw buffer holding the bytes `xyz`; the hash
is taken to be the hash of `raw_abc_view`. -/
def raw_xyz_view : KeyInfo :=
  { key := 0, hash := 77, data := [120, 121, 122], data_size := 3, kind := PY_BYTES }

/-- The key view `KeyInfo_Init` makes of the byte string `b"xyz"`, held by the object at
address 3008, with the hash of `raw_xyz_view`. -/
def bytes_xyz_view : KeyInfo :=
  { key := 3008, hash := 77, data := [120, 121, 122], data_size := 3, kind := PY_BYTES }

/-- The key view `KeyInfo_Init` makes of a second text string `"abc"`, held by the
object at address 2008. -/
def text_abc_second_view : KeyInfo :=
  { key := 2008, hash := 77, data := [97, 98, 99], data_size := 3, kind := PY_UCS1 }

/-- The argument `Entry::as_key_info` hands to `Entry_AsKeyInfo`. -/
def blank_key_info : KeyInfo :=
  { key := 0, hash := -1, data := [], data_size := 0, kind := 0 }

/-- The table after `full_offsets_calls`: seven Empty slots and the entry of `k7`, each
referenced by one of the eight offsets. -/
def full_offsets_table : StringDict :=
  { entries := [{ entry_ := none, hash_ := 0 }, { entry_ := none, hash_ := 1 },
      { entry_ := none, hash_ := 2 }, { entry_ := none, hash_ := 3 },
      { entry_ := none, hash_ := 4 }, { entry_ := none, hash_ := 5 },
      { entry_ := none, hash_ := 6 }, Entry.ofKeyInfo 8 (sample_key 7) 16],
    offsets := [0, 1, 2, 3, 4, 5, 6, 7],
    mask := 7,
    occupied := 1 }

/-- The calls `set(k0, 16); remove(k0); set(k1, 16); ...; set(k6, 16)`: the last one
makes the table grow. -/
def growth_calls : List Op :=
  [Op.set (sample_key 0) 16, Op.remove (sample_key 0), Op.set (sample_key 1) 16,
   Op.set (sample_key 2) 16, Op.set (sample_key 3) 16, Op.set (sample_key 4) 16,
   Op.set (sample_key 5) 16, Op.set (sample_key 6) 16]

/-- The calls `set(k6, 16); set(raw abc, 24); remove(k6); set(b"xyz", 32)`: the last key
is stored in the slot left by `k6`, behind the raw-buffer key on the probe chain of the
hash 77. -/
def reorder_calls : List Op :=
  [Op.set (sample_key 6) 16, Op.set raw_abc_view 24, Op.remove (sample_key 6),
   Op.set bytes_xyz_view 32]

/-- The table after `reorder_calls`. -/
def reorder_table : StringDict :=
  { entries := [Entry.ofKeyInfo 8 bytes_xyz_view 32, Entry.ofKeyInfo 8 raw_abc_view 24],
    offsets := [-1, -1, -1, -1, -1, 1, 0, -1],
    mask := 7,
    occupied := 2 }

/-- The calls `set(k6, 16); set(s1, 24); remove(k6); set(s2, 32)` with two string objects
`s1`, `s2` of the same text `"abc"`: the second one is stored in the slot left by `k6`,
behind the first one on the probe chain of the hash 77. -/
def kind_reorder_calls : List Op :=
  [Op.set (sample_key 6) 16, Op.set text_abc_view 24, Op.remove (sample_key 6),
   Op.set text_abc_second_view 32]

/-- The table after `kind_reorder_calls`. -/
def kind_reorder_table : StringDict :=
  { entries := [Entry.ofKeyInfo 8 text_abc_second_view 32, Entry.ofKeyInfo 8 text_abc_view 24],
    offsets := [-1, -1, -1, -1, -1, 1, 0, -1],
    mask := 7,
    occupied := 2 }

/-- The key view `KeyInfo_Init` makes of a raw buffer holding the single byte 8, with
the hash of `sample_key 8`. -/
def raw_eight_view : KeyInfo :=
  { key := 0, hash := 8, data := [8], data_size := 1, kind := PY_BYTES }

/-- Ten keyword arguments `k1 = 16, ..., k10 = 16`. -/
def ten_kwargs : List (KeyInfo × Nat) :=
  (List.range 10).map (fun i => (sample_key (i + 1), 16))

/-- The calls `set(k0, 16); update(k1=16, ..., k11=16); set(k12, 16); ...; set(k15, 16)`:
the update leaves the mask at 15 for 32 offsets, and the sixteen keys fill the buckets
0 to 15. -/
def stale_mask_calls : List Call :=
  [Call.op (Op.set (sample_key 0) 16), Call.update_kwargs eleven_kwargs,
   Call.op (Op.set (sample_key 12) 16), Call.op (Op.set (sample_key 13) 16),
   Call.op (Op.set (sample_key 14) 16), Call.op (Op.set (sample_key 15) 16)]

/-- The table after `stale_mask_calls`. -/
def stale_mask_table : StringDict :=
  { entries := (List.range 16).map (fun i => Entry.ofKeyInfo 8 (sample_key i) 16),
    offsets := (List.range 16).map (fun i => (i : Int)) ++ List.replicate 16 (-1),
    mask := 15,
    occupied := 16 }

/-! ## Runs that lose no key -/

/-- Whether `set(ki, _)` would fill an Empty slot returned by `find_insertion` after
growing the table: `assign_entry` calls `grow()` before `assign_from`. -/
def grows_into_empty_slot (A fuel : Nat) (t : StringDict) (ki : KeyInfo) : Bool :=
  match find_insertion A fuel t ki with
  | some (_, some j) =>
    match t.entries[j]? with
    | some e =>
      e.is_empty && decide (reserve_load_factor { t with occupied := t.occupied + 1 } ≠ 0)
    | none => false
  | _ => false

/-- No `set` of the loop of `update_from_kwargs` fills an Empty slot after growing the
table. -/
def kwargs_keep_keys (A fuel : Nat) : List (KeyInfo × Nat) → StringDict → Bool
  | [], _ => true
  | kv :: rest, t =>
    !grows_into_empty_slot A fuel t kv.1 &&
      match StringDict.set A fuel t kv.1 kv.2 false with
      | some (t1, PyResult.ok _) => kwargs_keep_keys A fuel rest t1
      | _ => true

/-- No round of the walk of `update_from_string_dict(*this)` fills an Empty slot after
growing the table. -/
def self_update_keeps_keys (A fuel : Nat) : Nat → Nat → StringDict → Int → Bool
  | 0, _, _, _ => true
  | count + 1, pos, t, err =>
    match (t.entries.drop pos).dropWhile Entry.is_empty with
    | [] => true
    | e :: _ =>
      (match e.as_key_info A with
        | some ki => !grows_into_empty_slot A fuel t ki
        | none => true) &&
      match update_visit_other A fuel (some (t, err)) e with
      | (some (t1, err1), false) =>
        self_update_keeps_keys A fuel count
          (pos + ((t.entries.drop pos).takeWhile Entry.is_empty).length + 1) t1 err1
      | _ => true

/-- The call fills no Empty slot after growing the table. -/
def call_keeps_keys (A fuel : Nat) (t : StringDict) : Call → Bool
  | Call.op (Op.set ki _) => !grows_into_empty_slot A fuel t ki
  | Call.op _ => true
  | Call.update_kwargs kwarg_dict =>
    match reserve_space fuel t
        (to_ssize_t ((t.size + to_size_t (kwarg_dict.length : Int)) % 2 ^ 64)) with
    | some (t1, r) =>
      if r ≠ 0 then true
      else if (kwarg_dict.length : Int) = 0 then true
      else kwargs_keep_keys A fuel kwarg_dict t1
    | none => true
  | Call.update_object StringDictArg.this =>
    if t.size = 0 then true
    else self_update_keeps_keys A fuel (to_ssize_t t.size).toNat 0 t 0
  | Call.update_object (StringDictArg.other _) => true

/-- No call of the sequence fills an Empty slot after growing the table. -/
def calls_keep_keys (A fuel : Nat) : List Call → StringDict → Bool
  | [], _ => true
  | c :: rest, t =>
    call_keeps_keys A fuel t c &&
      match apply_call A fuel t c with
      | some t1 => calls_keep_keys A fuel rest t1
      | none => true

/-- Every Occupied slot is referenced from the probe chain of the hash of its key before
any free offset. -/
def ChainInv (t : StringDictBase) : Prop :=
  ∀ j e, t.entries[j]? = some e → e.is_empty = false → Chain t e.hash j

/-- The calls `set(k0, 16); set(k1, 32); remove(k0); set(k8, 48); update(k2=16);
update(self)`: `k8` is stored in the Empty slot left by `k0`, without growth. -/
def kept_calls : List Call :=
  [Call.op (Op.set (sample_key 0) 16), Call.op (Op.set (sample_key 1) 32),
   Call.op (Op.remove (sample_key 0)), Call.op (Op.set (sample_key 8) 48),
   Call.update_kwargs [(sample_key 2, 16)], Call.update_object StringDictArg.this]

/-! ## Theorems -/

/-! ### Tagged handles -/

theorem pyobject_pointer_lowbits_lt (A : Nat) : pyobject_pointer_lowbits A < 2 ^ 64 := by
  unfold pyobject_pointer_lowbits
  split_ifs <;> norm_num

theorem testBit_not_lowbits (A i : Nat) :
    (2 ^ 64 - 1 - pyobject_pointer_lowbits A).testBit i
      = (decide (i < 64) && !(pyobject_pointer_lowbits A).testBit i) := by
  have h := Nat.testBit_two_pow_sub_succ (pyobject_pointer_lowbits_lt A) i
  rw [show 2 ^ 64 - 1 - pyobject_pointer_lowbits A
    = 2 ^ 64 - (pyobject_pointer_lowbits A + 1) by omega]
  exact h

theorem masked_fixed_bits {A v : Nat} (h : PYOBJECT_MASKED_ A v = v) (i : Nat)
    (hi : v.testBit i = true) : i < 64 ∧ (pyobject_pointer_lowbits A).testBit i = false := by
  have h1 : (PYOBJECT_MASKED_ A v).testBit i = true := by rw [h]; exact hi
  unfold PYOBJECT_MASKED_ at h1
  rw [Nat.testBit_and, testBit_not_lowbits] at h1
  simp at h1
  exact ⟨h1.2.1, h1.2.2⟩

theorem tag_of_tagged {A v o : Nat} (h : PYOBJECT_MASKED_ A v = v) :
    PYOBJECT_TAG_ A (tag_pyobject v (PYOBJECT_TAG_ A o)) = PYOBJECT_TAG_ A o := by
  apply Nat.eq_of_testBit_eq
  intro i
  unfold PYOBJECT_TAG_ tag_pyobject
  simp only [Nat.testBit_and, Nat.testBit_or]
  cases hv : v.testBit i
  · simp
  · have := (masked_fixed_bits h i hv).2
    simp [this]

theorem masked_of_tagged {A v o : Nat} (h : PYOBJECT_MASKED_ A v = v) :
    PYOBJECT_MASKED_ A (tag_pyobject v (PYOBJECT_TAG_ A o)) = v := by
  apply Nat.eq_of_testBit_eq
  intro i
  unfold PYOBJECT_MASKED_ PYOBJECT_TAG_ tag_pyobject
  simp only [Nat.testBit_and, Nat.testBit_or, testBit_not_lowbits]
  cases hv : v.testBit i
  · cases hl : (pyobject_pointer_lowbits A).testBit i <;> simp
  · have := masked_fixed_bits h i hv
    simp [this.1, this.2]

theorem Entry_GetValue_SetValue {A v : Nat} (s : StringDictEntry)
    (h : PYOBJECT_MASKED_ A v = v) : Entry_GetValue A (Entry_SetValue A s v) = v := by
  unfold Entry_GetValue Entry_SetValue Entry_ExchangeValue Entry_ValueTag
  exact masked_of_tagged h

theorem Entry_ValueTag_SetValue {A v : Nat} (s : StringDictEntry)
    (h : PYOBJECT_MASKED_ A v = v) :
    Entry_ValueTag A (Entry_SetValue A s v) = Entry_ValueTag A s := by
  unfold Entry_SetValue Entry_ExchangeValue Entry_ValueTag
  exact tag_of_tagged h

theorem Entry_SetValue_cached_key (A v : Nat) (s : StringDictEntry) :
    (Entry_SetValue A s v).cached_key = s.cached_key := rfl

theorem Entry_SetValue_data (A v : Nat) (s : StringDictEntry) :
    (Entry_SetValue A s v).data = s.data := rfl

theorem Entry_Kind_SetValue {A v : Nat} (s : StringDictEntry)
    (h : PYOBJECT_MASKED_ A v = v) : Entry_Kind A (Entry_SetValue A s v) = Entry_Kind A s := by
  unfold Entry_Kind
  rw [Entry_ValueTag_SetValue s h]
  rfl

theorem Entry_Matches_SetValue {A v : Nat} (s : StringDictEntry) (ki : KeyInfo)
    (h : PYOBJECT_MASKED_ A v = v) :
    Entry_Matches A (Entry_SetValue A s v) ki = Entry_Matches A s ki := by
  unfold Entry_Matches
  rw [Entry_Kind_SetValue s h]
  rfl

theorem Entry_Key_SetValue (A v : Nat) (s : StringDictEntry) :
    Entry_Key A (Entry_SetValue A s v) = Entry_Key A s := rfl

/-! ### Entries under `set_value` -/

theorem Entry.set_value_is_empty (A v : Nat) (e : Entry) :
    (e.set_value A v).is_empty = e.is_empty := by
  cases e with
  | mk en h => cases en <;> rfl

theorem Entry.set_value_matches {A v : Nat} (e : Entry) (ki : KeyInfo)
    (h : PYOBJECT_MASKED_ A v = v) : (e.set_value A v).matches A ki = e.matches A ki := by
  cases e with
  | mk en hh =>
    cases en with
    | none => rfl
    | some s => simp [Entry.set_value, Entry.matches, Entry_Matches_SetValue s ki h]

theorem Entry.set_value_get_key (A v : Nat) (e : Entry) :
    (e.set_value A v).get_key A = e.get_key A := by
  cases e with
  | mk en h => cases en <;> rfl

theorem Entry.set_value_get_value {A v : Nat} (e : Entry) (h : PYOBJECT_MASKED_ A v = v)
    (hne : e.is_empty = false) : (e.set_value A v).get_value A = v := by
  cases e with
  | mk en hh =>
    cases en with
    | none => simp [Entry.is_empty] at hne
    | some s => simp [Entry.set_value, Entry.get_value, Entry_Value, Entry_GetValue_SetValue s h]

/-! ### Lookups -/

theorem find_existing_loop_hit (A : Nat) (t : StringDictBase) (ki : KeyInfo) :
    ∀ (fuel : Nat) (s s1 : Int × Option Nat) (idx p : Nat) (i : Int) (j : Nat),
      s.2 = none →
      visit_with_hash_loop t.mask (find_existing_pred A t ki) fuel s idx p = some (i, some j) →
      visit_with_hash_loop t.mask (find_insertion_pred A t ki) fuel s1 idx p = some (i, some j)
        ∧ ∃ e, t.entries[j]? = some e ∧ e.is_empty = false ∧ e.matches A ki = true := by
  intro fuel
  induction fuel with
  | zero => intro s s1 idx p i j _ h; simp [visit_with_hash_loop] at h
  | succ n ih =>
    intro s s1 idx p i j hs h
    simp only [visit_with_hash_loop] at h ⊢
    cases h1 : t.offsets[idx]? with
    | none => simp [find_existing_pred, h1] at h
    | some ofs =>
      by_cases hneg : ofs < 0
      · simp [find_existing_pred, h1, hneg, hs] at h
      · cases h2 : t.entries[ofs.toNat]? with
        | none => simp [find_existing_pred, h1, hneg, h2] at h
        | some ent =>
          by_cases hm : (!ent.is_empty && ent.matches A ki) = true
          · simp only [find_existing_pred, h1, hneg, h2, hm, if_true, if_false] at h
            simp only [Option.some.injEq, Prod.mk.injEq] at h
            obtain ⟨hi, hj⟩ := h
            simp only [Bool.and_eq_true, Bool.not_eq_true'] at hm
            subst hi
            subst hj
            simp [find_insertion_pred, h1, hneg, h2, hm.1, hm.2]
          · simp only [find_existing_pred, h1, hneg, h2, hm, if_false] at h
            have hm2 : ent.is_empty = true ∨ ent.matches A ki = false := by
              cases h3 : ent.is_empty <;> simp [h3] at hm ⊢
              exact hm
            rcases hm2 with he | hmf
            · by_cases hsn : s1.2.isNone = true
              · simp only [find_insertion_pred, h1, hneg, h2, he, hsn, if_true, if_false]
                exact ih _ _ _ _ _ _ hs h
              · simp only [find_insertion_pred, h1, hneg, h2, he, hsn, if_true, if_false]
                exact ih _ _ _ _ _ _ hs h
            · by_cases he : ent.is_empty = true
              · by_cases hsn : s1.2.isNone = true
                · simp only [find_insertion_pred, h1, hneg, h2, he, hsn, if_true, if_false]
                  exact ih _ _ _ _ _ _ hs h
                · simp only [find_insertion_pred, h1, hneg, h2, he, hsn, if_true, if_false]
                  exact ih _ _ _ _ _ _ hs h
              · simp only [find_insertion_pred, h1, hneg, h2, he, hmf, if_false]
                simp only [Bool.false_eq_true, if_false]
                exact ih _ _ _ _ _ _ hs h

theorem find_insertion_of_hit {A fuel : Nat} {t : StringDictBase} {ki : KeyInfo} {i : Int}
    {j : Nat} (h : find_existing A fuel t ki = some (i, some j)) :
    find_insertion A fuel t ki = some (i, some j)
      ∧ ∃ e, t.entries[j]? = some e ∧ e.is_empty = false ∧ e.matches A ki = true :=
  find_existing_loop_hit A t ki fuel _ _ _ _ i j rfl h

/-! ### Replacing a value in place -/

theorem find_existing_pred_set_value {A v : Nat} (t : StringDictBase) (ki : KeyInfo) (j : Nat)
    (e : Entry) (hv : PYOBJECT_MASKED_ A v = v) (hj : t.entries[j]? = some e) :
    find_existing_pred A { t with entries := t.entries.set j (e.set_value A v) } ki
      = find_existing_pred A t ki := by
  funext s idx
  simp only [find_existing_pred]
  cases h1 : t.offsets[idx]? with
  | none => rfl
  | some ofs =>
    simp only []
    by_cases hneg : ofs < 0
    · simp [hneg]
    · simp only [hneg, if_false]
      by_cases hjj : j = ofs.toNat
      · subst hjj
        have hlt : ofs.toNat < t.entries.length := by
          rcases List.getElem?_eq_some.1 hj with ⟨hlt, _⟩
          exact hlt
        rw [hj, List.getElem?_set_self hlt]
        simp only [Entry.set_value_is_empty, Entry.set_value_matches e ki hv]
      · rw [List.getElem?_set_ne hjj]

theorem find_existing_set_value {A v : Nat} (t : StringDictBase) (j : Nat) (e : Entry)
    (hv : PYOBJECT_MASKED_ A v = v) (hj : t.entries[j]? = some e) (fuel : Nat) (ki : KeyInfo) :
    find_existing A fuel { t with entries := t.entries.set j (e.set_value A v) } ki
      = find_existing A fuel t ki := by
  unfold find_existing visit_with_hash
  rw [find_existing_pred_set_value t ki j e hv hj]

theorem dropWhile_is_empty_rel {g : Entry → Option α} :
    ∀ {l l1 : List Entry},
      List.Forall₂ (fun a b => a.is_empty = b.is_empty ∧ g a = g b) l l1 →
      List.Forall₂ (fun a b => a.is_empty = b.is_empty ∧ g a = g b)
        (l.dropWhile Entry.is_empty) (l1.dropWhile Entry.is_empty) := by
  intro l l1 h
  induction h with
  | nil => exact List.Forall₂.nil
  | cons hab hrest ih =>
    rename_i a b la lb
    by_cases ha : a.is_empty = true
    · have hb : b.is_empty = true := by rw [← hab.1]; exact ha
      rw [List.dropWhile_cons_of_pos ha, List.dropWhile_cons_of_pos hb]
      exact ih
    · have hb : ¬ b.is_empty = true := by rw [← hab.1]; exact ha
      rw [List.dropWhile_cons_of_neg ha, List.dropWhile_cons_of_neg hb]
      exact List.Forall₂.cons hab hrest

theorem visit_loop_rel {g : Entry → Option α} :
    ∀ (n : Nat) {l l1 : List Entry} (s : Option (List α)),
      List.Forall₂ (fun a b => a.is_empty = b.is_empty ∧ g a = g b) l l1 →
      visit_nonempty_entries_loop (make_itemlist_visit g) n l1 s
        = visit_nonempty_entries_loop (make_itemlist_visit g) n l s := by
  intro n
  induction n with
  | zero => intro l l1 s _; rfl
  | succ n ih =>
    intro l l1 s h
    have hd := dropWhile_is_empty_rel h
    simp only [visit_nonempty_entries_loop]
    generalize l.dropWhile Entry.is_empty = d at hd ⊢
    generalize l1.dropWhile Entry.is_empty = d1 at hd ⊢
    cases hd with
    | nil => rfl
    | cons hab hrest =>
      rename_i a b la lb
      have hv : make_itemlist_visit g s b = make_itemlist_visit g s a := by
        simp only [make_itemlist_visit, hab.2]
      simp only [hv, ih _ hrest]

theorem forall₂_set_rel {g : Entry → Option α} :
    ∀ (l : List Entry) (j : Nat) (e e1 : Entry), l[j]? = some e →
      (e.is_empty = e1.is_empty ∧ g e = g e1) →
      List.Forall₂ (fun a b => a.is_empty = b.is_empty ∧ g a = g b) l (l.set j e1) := by
  intro l
  induction l with
  | nil => intro j e e1 h _; simp at h
  | cons a la ih =>
    intro j e e1 h hr
    cases j with
    | zero =>
      simp at h
      subst h
      exact List.Forall₂.cons hr (List.forall₂_same.2 (fun _ _ => ⟨rfl, rfl⟩))
    | succ j =>
      simp at h
      exact List.Forall₂.cons ⟨rfl, rfl⟩ (ih j e e1 h hr)

theorem make_itemlist_set_rel {g : Entry → Option α} (t : StringDictBase) (j : Nat)
    (e e1 : Entry) (hj : t.entries[j]? = some e) (hr : e.is_empty = e1.is_empty ∧ g e = g e1) :
    StringDict.make_itemlist { t with entries := t.entries.set j e1 } g
      = StringDict.make_itemlist t g := by
  unfold StringDict.make_itemlist visit_nonempty_entries StringDictBase.size
  simp only [visit_loop_rel _ _ (forall₂_set_rel t.entries j e e1 hj hr)]

theorem subscript_ok_slot {A fuel : Nat} {t : StringDict} {ki : KeyInfo} {v : Nat}
    (h : StringDict.subscript A fuel t true MissingHook.absent ki = some (PyResult.ok v)) :
    ∃ i j e, find_existing A fuel t ki = some (i, some j) ∧ t.entries[j]? = some e
      ∧ e.get_value A = v := by
  unfold StringDict.subscript at h
  cases hfe : find_existing A fuel t ki with
  | none => simp [hfe] at h
  | some r =>
    obtain ⟨i, found⟩ := r
    cases found with
    | none => simp [hfe] at h
    | some j =>
      simp only [hfe] at h
      cases hj : t.entries[j]? with
      | none => simp [hj] at h
      | some e =>
        simp only [hj, Option.map_some', Option.some.injEq, PyResult.ok.injEq] at h
        exact ⟨i, j, e, rfl, hj, h⟩

/-! ### The probe sequence has full period -/

theorem advance_index_fst (mask idx p : Nat) :
    (advance_index mask idx p).1 = next_index mask idx := rfl

theorem next_index_le (mask idx : Nat) : next_index mask idx ≤ mask :=
  Nat.and_le_left

theorem next_index_pow (k idx : Nat) :
    next_index (2 ^ k - 1) idx = (idx * 5 + 5) % 2 ^ k := by
  unfold next_index perturb_shift
  rw [Nat.and_comm, Nat.and_pow_two_sub_one_eq_mod]

theorem probe_index_succ (mask idx n : Nat) :
    probe_index mask idx (n + 1) = next_index mask (probe_index mask idx n) := by
  induction n generalizing idx with
  | zero => rfl
  | succ n ih =>
    show probe_index mask (next_index mask idx) (n + 1) = _
    rw [ih]
    rfl

theorem probe_index_add (mask idx a d : Nat) :
    probe_index mask idx (a + d) = probe_index mask (probe_index mask idx a) d := by
  induction a generalizing idx with
  | zero => simp [probe_index]
  | succ a ih =>
    rw [show a + 1 + d = (a + d) + 1 by omega]
    show probe_index mask (next_index mask idx) (a + d) = _
    rw [ih]
    rfl

theorem probe_index_le (mask idx n : Nat) (h : idx ≤ mask) : probe_index mask idx n ≤ mask := by
  cases n with
  | zero => exact h
  | succ n =>
    rw [probe_index_succ]
    exact next_index_le _ _

theorem geom5_closed (n : Nat) : 4 * geom5 n + 1 = 5 ^ n := by
  induction n with
  | zero => rfl
  | succ n ih =>
    simp only [geom5, pow_succ]
    omega

theorem probe_index_closed (k idx n : Nat) (h : idx < 2 ^ k) :
    probe_index (2 ^ k - 1) idx n = (idx + geom5 n * (4 * idx + 5)) % 2 ^ k := by
  induction n with
  | zero => simp [probe_index, geom5, Nat.mod_eq_of_lt h]
  | succ n ih =>
    rw [probe_index_succ, ih, next_index_pow]
    simp only [geom5]
    rw [Nat.add_mod, Nat.mul_mod, Nat.mod_mod, ← Nat.mul_mod, ← Nat.add_mod]
    congr 1
    ring

theorem pow5_mod4 (e : Nat) : 5 ^ e % 4 = 1 := by
  induction e with
  | zero => rfl
  | succ e ih =>
    rw [pow_succ, Nat.mul_mod, ih]

theorem geom5_double (e : Nat) : geom5 (2 * e) = geom5 e * (5 ^ e + 1) := by
  have h1 := geom5_closed (2 * e)
  have h2 := geom5_closed e
  have h3 : 5 ^ (2 * e) = 5 ^ e * 5 ^ e := by rw [two_mul, pow_add]
  rw [h3] at h1
  have h4 : 4 * geom5 (2 * e) = 4 * (geom5 e * (5 ^ e + 1)) := by
    have h5 : 4 * (geom5 e * (5 ^ e + 1)) + 1 = 5 ^ e * 5 ^ e := by
      rw [← h2]
      ring
    omega
  omega

theorem two_pow_dvd_of_dvd_geom5 : ∀ (d : Nat), 0 < d → ∀ k, 2 ^ k ∣ geom5 d → 2 ^ k ∣ d := by
  intro d
  induction d using Nat.strong_induction_on with
  | _ d ih =>
    intro hd k hk
    cases k with
    | zero => simp
    | succ k =>
      rcases Nat.even_or_odd' d with ⟨e, he | he⟩
      · -- d = 2 * e
        have hepos : 0 < e := by omega
        have helt : e < d := by omega
        rw [he, geom5_double] at hk
        have hq : ∃ q, 5 ^ e + 1 = 2 * q ∧ q % 2 = 1 := by
          have := pow5_mod4 e
          exact ⟨(5 ^ e + 1) / 2, by omega, by omega⟩
        obtain ⟨q, hq1, hq2⟩ := hq
        rw [hq1, pow_succ, show geom5 e * (2 * q) = (geom5 e * q) * 2 by ring] at hk
        have hk2 : 2 ^ k ∣ geom5 e * q := Nat.dvd_of_mul_dvd_mul_right (by norm_num) hk
        have hcop : Nat.Coprime (2 ^ k) q := by
          exact Nat.Coprime.pow_left k (Nat.odd_iff.2 hq2).coprime_two_left
        have hk3 : 2 ^ k ∣ geom5 e := hcop.dvd_of_dvd_mul_right hk2
        have := ih e helt hepos k hk3
        rw [he, pow_succ, Nat.mul_comm (2 ^ k) 2]
        exact Nat.mul_dvd_mul_left 2 this
      · -- d = 2 * e + 1, geom5 d is odd
        exfalso
        have hodd : geom5 d % 2 = 1 := by
          rw [he]
          simp only [geom5]
          rw [geom5_double]
          have := pow5_mod4 e
          have h2 : (5 ^ e + 1) % 2 = 0 := by omega
          have h3 : (geom5 e * (5 ^ e + 1)) % 2 = 0 := by
            rw [Nat.mul_mod, h2]
            simp
          omega
        have h2 : 2 ∣ geom5 d := Dvd.dvd.trans (dvd_pow_self 2 (Nat.succ_ne_zero k)) hk
        omega

theorem probe_index_ne_start (k idx d : Nat) (h : idx < 2 ^ k) (hd : 0 < d) (hdk : d < 2 ^ k) :
    probe_index (2 ^ k - 1) idx d ≠ idx := by
  rw [probe_index_closed k idx d h]
  intro heq
  have hmod : (idx + geom5 d * (4 * idx + 5)) % 2 ^ k = idx % 2 ^ k := by
    rw [heq, Nat.mod_eq_of_lt h]
  have hdvd : 2 ^ k ∣ geom5 d * (4 * idx + 5) := by
    have := (Nat.modEq_iff_dvd' (Nat.le_add_right idx _)).1 hmod.symm
    simpa using this
  have hcop : Nat.Coprime (2 ^ k) (4 * idx + 5) := by
    exact Nat.Coprime.pow_left k (Nat.odd_iff.2 (by omega)).coprime_two_left
  have h2 := two_pow_dvd_of_dvd_geom5 d hd k (hcop.dvd_of_dvd_mul_right hdvd)
  have := Nat.le_of_dvd hd h2
  omega

theorem probe_index_injective (k idx a b : Nat) (h : idx < 2 ^ k) (ha : a < 2 ^ k)
    (hb : b < 2 ^ k) (hab : probe_index (2 ^ k - 1) idx a = probe_index (2 ^ k - 1) idx b) :
    a = b := by
  have hpos : 0 < 2 ^ k := Nat.pow_pos (by norm_num)
  have key : ∀ a b, a < b → b < 2 ^ k →
      probe_index (2 ^ k - 1) idx a ≠ probe_index (2 ^ k - 1) idx b := by
    intro a b hlt hb heq
    have hle : probe_index (2 ^ k - 1) idx a < 2 ^ k := by
      have := probe_index_le (2 ^ k - 1) idx a (by omega)
      omega
    have := probe_index_ne_start k (probe_index (2 ^ k - 1) idx a) (b - a) hle (by omega)
      (by omega)
    rw [← probe_index_add, show a + (b - a) = b by omega] at this
    exact this heq.symm
  rcases Nat.lt_trichotomy a b with hlt | heq | hgt
  · exact absurd hab (key a b hlt hb)
  · exact heq
  · exact absurd hab.symm (key b a hgt ha)

/-- Full period: from any start the probe sequence reaches every index of a
power-of-two table within `2 ^ k` steps. -/
theorem probe_index_surjective (k idx target : Nat) (h : idx < 2 ^ k) (ht : target < 2 ^ k) :
    ∃ n, n < 2 ^ k ∧ probe_index (2 ^ k - 1) idx n = target := by
  have hpos : 0 < 2 ^ k := Nat.pow_pos (by norm_num)
  let f : Fin (2 ^ k) → Fin (2 ^ k) := fun n =>
    ⟨probe_index (2 ^ k - 1) idx n.1, by
      have := probe_index_le (2 ^ k - 1) idx n.1 (by omega)
      omega⟩
  have hinj : Function.Injective f := by
    intro a b hab
    apply Fin.ext
    have : probe_index (2 ^ k - 1) idx a.1 = probe_index (2 ^ k - 1) idx b.1 := by
      simpa [f] using congrArg Fin.val hab
    exact probe_index_injective k idx a.1 b.1 h a.2 b.2 this
  have hsurj : Function.Surjective f := Finite.surjective_of_injective hinj
  obtain ⟨n, hn⟩ := hsurj ⟨target, ht⟩
  exact ⟨n.1, n.2, by simpa [f] using congrArg Fin.val hn⟩

/-! ### Searching the first free offset -/

theorem probe_index_next (mask idx n : Nat) :
    probe_index mask (next_index mask idx) n = probe_index mask idx (n + 1) := rfl

theorem visit_loop_first_free_aux {σ : Type} (k : Nat) (offsets : List Int)
    (hlen : offsets.length = 2 ^ k) (pred : σ → Nat → Option (σ × Bool)) (s0 : σ)
    (ret : Nat → σ)
    (hneg : ∀ idx o, offsets[idx]? = some o → o < 0 → pred s0 idx = some (ret idx, true))
    (hpos : ∀ idx o, offsets[idx]? = some o → ¬ o < 0 → pred s0 idx = some (s0, false)) :
    ∀ (N idx p fuel : Nat), idx < 2 ^ k → N < fuel →
      (∃ o, offsets[probe_index (2 ^ k - 1) idx N]? = some o ∧ o < 0) →
      ∃ m, m ≤ N
        ∧ (∀ m1, m1 < m → ∃ o, offsets[probe_index (2 ^ k - 1) idx m1]? = some o ∧ ¬ o < 0)
        ∧ (∃ o, offsets[probe_index (2 ^ k - 1) idx m]? = some o ∧ o < 0)
        ∧ visit_with_hash_loop (2 ^ k - 1) pred fuel s0 idx p
            = some (ret (probe_index (2 ^ k - 1) idx m)) := by
  intro N
  induction N with
  | zero =>
    intro idx p fuel _ hf ⟨o, ho, hneg0⟩
    obtain ⟨f, rfl⟩ : ∃ f, fuel = f + 1 := ⟨fuel - 1, by omega⟩
    refine ⟨0, le_refl _, fun m1 h1 => absurd h1 (Nat.not_lt_zero _), ⟨o, ho, hneg0⟩, ?_⟩
    simp only [probe_index] at ho ⊢
    simp only [visit_with_hash_loop, hneg idx o ho hneg0]
  | succ N ih =>
    intro idx p fuel hidx hf htarget
    obtain ⟨f, rfl⟩ : ∃ f, fuel = f + 1 := ⟨fuel - 1, by omega⟩
    have hin : idx < offsets.length := by rw [hlen]; exact hidx
    have ho : offsets[idx]? = some offsets[idx] := List.getElem?_eq_getElem hin
    by_cases hn : offsets[idx] < 0
    · refine ⟨0, Nat.zero_le _, fun m1 h1 => absurd h1 (Nat.not_lt_zero _),
        ⟨_, ho, hn⟩, ?_⟩
      simp only [probe_index]
      simp only [visit_with_hash_loop, hneg idx _ ho hn]
    · have hnext : next_index (2 ^ k - 1) idx < 2 ^ k := by
        have := next_index_le (2 ^ k - 1) idx
        have hpos2 : 0 < 2 ^ k := Nat.pow_pos (by norm_num)
        omega
      obtain ⟨m, hm, hbefore, hfree, hloop⟩ :=
        ih (next_index (2 ^ k - 1) idx) (advance_index (2 ^ k - 1) idx p).2 f hnext
          (by omega) htarget
      refine ⟨m + 1, by omega, ?_, hfree, ?_⟩
      · intro m1 h1
        cases m1 with
        | zero => exact ⟨_, ho, hn⟩
        | succ m1 => exact hbefore m1 (by omega)
      · simp only [visit_with_hash_loop, hpos idx _ ho hn, advance_index_fst]
        exact hloop

/-- When the table has a free offset, a search that stops exactly at free offsets
returns within `2 ^ k` rounds, at the first free offset of the probe chain. -/
theorem visit_loop_first_free {σ : Type} (k : Nat) (offsets : List Int)
    (hlen : offsets.length = 2 ^ k) (pred : σ → Nat → Option (σ × Bool)) (s0 : σ)
    (ret : Nat → σ)
    (hneg : ∀ idx o, offsets[idx]? = some o → o < 0 → pred s0 idx = some (ret idx, true))
    (hpos : ∀ idx o, offsets[idx]? = some o → ¬ o < 0 → pred s0 idx = some (s0, false))
    (hfree : ∃ (target : Nat) (o : Int), offsets[target]? = some o ∧ o < 0)
    (fuel idx p : Nat) (hidx : idx < 2 ^ k) (hfuel : 2 ^ k ≤ fuel) :
    ∃ m, (∀ m1, m1 < m → ∃ o, offsets[probe_index (2 ^ k - 1) idx m1]? = some o ∧ ¬ o < 0)
      ∧ (∃ o, offsets[probe_index (2 ^ k - 1) idx m]? = some o ∧ o < 0)
      ∧ visit_with_hash_loop (2 ^ k - 1) pred fuel s0 idx p
          = some (ret (probe_index (2 ^ k - 1) idx m)) := by
  obtain ⟨target, o, ho, hneg0⟩ := hfree
  have ht : target < 2 ^ k := by
    rw [← hlen]
    exact (List.getElem?_eq_some.1 ho).1
  obtain ⟨N, hN, hprobe⟩ := probe_index_surjective k idx target hidx ht
  obtain ⟨m, _, h1, h2, h3⟩ :=
    visit_loop_first_free_aux k offsets hlen pred s0 ret hneg hpos N idx p fuel hidx
      (by omega) ⟨o, by rw [hprobe]; exact ho, hneg0⟩
  exact ⟨m, h1, h2, h3⟩

theorem start_index_lt (k : Nat) (h : Int) : to_uhash h &&& (2 ^ k - 1) < 2 ^ k := by
  have : to_uhash h &&& (2 ^ k - 1) ≤ 2 ^ k - 1 := Nat.and_le_right
  have hpos2 : 0 < 2 ^ k := Nat.pow_pos (by norm_num)
  omega

/-! ### Counting used offsets -/

theorem used_offsets_replicate (n : Nat) : used_offsets (List.replicate n (-1)) = 0 := by
  unfold used_offsets
  rw [List.countP_eq_zero]
  intro a ha
  rw [List.eq_of_mem_replicate ha]
  decide

theorem used_offsets_set_le (offsets : List Int) (i : Nat) (v : Int) :
    ∀ (o : Int), offsets[i]? = some o → o < 0 →
      used_offsets (offsets.set i v) ≤ used_offsets offsets + 1 := by
  unfold used_offsets
  induction offsets generalizing i with
  | nil => intro o h; simp at h
  | cons a l ih =>
    intro o h ho
    cases i with
    | zero =>
      simp only [List.getElem?_cons_zero, Option.some.injEq] at h
      subst h
      simp only [List.set_cons_zero, List.countP_cons]
      have : decide (0 ≤ a) = false := by simpa using ho
      simp only [this]
      split <;> simp
    | succ i =>
      simp only [List.getElem?_cons_succ] at h
      simp only [List.set_cons_succ, List.countP_cons]
      have := ih i o h ho
      omega

theorem exists_free_of_used_lt (offsets : List Int) (h : used_offsets offsets < offsets.length) :
    ∃ (target : Nat) (o : Int), offsets[target]? = some o ∧ o < 0 := by
  unfold used_offsets at h
  have hne : ¬ ∀ a ∈ offsets, decide (0 ≤ a) = true := by
    intro hall
    have := List.countP_eq_length.2 hall
    omega
  push_neg at hne
  obtain ⟨a, ha, hna⟩ := hne
  obtain ⟨n, hn⟩ := List.mem_iff_getElem?.1 ha
  exact ⟨n, a, hn, by simpa using hna⟩

theorem mask_double (k : Nat) : ((2 ^ k - 1) <<< 1) ||| 1 = 2 ^ (k + 1) - 1 := by
  apply Nat.eq_of_testBit_eq
  intro i
  rw [Nat.testBit_or, Nat.testBit_shiftLeft, Nat.testBit_two_pow_sub_one,
    Nat.testBit_two_pow_sub_one, show (1 : Nat) = 2 ^ 1 - 1 by norm_num,
    Nat.testBit_two_pow_sub_one]
  rcases i with _ | i
  · simp
  · simp

/-! ### Relocation into a fresh offsets vector -/

theorem grow_relocate_from_ok (fuel k : Nat) (hfuel : 2 ^ k ≤ fuel) :
    ∀ (rest : List Entry) (j : Nat) (t : StringDictBase),
      t.mask = 2 ^ k - 1 → t.offsets.length = 2 ^ k → j + rest.length < 2 ^ k →
      used_offsets t.offsets ≤ j → (∀ o ∈ t.offsets, o < (j : Int)) →
      ∃ t1, grow_relocate_from fuel rest j t = some t1
        ∧ t1.entries = t.entries ∧ t1.mask = t.mask ∧ t1.occupied = t.occupied
        ∧ t1.offsets.length = t.offsets.length
        ∧ used_offsets t1.offsets ≤ j + rest.length
        ∧ (∀ o ∈ t1.offsets, o < ((j + rest.length : Nat) : Int)) := by
  intro rest
  induction rest with
  | nil =>
    intro j t _ _ _ hu hr
    exact ⟨t, rfl, rfl, rfl, rfl, rfl, by simpa using hu, by simpa using hr⟩
  | cons ent rest ih =>
    intro j t hmask hlen hj hu hr
    simp only [List.length_cons] at hj
    have hfree := exists_free_of_used_lt t.offsets (by omega)
    obtain ⟨m, _, ⟨o, ho, hneg⟩, hloop⟩ :=
      visit_loop_first_free k t.offsets hlen (grow_relocate_pred t) (-1 : Int)
        (fun n => (n : Int))
        (by intro idx o h1 h2; simp [grow_relocate_pred, h1, h2])
        (by intro idx o h1 h2; simp [grow_relocate_pred, h1, h2])
        hfree fuel (to_uhash ent.hash &&& (2 ^ k - 1)) (to_uhash ent.hash)
        (start_index_lt k ent.hash) hfuel
    generalize probe_index (2 ^ k - 1) (to_uhash ent.hash &&& (2 ^ k - 1)) m = n at ho hloop
    have hstep : grow_relocate_entry fuel t ent j
        = some { t with offsets := t.offsets.set n (j : Int) } := by
      unfold grow_relocate_entry visit_with_hash
      rw [hmask, hloop]
      simp
    obtain ⟨t1, h1, h2, h3, h4, h5, h6, h7⟩ :=
      ih (j + 1) { t with offsets := t.offsets.set n (j : Int) }
        hmask (by simpa using hlen) (by omega)
        (by
          have := used_offsets_set_le t.offsets _ (j : Int) o ho hneg
          simp only
          omega)
        (by
          intro o1 ho1
          rcases List.mem_or_eq_of_mem_set ho1 with hmem | heq
          · have := hr o1 hmem
            push_cast
            omega
          · rw [heq]
            push_cast
            omega)
    refine ⟨t1, ?_, h2, h3, h4, ?_, ?_, ?_⟩
    · simp only [grow_relocate_from, hstep, h1]
    · rw [h5]
      simp
    · simp only [List.length_cons]
      omega
    · intro o1 ho1
      have := h7 o1 ho1
      simp only [List.length_cons]
      push_cast at this ⊢
      omega

/-! ### One `set` of a new key on a table without empty slots -/

theorem Entry.ofKeyInfo_is_empty (A : Nat) (ki : KeyInfo) (v : Nat) :
    (Entry.ofKeyInfo A ki v).is_empty = false := rfl

theorem Entry.ofKeyInfo_is_closed (A : Nat) (ki : KeyInfo) (v : Nat) :
    (Entry.ofKeyInfo A ki v).is_closed = true := rfl

theorem grow_remove_empty_entries_all_closed (t : StringDictBase)
    (h : ∀ e ∈ t.entries, e.is_closed = true) : grow_remove_empty_entries t = t := by
  unfold grow_remove_empty_entries
  split
  · rfl
  · have : t.entries.filter Entry.is_closed = t.entries := List.filter_eq_self.2 h
    rw [this]

theorem SetOnlyInv.slot_entry {A : Nat} {t : StringDictBase} {kvs : List (KeyInfo × Nat)}
    (inv : SetOnlyInv A t kvs) {o : Int} (ho : o ∈ t.offsets) (hpos : ¬ o < 0) :
    ∃ kv, kv ∈ kvs ∧ t.entries[o.toNat]? = some (Entry.ofKeyInfo A kv.1 kv.2) := by
  have hlt := inv.in_range o ho
  have hlt2 : o.toNat < t.entries.length := by omega
  have hlt3 : o.toNat < kvs.length := by
    rw [inv.entries_eq, List.length_map] at hlt2
    exact hlt2
  refine ⟨kvs[o.toNat], List.getElem_mem _, ?_⟩
  rw [List.getElem?_eq_getElem hlt2]
  simp [inv.entries_eq]

theorem SetOnlyInv.find_insertion_fresh {A : Nat} {t : StringDictBase}
    {kvs : List (KeyInfo × Nat)} (inv : SetOnlyInv A t kvs) (ki : KeyInfo) (fuel : Nat)
    (hnm : ∀ kv ∈ kvs, (Entry.ofKeyInfo A kv.1 kv.2).matches A ki = false)
    (hfuel : t.offsets.length ≤ fuel) :
    ∃ (n : Nat) (o : Int), t.offsets[n]? = some o ∧ o < 0
      ∧ find_insertion A fuel t ki = some ((n : Int), none) := by
  obtain ⟨k, _, hmask, hlen⟩ := inv.pow2
  have hload := inv.load
  have hused := inv.used
  have hfree := exists_free_of_used_lt t.offsets (by omega)
  obtain ⟨m, _, ⟨o, ho, hneg⟩, hloop⟩ :=
    visit_loop_first_free k t.offsets hlen (find_insertion_pred A t ki)
      ((-1 : Int), (none : Option Nat)) (fun n => ((n : Int), none))
      (by intro idx o h1 h2; simp [find_insertion_pred, h1, h2])
      (by
        intro idx o h1 h2
        obtain ⟨kv, hkv, hent⟩ := inv.slot_entry (List.mem_iff_getElem?.2 ⟨idx, h1⟩) h2
        simp [find_insertion_pred, h1, h2, hent, Entry.ofKeyInfo_is_empty, hnm kv hkv])
      hfree fuel (to_uhash ki.hash &&& (2 ^ k - 1)) (to_uhash ki.hash)
      (start_index_lt k ki.hash) (by omega)
  refine ⟨_, o, ho, hneg, ?_⟩
  unfold find_insertion visit_with_hash
  rw [hmask, hloop]

theorem SetOnlyInv.add_entry_ok {A : Nat} {t : StringDictBase} {kvs : List (KeyInfo × Nat)}
    (inv : SetOnlyInv A t kvs) (ki : KeyInfo) (v fuel n : Nat) (o : Int)
    (ho : t.offsets[n]? = some o) (hneg : o < 0) (hfuel : 2 * t.offsets.length ≤ fuel) :
    ∃ t1, add_entry A fuel t ki (n : Int) v = some (t1, t1.entries.length - 1)
      ∧ SetOnlyInv A t1 (kvs ++ [(ki, v)]) := by
  obtain ⟨k, hk3, hmask, hlen⟩ := inv.pow2
  have hload := inv.load
  have hused := inv.used
  have hocc := inv.occupied_eq
  have hent := inv.entries_eq
  have hentlen : t.entries.length = kvs.length := by rw [hent, List.length_map]
  have hpow8 : 8 ≤ 2 ^ k := by
    calc 8 = 2 ^ 3 := by norm_num
      _ ≤ 2 ^ k := Nat.pow_le_pow_right (by norm_num) hk3
  have hnew_entries : t.entries ++ [Entry.ofKeyInfo A ki v]
      = (kvs ++ [(ki, v)]).map (fun kv => Entry.ofKeyInfo A kv.1 kv.2) := by
    rw [List.map_append, hent]
    rfl
  have hidx : ((t.entries ++ [Entry.ofKeyInfo A ki v]).length : Int) - 1 = (kvs.length : Int) := by
    rw [List.length_append, hentlen]
    simp
  unfold add_entry
  simp only [Int.toNat_ofNat, hidx]
  by_cases hres : reserve_load_factor { t with occupied := t.occupied + 1 } = 0
  · -- no growth
    simp only [hres, ne_eq, not_true_eq_false, if_false]
    refine ⟨_, rfl, ?_⟩
    have hnores : ¬ ((t.occupied + 1) * 1000 ≥ 667 * (t.offsets.length : Int)) := by
      intro hc
      simp [reserve_load_factor, hc] at hres
    refine ⟨⟨k, hk3, hmask, by simpa using hlen⟩, hnew_entries, by simp [hocc], ?_, ?_, ?_, ?_⟩
    · intro o1 ho1
      simp only [List.length_append, List.length_singleton, hentlen]
      rcases List.mem_or_eq_of_mem_set ho1 with hmem | heq
      · have := inv.in_range o1 hmem
        rw [hentlen] at this
        push_cast
        omega
      · rw [heq]
        push_cast
        omega
    · have := used_offsets_set_le t.offsets n (kvs.length : Int) o ho hneg
      simp only [List.length_append, List.length_singleton]
      omega
    · simp only [List.length_append, List.length_singleton, List.length_set]
      rw [hocc] at hnores
      push_cast
      omega
    · simp only [List.length_append, List.length_singleton, List.length_set, pow_succ]
      have := inv.size_bound
      omega
  · -- growth
    simp only [hres, ne_eq, not_false_eq_true, if_true]
    have hclosed : ∀ e ∈ t.entries ++ [Entry.ofKeyInfo A ki v], e.is_closed = true := by
      intro e he
      rw [hnew_entries, List.mem_map] at he
      obtain ⟨kv, _, rfl⟩ := he
      rfl
    have hlenlt : kvs.length < 2 ^ k := by
      have hloadN : kvs.length * 1000 < 667 * 2 ^ k := by
        rw [hlen] at hload
        exact_mod_cast hload
      omega
    obtain ⟨t4, h1, h2, h3, h4, h5, h6, h7⟩ :=
      grow_relocate_from_ok fuel (k + 1) (by rw [pow_succ]; omega)
        (t.entries ++ [Entry.ofKeyInfo A ki v]) 0
        { entries := t.entries ++ [Entry.ofKeyInfo A ki v],
          offsets := List.replicate ((t.offsets.set n (kvs.length : Int)).length * 2) (-1),
          mask := (t.mask <<< 1) ||| 1,
          occupied := t.occupied + 1 }
        (by simp only [hmask]; exact mask_double k)
        (by simp only [List.length_replicate, List.length_set, hlen, pow_succ])
        (by
          simp only [List.length_append, List.length_singleton, hentlen, pow_succ]
          omega)
        (by simp only [used_offsets_replicate]; omega)
        (by
          intro o1 ho1
          rw [List.eq_of_mem_replicate ho1]
          decide)
    have hgrow : grow fuel
        { entries := t.entries ++ [Entry.ofKeyInfo A ki v],
          offsets := t.offsets.set n (kvs.length : Int),
          mask := t.mask,
          occupied := t.occupied + 1 } = some t4 := by
      unfold grow
      simp only []
      rw [grow_remove_empty_entries_all_closed _ hclosed]
      exact h1
    simp only [hgrow]
    refine ⟨t4, rfl, ?_⟩
    simp only [List.length_replicate, List.length_set, hlen] at h5
    simp only [List.length_append, List.length_singleton, hentlen, zero_add] at h6 h7
    refine ⟨⟨k + 1, by omega, by rw [h3, hmask]; exact mask_double k,
        by rw [h5, pow_succ]⟩, by rw [h2]; exact hnew_entries, by rw [h4]; simp [hocc], ?_, ?_,
      ?_, ?_⟩
    · intro o1 ho1
      rw [h2]
      simp only [List.length_append, List.length_singleton, hentlen]
      exact h7 o1 ho1
    · simpa using h6
    · rw [h5, List.length_append, List.length_singleton]
      have hloadN : kvs.length * 1000 < 667 * 2 ^ k := by
        rw [hlen] at hload
        exact_mod_cast hload
      have : (kvs.length + 1) * 1000 < 667 * (2 ^ k * 2) := by omega
      exact_mod_cast this
    · rw [h5]
      simp only [List.length_append, List.length_singleton, pow_succ]
      have := inv.size_bound
      rw [hlen] at this
      omega

theorem SetOnlyInv.of_new (A : Nat) : SetOnlyInv A StringDictBase.new [] :=
  { pow2 := ⟨3, le_refl _, rfl, rfl⟩
    entries_eq := rfl
    occupied_eq := rfl
    in_range := by
      intro o ho
      rw [List.eq_of_mem_replicate ho]
      decide
    used := by
      show used_offsets (List.replicate min_buckets (-1)) ≤ 0
      rw [used_offsets_replicate]
    load := by decide
    size_bound := by decide }

theorem SetOnlyInv.set_ok {A : Nat} {t : StringDictBase} {kvs : List (KeyInfo × Nat)}
    (inv : SetOnlyInv A t kvs) (ki : KeyInfo) (v fuel : Nat)
    (hnm : ∀ kv ∈ kvs, (Entry.ofKeyInfo A kv.1 kv.2).matches A ki = false)
    (hfuel : 2 * t.offsets.length ≤ fuel) :
    ∃ t1 r, StringDict.set A fuel t ki v false = some (t1, r)
      ∧ SetOnlyInv A t1 (kvs ++ [(ki, v)]) := by
  obtain ⟨n, o, ho, hneg, hfi⟩ := inv.find_insertion_fresh ki fuel hnm (by omega)
  obtain ⟨t1, hadd, inv1⟩ := inv.add_entry_ok ki v fuel n o ho hneg hfuel
  have hlen : t1.entries.length = kvs.length + 1 := by
    rw [inv1.entries_eq, List.length_map, List.length_append]
    rfl
  have hlt : t1.entries.length - 1 < t1.entries.length := by omega
  refine ⟨t1, PyResult.ok (t1.entries[t1.entries.length - 1].get_value A), ?_, inv1⟩
  simp [StringDict.set, hfi, hadd, List.getElem?_eq_getElem hlt]

theorem set_run_ok (A fuel : Nat) :
    ∀ (rest done : List (KeyInfo × Nat)) (t : StringDictBase), SetOnlyInv A t done →
      (done ++ rest).Pairwise (fun a b => (Entry.ofKeyInfo A a.1 a.2).matches A b.1 = false) →
      16 * 2 ^ (done.length + rest.length) ≤ fuel →
      ∃ t1, run_ops A fuel (set_calls rest) t = some t1 ∧ SetOnlyInv A t1 (done ++ rest) := by
  intro rest
  induction rest with
  | nil =>
    intro done t inv _ _
    exact ⟨t, rfl, by simpa using inv⟩
  | cons kv rest ih =>
    intro done t inv hpw hfuel
    have hnm : ∀ a ∈ done, (Entry.ofKeyInfo A a.1 a.2).matches A kv.1 = false := by
      intro a ha
      exact (List.pairwise_append.1 hpw).2.2 a ha kv (List.mem_cons_self _ _)
    have hsize := inv.size_bound
    have hpow : 2 ^ done.length ≤ 2 ^ (done.length + (kv :: rest).length) :=
      Nat.pow_le_pow_right (by norm_num) (by omega)
    obtain ⟨t1, r, hset, inv1⟩ := inv.set_ok kv.1 kv.2 fuel hnm (by omega)
    obtain ⟨t2, hrun, inv2⟩ := ih (done ++ [kv]) t1 inv1
      (by simpa using hpw)
      (by
        have e : (done ++ [kv]).length + rest.length = done.length + (kv :: rest).length := by
          simp only [List.length_append, List.length_singleton, List.length_cons, List.length_nil]
          omega
        rw [e]
        exact hfuel)
    refine ⟨t2, ?_, by simpa using inv2⟩
    simp only [set_calls, List.map_cons, run_ops, apply_op, hset, Option.map_some']
    exact hrun

theorem visit_loop_all_closed (A : Nat) :
    ∀ (kvs : List (KeyInfo × Nat)) (acc : List (KeyObject × Nat)),
      visit_nonempty_entries_loop (make_itemlist_visit (Entry.as_tuple A)) kvs.length
          (kvs.map (fun kv => Entry.ofKeyInfo A kv.1 kv.2)) (some acc)
        = some (some (acc ++ kvs.map
            (fun kv => Entry_AsTuple A (Entry_FromKeyInfo A kv.1 kv.2))), false) := by
  intro kvs
  induction kvs with
  | nil => intro acc; simp [visit_nonempty_entries_loop]
  | cons kv rest ih =>
    intro acc
    simp only [List.length_cons, List.map_cons, visit_nonempty_entries_loop]
    rw [List.dropWhile_cons_of_neg (by simp [Entry.ofKeyInfo_is_empty])]
    simp only [make_itemlist_visit, Entry.as_tuple, Entry.ofKeyInfo, Option.map_some',
      Bool.false_eq_true, if_false]
    have := ih (acc ++ [Entry_AsTuple A (Entry_FromKeyInfo A kv.1 kv.2)])
    simp only [Entry.ofKeyInfo, List.append_assoc, List.singleton_append] at this
    exact this

theorem SetOnlyInv.items_eq {A : Nat} {t : StringDictBase} {kvs : List (KeyInfo × Nat)}
    (inv : SetOnlyInv A t kvs) (hlen : kvs.length < 2 ^ 63) :
    StringDict.get_items A t = some (PyResult.ok
      (kvs.map (fun kv => Entry_AsTuple A (Entry_FromKeyInfo A kv.1 kv.2)))) := by
  have hsize : t.size = kvs.length := by
    unfold StringDictBase.size to_size_t
    rw [inv.occupied_eq]
    simp
  have hss : to_ssize_t kvs.length = (kvs.length : Int) := by
    unfold to_ssize_t
    rw [if_pos hlen]
  unfold StringDict.get_items StringDict.make_itemlist visit_nonempty_entries
  rw [hsize, hss]
  simp only [Int.toNat_ofNat, inv.entries_eq]
  have hnn : ¬ ((kvs.length : Int) < 0) := by omega
  simp only [hnn, if_false]
  by_cases h0 : kvs.length = 0
  · have : kvs = [] := List.length_eq_zero.1 h0
    subst this
    simp
  · simp only [h0, if_false, visit_loop_all_closed A kvs []]
    simp

/-! ### The length header round-trips -/

theorem leb128_byte_facts : ∀ low, low < 128 → ∀ c, c < 2 →
    0x7f &&& (low ||| (c <<< 7)) = low ∧ ((low ||| (c <<< 7)) &&& 0x80 = 0 ↔ c = 0) := by
  decide

theorem or_shiftLeft_eq_add (acc x shift : Nat) (h : acc < 2 ^ shift) :
    acc ||| (x <<< shift) = acc + x * 2 ^ shift := by
  rw [Nat.or_comm, Nat.shiftLeft_eq, Nat.mul_comm x, ← Nat.mul_add_lt_is_or h, Nat.add_comm]

theorem leb128_roundtrip_loop :
    ∀ (f v acc shift : Nat) (rest : List Nat), v < 2 ^ (7 * (f + 1)) → acc < 2 ^ shift →
      acc + v * 2 ^ shift < 2 ^ 64 → shift + 7 * (f + 1) < 256 →
      leb128_decode_loop (leb128_encode_loop (f + 1) v ++ rest) acc shift
        = (acc + v * 2 ^ shift, shift + 7 * (leb128_encode_loop (f + 1) v).length) := by
  intro f
  induction f with
  | zero =>
    intro v acc shift rest hv hacc hsum hshift
    have hv128 : v < 128 := by simpa using hv
    have hv7 : v >>> 7 = 0 := by
      rw [Nat.shiftRight_eq_div_pow]
      exact Nat.div_eq_of_lt hv128
    have hlow : v &&& 0x7f = v := by
      rw [show (0x7f : Nat) = 2 ^ 7 - 1 by norm_num, Nat.and_pow_two_sub_one_eq_mod]
      exact Nat.mod_eq_of_lt hv128
    obtain ⟨hb1, hb2⟩ := leb128_byte_facts v hv128 0 (by norm_num)
    simp only [leb128_encode_loop, hv7, hlow, ne_eq, not_true_eq_false, if_false,
      List.singleton_append, leb128_decode_loop, hb1, hb2.2 rfl, List.length_singleton]
    rw [or_shiftLeft_eq_add _ _ _ hacc, Nat.mod_eq_of_lt hsum, Nat.mod_eq_of_lt (by omega)]
  | succ f ih =>
    intro v acc shift rest hv hacc hsum hshift
    have hlowlt : v % 128 < 128 := Nat.mod_lt _ (by norm_num)
    have hlow : v &&& 0x7f = v % 128 := by
      rw [show (0x7f : Nat) = 2 ^ 7 - 1 by norm_num, Nat.and_pow_two_sub_one_eq_mod]
    have hv7 : v >>> 7 = v / 128 := by
      rw [Nat.shiftRight_eq_div_pow]
    have hsplit : v = v % 128 + 128 * (v / 128) := (Nat.mod_add_div v 128).symm
    have hpow7 : 2 ^ (shift + 7) = 2 ^ shift * 128 := by rw [pow_add]; norm_num
    have hval1 : (acc ||| ((v % 128) <<< shift)) % 2 ^ 64 = acc + v % 128 * 2 ^ shift := by
      rw [or_shiftLeft_eq_add _ _ _ hacc]
      apply Nat.mod_eq_of_lt
      have : v % 128 * 2 ^ shift ≤ v * 2 ^ shift :=
        Nat.mul_le_mul_right _ (Nat.mod_le _ _)
      omega
    by_cases hz : v / 128 = 0
    · obtain ⟨hb1, hb2⟩ := leb128_byte_facts (v % 128) hlowlt 0 (by norm_num)
      have hveq : v = v % 128 := by omega
      simp only [leb128_encode_loop, hv7, hlow, hz, ne_eq, not_true_eq_false, if_false,
        List.singleton_append, leb128_decode_loop, hb1, hb2.2 rfl, List.length_singleton,
        hval1]
      rw [Nat.mod_eq_of_lt (by omega : shift + 7 < 256), ← hveq]
    · obtain ⟨hb1, hb2⟩ := leb128_byte_facts (v % 128) hlowlt 1 (by norm_num)
      have hb3 : ¬ ((v % 128 ||| (1 <<< 7)) &&& 0x80 = 0) := fun h => by
        have := hb2.1 h
        omega
      have hv' : v / 128 < 2 ^ (7 * (f + 1)) := by
        rw [Nat.div_lt_iff_lt_mul (by norm_num)]
        calc v < 2 ^ (7 * (f + 1 + 1)) := hv
          _ = 2 ^ (7 * (f + 1)) * 128 := by
            rw [show 7 * (f + 1 + 1) = 7 * (f + 1) + 7 by ring, pow_add]
            norm_num
      have hacc1 : acc + v % 128 * 2 ^ shift < 2 ^ (shift + 7) := by
        rw [hpow7]
        have : v % 128 * 2 ^ shift ≤ 127 * 2 ^ shift := Nat.mul_le_mul_right _ (by omega)
        omega
      have hsum1 : acc + v % 128 * 2 ^ shift + v / 128 * 2 ^ (shift + 7) = acc + v * 2 ^ shift := by
        rw [hpow7]
        conv_rhs => rw [hsplit]
        ring
      have := ih (v / 128) (acc + v % 128 * 2 ^ shift) (shift + 7) rest hv' hacc1
        (by rw [hsum1]; exact hsum) (by omega)
      simp only [leb128_encode_loop, hv7, hlow, hz, ne_eq, not_false_eq_true, if_true,
        List.cons_append, leb128_decode_loop, hb1, hb3, hval1, List.length_cons]
      rw [Nat.mod_eq_of_lt (by omega : shift + 7 < 256)]
      simp only [leb128_encode_loop, hv7, hlow, ne_eq] at this
      rw [this, hsum1]
      congr 1
      omega

/-- Decoding the bytes written by `leb128_encode` gives the value back, and the count
is the number of bytes written, whatever follows them. -/
theorem leb128_decode_encode (n : Nat) (rest : List Nat) (h : n < 2 ^ 64) :
    leb128_decode ((leb128_encode n).encoding.take (leb128_encode n).len ++ rest)
      = (n, (leb128_encode n).len) := by
  unfold leb128_decode leb128_encode
  simp only [List.take_length, Nat.mod_eq_of_lt h]
  rw [leb128_roundtrip_loop 9 n 0 0 rest (by omega) (by norm_num) (by simpa using h)
    (by norm_num)]
  simp

/-! ### The tuple handed out for a new entry -/

theorem Entry_DataAndSize_FromKeyInfo (A : Nat) (ki : KeyInfo) (v : Nat)
    (h : ki.data_size < 2 ^ 64) :
    Entry_DataAndSize A (Entry_FromKeyInfo A ki v)
      = (ki.data.take (ki.data_size * DataKind_ItemSize ki.kind) ++ [0], ki.data_size) := by
  have hhead : (Entry_FromKeyInfo A ki v).data.drop
        (if pyobject_pointer_lowbits A = 0 then 1 else 0)
      = (leb128_encode ki.data_size).encoding.take (leb128_encode ki.data_size).len
        ++ (ki.data.take (ki.data_size * DataKind_ItemSize ki.kind) ++ [0]) := by
    unfold Entry_FromKeyInfo
    by_cases hl : pyobject_pointer_lowbits A = 0
    · simp [hl]
    · simp [hl]
  unfold Entry_DataAndSize
  simp only [hhead, leb128_decode_encode _ _ h]
  congr 1
  apply List.drop_left'
  simp [leb128_encode]

theorem Entry_Key_FromKeyInfo (A : Nat) (ki : KeyInfo) (v : Nat) (hwf : ki.well_formed A) :
    Entry_Key A (Entry_FromKeyInfo A ki v) = ki.object := by
  obtain ⟨hmask, hbytes, hsize, hdata⟩ := hwf
  unfold Entry_Key KeyInfo.object
  by_cases hk : ki.key = 0
  · have hget : Entry_GetKey A (Entry_FromKeyInfo A ki v) = 0 := by
      simp [Entry_GetKey, Entry_FromKeyInfo, hk]
    have hkind := hbytes hk
    have hitem : DataKind_ItemSize ki.kind = 1 := by rw [hkind]; rfl
    rw [hitem, Nat.mul_one] at hdata
    simp only [hget, hk, ne_eq, not_true_eq_false, if_false, Entry_Data,
      Entry_DataAndSize_FromKeyInfo A ki v (by omega), hitem, Nat.mul_one]
    congr 1
    rw [List.take_append_of_le_length (by simp; omega), List.take_take, Nat.min_self]
  · have hget : Entry_GetKey A (Entry_FromKeyInfo A ki v) = ki.key := by
      simp [Entry_GetKey, Entry_FromKeyInfo, hk, hmask]
    simp [hget, hk]

/-- With a cached key `Entry_Key` stores nothing, and the pointer it returns is the
object of `Entry_Key`. -/
theorem Entry_Key_store_cached (A : Nat) (self : StringDictEntry) (bytes_obj : Nat)
    (h : Entry_GetKey A self ≠ 0) :
    Entry_Key_store A self bytes_obj = (self, Entry_GetKey A self)
      ∧ Entry_Key A self = KeyObject.cached (Entry_GetKey A self) := by
  unfold Entry_Key_store Entry_Key
  simp [h]

/-- Without a cached key `Entry_Key` stores the new bytes object, keeps the tag bits,
and leaves the value and the inline data. -/
theorem Entry_Key_store_fresh (A : Nat) (self : StringDictEntry) (bytes_obj : Nat)
    (h : Entry_GetKey A self = 0) (hb : bytes_obj ≠ 0) :
    (Entry_Key_store A self bytes_obj).1
      = { self with cached_key := bytes_obj ||| Entry_KeyTag A self } := by
  unfold Entry_Key_store
  simp [h, hb]

/-- The entry built from the view of an object has a cached key: `Entry_Key` leaves
it as it is. -/
theorem Entry_Key_store_FromKeyInfo (A : Nat) (ki : KeyInfo) (v bytes_obj : Nat)
    (hk : ki.key ≠ 0) (hm : PYOBJECT_MASKED_ A ki.key = ki.key) :
    (Entry_Key_store A (Entry_FromKeyInfo A ki v) bytes_obj).1 = Entry_FromKeyInfo A ki v := by
  have hget : Entry_GetKey A (Entry_FromKeyInfo A ki v) = ki.key := by
    simp [Entry_GetKey, Entry_FromKeyInfo, hk, hm]
  rw [(Entry_Key_store_cached A _ bytes_obj (by rw [hget]; exact hk)).1]

theorem Entry_AsTuple_FromKeyInfo (A : Nat) (ki : KeyInfo) (v : Nat) (hwf : ki.well_formed A)
    (hv : PYOBJECT_MASKED_ A v = v) :
    Entry_AsTuple A (Entry_FromKeyInfo A ki v) = (ki.object, v) := by
  unfold Entry_AsTuple
  rw [Entry_Key_FromKeyInfo A ki v hwf]
  simp [Entry_Value, Entry_GetValue, Entry_FromKeyInfo, hv]

/-! ### Lists of slots -/

theorem live_items_append_live (cells : List Cell) (ki : KeyInfo) (v : Nat) :
    live_items (cells ++ [Cell.live ki v]) = live_items cells ++ [(ki, v)] := by
  simp [live_items, List.filterMap_append, Cell.item]

theorem mem_live_items {cells : List Cell} {ki : KeyInfo} {v : Nat} :
    (ki, v) ∈ live_items cells ↔ Cell.live ki v ∈ cells := by
  unfold live_items
  rw [List.mem_filterMap]
  constructor
  · rintro ⟨c, hc, hitem⟩
    cases c with
    | live k w =>
      simp only [Cell.item, Option.some.injEq, Prod.mk.injEq] at hitem
      obtain ⟨rfl, rfl⟩ := hitem
      exact hc
    | dead h => simp [Cell.item] at hitem
  · intro h
    exact ⟨_, h, rfl⟩

theorem spec_key_mem_live_items {cells : List Cell} {s : Nat × Nat × List Nat} :
    s ∈ (live_items cells).map (fun kv => kv.1.spec_key)
      ↔ ∃ (j : Nat) (a : KeyInfo) (v : Nat),
          cells[j]? = some (Cell.live a v) ∧ a.spec_key = s := by
  rw [List.mem_map]
  constructor
  · rintro ⟨⟨k, v⟩, hmem, rfl⟩
    obtain ⟨j, hj⟩ := List.mem_iff_getElem?.1 (mem_live_items.1 hmem)
    exact ⟨j, k, v, hj, rfl⟩
  · rintro ⟨j, a, v, hj, rfl⟩
    exact ⟨(a, v), mem_live_items.2 (List.mem_iff_getElem?.2 ⟨j, hj⟩), rfl⟩

theorem live_items_set_dead :
    ∀ (cells : List Cell) (j : Nat) (a b : KeyInfo) (v : Nat) (h : Int),
      cells[j]? = some (Cell.live a v) → a.spec_key = b.spec_key →
      ((live_items cells).map (fun kv => kv.1.spec_key)).Nodup →
      live_items (cells.set j (Cell.dead h)) = spec_remove (live_items cells) b := by
  intro cells
  induction cells with
  | nil => intro j a b v h hj; simp at hj
  | cons c rest ih =>
    intro j a b v h hj hab hnd
    cases j with
    | zero =>
      simp only [List.getElem?_cons_zero, Option.some.injEq] at hj
      subst hj
      simp only [live_items, List.filterMap_cons, Cell.item, List.map_cons,
        List.nodup_cons] at hnd
      simp only [List.set_cons_zero, live_items, List.filterMap_cons, Cell.item, spec_remove,
        List.filter_cons, ne_eq, hab, not_true_eq_false, decide_False, Bool.false_eq_true,
        if_false]
      symm
      rw [List.filter_eq_self]
      intro kv hkv
      simp only [ne_eq, decide_eq_true_eq]
      intro heq
      exact hnd.1 (List.mem_map.2 ⟨kv, hkv, heq.trans hab.symm⟩)
    | succ j =>
      simp only [List.getElem?_cons_succ] at hj
      cases c with
      | dead h0 =>
        simp only [live_items, List.filterMap_cons, Cell.item] at hnd
        simp only [List.set_cons_succ, live_items, List.filterMap_cons, Cell.item]
        exact ih j a b v h hj hab hnd
      | live k w =>
        simp only [live_items, List.filterMap_cons, Cell.item, List.map_cons,
          List.nodup_cons] at hnd
        have hne : k.spec_key ≠ b.spec_key := by
          intro heq
          exact hnd.1 (spec_key_mem_live_items.2 ⟨j, a, v, hj, hab.trans heq.symm⟩)
        have := ih j a b v h hj hab hnd.2
        simp only [live_items, spec_remove] at this
        simp only [List.set_cons_succ, live_items, List.filterMap_cons, Cell.item, spec_remove,
          List.filter_cons, ne_eq, hne, not_false_eq_true, decide_True, if_true, this]

theorem live_items_set_live :
    ∀ (cells : List Cell) (j : Nat) (a b : KeyInfo) (v v2 : Nat),
      cells[j]? = some (Cell.live a v) → a.spec_key = b.spec_key →
      ((live_items cells).map (fun kv => kv.1.spec_key)).Nodup →
      live_items (cells.set j (Cell.live a v2)) = spec_update (live_items cells) b v2 := by
  intro cells
  induction cells with
  | nil => intro j a b v v2 hj; simp at hj
  | cons c rest ih =>
    intro j a b v v2 hj hab hnd
    cases j with
    | zero =>
      simp only [List.getElem?_cons_zero, Option.some.injEq] at hj
      subst hj
      simp only [live_items, List.filterMap_cons, Cell.item, List.map_cons,
        List.nodup_cons] at hnd
      simp only [List.set_cons_zero, live_items, List.filterMap_cons, Cell.item, spec_update,
        List.map_cons, hab, if_true, List.cons.injEq, true_and]
      have hmap : (List.filterMap Cell.item rest).map
            (fun kv => if kv.1.spec_key = b.spec_key then (kv.1, v2) else kv)
          = (List.filterMap Cell.item rest).map id := by
        apply List.map_congr_left
        intro kv hkv
        have hk : kv.1.spec_key ≠ b.spec_key :=
          fun heq => hnd.1 (List.mem_map.2 ⟨kv, hkv, heq.trans hab.symm⟩)
        simp [hk]
      rw [hmap, List.map_id]
    | succ j =>
      simp only [List.getElem?_cons_succ] at hj
      cases c with
      | dead h0 =>
        simp only [live_items, List.filterMap_cons, Cell.item] at hnd
        simp only [List.set_cons_succ, live_items, List.filterMap_cons, Cell.item]
        exact ih j a b v v2 hj hab hnd
      | live k w =>
        simp only [live_items, List.filterMap_cons, Cell.item, List.map_cons,
          List.nodup_cons] at hnd
        have hne : k.spec_key ≠ b.spec_key := by
          intro heq
          exact hnd.1 (spec_key_mem_live_items.2 ⟨j, a, v, hj, hab.trans heq.symm⟩)
        have := ih j a b v v2 hj hab hnd.2
        simp only [live_items, spec_update] at this
        simp only [List.set_cons_succ, live_items, List.filterMap_cons, Cell.item, spec_update,
          List.map_cons, hne, if_false, this]

/-! ### Lookups in a table with Empty slots -/

theorem live_slot_unique :
    ∀ (cells : List Cell) (j j1 : Nat) (a a1 : KeyInfo) (v v1 : Nat),
      ((live_items cells).map (fun kv => kv.1.spec_key)).Nodup →
      cells[j]? = some (Cell.live a v) → cells[j1]? = some (Cell.live a1 v1) →
      a.spec_key = a1.spec_key → j = j1 := by
  intro cells
  induction cells with
  | nil => intro j j1 a a1 v v1 _ hj; simp at hj
  | cons c rest ih =>
    intro j j1 a a1 v v1 hnd hj hj1 hsame
    have hnd_rest : ((live_items rest).map (fun kv => kv.1.spec_key)).Nodup := by
      cases c with
      | dead h0 => simpa [live_items, Cell.item] using hnd
      | live k w =>
        simp only [live_items, List.filterMap_cons, Cell.item, List.map_cons,
          List.nodup_cons] at hnd
        exact hnd.2
    have hhead : ∀ (i : Nat) (x y : KeyInfo) (w w1 : Nat), c = Cell.live x w →
        rest[i]? = some (Cell.live y w1) → x.spec_key = y.spec_key → False := by
      intro i x y w w1 hc hi hxy
      subst hc
      simp only [live_items, List.filterMap_cons, Cell.item, List.map_cons,
        List.nodup_cons] at hnd
      exact hnd.1 (spec_key_mem_live_items.2 ⟨i, y, w1, hi, hxy.symm⟩)
    cases j with
    | zero =>
      cases j1 with
      | zero => rfl
      | succ j1 =>
        simp only [List.getElem?_cons_zero, Option.some.injEq] at hj
        simp only [List.getElem?_cons_succ] at hj1
        exact absurd (hhead j1 a a1 v v1 hj hj1 hsame) id
    | succ j =>
      cases j1 with
      | zero =>
        simp only [List.getElem?_cons_zero, Option.some.injEq] at hj1
        simp only [List.getElem?_cons_succ] at hj
        exact absurd (hhead j a1 a v1 v hj1 hj hsame.symm) id
      | succ j1 =>
        simp only [List.getElem?_cons_succ] at hj hj1
        rw [ih j j1 a a1 v v1 hnd_rest hj hj1 hsame]

theorem TombInv.entry_at {A : Nat} {K : List KeyInfo} {V : List Nat} {t : StringDictBase}
    {cells : List Cell} (inv : TombInv A K V t cells) {j : Nat} {e : Entry}
    (h : t.entries[j]? = some e) : ∃ c, cells[j]? = some c ∧ e = Cell.entry A c := by
  rw [inv.entries_eq, List.getElem?_map] at h
  cases hc : cells[j]? with
  | none => simp [hc] at h
  | some c =>
    simp only [hc, Option.map_some', Option.some.injEq] at h
    exact ⟨c, rfl, h.symm⟩

theorem TombInv.entry_of_cell {A : Nat} {K : List KeyInfo} {V : List Nat} {t : StringDictBase}
    {cells : List Cell} (inv : TombInv A K V t cells) {j : Nat} {c : Cell}
    (h : cells[j]? = some c) : t.entries[j]? = some (Cell.entry A c) := by
  rw [inv.entries_eq, List.getElem?_map, h]
  rfl

theorem Cell.dead_is_empty (A : Nat) (h : Int) : (Cell.entry A (Cell.dead h)).is_empty = true :=
  rfl

theorem Cell.live_is_empty (A : Nat) (ki : KeyInfo) (v : Nat) :
    (Cell.entry A (Cell.live ki v)).is_empty = false := rfl

theorem Cell.dead_matches (A : Nat) (h : Int) (ki : KeyInfo) :
    (Cell.entry A (Cell.dead h)).matches A ki = false := rfl

theorem TombInv.live_matches {A : Nat} {K : List KeyInfo} {V : List Nat} {t : StringDictBase}
    {cells : List Cell} (inv : TombInv A K V t cells) (hcan : content_views A K V)
    {j : Nat} {a b : KeyInfo} {w : Nat} (h : cells[j]? = some (Cell.live a w)) (hb : b ∈ K) :
    (Cell.entry A (Cell.live a w)).matches A b = decide (a.spec_key = b.spec_key) := by
  obtain ⟨ha, hw⟩ := inv.members a w (List.mem_iff_getElem?.2 ⟨j, h⟩)
  exact hcan.2.1 a ha w hw b hb

/-- A present key is found by `find_existing`, in its slot, whenever the call
returns. -/
theorem TombInv.find_existing_hit {A : Nat} {K : List KeyInfo} {V : List Nat}
    {t : StringDictBase} {cells : List Cell} (inv : TombInv A K V t cells)
    (hcan : content_views A K V) {j : Nat} {a b : KeyInfo} {v : Nat}
    (hj : cells[j]? = some (Cell.live a v)) (hab : a.spec_key = b.spec_key) (hb : b ∈ K) :
    ∀ (n idx fuel : Nat) (s : Int × Option Nat) (p : Nat) (r : Int × Option Nat),
      t.offsets[probe_index t.mask idx n]? = some (j : Int) →
      (∀ n1, n1 < n → ∃ o, t.offsets[probe_index t.mask idx n1]? = some o ∧ ¬ o < 0) →
      visit_with_hash_loop t.mask (find_existing_pred A t b) fuel s idx p = some r →
      r.2 = some j := by
  intro n
  induction n with
  | zero =>
    intro idx fuel s p r hat _ hloop
    cases fuel with
    | zero => simp [visit_with_hash_loop] at hloop
    | succ fuel =>
      simp only [probe_index] at hat
      have hm := inv.live_matches hcan hj hb
      rw [decide_eq_true hab] at hm
      have hjn : ¬ ((j : Int) < 0) := by omega
      simp [visit_with_hash_loop, find_existing_pred, hat, hjn, inv.entry_of_cell hj,
        Cell.live_is_empty, hm] at hloop
      rw [← hloop]
  | succ n ih =>
    intro idx fuel s p r hat hbefore hloop
    cases fuel with
    | zero => simp [visit_with_hash_loop] at hloop
    | succ fuel =>
      obtain ⟨o, ho, hnn⟩ := hbefore 0 (Nat.succ_pos n)
      simp only [probe_index] at ho
      simp only [visit_with_hash_loop, find_existing_pred, ho, hnn, if_false] at hloop
      cases he : t.entries[o.toNat]? with
      | none => simp [he] at hloop
      | some e =>
        obtain ⟨c, hc, rfl⟩ := inv.entry_at he
        have hrest : ∀ s1, visit_with_hash_loop t.mask (find_existing_pred A t b) fuel s1
            (advance_index t.mask idx p).1 (advance_index t.mask idx p).2 = some r →
            r.2 = some j := by
          intro s1 h1
          refine ih _ fuel s1 _ r ?_ ?_ h1
          · rw [advance_index_fst, probe_index_next]
            exact hat
          · intro n1 hn1
            rw [advance_index_fst, probe_index_next]
            exact hbefore (n1 + 1) (by omega)
        cases c with
        | dead h0 =>
          simp only [he, Cell.dead_is_empty, Bool.not_true, Bool.false_and,
            Bool.false_eq_true, if_false] at hloop
          exact hrest _ hloop
        | live a2 w =>
          have hm := inv.live_matches hcan hc hb
          by_cases hab2 : a2.spec_key = b.spec_key
          · rw [decide_eq_true hab2] at hm
            have := live_slot_unique cells _ _ a2 a w v inv.nodup hc hj (hab2.trans hab.symm)
            simp [he, Cell.live_is_empty, hm] at hloop
            rw [← hloop, this]
          · rw [decide_eq_false hab2] at hm
            simp only [he, Cell.live_is_empty, hm, Bool.and_false,
              Bool.false_eq_true, if_false] at hloop
            exact hrest _ hloop

/-- A present key is found by `find_insertion`, in its slot, whenever the call
returns. -/
theorem TombInv.find_insertion_hit {A : Nat} {K : List KeyInfo} {V : List Nat}
    {t : StringDictBase} {cells : List Cell} (inv : TombInv A K V t cells)
    (hcan : content_views A K V) {j : Nat} {a b : KeyInfo} {v : Nat}
    (hj : cells[j]? = some (Cell.live a v)) (hab : a.spec_key = b.spec_key) (hb : b ∈ K) :
    ∀ (n idx fuel : Nat) (s : Int × Option Nat) (p : Nat) (r : Int × Option Nat),
      t.offsets[probe_index t.mask idx n]? = some (j : Int) →
      (∀ n1, n1 < n → ∃ o, t.offsets[probe_index t.mask idx n1]? = some o ∧ ¬ o < 0) →
      visit_with_hash_loop t.mask (find_insertion_pred A t b) fuel s idx p = some r →
      r.2 = some j := by
  intro n
  induction n with
  | zero =>
    intro idx fuel s p r hat _ hloop
    cases fuel with
    | zero => simp [visit_with_hash_loop] at hloop
    | succ fuel =>
      simp only [probe_index] at hat
      have hm := inv.live_matches hcan hj hb
      rw [decide_eq_true hab] at hm
      have hjn : ¬ ((j : Int) < 0) := by omega
      simp [visit_with_hash_loop, find_insertion_pred, hat, hjn, inv.entry_of_cell hj,
        Cell.live_is_empty, hm] at hloop
      rw [← hloop]
  | succ n ih =>
    intro idx fuel s p r hat hbefore hloop
    cases fuel with
    | zero => simp [visit_with_hash_loop] at hloop
    | succ fuel =>
      obtain ⟨o, ho, hnn⟩ := hbefore 0 (Nat.succ_pos n)
      simp only [probe_index] at ho
      simp only [visit_with_hash_loop, find_insertion_pred, ho, hnn, if_false] at hloop
      cases he : t.entries[o.toNat]? with
      | none => simp [he] at hloop
      | some e =>
        obtain ⟨c, hc, rfl⟩ := inv.entry_at he
        have hrest : ∀ s1, visit_with_hash_loop t.mask (find_insertion_pred A t b) fuel s1
            (advance_index t.mask idx p).1 (advance_index t.mask idx p).2 = some r →
            r.2 = some j := by
          intro s1 h1
          refine ih _ fuel s1 _ r ?_ ?_ h1
          · rw [advance_index_fst, probe_index_next]
            exact hat
          · intro n1 hn1
            rw [advance_index_fst, probe_index_next]
            exact hbefore (n1 + 1) (by omega)
        cases c with
        | dead h0 =>
          simp only [he, Cell.dead_is_empty, if_true] at hloop
          by_cases hsn : s.2.isNone = true
          · simp only [hsn, if_true] at hloop
            exact hrest _ hloop
          · simp only [hsn, if_false] at hloop
            exact hrest _ hloop
        | live a2 w =>
          have hm := inv.live_matches hcan hc hb
          by_cases hab2 : a2.spec_key = b.spec_key
          · rw [decide_eq_true hab2] at hm
            have := live_slot_unique cells _ _ a2 a w v inv.nodup hc hj (hab2.trans hab.symm)
            simp [he, Cell.live_is_empty, hm] at hloop
            rw [← hloop, this]
          · rw [decide_eq_false hab2] at hm
            simp only [he, Cell.live_is_empty, hm, Bool.false_eq_true,
              if_false] at hloop
            exact hrest _ hloop

/-- An absent key is not found by `find_existing`. -/
theorem TombInv.find_existing_miss {A : Nat} {K : List KeyInfo} {V : List Nat}
    {t : StringDictBase} {cells : List Cell} (inv : TombInv A K V t cells)
    (hcan : content_views A K V) {b : KeyInfo} (hb : b ∈ K)
    (habs : b.spec_key ∉ (live_items cells).map (fun kv => kv.1.spec_key)) :
    ∀ (fuel idx : Nat) (s : Int × Option Nat) (p : Nat) (r : Int × Option Nat),
      s.2 = none →
      visit_with_hash_loop t.mask (find_existing_pred A t b) fuel s idx p = some r →
      r.2 = none := by
  intro fuel
  induction fuel with
  | zero => intro idx s p r _ hloop; simp [visit_with_hash_loop] at hloop
  | succ fuel ih =>
    intro idx s p r hs hloop
    simp only [visit_with_hash_loop, find_existing_pred] at hloop
    cases ho : t.offsets[idx]? with
    | none => simp [ho] at hloop
    | some o =>
      by_cases hneg : o < 0
      · simp [ho, hneg] at hloop
        rw [← hloop]
        exact hs
      · simp only [ho, hneg, if_false] at hloop
        cases he : t.entries[o.toNat]? with
        | none => simp [he] at hloop
        | some e =>
          obtain ⟨c, hc, rfl⟩ := inv.entry_at he
          cases c with
          | dead h0 =>
            simp only [he, Cell.dead_is_empty, Bool.not_true, Bool.false_and,
              Bool.false_eq_true, if_false] at hloop
            exact ih _ _ _ _ hs hloop
          | live a w =>
            have hm := inv.live_matches hcan hc hb
            have hab : a.spec_key ≠ b.spec_key :=
              fun hab => habs (spec_key_mem_live_items.2 ⟨_, a, w, hc, hab⟩)
            rw [decide_eq_false hab] at hm
            simp only [he, Cell.live_is_empty, hm, Bool.and_false,
              Bool.false_eq_true, if_false] at hloop
            exact ih _ _ _ _ hs hloop

/-- Once `find_insertion` has remembered an Empty slot and the key is absent, it
returns an Empty slot. -/
theorem TombInv.find_insertion_miss_found {A : Nat} {K : List KeyInfo} {V : List Nat}
    {t : StringDictBase} {cells : List Cell} (inv : TombInv A K V t cells)
    (hcan : content_views A K V) {b : KeyInfo} (hb : b ∈ K)
    (habs : b.spec_key ∉ (live_items cells).map (fun kv => kv.1.spec_key)) :
    ∀ (fuel idx : Nat) (s : Int × Option Nat) (p : Nat) (r : Int × Option Nat),
      (∃ j0 h0, s.2 = some j0 ∧ cells[j0]? = some (Cell.dead h0)) →
      visit_with_hash_loop t.mask (find_insertion_pred A t b) fuel s idx p = some r →
      ∃ j1 h1, r.2 = some j1 ∧ cells[j1]? = some (Cell.dead h1) := by
  intro fuel
  induction fuel with
  | zero => intro idx s p r _ hloop; simp [visit_with_hash_loop] at hloop
  | succ fuel ih =>
    intro idx s p r hs hloop
    obtain ⟨j0, h0, hs2, hj0⟩ := hs
    have hsn : ¬ (s.2.isNone = true) := by simp [hs2]
    simp only [visit_with_hash_loop, find_insertion_pred] at hloop
    cases ho : t.offsets[idx]? with
    | none => simp [ho] at hloop
    | some o =>
      by_cases hneg : o < 0
      · simp [ho, hneg, hs2] at hloop
        rw [← hloop]
        exact ⟨j0, h0, hs2, hj0⟩
      · simp only [ho, hneg, if_false] at hloop
        cases he : t.entries[o.toNat]? with
        | none => simp [he] at hloop
        | some e =>
          obtain ⟨c, hc, rfl⟩ := inv.entry_at he
          cases c with
          | dead h1 =>
            simp only [he, Cell.dead_is_empty, if_true, hsn, if_false] at hloop
            exact ih _ _ _ _ ⟨j0, h0, hs2, hj0⟩ hloop
          | live a w =>
            have hm := inv.live_matches hcan hc hb
            have hab : a.spec_key ≠ b.spec_key :=
              fun hab => habs (spec_key_mem_live_items.2 ⟨_, a, w, hc, hab⟩)
            rw [decide_eq_false hab] at hm
            simp only [he, Cell.live_is_empty, hm, Bool.false_eq_true,
              if_false] at hloop
            exact ih _ _ _ _ ⟨j0, h0, hs2, hj0⟩ hloop

/-- For an absent key `find_insertion` returns either the first free offset of the
probe chain, or an Empty slot. -/
theorem TombInv.find_insertion_miss {A : Nat} {K : List KeyInfo} {V : List Nat}
    {t : StringDictBase} {cells : List Cell} (inv : TombInv A K V t cells)
    (hcan : content_views A K V) {b : KeyInfo} (hb : b ∈ K)
    (habs : b.spec_key ∉ (live_items cells).map (fun kv => kv.1.spec_key)) :
    ∀ (fuel idx : Nat) (s : Int × Option Nat) (p : Nat) (r : Int × Option Nat),
      s.2 = none →
      visit_with_hash_loop t.mask (find_insertion_pred A t b) fuel s idx p = some r →
      (∃ n o, r = (((probe_index t.mask idx n : Nat) : Int), none)
          ∧ t.offsets[probe_index t.mask idx n]? = some o ∧ o < 0
          ∧ ∀ n1, n1 < n → ∃ o1, t.offsets[probe_index t.mask idx n1]? = some o1 ∧ ¬ o1 < 0)
        ∨ ∃ j1 h1, r.2 = some j1 ∧ cells[j1]? = some (Cell.dead h1) := by
  intro fuel
  induction fuel with
  | zero => intro idx s p r _ hloop; simp [visit_with_hash_loop] at hloop
  | succ fuel ih =>
    intro idx s p r hs hloop
    have hsn : s.2.isNone = true := by simp [hs]
    simp only [visit_with_hash_loop, find_insertion_pred] at hloop
    cases ho : t.offsets[idx]? with
    | none => simp [ho] at hloop
    | some o =>
      by_cases hneg : o < 0
      · simp [ho, hneg, hs] at hloop
        left
        refine ⟨0, o, ?_, ho, hneg, fun n1 h1 => absurd h1 (Nat.not_lt_zero _)⟩
        rw [← hloop]
        rfl
      · simp only [ho, hneg, if_false] at hloop
        cases he : t.entries[o.toNat]? with
        | none => simp [he] at hloop
        | some e =>
          obtain ⟨c, hc, rfl⟩ := inv.entry_at he
          cases c with
          | dead h1 =>
            simp only [he, Cell.dead_is_empty, if_true, hsn] at hloop
            right
            exact inv.find_insertion_miss_found hcan hb habs _ _ _ _ _
              ⟨o.toNat, h1, rfl, hc⟩ hloop
          | live a w =>
            have hm := inv.live_matches hcan hc hb
            have hab : a.spec_key ≠ b.spec_key :=
              fun hab => habs (spec_key_mem_live_items.2 ⟨_, a, w, hc, hab⟩)
            rw [decide_eq_false hab] at hm
            simp only [he, Cell.live_is_empty, hm, Bool.false_eq_true,
              if_false] at hloop
            rcases ih _ _ _ _ hs hloop with ⟨n, o1, hr, hfree, hneg1, hbefore⟩ | hdead
            · left
              refine ⟨n + 1, o1, ?_, ?_, hneg1, ?_⟩
              · rw [hr, advance_index_fst, probe_index_next]
              · rw [← probe_index_next, ← advance_index_fst t.mask idx p]
                exact hfree
              · intro n1 hn1
                cases n1 with
                | zero => exact ⟨o, ho, hneg⟩
                | succ n1 =>
                  have := hbefore n1 (by omega)
                  rw [advance_index_fst, probe_index_next] at this
                  exact this
            · right
              exact hdead

/-! ### Probe chains under updates of the offsets -/

theorem Chain.set_free {t : StringDictBase} {idx : Nat} {o : Int}
    (ho : t.offsets[idx]? = some o) (hneg : o < 0) (x : Int) (entries : List Entry)
    (occupied : Int) {h : Int} {j0 : Nat} (hc : Chain t h j0) :
    Chain { entries := entries, offsets := t.offsets.set idx x, mask := t.mask,
            occupied := occupied } h j0 := by
  obtain ⟨n, hat, hbefore⟩ := hc
  refine ⟨n, ?_, ?_⟩
  · have hne : idx ≠ probe_index t.mask (to_uhash h &&& t.mask) n := by
      intro heq
      rw [← heq, ho] at hat
      simp only [Option.some.injEq] at hat
      omega
    show (t.offsets.set idx x)[probe_index t.mask (to_uhash h &&& t.mask) n]? = _
    rw [List.getElem?_set_ne hne]
    exact hat
  · intro n1 hn1
    obtain ⟨o1, ho1, hnn⟩ := hbefore n1 hn1
    have hne : idx ≠ probe_index t.mask (to_uhash h &&& t.mask) n1 := by
      intro heq
      rw [← heq, ho] at ho1
      simp only [Option.some.injEq] at ho1
      omega
    refine ⟨o1, ?_, hnn⟩
    show (t.offsets.set idx x)[probe_index t.mask (to_uhash h &&& t.mask) n1]? = _
    rw [List.getElem?_set_ne hne]
    exact ho1

theorem Chain.of_trace {t : StringDictBase} {h : Int} {n : Nat} {o : Int}
    (hfree : t.offsets[probe_index t.mask (to_uhash h &&& t.mask) n]? = some o) (hneg : o < 0)
    (hbefore : ∀ n1, n1 < n →
      ∃ o1, t.offsets[probe_index t.mask (to_uhash h &&& t.mask) n1]? = some o1 ∧ ¬ o1 < 0)
    (j : Nat) (entries : List Entry) (occupied : Int) :
    Chain { entries := entries,
            offsets := t.offsets.set (probe_index t.mask (to_uhash h &&& t.mask) n) (j : Int),
            mask := t.mask, occupied := occupied } h j := by
  refine ⟨n, ?_, ?_⟩
  · show (t.offsets.set _ (j : Int))[probe_index t.mask (to_uhash h &&& t.mask) n]? = _
    rw [List.getElem?_set_self (List.getElem?_eq_some.1 hfree).1]
  · intro n1 hn1
    obtain ⟨o1, ho1, hnn⟩ := hbefore n1 hn1
    have hne : probe_index t.mask (to_uhash h &&& t.mask) n
        ≠ probe_index t.mask (to_uhash h &&& t.mask) n1 := by
      intro heq
      rw [← heq, hfree] at ho1
      simp only [Option.some.injEq] at ho1
      omega
    refine ⟨o1, ?_, hnn⟩
    show (t.offsets.set _ (j : Int))[probe_index t.mask (to_uhash h &&& t.mask) n1]? = _
    rw [List.getElem?_set_ne hne]
    exact ho1

/-- What `grow_relocate_entry` finds when it returns: the first free offset of the
probe chain. -/
theorem grow_relocate_trace (t : StringDictBase) :
    ∀ (fuel idx : Nat) (s : Int) (p : Nat) (r : Int),
      visit_with_hash_loop t.mask (grow_relocate_pred t) fuel s idx p = some r →
      ∃ n o, r = ((probe_index t.mask idx n : Nat) : Int)
        ∧ t.offsets[probe_index t.mask idx n]? = some o ∧ o < 0
        ∧ ∀ n1, n1 < n → ∃ o1, t.offsets[probe_index t.mask idx n1]? = some o1 ∧ ¬ o1 < 0 := by
  intro fuel
  induction fuel with
  | zero => intro idx s p r hloop; simp [visit_with_hash_loop] at hloop
  | succ fuel ih =>
    intro idx s p r hloop
    simp only [visit_with_hash_loop, grow_relocate_pred] at hloop
    cases ho : t.offsets[idx]? with
    | none => simp [ho] at hloop
    | some o =>
      by_cases hneg : o < 0
      · simp [ho, hneg] at hloop
        refine ⟨0, o, ?_, ho, hneg, fun n1 h1 => absurd h1 (Nat.not_lt_zero _)⟩
        rw [← hloop]
        rfl
      · simp only [ho, hneg, if_false] at hloop
        obtain ⟨n, o1, hr, hfree, hneg1, hbefore⟩ := ih _ _ _ _ hloop
        refine ⟨n + 1, o1, ?_, ?_, hneg1, ?_⟩
        · rw [hr, advance_index_fst, probe_index_next]
        · rw [← probe_index_next, ← advance_index_fst t.mask idx p]
          exact hfree
        · intro n1 hn1
          cases n1 with
          | zero => exact ⟨o, ho, hneg⟩
          | succ n1 =>
            have := hbefore n1 (by omega)
            rw [advance_index_fst, probe_index_next] at this
            exact this

theorem grow_relocate_from_chain (fuel : Nat) :
    ∀ (rest : List Entry) (j : Nat) (t t1 : StringDictBase),
      grow_relocate_from fuel rest j t = some t1 →
      t1.mask = t.mask ∧ t1.entries = t.entries ∧ t1.occupied = t.occupied
        ∧ (∀ h j0, Chain t h j0 → Chain t1 h j0)
        ∧ ∀ i e, rest[i]? = some e → Chain t1 e.hash (j + i) := by
  intro rest
  induction rest with
  | nil =>
    intro j t t1 h
    simp only [grow_relocate_from, Option.some.injEq] at h
    subst h
    exact ⟨rfl, rfl, rfl, fun _ _ hc => hc, by intro i e hi; simp at hi⟩
  | cons ent rest ih =>
    intro j t t1 h
    simp only [grow_relocate_from] at h
    cases hstep : grow_relocate_entry fuel t ent j with
    | none => simp [hstep] at h
    | some t2 =>
      simp only [hstep] at h
      unfold grow_relocate_entry visit_with_hash at hstep
      cases hloop : visit_with_hash_loop t.mask (grow_relocate_pred t) fuel (-1)
          (to_uhash ent.hash &&& t.mask) (to_uhash ent.hash) with
      | none => simp [hloop] at hstep
      | some r =>
        simp only [hloop, Option.some.injEq] at hstep
        obtain ⟨n, o, hr, hfree, hneg, hbefore⟩ := grow_relocate_trace t _ _ _ _ _ hloop
        subst hr
        simp only [Int.toNat_ofNat] at hstep
        subst hstep
        obtain ⟨h1, h2, h3, h4, h5⟩ := ih (j + 1) _ t1 h
        refine ⟨h1, h2, h3, ?_, ?_⟩
        · intro hh j0 hc
          exact h4 hh j0 (Chain.set_free hfree hneg _ _ _ hc)
        · intro i e hi
          cases i with
          | zero =>
            simp only [List.getElem?_cons_zero, Option.some.injEq] at hi
            subst hi
            exact h4 _ _ (Chain.of_trace hfree hneg hbefore j _ _)
          | succ i =>
            simp only [List.getElem?_cons_succ] at hi
            have := h5 i e hi
            rw [show j + (i + 1) = j + 1 + i by omega]
            exact this

/-! ### The invariant of runs without reuse is kept by every step -/

theorem tag_of_masked {A v : Nat} (h : PYOBJECT_MASKED_ A v = v) : PYOBJECT_TAG_ A v = 0 := by
  apply Nat.eq_of_testBit_eq
  intro i
  unfold PYOBJECT_TAG_
  rw [Nat.testBit_and, Nat.zero_testBit]
  cases hv : v.testBit i
  · simp
  · simp [(masked_fixed_bits h i hv).2]

theorem Entry.set_value_ofKeyInfo {A v : Nat} (a : KeyInfo) (v2 : Nat)
    (h : PYOBJECT_MASKED_ A v = v) :
    (Entry.ofKeyInfo A a v).set_value A v2 = Entry.ofKeyInfo A a v2 := by
  have htag : PYOBJECT_TAG_ A v = 0 := tag_of_masked h
  simp [Entry.set_value, Entry.ofKeyInfo, Entry_SetValue, Entry_ExchangeValue, Entry_ValueTag,
    Entry_FromKeyInfo, htag, tag_pyobject]

theorem to_ssize_t_to_size_t (x : Int) (h0 : 0 ≤ x) (h1 : x < 2 ^ 63) :
    to_ssize_t (to_size_t x) = x := by
  unfold to_ssize_t to_size_t
  rw [if_pos h0]
  have hlt : x.toNat < 2 ^ 63 := by
    have := Int.toNat_of_nonneg h0
    omega
  rw [if_pos hlt]
  exact Int.toNat_of_nonneg h0

theorem live_items_length_le (cells : List Cell) : (live_items cells).length ≤ cells.length :=
  List.length_filterMap_le _ _

theorem live_items_length_set_dead :
    ∀ (cells : List Cell) (j : Nat) (a : KeyInfo) (v : Nat) (h : Int),
      cells[j]? = some (Cell.live a v) →
      (live_items (cells.set j (Cell.dead h))).length + 1 = (live_items cells).length := by
  intro cells
  induction cells with
  | nil => intro j a v h hj; simp at hj
  | cons c rest ih =>
    intro j a v h hj
    cases j with
    | zero =>
      simp only [List.getElem?_cons_zero, Option.some.injEq] at hj
      subst hj
      simp [live_items, Cell.item]
    | succ j =>
      simp only [List.getElem?_cons_succ] at hj
      have := ih j a v h hj
      cases c with
      | dead h0 =>
        simp only [List.set_cons_succ, live_items, List.filterMap_cons, Cell.item] at this ⊢
        exact this
      | live k w =>
        simp only [List.set_cons_succ, live_items, List.filterMap_cons, Cell.item,
          List.length_cons] at this ⊢
        omega

theorem TombInv.set_value_step {A : Nat} {K : List KeyInfo} {V : List Nat}
    {t : StringDictBase} {cells : List Cell} (inv : TombInv A K V t cells)
    (hcan : content_views A K V) {j : Nat} {a : KeyInfo} {v v2 : Nat}
    (hj : cells[j]? = some (Cell.live a v)) (hv2 : v2 ∈ V) :
    TombInv A K V
      { t with entries := t.entries.set j ((Cell.entry A (Cell.live a v)).set_value A v2) }
      (cells.set j (Cell.live a v2)) := by
  obtain ⟨ha, hv⟩ := inv.members a v (List.mem_iff_getElem?.2 ⟨j, hj⟩)
  have hset : (Cell.entry A (Cell.live a v)).set_value A v2 = Cell.entry A (Cell.live a v2) :=
    Entry.set_value_ofKeyInfo a v2 (hcan.1 v hv)
  refine ⟨?_, ?_, ?_, ?_, ?_⟩
  · show t.entries.set j _ = _
    rw [hset, inv.entries_eq, List.map_set]
  · intro j1 ki w hj1
    by_cases hjj : j = j1
    · subst hjj
      have hlt : j < cells.length := (List.getElem?_eq_some.1 hj).1
      rw [List.getElem?_set_self hlt] at hj1
      simp only [Option.some.injEq, Cell.live.injEq] at hj1
      obtain ⟨rfl, _⟩ := hj1
      exact inv.chain j a v hj
    · rw [List.getElem?_set_ne hjj] at hj1
      exact inv.chain j1 ki w hj1
  · show t.occupied = _
    rw [inv.occupied_eq, live_items_set_live cells j a a v v2 hj rfl inv.nodup]
    simp [spec_update]
  · rw [live_items_set_live cells j a a v v2 hj rfl inv.nodup]
    have : (spec_update (live_items cells) a v2).map (fun kv => kv.1.spec_key)
        = (live_items cells).map (fun kv => kv.1.spec_key) := by
      unfold spec_update
      rw [List.map_map]
      apply List.map_congr_left
      intro kv _
      by_cases hk : kv.1.spec_key = a.spec_key <;> simp [hk]
    rw [this]
    exact inv.nodup
  · intro ki w hmem
    rcases List.mem_or_eq_of_mem_set hmem with hold | hnew
    · exact inv.members ki w hold
    · simp only [Cell.live.injEq] at hnew
      obtain ⟨rfl, rfl⟩ := hnew
      exact ⟨ha, hv2⟩

theorem TombInv.remove_step {A : Nat} {K : List KeyInfo} {V : List Nat}
    {t : StringDictBase} {cells : List Cell} (inv : TombInv A K V t cells)
    {j : Nat} {a : KeyInfo} {v : Nat} (hj : cells[j]? = some (Cell.live a v)) :
    TombInv A K V
      { t with entries := t.entries.set j (Cell.entry A (Cell.live a v)).set_empty,
               occupied := t.occupied - 1 }
      (cells.set j (Cell.dead a.hash)) := by
  refine ⟨?_, ?_, ?_, ?_, ?_⟩
  · show t.entries.set j _ = _
    rw [inv.entries_eq, List.map_set]
    rfl
  · intro j1 ki w hj1
    by_cases hjj : j = j1
    · subst hjj
      have hlt : j < cells.length := (List.getElem?_eq_some.1 hj).1
      rw [List.getElem?_set_self hlt] at hj1
      simp at hj1
    · rw [List.getElem?_set_ne hjj] at hj1
      exact inv.chain j1 ki w hj1
  · show t.occupied - 1 = _
    have := live_items_length_set_dead cells j a v a.hash hj
    rw [inv.occupied_eq]
    omega
  · rw [live_items_set_dead cells j a a v a.hash hj rfl inv.nodup]
    exact List.Nodup.sublist (List.Sublist.map _ (List.filter_sublist _)) inv.nodup
  · intro ki w hmem
    rcases List.mem_or_eq_of_mem_set hmem with hold | hnew
    · exact inv.members ki w hold
    · simp at hnew

theorem TombInv.grow_step {A : Nat} {K : List KeyInfo} {V : List Nat}
    {t t1 : StringDictBase} {cells : List Cell} (inv : TombInv A K V t cells)
    (h0 : 0 ≤ t.occupied) (h1 : t.occupied < 2 ^ 63) {fuel : Nat}
    (hgrow : grow fuel t = some t1) : TombInv A K V t1 cells := by
  unfold grow at hgrow
  simp only [] at hgrow
  have hid : ∀ (x : StringDictBase), x.occupied = t.occupied →
      grow_remove_empty_entries x = x := by
    intro x hx
    unfold grow_remove_empty_entries StringDictBase.size
    rw [hx, to_ssize_t_to_size_t _ h0 h1]
    simp
  rw [hid { entries := t.entries, offsets := List.replicate (t.offsets.length * 2) (-1),
            mask := t.mask <<< 1 ||| 1, occupied := t.occupied } rfl] at hgrow
  obtain ⟨_, h3, h4, _, h6⟩ := grow_relocate_from_chain fuel _ 0 _ t1 hgrow
  simp only [] at h3 h4
  refine ⟨by rw [h3]; exact inv.entries_eq, ?_, by rw [h4]; exact inv.occupied_eq, inv.nodup,
    inv.members⟩
  intro j ki v hj
  have := h6 j _ (inv.entry_of_cell hj)
  simpa using this

theorem TombInv.entries_length {A : Nat} {K : List KeyInfo} {V : List Nat}
    {t : StringDictBase} {cells : List Cell} (inv : TombInv A K V t cells) :
    t.entries.length = cells.length := by
  rw [inv.entries_eq, List.length_map]

theorem TombInv.add_entry_step {A : Nat} {K : List KeyInfo} {V : List Nat}
    {t : StringDictBase} {cells : List Cell} (inv : TombInv A K V t cells)
    {k : KeyInfo} {v : Nat} (hk : k ∈ K) (hv : v ∈ V)
    (habs : k.spec_key ∉ (live_items cells).map (fun kv => kv.1.spec_key)) {n : Nat} {o : Int}
    (hfree : t.offsets[probe_index t.mask (to_uhash k.hash &&& t.mask) n]? = some o)
    (hneg : o < 0)
    (hbefore : ∀ n1, n1 < n →
      ∃ o1, t.offsets[probe_index t.mask (to_uhash k.hash &&& t.mask) n1]? = some o1 ∧ ¬ o1 < 0)
    (hbound : cells.length + 1 < 2 ^ 63) {fuel : Nat} {r : StringDictBase × Nat}
    (hadd : add_entry A fuel t k
      ((probe_index t.mask (to_uhash k.hash &&& t.mask) n : Nat) : Int) v = some r) :
    TombInv A K V r.1 (cells ++ [Cell.live k v]) := by
  have hlen := inv.entries_length
  have hidx : ((t.entries ++ [Entry.ofKeyInfo A k v]).length : Int) - 1
      = ((cells.length : Nat) : Int) := by
    rw [List.length_append, hlen]
    simp
  have inv3 : TombInv A K V
      { entries := t.entries ++ [Entry.ofKeyInfo A k v],
        offsets := t.offsets.set (probe_index t.mask (to_uhash k.hash &&& t.mask) n)
          ((cells.length : Nat) : Int),
        mask := t.mask,
        occupied := t.occupied + 1 }
      (cells ++ [Cell.live k v]) := by
    refine ⟨?_, ?_, ?_, ?_, ?_⟩
    · show t.entries ++ [Entry.ofKeyInfo A k v] = _
      rw [List.map_append, inv.entries_eq]
      rfl
    · intro j1 ki w hj1
      by_cases hlt : j1 < cells.length
      · rw [List.getElem?_append_left hlt] at hj1
        exact Chain.set_free hfree hneg _ _ _ (inv.chain j1 ki w hj1)
      · rw [List.getElem?_append_right (by omega)] at hj1
        have hj0 : j1 - cells.length = 0 := by
          by_contra hne
          have : [Cell.live k v][j1 - cells.length]? = none := by
            apply List.getElem?_eq_none
            simp
            omega
          rw [this] at hj1
          simp at hj1
        rw [hj0] at hj1
        simp only [List.getElem?_cons_zero, Option.some.injEq, Cell.live.injEq] at hj1
        obtain ⟨rfl, rfl⟩ := hj1
        have hj1eq : j1 = cells.length := by omega
        subst hj1eq
        exact Chain.of_trace hfree hneg hbefore _ _ _
    · show t.occupied + 1 = _
      rw [live_items_append_live, List.length_append, inv.occupied_eq]
      simp
    · rw [live_items_append_live, List.map_append, List.nodup_append]
      refine ⟨inv.nodup, by simp, ?_⟩
      intro a ha hb
      simp only [List.map_cons, List.map_nil, List.mem_singleton] at hb
      subst hb
      exact habs ha
    · intro ki w hmem
      rcases List.mem_append.1 hmem with hold | hnew
      · exact inv.members ki w hold
      · simp only [List.mem_singleton, Cell.live.injEq] at hnew
        obtain ⟨rfl, rfl⟩ := hnew
        exact ⟨hk, hv⟩
  unfold add_entry at hadd
  simp only [Int.toNat_ofNat, hidx] at hadd
  by_cases hres : reserve_load_factor { t with occupied := t.occupied + 1 } = 0
  · simp only [hres, ne_eq, not_true_eq_false, if_false, Option.some.injEq] at hadd
    rw [← hadd]
    exact inv3
  · simp only [hres, ne_eq, not_false_eq_true, if_true] at hadd
    cases hgrow : grow fuel
        { entries := t.entries ++ [Entry.ofKeyInfo A k v],
          offsets := t.offsets.set (probe_index t.mask (to_uhash k.hash &&& t.mask) n)
            ((cells.length : Nat) : Int),
          mask := t.mask,
          occupied := t.occupied + 1 } with
    | none => simp [hgrow] at hadd
    | some t4 =>
      simp only [hgrow, Option.some.injEq] at hadd
      rw [← hadd]
      have hocc := inv.occupied_eq
      have hle := live_items_length_le cells
      refine inv3.grow_step ?_ ?_ hgrow
      · show 0 ≤ t.occupied + 1
        omega
      · show t.occupied + 1 < 2 ^ 63
        omega

theorem TombInv.set_fresh_step {A : Nat} {K : List KeyInfo} {V : List Nat}
    {t : StringDictBase} {cells : List Cell} (inv : TombInv A K V t cells)
    (hcan : content_views A K V) {k : KeyInfo} {v : Nat} (hk : k ∈ K) (hv : v ∈ V)
    (hbound : cells.length + 1 < 2 ^ 63) {fuel : Nat} {r : StringDict × PyResult Nat}
    (hland : lands_in_empty_slot A fuel t k = false)
    (hset : StringDict.set A fuel t k v false = some r) :
    ∃ cells1, TombInv A K V r.1 cells1
      ∧ live_items cells1 = spec_set (live_items cells) k v
      ∧ cells1.length ≤ cells.length + 1 := by
  unfold StringDict.set at hset
  cases hfi : find_insertion A fuel t k with
  | none => simp [hfi] at hset
  | some res =>
    have hloop : visit_with_hash_loop t.mask (find_insertion_pred A t k) fuel (-1, none)
        (to_uhash k.hash &&& t.mask) (to_uhash k.hash) = some res := hfi
    by_cases hpres : k.spec_key ∈ (live_items cells).map (fun kv => kv.1.spec_key)
    · -- the key is present: its value is replaced in place
      obtain ⟨j, a, v0, hj, hak⟩ := spec_key_mem_live_items.1 hpres
      obtain ⟨n, hat, hbefore⟩ := inv.chain j a v0 hj
      have hhash : a.hash = k.hash :=
        hcan.2.2 a (inv.members a v0 (List.mem_iff_getElem?.2 ⟨j, hj⟩)).1 k hk hak
      rw [hhash] at hat hbefore
      have hr2 := inv.find_insertion_hit hcan hj hak hk n _ fuel _ _ res hat hbefore hloop
      obtain ⟨i, found⟩ := res
      simp only at hr2
      subst hr2
      simp only [hfi, assign_entry, inv.entry_of_cell hj, Cell.live_is_empty,
        Bool.false_eq_true, if_false, Option.some.injEq] at hset
      rw [← hset]
      refine ⟨cells.set j (Cell.live a v), inv.set_value_step hcan hj hv, ?_, by simp⟩
      rw [live_items_set_live cells j a k v0 v hj hak inv.nodup]
      simp [spec_set, hpres]
    · -- the key is absent: it is appended
      rcases inv.find_insertion_miss hcan hk hpres fuel _ _ _ res rfl hloop with
        ⟨n, o, hr, hfree, hneg, hbefore⟩ | ⟨j1, h1, hr2, hdead⟩
      · subst hr
        simp only [hfi] at hset
        cases hadd : add_entry A fuel t k
            ((probe_index t.mask (to_uhash k.hash &&& t.mask) n : Nat) : Int) v with
        | none => simp [hadd] at hset
        | some r1 =>
          have inv1 := inv.add_entry_step hk hv hpres hfree hneg hbefore hbound hadd
          simp only [hadd] at hset
          cases hent : r1.1.entries[r1.2]? with
          | none => simp [hent] at hset
          | some e =>
            simp only [hent, Option.map_some', Option.some.injEq] at hset
            rw [← hset]
            refine ⟨cells ++ [Cell.live k v], inv1, ?_, by simp⟩
            rw [live_items_append_live]
            simp [spec_set, hpres]
      · exfalso
        obtain ⟨i, found⟩ := res
        simp only at hr2
        subst hr2
        simp [lands_in_empty_slot, hfi, inv.entry_of_cell hdead, Cell.dead_is_empty] at hland

theorem TombInv.remove_op_step {A : Nat} {K : List KeyInfo} {V : List Nat}
    {t : StringDictBase} {cells : List Cell} (inv : TombInv A K V t cells)
    (hcan : content_views A K V) {k : KeyInfo} (hk : k ∈ K) {fuel : Nat}
    {r : StringDict × PyResult Unit} (hrem : StringDict.remove A fuel t k = some r) :
    ∃ cells1, TombInv A K V r.1 cells1
      ∧ live_items cells1 = spec_remove (live_items cells) k
      ∧ cells1.length = cells.length := by
  unfold StringDict.remove at hrem
  cases hfe : find_existing A fuel t k with
  | none => simp [hfe] at hrem
  | some res =>
    have hloop : visit_with_hash_loop t.mask (find_existing_pred A t k) fuel (-1, none)
        (to_uhash k.hash &&& t.mask) (to_uhash k.hash) = some res := hfe
    by_cases hpres : k.spec_key ∈ (live_items cells).map (fun kv => kv.1.spec_key)
    · obtain ⟨j, a, v0, hj, hak⟩ := spec_key_mem_live_items.1 hpres
      obtain ⟨n, hat, hbefore⟩ := inv.chain j a v0 hj
      have hhash : a.hash = k.hash :=
        hcan.2.2 a (inv.members a v0 (List.mem_iff_getElem?.2 ⟨j, hj⟩)).1 k hk hak
      rw [hhash] at hat hbefore
      have hr2 := inv.find_existing_hit hcan hj hak hk n _ fuel _ _ res hat hbefore hloop
      obtain ⟨i, found⟩ := res
      simp only at hr2
      subst hr2
      simp only [hfe, remove_entry, inv.entry_of_cell hj, Option.map_some',
        Option.some.injEq] at hrem
      rw [← hrem]
      exact ⟨cells.set j (Cell.dead a.hash), inv.remove_step hj,
        live_items_set_dead cells j a k v0 a.hash hj hak inv.nodup, by simp⟩
    · have hr2 := inv.find_existing_miss hcan hk hpres fuel _ _ _ res rfl hloop
      obtain ⟨i, found⟩ := res
      simp only at hr2
      subst hr2
      simp only [hfe, Option.some.injEq] at hrem
      rw [← hrem]
      refine ⟨cells, inv, ?_, rfl⟩
      unfold spec_remove
      symm
      rw [List.filter_eq_self]
      intro kv hkv
      simp only [ne_eq, decide_eq_true_eq]
      intro heq
      exact hpres (List.mem_map.2 ⟨kv, hkv, heq⟩)

theorem run_fresh_inv (A fuel : Nat) (K : List KeyInfo) (V : List Nat)
    (hcan : content_views A K V) :
    ∀ (ops : List Op) (t : StringDictBase) (cells : List Cell) (t1 : StringDictBase),
      TombInv A K V t cells → (∀ k ∈ op_keys ops, k ∈ K) → (∀ v ∈ op_values ops, v ∈ V) →
      cells.length + ops.length < 2 ^ 63 →
      run_ops_fresh A fuel ops t = some t1 →
      run_ops A fuel ops t = some t1
        ∧ ∃ cells1, TombInv A K V t1 cells1
          ∧ live_items cells1 = spec_items (live_items cells) ops
          ∧ cells1.length ≤ cells.length + ops.length := by
  intro ops
  induction ops with
  | nil =>
    intro t cells t1 inv _ _ _ hrun
    simp only [run_ops_fresh, Option.some.injEq] at hrun
    subst hrun
    exact ⟨rfl, cells, inv, rfl, by simp⟩
  | cons op rest ih =>
    intro t cells t1 inv hK hV hbound hrun
    simp only [List.length_cons] at hbound
    cases op with
    | set k v =>
      simp only [run_ops_fresh] at hrun
      have hk : k ∈ K := hK k (by simp [op_keys])
      have hv : v ∈ V := hV v (by simp [op_values])
      by_cases hland : lands_in_empty_slot A fuel t k = true
      · simp [hland] at hrun
      · simp only [hland, Bool.false_eq_true, if_false] at hrun
        cases hset : StringDict.set A fuel t k v false with
        | none => simp [hset] at hrun
        | some r =>
          simp only [hset] at hrun
          obtain ⟨cells1, inv1, hlive, hlen1⟩ :=
            inv.set_fresh_step hcan hk hv (by omega) (by simpa using hland) hset
          obtain ⟨hrun1, cells2, inv2, hlive2, hlen2⟩ := ih r.1 cells1 t1 inv1
            (fun k1 h1 => hK k1 (by simp [op_keys, h1]))
            (fun v1 h1 => hV v1 (by simp [op_values, h1])) (by omega) hrun
          refine ⟨?_, cells2, inv2, ?_, by simp only [List.length_cons]; omega⟩
          · simp only [run_ops, apply_op, hset, Option.map_some']
            exact hrun1
          · rw [hlive2, hlive]
            rfl
    | remove k =>
      simp only [run_ops_fresh] at hrun
      have hk : k ∈ K := hK k (by simp [op_keys])
      cases hrem : StringDict.remove A fuel t k with
      | none => simp [hrem] at hrun
      | some r =>
        simp only [hrem] at hrun
        obtain ⟨cells1, inv1, hlive, hlen1⟩ := inv.remove_op_step hcan hk hrem
        obtain ⟨hrun1, cells2, inv2, hlive2, hlen2⟩ := ih r.1 cells1 t1 inv1
          (fun k1 h1 => hK k1 (by simp [op_keys, h1]))
          (fun v1 h1 => hV v1 (by simpa [op_values] using h1)) (by omega) hrun
        refine ⟨?_, cells2, inv2, ?_, by simp only [List.length_cons]; omega⟩
        · simp only [run_ops, apply_op, hrem, Option.map_some']
          exact hrun1
        · rw [hlive2, hlive]
          rfl
    | setdefault k v => simp [run_ops_fresh] at hrun
    | pop k d => simp [run_ops_fresh] at hrun
    | popitem => simp [run_ops_fresh] at hrun
    | clear => simp [run_ops_fresh] at hrun

/-! ### `keys()` of a table with Empty slots -/

theorem visit_loop_skip_empty {σ : Type} (visit : σ → Entry → σ × Bool) (n : Nat) (e : Entry)
    (l : List Entry) (s : σ) (he : e.is_empty = true) :
    visit_nonempty_entries_loop visit n (e :: l) s = visit_nonempty_entries_loop visit n l s := by
  cases n with
  | zero => rfl
  | succ n => simp only [visit_nonempty_entries_loop, List.dropWhile_cons_of_pos he]

theorem visit_loop_cells (A : Nat) :
    ∀ (cells : List Cell) (acc : List KeyObject),
      visit_nonempty_entries_loop (make_itemlist_visit (Entry.get_key A))
          (live_items cells).length (cells.map (Cell.entry A)) (some acc)
        = some (some (acc ++ (live_items cells).map
            (fun kv => Entry_Key A (Entry_FromKeyInfo A kv.1 kv.2))), false) := by
  intro cells
  induction cells with
  | nil => intro acc; simp [live_items, visit_nonempty_entries_loop]
  | cons c rest ih =>
    intro acc
    cases c with
    | dead h =>
      have h1 : live_items (Cell.dead h :: rest) = live_items rest := rfl
      rw [h1, List.map_cons, visit_loop_skip_empty _ _ _ _ _ (Cell.dead_is_empty A h)]
      exact ih acc
    | live k v =>
      have h1 : live_items (Cell.live k v :: rest) = (k, v) :: live_items rest := rfl
      rw [h1]
      simp only [List.length_cons, List.map_cons, visit_nonempty_entries_loop]
      rw [List.dropWhile_cons_of_neg (by simp [Cell.live_is_empty])]
      simp only [make_itemlist_visit, Entry.get_key, Cell.entry, Entry.ofKeyInfo,
        Option.map_some', Bool.false_eq_true, if_false]
      have := ih (acc ++ [Entry_Key A (Entry_FromKeyInfo A k v)])
      simp only [List.append_assoc, List.singleton_append] at this
      exact this

theorem TombInv.keys_eq {A : Nat} {K : List KeyInfo} {V : List Nat}
    {t : StringDictBase} {cells : List Cell} (inv : TombInv A K V t cells)
    (hwf : ∀ k ∈ K, k.well_formed A) (hlen : cells.length < 2 ^ 63) :
    StringDict.get_keys A t
      = some (PyResult.ok ((live_items cells).map (fun kv => kv.1.object))) := by
  have hle := live_items_length_le cells
  have hsize : t.size = (live_items cells).length := by
    unfold StringDictBase.size to_size_t
    rw [inv.occupied_eq]
    simp
  have hss : to_ssize_t (live_items cells).length = ((live_items cells).length : Int) := by
    unfold to_ssize_t
    rw [if_pos (by omega)]
  have hobj : (live_items cells).map (fun kv => Entry_Key A (Entry_FromKeyInfo A kv.1 kv.2))
      = (live_items cells).map (fun kv => kv.1.object) := by
    apply List.map_congr_left
    intro kv hkv
    have hmem := (inv.members kv.1 kv.2 (mem_live_items.1 hkv)).1
    exact Entry_Key_FromKeyInfo A kv.1 kv.2 (hwf kv.1 hmem)
  unfold StringDict.get_keys StringDict.make_itemlist visit_nonempty_entries
  rw [hsize, hss]
  simp only [Int.toNat_ofNat, inv.entries_eq]
  have hnn : ¬ (((live_items cells).length : Int) < 0) := by omega
  simp only [hnn, if_false]
  by_cases h0 : (live_items cells).length = 0
  · have : live_items cells = [] := List.length_eq_zero.1 h0
    simp [h0, this]
  · simp only [h0, if_false, visit_loop_cells A cells [], hobj]
    simp

theorem TombInv.of_empty (A : Nat) (K : List KeyInfo) (V : List Nat) :
    TombInv A K V StringDictBase.new [] :=
  { entries_eq := rfl
    chain := by intro j ki v h; simp at h
    occupied_eq := rfl
    nodup := by simp [live_items]
    members := by intro ki v h; simp at h }

/-! ### Copies -/

theorem make_copy_loop_eq : ∀ (ents acc : List Entry),
    make_copy_loop ents acc
      = (acc ++ ents.map (fun e => if e.is_empty then { entry_ := none, hash_ := -1 } else e),
          true) := by
  intro ents
  induction ents with
  | nil => intro acc; simp [make_copy_loop]
  | cons e rest ih =>
    intro acc
    obtain ⟨s, h⟩ := e
    cases s with
    | none => simp [make_copy_loop, Entry.make_copy, Entry.is_empty, ih]
    | some s => simp [make_copy_loop, Entry.make_copy, Entry_Copy, Entry.is_empty, Entry.hash, ih]

theorem strdict_copy_eq (t : StringDict) :
    strdict_copy t = PyResult.ok
      { entries := t.entries.map
          (fun e => if e.is_empty then { entry_ := none, hash_ := -1 } else e),
        offsets := t.offsets, mask := t.mask, occupied := t.occupied } := by
  simp [strdict_copy, StringDict.make_copy, make_copy_loop_eq, StringDictBase.new]

/-! ### What growth and the storing calls leave unchanged -/

theorem grow_relocate_from_frame (fuel : Nat) :
    ∀ (rest : List Entry) (j : Nat) (t t1 : StringDictBase),
      grow_relocate_from fuel rest j t = some t1 →
      t1.entries = t.entries ∧ t1.mask = t.mask ∧ t1.occupied = t.occupied
        ∧ t1.offsets.length = t.offsets.length := by
  intro rest
  induction rest with
  | nil =>
    intro j t t1 h
    simp only [grow_relocate_from, Option.some.injEq] at h
    subst h
    exact ⟨rfl, rfl, rfl, rfl⟩
  | cons ent rest ih =>
    intro j t t1 h
    simp only [grow_relocate_from] at h
    cases hstep : grow_relocate_entry fuel t ent j with
    | none => simp [hstep] at h
    | some t2 =>
      simp only [hstep] at h
      obtain ⟨h1, h2, h3, h4⟩ := ih (j + 1) t2 t1 h
      unfold grow_relocate_entry at hstep
      cases hv : visit_with_hash fuel t ent.hash (grow_relocate_pred t) (-1) with
      | none => simp [hv] at hstep
      | some idx =>
        simp only [hv, Option.some.injEq] at hstep
        subst hstep
        exact ⟨h1, h2, h3, by simpa using h4⟩

theorem grow_remove_empty_entries_frame (t : StringDictBase) :
    (grow_remove_empty_entries t).offsets = t.offsets
      ∧ (grow_remove_empty_entries t).occupied = t.occupied
      ∧ ∀ e ∈ (grow_remove_empty_entries t).entries, e ∈ t.entries := by
  unfold grow_remove_empty_entries
  by_cases h : t.occupied = to_ssize_t t.size
  · rw [if_pos h]
    exact ⟨rfl, rfl, fun e he => he⟩
  · rw [if_neg h]
    exact ⟨rfl, rfl, fun e he => (List.mem_filter.1 he).1⟩

theorem grow_frame {fuel : Nat} {t t1 : StringDictBase} (h : grow fuel t = some t1) :
    t1.offsets.length = 2 * t.offsets.length ∧ t1.occupied = t.occupied
      ∧ ∀ e ∈ t1.entries, e ∈ t.entries := by
  unfold grow at h
  simp only [] at h
  obtain ⟨h1, _, h3, h4⟩ := grow_relocate_from_frame fuel _ _ _ _ h
  obtain ⟨g1, g2, g3⟩ := grow_remove_empty_entries_frame
    { t with offsets := List.replicate (t.offsets.length * 2) (-1),
             mask := (t.mask <<< 1) ||| 1 }
  rw [g1] at h4
  rw [g2] at h3
  simp only [List.length_replicate] at h4
  refine ⟨by omega, h3, ?_⟩
  intro e he
  rw [h1] at he
  exact g3 e he

theorem reserve_load_factor_cases (t : StringDictBase) :
    (reserve_load_factor t = 0 ∧ t.occupied * 1000 < 667 * (t.offsets.length : Int))
      ∨ (reserve_load_factor t ≠ 0 ∧ 667 * (t.offsets.length : Int) ≤ t.occupied * 1000) := by
  unfold reserve_load_factor
  by_cases h : t.occupied * 1000 ≥ 667 * (t.offsets.length : Int)
  · right
    refine ⟨?_, h⟩
    simp [h]
  · left
    refine ⟨?_, by omega⟩
    simp [h]

theorem add_entry_frame {A fuel : Nat} {t t1 : StringDictBase} {ki : KeyInfo} {idx : Int}
    {v j : Nat} (h : add_entry A fuel t ki idx v = some (t1, j)) :
    StoresKey t t1 ∧ ∀ e ∈ t1.entries, FromSet A t ki v e := by
  unfold add_entry at h
  simp only [] at h
  rcases reserve_load_factor_cases { t with occupied := t.occupied + 1 } with ⟨hr, hl⟩ | ⟨hr, hl⟩
  · simp only [hr, ne_eq, not_true_eq_false, if_false, Option.some.injEq, Prod.mk.injEq] at h
    obtain ⟨h, _⟩ := h
    subst h
    refine ⟨⟨rfl, Or.inl ⟨by simp, hl⟩⟩, ?_⟩
    intro e he
    rcases List.mem_append.1 he with h1 | h1
    · exact Or.inl h1
    · exact Or.inr (Or.inr (by simpa using h1))
  · simp only [hr, ne_eq, not_false_eq_true, if_true] at h
    split at h
    · simp at h
    · rename_i t4 hg
      simp only [Option.some.injEq, Prod.mk.injEq] at h
      obtain ⟨h, _⟩ := h
      subst h
      obtain ⟨g1, g2, g3⟩ := grow_frame hg
      refine ⟨⟨g2, Or.inr ⟨by simpa using g1, hl⟩⟩, ?_⟩
      intro e he
      rcases List.mem_append.1 (g3 e he) with h1 | h1
      · exact Or.inl h1
      · exact Or.inr (Or.inr (by simpa using h1))

theorem assign_entry_frame {A fuel : Nat} {t t1 : StringDictBase} {ki : KeyInfo}
    {ent v : Nat} (h : assign_entry A fuel t ki ent v = some t1) :
    (StoresKey t t1 ∨ (t1.occupied = t.occupied ∧ t1.offsets.length = t.offsets.length))
      ∧ ∀ e ∈ t1.entries, FromSet A t ki v e := by
  unfold assign_entry at h
  cases he : t.entries[ent]? with
  | none => simp [he] at h
  | some e0 =>
    simp only [he] at h
    by_cases hemp : e0.is_empty = true
    · simp only [hemp, if_true] at h
      rcases reserve_load_factor_cases { t with occupied := t.occupied + 1 } with
        ⟨hr, hl⟩ | ⟨hr, hl⟩
      · simp only [hr, ne_eq, not_true_eq_false, if_false] at h
        split at h
        · simp at h
        · rename_i e2 _
          simp only [Option.some.injEq] at h
          subst h
          refine ⟨Or.inl ⟨rfl, Or.inl ⟨rfl, hl⟩⟩, ?_⟩
          intro e hmem
          rcases List.mem_or_eq_of_mem_set hmem with h1 | h1
          · exact Or.inl h1
          · exact Or.inr (Or.inr h1)
      · simp only [hr, ne_eq, not_false_eq_true, if_true] at h
        cases hg : grow fuel { t with occupied := t.occupied + 1 } with
        | none => simp [hg] at h
        | some t2 =>
          simp only [hg] at h
          obtain ⟨g1, g2, g3⟩ := grow_frame hg
          split at h
          · simp at h
          · rename_i e2 _
            simp only [Option.some.injEq] at h
            subst h
            refine ⟨Or.inl ⟨g2, Or.inr ⟨g1, hl⟩⟩, ?_⟩
            intro e hmem
            rcases List.mem_or_eq_of_mem_set hmem with h1 | h1
            · exact Or.inl (g3 e h1)
            · exact Or.inr (Or.inr h1)
    · simp only [hemp, Bool.false_eq_true, if_false, Option.some.injEq] at h
      subst h
      refine ⟨Or.inr ⟨rfl, by simp⟩, ?_⟩
      intro e hmem
      rcases List.mem_or_eq_of_mem_set hmem with h1 | h1
      · exact Or.inl h1
      · exact Or.inr (Or.inl ⟨e0, List.mem_iff_getElem?.2 ⟨ent, he⟩, h1⟩)

theorem try_assign_entry_frame {A : Nat} {t t1 : StringDictBase} {ki : KeyInfo}
    {ent v : Nat} {b : Bool} (h : try_assign_entry A t ki ent v = some (t1, b)) :
    t1.occupied = t.occupied ∧ t1.offsets.length = t.offsets.length
      ∧ ∀ e ∈ t1.entries, FromSet A t ki v e := by
  unfold try_assign_entry at h
  cases he : t.entries[ent]? with
  | none => simp [he] at h
  | some e0 =>
    simp only [he] at h
    by_cases hemp : e0.is_empty = true
    · simp only [hemp, if_true, Option.some.injEq, Prod.mk.injEq] at h
      obtain ⟨h, _⟩ := h
      subst h
      refine ⟨rfl, rfl, ?_⟩
      intro e hmem
      rcases List.mem_or_eq_of_mem_set hmem with h1 | h1
      · exact Or.inl h1
      · exact Or.inr (Or.inr h1)
    · simp only [hemp, Bool.false_eq_true, if_false, Option.some.injEq, Prod.mk.injEq] at h
      obtain ⟨h, _⟩ := h
      subst h
      exact ⟨rfl, rfl, fun e hmem => Or.inl hmem⟩

theorem set_frame {A fuel : Nat} {t : StringDict} {ki : KeyInfo} {v : Nat} {sd : Bool}
    {r : StringDict × PyResult Nat} (h : StringDict.set A fuel t ki v sd = some r) :
    (StoresKey t r.1 ∨ (r.1.occupied = t.occupied ∧ r.1.offsets.length = t.offsets.length))
      ∧ ∀ e ∈ r.1.entries, FromSet A t ki v e := by
  unfold StringDict.set at h
  cases hf : find_insertion A fuel t ki with
  | none => simp [hf] at h
  | some p =>
    obtain ⟨idx, found⟩ := p
    cases found with
    | none =>
      simp only [hf] at h
      cases ha : add_entry A fuel t ki idx v with
      | none => simp [ha] at h
      | some q =>
        obtain ⟨t1, j⟩ := q
        simp only [ha, Option.map_eq_some'] at h
        obtain ⟨_, _, rfl⟩ := h
        obtain ⟨h1, h2⟩ := add_entry_frame ha
        exact ⟨Or.inl h1, h2⟩
    | some ent =>
      simp only [hf] at h
      cases sd with
      | true =>
        simp only [if_true] at h
        cases ha : try_assign_entry A t ki ent v with
        | none => simp [ha] at h
        | some q =>
          obtain ⟨t1, b⟩ := q
          obtain ⟨h1, h2, h3⟩ := try_assign_entry_frame ha
          cases b with
          | true =>
            simp only [ha, Option.some.injEq] at h
            subst h
            exact ⟨Or.inr ⟨h1, h2⟩, h3⟩
          | false =>
            simp only [ha, Option.map_eq_some'] at h
            obtain ⟨_, _, rfl⟩ := h
            exact ⟨Or.inr ⟨h1, h2⟩, h3⟩
      | false =>
        simp only [Bool.false_eq_true, if_false] at h
        cases ha : assign_entry A fuel t ki ent v with
        | none => simp [ha] at h
        | some t1 =>
          simp only [ha, Option.some.injEq] at h
          subst h
          exact assign_entry_frame ha

theorem remove_entry_frame {t t1 : StringDictBase} {ent : Nat}
    (h : remove_entry t ent = some t1) :
    t1.occupied = t.occupied - 1 ∧ t1.offsets = t.offsets := by
  unfold remove_entry at h
  cases he : t.entries[ent]? with
  | none => simp [he] at h
  | some e =>
    simp only [he, Option.some.injEq] at h
    subst h
    exact ⟨rfl, rfl⟩

/-! ### The load factor after a call -/

theorem set_load {A fuel : Nat} {t : StringDict} {ki : KeyInfo} {v : Nat} {sd : Bool}
    {r : StringDict × PyResult Nat} (h : StringDict.set A fuel t ki v sd = some r)
    (hl : t.occupied * 1000 < 667 * (t.offsets.length : Int)) (h8 : 8 ≤ t.offsets.length) :
    r.1.occupied * 1000 < 667 * (r.1.offsets.length : Int) ∧ 8 ≤ r.1.offsets.length := by
  rcases (set_frame h).1 with ⟨ho, ⟨hlen, hlow⟩ | ⟨hlen, _⟩⟩ | ⟨ho, hlen⟩
  · rw [ho, hlen]
    exact ⟨hlow, h8⟩
  · rw [ho, hlen]
    refine ⟨?_, by omega⟩
    push_cast
    omega
  · rw [ho, hlen]
    exact ⟨hl, h8⟩

theorem apply_op_load {A fuel : Nat} {t t1 : StringDict} {op : Op}
    (h : apply_op A fuel t op = some t1)
    (hl : t.occupied * 1000 < 667 * (t.offsets.length : Int)) (h8 : 8 ≤ t.offsets.length) :
    t1.occupied * 1000 < 667 * (t1.offsets.length : Int) ∧ 8 ≤ t1.offsets.length := by
  cases op with
  | set ki v =>
    simp only [apply_op, Option.map_eq_some'] at h
    obtain ⟨r, hr, rfl⟩ := h
    exact set_load hr hl h8
  | setdefault ki v =>
    simp only [apply_op, Option.map_eq_some'] at h
    obtain ⟨r, hr, rfl⟩ := h
    exact set_load hr hl h8
  | remove ki =>
    simp only [apply_op, Option.map_eq_some'] at h
    obtain ⟨r, hr, rfl⟩ := h
    unfold StringDict.remove at hr
    split at hr
    · simp at hr
    · simp only [Option.some.injEq] at hr
      subst hr
      exact ⟨hl, h8⟩
    · simp only [Option.map_eq_some'] at hr
      obtain ⟨t2, ht2, rfl⟩ := hr
      obtain ⟨g1, g2⟩ := remove_entry_frame ht2
      simp only [g1, g2]
      exact ⟨by omega, h8⟩
  | pop ki d =>
    simp only [apply_op, Option.map_eq_some'] at h
    obtain ⟨r, hr, rfl⟩ := h
    unfold StringDict.pop at hr
    split at hr
    · split at hr <;>
      · simp only [Option.some.injEq] at hr
        subst hr
        exact ⟨hl, h8⟩
    · split at hr
      · simp at hr
      · split at hr
        · rename_i t2 _ ht2
          simp only [Option.some.injEq] at hr
          subst hr
          obtain ⟨g1, g2⟩ := remove_entry_frame ht2
          simp only [g1, g2]
          exact ⟨by omega, h8⟩
        · simp at hr
      · split at hr <;>
        · simp only [Option.some.injEq] at hr
          subst hr
          exact ⟨hl, h8⟩
  | popitem =>
    simp only [apply_op, Option.map_eq_some'] at h
    obtain ⟨r, hr, rfl⟩ := h
    unfold StringDict.popitem at hr
    split at hr
    · simp only [Option.some.injEq] at hr
      subst hr
      exact ⟨hl, h8⟩
    · simp only [] at hr
      split at hr
      · simp at hr
      · split at hr
        · rename_i t2 _ ht2
          simp only [Option.some.injEq] at hr
          subst hr
          obtain ⟨g1, g2⟩ := remove_entry_frame ht2
          simp only [g1, g2]
          exact ⟨by omega, h8⟩
        · simp at hr
  | clear =>
    simp only [apply_op, Option.some.injEq] at h
    subst h
    unfold StringDictBase.clear
    split
    · exact ⟨hl, h8⟩
    · exact ⟨by decide, by decide⟩

theorem run_ops_load (A fuel : Nat) :
    ∀ (ops : List Op) (t t1 : StringDict), run_ops A fuel ops t = some t1 →
      t.occupied * 1000 < 667 * (t.offsets.length : Int) → 8 ≤ t.offsets.length →
      t1.occupied * 1000 < 667 * (t1.offsets.length : Int) ∧ 8 ≤ t1.offsets.length := by
  intro ops
  induction ops with
  | nil =>
    intro t t1 h hl h8
    simp only [run_ops, Option.some.injEq] at h
    subst h
    exact ⟨hl, h8⟩
  | cons op rest ih =>
    intro t t1 h hl h8
    simp only [run_ops] at h
    cases hop : apply_op A fuel t op with
    | none => simp [hop] at h
    | some t2 =>
      simp only [hop] at h
      obtain ⟨g1, g2⟩ := apply_op_load hop hl h8
      exact ih t2 t1 h g1 g2

/-! ### Growth happens no earlier than the threshold -/

theorem set_calls_late_growth (A fuel : Nat) :
    ∀ (kvs : List (KeyInfo × Nat)) (t t1 : StringDict),
      run_ops A fuel (set_calls kvs) t = some t1 →
      (t.offsets.length = 8 ∨ 667 * (t.offsets.length : Int) ≤ 2000 * t.occupied) →
      (t1.offsets.length = 8 ∨ 667 * (t1.offsets.length : Int) ≤ 2000 * t1.occupied) := by
  intro kvs
  induction kvs with
  | nil =>
    intro t t1 h hg
    simp only [set_calls, List.map_nil, run_ops, Option.some.injEq] at h
    subst h
    exact hg
  | cons kv rest ih =>
    intro t t1 h hg
    simp only [set_calls, List.map_cons, run_ops, apply_op] at h
    cases hs : StringDict.set A fuel t kv.1 kv.2 false with
    | none => simp [hs] at h
    | some r =>
      simp only [hs, Option.map_some'] at h
      apply ih r.1 t1 h
      rcases (set_frame hs).1 with ⟨ho, ⟨hlen, _⟩ | ⟨hlen, hhigh⟩⟩ | ⟨ho, hlen⟩
      · rw [ho, hlen]
        rcases hg with hg | hg
        · exact Or.inl hg
        · exact Or.inr (by omega)
      · rw [ho, hlen]
        right
        push_cast
        omega
      · rw [ho, hlen]
        exact hg

theorem load_pairs_length : load_pairs.length = 2731 := by
  simp [load_pairs]

theorem load_pairs_pairwise (A : Nat) :
    load_pairs.Pairwise (fun a b => (Entry.ofKeyInfo A a.1 a.2).matches A b.1 = false) := by
  unfold load_pairs
  rw [List.pairwise_map]
  apply List.Pairwise.imp _ (List.pairwise_lt_range 2731)
  intro i j hij
  have hne : ¬ ((i : Int) = (j : Int)) := by omega
  simp [Entry.matches, Entry.ofKeyInfo, load_key, hne]

/-! ### The bytes of the length header -/

theorem leb128_byte_lt : ∀ low, low < 128 → ∀ c, c < 2 → (low ||| (c <<< 7)) < 256 := by
  decide

theorem leb128_encode_loop_spec :
    ∀ (f v : Nat), v < 2 ^ (7 * (f + 1)) →
      1 ≤ (leb128_encode_loop (f + 1) v).length
      ∧ v < 2 ^ (7 * (leb128_encode_loop (f + 1) v).length)
      ∧ (1 < (leb128_encode_loop (f + 1) v).length →
          2 ^ (7 * ((leb128_encode_loop (f + 1) v).length - 1)) ≤ v)
      ∧ ∀ j, j < (leb128_encode_loop (f + 1) v).length →
          (leb128_encode_loop (f + 1) v)[j]?
            = some (((v >>> (7 * j)) &&& 0x7f)
                ||| ((if j + 1 < (leb128_encode_loop (f + 1) v).length then 1 else 0) <<< 7)) := by
  intro f
  induction f with
  | zero =>
    intro v hv
    have hv128 : v < 128 := by simpa using hv
    have hv7 : v >>> 7 = 0 := by
      rw [Nat.shiftRight_eq_div_pow]
      exact Nat.div_eq_of_lt hv128
    have hl : leb128_encode_loop (0 + 1) v = [(v &&& 0x7f) ||| (0 <<< 7)] := by
      simp [leb128_encode_loop, hv7]
    rw [hl]
    refine ⟨by simp, by simpa using hv128, by simp, ?_⟩
    intro j hj
    have hj0 : j = 0 := by simpa using hj
    subst hj0
    simp
  | succ f ih =>
    intro v hv
    by_cases hz : v >>> 7 = 0
    · have hv128 : v < 128 := by
        rw [Nat.shiftRight_eq_div_pow] at hz
        have := (Nat.div_eq_zero_iff (by norm_num : 0 < 2 ^ 7)).1 hz
        simpa using this
      have hl : leb128_encode_loop (f + 1 + 1) v = [(v &&& 0x7f) ||| (0 <<< 7)] := by
        simp [leb128_encode_loop, hz]
      rw [hl]
      refine ⟨by simp, by simpa using hv128, by simp, ?_⟩
      intro j hj
      have hj0 : j = 0 := by simpa using hj
      subst hj0
      simp
    · have hv7 : v >>> 7 = v / 128 := by rw [Nat.shiftRight_eq_div_pow]
      have hl : leb128_encode_loop (f + 1 + 1) v
          = ((v &&& 0x7f) ||| (1 <<< 7)) :: leb128_encode_loop (f + 1) (v >>> 7) := by
        conv_lhs => unfold leb128_encode_loop
        simp [hz]
      have hv' : v >>> 7 < 2 ^ (7 * (f + 1)) := by
        rw [hv7, Nat.div_lt_iff_lt_mul (by norm_num)]
        calc v < 2 ^ (7 * (f + 1 + 1)) := hv
          _ = 2 ^ (7 * (f + 1)) * 128 := by
            rw [show 7 * (f + 1 + 1) = 7 * (f + 1) + 7 by ring, pow_add]
            norm_num
      obtain ⟨h1, h2, h3, h4⟩ := ih (v >>> 7) hv'
      rw [hl]
      generalize leb128_encode_loop (f + 1) (v >>> 7) = l at h1 h2 h3 h4
      have hge : 128 ≤ v := by
        by_contra hc
        apply hz
        rw [hv7]
        exact Nat.div_eq_of_lt (by omega)
      have hpow : ∀ m, 2 ^ (7 * (m + 1)) = 2 ^ (7 * m) * 128 := by
        intro m
        rw [show 7 * (m + 1) = 7 * m + 7 by ring, pow_add]
        norm_num
      refine ⟨by simp, ?_, ?_, ?_⟩
      · rw [List.length_cons, hpow]
        rw [hv7] at h2
        have := (Nat.div_lt_iff_lt_mul (by norm_num : 0 < 128)).1 h2
        exact this
      · intro _
        simp only [List.length_cons, Nat.add_sub_cancel]
        by_cases hone : l.length = 1
        · rw [hone]
          simpa using hge
        · have h5 := h3 (by omega)
          obtain ⟨m, hm⟩ : ∃ m, l.length = m + 1 := ⟨l.length - 1, by omega⟩
          rw [hm] at h5 ⊢
          rw [Nat.add_sub_cancel, hv7] at h5
          rw [hpow]
          have := (Nat.le_div_iff_mul_le (by norm_num : 0 < 128)).1 h5
          exact this
      · intro j hj
        cases j with
        | zero =>
          have hpos : 0 < l.length := by omega
          simp [hpos]
        | succ j =>
          simp only [List.length_cons, Nat.add_lt_add_iff_right] at hj
          rw [List.getElem?_cons_succ, h4 j hj]
          have hs : v >>> (7 * (j + 1)) = (v >>> 7) >>> (7 * j) := by
            rw [show 7 * (j + 1) = 7 + 7 * j by ring, Nat.shiftRight_add]
          simp only [List.length_cons, Nat.add_lt_add_iff_right, hs]

/-! ### Byte-string views of the same bytes -/

theorem Entry_Kind_FromKeyInfo_bytes (A : Nat) (ki : KeyInfo) (v : Nat)
    (hk : PYOBJECT_MASKED_ A ki.key = ki.key) (hv : PYOBJECT_MASKED_ A v = v)
    (hkind : ki.kind = PY_BYTES) :
    Entry_Kind A (Entry_FromKeyInfo A ki v) = PY_BYTES := by
  have h1 : PYOBJECT_TAG_ A ki.key = 0 := tag_of_masked hk
  have h2 : PYOBJECT_TAG_ A v = 0 := tag_of_masked hv
  unfold Entry_Kind
  split
  · rename_i h0
    simp [Entry_FromKeyInfo, h0, hkind, PY_BYTES]
  · simp [Entry_KeyTag, Entry_ValueTag, Entry_FromKeyInfo, h1, h2, PY_BYTES]
  · simp [Entry_KeyTag, Entry_FromKeyInfo, h1, PY_BYTES]
  · simp [Entry_KeyTag, Entry_FromKeyInfo, h1, PY_BYTES]
  · rfl

theorem matches_same_bytes (A : Nat) (ka kb : KeyInfo) (v : Nat)
    (ha : ka.well_formed A) (hv : PYOBJECT_MASKED_ A v = v)
    (hka : ka.kind = PY_BYTES) (hkb : kb.kind = PY_BYTES) (hhash : ka.hash = kb.hash)
    (hsize : ka.data_size = kb.data_size)
    (hdata : ka.data.take ka.data_size = kb.data.take kb.data_size) :
    (Entry.ofKeyInfo A ka v).matches A kb = true := by
  obtain ⟨hmask, _, hlt, hlen⟩ := ha
  have hitem : DataKind_ItemSize PY_BYTES = 1 := rfl
  rw [hka, hitem, Nat.mul_one] at hlen
  have hkind := Entry_Kind_FromKeyInfo_bytes A ka v hmask hv hka
  have hds := Entry_DataAndSize_FromKeyInfo A ka v (by omega)
  simp only [Entry.matches, Entry.ofKeyInfo, hhash, decide_True, Bool.true_and]
  unfold Entry_Matches
  split
  · rfl
  · simp only [hkind, hkb, ne_eq, not_true_eq_false, if_false, Entry_Data, hds, hitem,
      Nat.mul_one, hsize, hka]
    rw [← hsize, List.take_append_of_le_length (by simp; omega), List.take_take, Nat.min_self,
      hdata, hsize]
    simp

theorem find_existing_congr (A fuel : Nat) (t : StringDictBase) (ka kb : KeyInfo)
    (hhash : ka.hash = kb.hash) (hm : ∀ e ∈ t.entries, e.matches A ka = e.matches A kb) :
    find_existing A fuel t ka = find_existing A fuel t kb := by
  have hpred : find_existing_pred A t ka = find_existing_pred A t kb := by
    funext s idx
    unfold find_existing_pred
    cases ho : t.offsets[idx]? with
    | none => rfl
    | some ofs =>
      simp only []
      by_cases hneg : ofs < 0
      · simp only [hneg, if_true]
      · simp only [hneg, if_false]
        cases he : t.entries[ofs.toNat]? with
        | none => rfl
        | some ent =>
          simp only [hm ent (List.mem_iff_getElem?.2 ⟨_, he⟩)]
  unfold find_existing
  rw [hhash, hpred]

theorem set_keeps_views_together {A fuel : Nat} {t : StringDict} {ka kb ki : KeyInfo}
    {v : Nat} {r : StringDict × PyResult Nat} (hv : PYOBJECT_MASKED_ A v = v)
    (habs : ∀ e ∈ t.entries, e.matches A ka = false ∧ e.matches A kb = false)
    (hnew : (Entry.ofKeyInfo A ki v).matches A ka = (Entry.ofKeyInfo A ki v).matches A kb)
    (h : StringDict.set A fuel t ki v false = some r) :
    ∀ e ∈ r.1.entries, e.matches A ka = e.matches A kb := by
  intro e he
  rcases (set_frame h).2 e he with h1 | ⟨e0, h0, rfl⟩ | rfl
  · rw [(habs e h1).1, (habs e h1).2]
  · rw [Entry.set_value_matches e0 ka hv, Entry.set_value_matches e0 kb hv, (habs e0 h0).1,
      (habs e0 h0).2]
  · exact hnew

/-! ### Growth keeps the entries -/

theorem to_ssize_t_size (x : Int) (h0 : -2 ^ 63 ≤ x) (h1 : x < 2 ^ 63) :
    to_ssize_t (to_size_t x) = x := by
  by_cases hx : 0 ≤ x
  · exact to_ssize_t_to_size_t x hx h1
  · unfold to_ssize_t to_size_t
    rw [if_neg hx]
    have hnn : 0 ≤ x + 2 ^ 64 := by omega
    have hcast : (((x + 2 ^ 64).toNat : Nat) : Int) = x + 2 ^ 64 := Int.toNat_of_nonneg hnn
    have hge : ¬ (x + 2 ^ 64).toNat < 2 ^ 63 := by
      intro hc
      have : (((x + 2 ^ 64).toNat : Nat) : Int) < 2 ^ 63 := by exact_mod_cast hc
      omega
    rw [if_neg hge, hcast]
    omega

theorem grow_remove_empty_entries_id (t : StringDictBase) (h0 : -2 ^ 63 ≤ t.occupied)
    (h1 : t.occupied < 2 ^ 63) : grow_remove_empty_entries t = t := by
  unfold grow_remove_empty_entries StringDictBase.size
  rw [if_pos (to_ssize_t_size t.occupied h0 h1).symm]

/-! ### A table without a free offset -/

theorem all_tombstones_pred (ki : KeyInfo) (s : Int × Option Nat) (idx : Nat) (h : idx < 8) :
    ∃ s1, find_insertion_pred 8 all_tombstones_table ki s idx = some (s1, false) := by
  obtain ⟨a, b⟩ := s
  interval_cases idx <;> cases b <;>
    simp [find_insertion_pred, all_tombstones_table, Entry.is_empty]

theorem all_tombstones_loop (ki : KeyInfo) :
    ∀ (fuel : Nat) (s : Int × Option Nat) (idx p : Nat), idx < 8 →
      visit_with_hash_loop 7 (find_insertion_pred 8 all_tombstones_table ki) fuel s idx p
        = none := by
  intro fuel
  induction fuel with
  | zero => intro s idx p _; rfl
  | succ fuel ih =>
    intro s idx p h
    obtain ⟨s1, hs1⟩ := all_tombstones_pred ki s idx h
    simp only [visit_with_hash_loop, hs1]
    apply ih
    have : (advance_index 7 idx p).1 ≤ 7 := by
      rw [advance_index_fst]
      exact next_index_le 7 idx
    omega

theorem all_tombstones_find_insertion (ki : KeyInfo) (fuel : Nat) :
    find_insertion 8 fuel all_tombstones_table ki = none := by
  unfold find_insertion visit_with_hash
  apply all_tombstones_loop
  have : to_uhash ki.hash &&& 7 ≤ 7 := Nat.and_le_right
  show to_uhash ki.hash &&& 7 < 8
  omega

/-! ### Offsets that refer to every slot once -/

theorem Indexed.of_replicate (m : Nat) : Indexed (List.replicate m (-1)) 0 := by
  refine ⟨?_, ?_, ?_⟩
  · intro o ho
    rw [List.eq_of_mem_replicate ho]
    decide
  · intro i1 i2 o h1 _ h0
    have := List.eq_of_mem_replicate (List.mem_iff_getElem?.2 ⟨i1, h1⟩)
    omega
  · intro j hj
    omega

theorem Indexed.set_at_free {offsets : List Int} {n i : Nat} {o : Int} (h : Indexed offsets n)
    (hi : offsets[i]? = some o) (ho : o < 0) : Indexed (offsets.set i (n : Int)) (n + 1) := by
  obtain ⟨hr, hinj, hsurj⟩ := h
  have hlt : i < offsets.length := (List.getElem?_eq_some.1 hi).1
  refine ⟨?_, ?_, ?_⟩
  · intro o1 ho1
    rcases List.mem_or_eq_of_mem_set ho1 with hmem | heq
    · have := hr o1 hmem
      push_cast
      omega
    · rw [heq]
      push_cast
      omega
  · intro i1 i2 o1 h1 h2 h0
    by_cases e1 : i = i1
    · by_cases e2 : i = i2
      · omega
      · subst e1
        rw [List.getElem?_set_self hlt] at h1
        rw [List.getElem?_set_ne e2] at h2
        have := (hr o1 (List.mem_iff_getElem?.2 ⟨i2, h2⟩)).2
        simp only [Option.some.injEq] at h1
        omega
    · by_cases e2 : i = i2
      · subst e2
        rw [List.getElem?_set_self hlt] at h2
        rw [List.getElem?_set_ne e1] at h1
        have := (hr o1 (List.mem_iff_getElem?.2 ⟨i1, h1⟩)).2
        simp only [Option.some.injEq] at h2
        omega
      · rw [List.getElem?_set_ne e1] at h1
        rw [List.getElem?_set_ne e2] at h2
        exact hinj i1 i2 o1 h1 h2 h0
  · intro j hj
    by_cases e : j = n
    · subst e
      exact ⟨i, List.getElem?_set_self hlt⟩
    · obtain ⟨i1, h1⟩ := hsurj j (by omega)
      have hne : i ≠ i1 := by
        intro hc
        subst hc
        rw [hi] at h1
        simp only [Option.some.injEq] at h1
        omega
      exact ⟨i1, by rw [List.getElem?_set_ne hne]; exact h1⟩

/-! ### Where a search stops -/

theorem visit_loop_final {σ : Type} (mask : Nat) (pred : σ → Nat → Option (σ × Bool)) :
    ∀ (fuel : Nat) (s : σ) (idx p : Nat) (r : σ),
      visit_with_hash_loop mask pred fuel s idx p = some r →
      ∃ s0 i, pred s0 i = some (r, true) := by
  intro fuel
  induction fuel with
  | zero =>
    intro s idx p r h
    simp [visit_with_hash_loop] at h
  | succ fuel ih =>
    intro s idx p r h
    simp only [visit_with_hash_loop] at h
    cases hp : pred s idx with
    | none => simp [hp] at h
    | some q =>
      obtain ⟨s1, b⟩ := q
      cases b with
      | true =>
        simp only [hp, Option.some.injEq] at h
        subst h
        exact ⟨s, idx, hp⟩
      | false =>
        simp only [hp] at h
        exact ih _ _ _ _ h

theorem grow_relocate_entry_free {fuel : Nat} {t t1 : StringDictBase} {ent : Entry} {j : Nat}
    (h : grow_relocate_entry fuel t ent j = some t1) :
    ∃ (i : Nat) (o : Int), t.offsets[i]? = some o ∧ o < 0
      ∧ t1 = { t with offsets := t.offsets.set i (j : Int) } := by
  unfold grow_relocate_entry at h
  cases hv : visit_with_hash fuel t ent.hash (grow_relocate_pred t) (-1) with
  | none => simp [hv] at h
  | some idx =>
    simp only [hv, Option.some.injEq] at h
    obtain ⟨s0, i, hp⟩ := visit_loop_final _ _ _ _ _ _ _ hv
    unfold grow_relocate_pred at hp
    cases ho : t.offsets[i]? with
    | none => simp [ho] at hp
    | some o =>
      simp only [ho] at hp
      by_cases hneg : o < 0
      · simp only [hneg, if_true, Option.some.injEq, Prod.mk.injEq, and_true] at hp
        subst hp
        refine ⟨i, o, ho, hneg, ?_⟩
        rw [← h]
        simp
      · simp [hneg] at hp

theorem grow_relocate_from_indexed (fuel : Nat) :
    ∀ (rest : List Entry) (j : Nat) (t t1 : StringDictBase),
      grow_relocate_from fuel rest j t = some t1 → Indexed t.offsets j →
      Indexed t1.offsets (j + rest.length) := by
  intro rest
  induction rest with
  | nil =>
    intro j t t1 h hidx
    simp only [grow_relocate_from, Option.some.injEq] at h
    subst h
    simpa using hidx
  | cons ent rest ih =>
    intro j t t1 h hidx
    simp only [grow_relocate_from] at h
    cases hstep : grow_relocate_entry fuel t ent j with
    | none => simp [hstep] at h
    | some t2 =>
      simp only [hstep] at h
      obtain ⟨i, o, ho, hneg, rfl⟩ := grow_relocate_entry_free hstep
      have := ih (j + 1) _ t1 h (hidx.set_at_free ho hneg)
      simp only [List.length_cons]
      rw [show j + (rest.length + 1) = j + 1 + rest.length by omega]
      exact this

theorem grow_indexed {fuel : Nat} {t t1 : StringDictBase} (h : grow fuel t = some t1) :
    Indexed t1.offsets t1.entries.length := by
  unfold grow at h
  simp only [] at h
  have hfr := grow_relocate_from_frame fuel _ _ _ _ h
  have hoff := (grow_remove_empty_entries_frame
    { t with offsets := List.replicate (t.offsets.length * 2) (-1),
             mask := (t.mask <<< 1) ||| 1 }).1
  have := grow_relocate_from_indexed fuel _ 0 _ t1 h
    (by rw [hoff]; exact Indexed.of_replicate _)
  rw [hfr.1]
  simpa using this

theorem find_insertion_free {A fuel : Nat} {t : StringDictBase} {ki : KeyInfo} {idx : Int}
    (h : find_insertion A fuel t ki = some (idx, none)) :
    ∃ (i : Nat) (o : Int), idx = (i : Int) ∧ t.offsets[i]? = some o ∧ o < 0 := by
  obtain ⟨s0, i, hp⟩ := visit_loop_final _ _ _ _ _ _ _ h
  unfold find_insertion_pred at hp
  cases ho : t.offsets[i]? with
  | none => simp [ho] at hp
  | some o =>
    simp only [ho] at hp
    by_cases hneg : o < 0
    · rw [if_pos hneg] at hp
      by_cases hs : s0.2.isNone = true
      · rw [if_pos hs] at hp
        simp only [Option.some.injEq, Prod.mk.injEq, and_true] at hp
        exact ⟨i, o, hp.1.symm, ho, hneg⟩
      · rw [if_neg hs] at hp
        simp only [Option.some.injEq, Prod.mk.injEq, and_true] at hp
        rw [hp] at hs
        simp at hs
    · rw [if_neg hneg] at hp
      cases he : t.entries[o.toNat]? with
      | none => simp [he] at hp
      | some ent =>
        simp only [he] at hp
        split at hp
        · split at hp <;> simp at hp
        · split at hp <;> simp at hp

/-! ### The shape of the offsets vector after a call -/

theorem ShapeInv.of_new_table : ShapeInv StringDictBase.new :=
  ⟨⟨3, le_refl _, rfl⟩, Indexed.of_replicate _⟩

theorem ShapeInv.same_offsets {t t1 : StringDictBase} (h : ShapeInv t)
    (ho : t1.offsets = t.offsets) (he : t1.entries.length = t.entries.length) : ShapeInv t1 := by
  obtain ⟨hp, hi⟩ := h
  refine ⟨?_, ?_⟩
  · rw [ho]
    exact hp
  · rw [ho, he]
    exact hi

theorem grow_shape {fuel : Nat} {t t1 : StringDictBase}
    (hp : ∃ k, 3 ≤ k ∧ t.offsets.length = 2 ^ k) (h : grow fuel t = some t1) : ShapeInv t1 := by
  obtain ⟨k, hk, hlen⟩ := hp
  refine ⟨⟨k + 1, by omega, ?_⟩, grow_indexed h⟩
  rw [(grow_frame h).1, hlen, pow_succ]
  omega

theorem add_entry_shape {A fuel : Nat} {t t1 : StringDictBase} {ki : KeyInfo} {i v j : Nat}
    {o : Int} (hs : ShapeInv t) (ho : t.offsets[i]? = some o) (hneg : o < 0)
    (h : add_entry A fuel t ki (i : Int) v = some (t1, j)) : ShapeInv t1 := by
  have hidx : Indexed (t.offsets.set i (t.entries.length : Int)) (t.entries.length + 1) :=
    hs.indexed.set_at_free ho hneg
  unfold add_entry at h
  simp only [Int.toNat_ofNat, List.length_append, List.length_singleton, Nat.cast_add,
    Nat.cast_one, add_sub_cancel_right] at h
  split at h
  · split at h
    · simp at h
    · rename_i t4 hg
      simp only [Option.some.injEq, Prod.mk.injEq] at h
      rw [← h.1]
      exact grow_shape (by simpa using hs.pow2) hg
  · simp only [Option.some.injEq, Prod.mk.injEq] at h
    rw [← h.1]
    refine ⟨by simpa using hs.pow2, ?_⟩
    simpa using hidx

theorem assign_entry_shape {A fuel : Nat} {t t1 : StringDictBase} {ki : KeyInfo} {ent v : Nat}
    (hs : ShapeInv t) (h : assign_entry A fuel t ki ent v = some t1) : ShapeInv t1 := by
  unfold assign_entry at h
  cases he : t.entries[ent]? with
  | none => simp [he] at h
  | some e0 =>
    simp only [he] at h
    by_cases hemp : e0.is_empty = true
    · simp only [hemp, if_true] at h
      by_cases hr : reserve_load_factor { t with occupied := t.occupied + 1 } ≠ 0
      · rw [if_pos hr] at h
        cases hg : grow fuel { t with occupied := t.occupied + 1 } with
        | none => simp [hg] at h
        | some t2 =>
          simp only [hg] at h
          split at h
          · simp at h
          · simp only [Option.some.injEq] at h
            subst h
            exact (grow_shape (t := { t with occupied := t.occupied + 1 }) hs.pow2 hg).same_offsets
              rfl (by simp)
      · rw [if_neg hr] at h
        simp only [] at h
        split at h
        · simp at h
        · simp only [Option.some.injEq] at h
          subst h
          exact hs.same_offsets rfl (by simp)
    · simp only [hemp, Bool.false_eq_true, if_false, Option.some.injEq] at h
      subst h
      exact hs.same_offsets rfl (by simp)

theorem try_assign_entry_shape {A : Nat} {t t1 : StringDictBase} {ki : KeyInfo} {ent v : Nat}
    {b : Bool} (hs : ShapeInv t) (h : try_assign_entry A t ki ent v = some (t1, b)) :
    ShapeInv t1 := by
  unfold try_assign_entry at h
  cases he : t.entries[ent]? with
  | none => simp [he] at h
  | some e0 =>
    simp only [he] at h
    split at h
    · simp only [Option.some.injEq, Prod.mk.injEq] at h
      rw [← h.1]
      exact hs.same_offsets rfl (by simp)
    · simp only [Option.some.injEq, Prod.mk.injEq] at h
      rw [← h.1]
      exact hs

theorem remove_entry_shape {t t1 : StringDictBase} {ent : Nat} (hs : ShapeInv t)
    (h : remove_entry t ent = some t1) : ShapeInv t1 := by
  unfold remove_entry at h
  cases he : t.entries[ent]? with
  | none => simp [he] at h
  | some e =>
    simp only [he, Option.some.injEq] at h
    subst h
    exact hs.same_offsets rfl (by simp)

theorem clear_shape {t : StringDictBase} (hs : ShapeInv t) : ShapeInv (StringDictBase.clear t) := by
  unfold StringDictBase.clear
  split
  · exact hs
  · exact ⟨⟨3, le_refl _, rfl⟩, Indexed.of_replicate _⟩

theorem set_shape {A fuel : Nat} {t : StringDict} {ki : KeyInfo} {v : Nat} {sd : Bool}
    {r : StringDict × PyResult Nat} (hs : ShapeInv t)
    (h : StringDict.set A fuel t ki v sd = some r) : ShapeInv r.1 := by
  unfold StringDict.set at h
  cases hf : find_insertion A fuel t ki with
  | none => simp [hf] at h
  | some p =>
    obtain ⟨idx, found⟩ := p
    cases found with
    | none =>
      simp only [hf] at h
      obtain ⟨i, o, rfl, ho, hneg⟩ := find_insertion_free hf
      cases ha : add_entry A fuel t ki (i : Int) v with
      | none => simp [ha] at h
      | some q =>
        obtain ⟨t1, j⟩ := q
        simp only [ha, Option.map_eq_some'] at h
        obtain ⟨_, _, rfl⟩ := h
        exact add_entry_shape hs ho hneg ha
    | some ent =>
      simp only [hf] at h
      cases sd with
      | true =>
        simp only [if_true] at h
        cases ha : try_assign_entry A t ki ent v with
        | none => simp [ha] at h
        | some q =>
          obtain ⟨t1, b⟩ := q
          have := try_assign_entry_shape hs ha
          cases b with
          | true =>
            simp only [ha, Option.some.injEq] at h
            subst h
            exact this
          | false =>
            simp only [ha, Option.map_eq_some'] at h
            obtain ⟨_, _, rfl⟩ := h
            exact this
      | false =>
        simp only [Bool.false_eq_true, if_false] at h
        cases ha : assign_entry A fuel t ki ent v with
        | none => simp [ha] at h
        | some t1 =>
          simp only [ha, Option.some.injEq] at h
          subst h
          exact assign_entry_shape hs ha

theorem apply_op_shape {A fuel : Nat} {t t1 : StringDict} {op : Op} (hs : ShapeInv t)
    (h : apply_op A fuel t op = some t1) : ShapeInv t1 := by
  cases op with
  | set ki v =>
    simp only [apply_op, Option.map_eq_some'] at h
    obtain ⟨r, hr, rfl⟩ := h
    exact set_shape hs hr
  | setdefault ki v =>
    simp only [apply_op, Option.map_eq_some'] at h
    obtain ⟨r, hr, rfl⟩ := h
    exact set_shape hs hr
  | remove ki =>
    simp only [apply_op, Option.map_eq_some'] at h
    obtain ⟨r, hr, rfl⟩ := h
    unfold StringDict.remove at hr
    split at hr
    · simp at hr
    · simp only [Option.some.injEq] at hr
      subst hr
      exact hs
    · simp only [Option.map_eq_some'] at hr
      obtain ⟨t2, ht2, rfl⟩ := hr
      exact remove_entry_shape hs ht2
  | pop ki d =>
    simp only [apply_op, Option.map_eq_some'] at h
    obtain ⟨r, hr, rfl⟩ := h
    unfold StringDict.pop at hr
    split at hr
    · split at hr <;>
      · simp only [Option.some.injEq] at hr
        subst hr
        exact hs
    · split at hr
      · simp at hr
      · split at hr
        · rename_i t2 _ ht2
          simp only [Option.some.injEq] at hr
          subst hr
          exact remove_entry_shape hs ht2
        · simp at hr
      · split at hr <;>
        · simp only [Option.some.injEq] at hr
          subst hr
          exact hs
  | popitem =>
    simp only [apply_op, Option.map_eq_some'] at h
    obtain ⟨r, hr, rfl⟩ := h
    unfold StringDict.popitem at hr
    split at hr
    · simp only [Option.some.injEq] at hr
      subst hr
      exact hs
    · simp only [] at hr
      split at hr
      · simp at hr
      · split at hr
        · rename_i t2 _ ht2
          simp only [Option.some.injEq] at hr
          subst hr
          exact remove_entry_shape hs ht2
        · simp at hr
  | clear =>
    simp only [apply_op, Option.some.injEq] at h
    subst h
    exact clear_shape hs

theorem run_ops_shape (A fuel : Nat) :
    ∀ (ops : List Op) (t t1 : StringDict), ShapeInv t → run_ops A fuel ops t = some t1 →
      ShapeInv t1 := by
  intro ops
  induction ops with
  | nil =>
    intro t t1 hs h
    simp only [run_ops, Option.some.injEq] at h
    subst h
    exact hs
  | cons op rest ih =>
    intro t t1 hs h
    simp only [run_ops] at h
    cases hop : apply_op A fuel t op with
    | none => simp [hop] at h
    | some t2 =>
      simp only [hop] at h
      exact ih t2 t1 (apply_op_shape hs hop) h

/-! ### The number of offsets asked for by `reserve_space` -/

theorem ofs_count_needed_le (n : Nat) : ofs_count_needed n ≤ 2 * n + 1 := by
  unfold ofs_count_needed
  simp only []
  generalize 52 - Nat.log2 (n * 2 ^ 52 / max_load_factor_mantissa) = s
  have hq : n * 2 ^ (52 + s) / max_load_factor_mantissa ≤ n * 2 ^ (s + 1) := by
    apply Nat.div_le_of_le_mul
    have h1 : n * 2 ^ (52 + s) = 2 ^ 51 * (n * 2 ^ (s + 1)) := by
      rw [show 52 + s = 51 + (s + 1) by omega, pow_add]
      ring
    rw [h1]
    exact Nat.mul_le_mul_right _ (by decide)
  have hpos : 0 < 2 ^ s := Nat.pow_pos (by norm_num)
  have hm : ∀ m, m ≤ n * 2 ^ (s + 1) + 1 → m / 2 ^ s ≤ 2 * n + 1 := by
    intro m hm
    apply Nat.le_of_lt_succ
    rw [Nat.div_lt_iff_lt_mul hpos]
    have h2 : (2 * n + 1).succ * 2 ^ s = n * 2 ^ (s + 1) + 2 * 2 ^ s := by
      rw [pow_succ]
      simp only [Nat.succ_eq_add_one]
      ring
    rw [h2]
    omega
  split
  · exact hm _ (by omega)
  · exact hm _ (by omega)

theorem ofs_count_needed_ge (n : Nat) : n ≤ ofs_count_needed n := by
  unfold ofs_count_needed
  simp only []
  generalize 52 - Nat.log2 (n * 2 ^ 52 / max_load_factor_mantissa) = s
  have hpos : 0 < 2 ^ s := Nat.pow_pos (by norm_num)
  have hq : n * 2 ^ s ≤ n * 2 ^ (52 + s) / max_load_factor_mantissa := by
    rw [Nat.le_div_iff_mul_le (by decide)]
    have h1 : n * 2 ^ (52 + s) = n * 2 ^ s * 2 ^ 52 := by
      rw [pow_add]
      ring
    rw [h1]
    exact Nat.mul_le_mul_left _ (by decide)
  split
  · rw [Nat.le_div_iff_mul_le hpos]
    omega
  · rw [Nat.le_div_iff_mul_le hpos]
    exact hq

theorem reserve_count_loop_spec (needed : Nat) (hn : needed ≤ 2 ^ 63) :
    ∀ (fuel k c : Nat), k ≤ 63 → reserve_count_loop fuel (2 ^ k) needed = some c →
      ∃ m, k ≤ m ∧ m ≤ 63 ∧ c = 2 ^ m ∧ needed ≤ 2 ^ m ∧ (m = k ∨ 2 ^ (m - 1) < needed) := by
  intro fuel
  induction fuel with
  | zero =>
    intro k c _ h
    simp [reserve_count_loop] at h
  | succ fuel ih =>
    intro k c hk h
    simp only [reserve_count_loop] at h
    by_cases hlt : 2 ^ k < needed
    · rw [if_pos hlt] at h
      have hk1 : k < 63 := by
        by_contra hc
        have : k = 63 := by omega
        subst this
        omega
      have hshift : (2 ^ k <<< 1) % 2 ^ 64 = 2 ^ (k + 1) := by
        rw [Nat.shiftLeft_eq, pow_one, ← pow_succ]
        exact Nat.mod_eq_of_lt (Nat.pow_lt_pow_right (by norm_num) (by omega))
      rw [hshift] at h
      obtain ⟨m, h1, h2, h3, h4, h5⟩ := ih (k + 1) c (by omega) h
      refine ⟨m, by omega, h2, h3, h4, Or.inr ?_⟩
      rcases h5 with h5 | h5
      · rw [h5]
        simpa using hlt
      · exact h5
    · rw [if_neg hlt] at h
      simp only [Option.some.injEq] at h
      exact ⟨k, le_refl _, hk, h.symm, by omega, Or.inl rfl⟩

theorem reserve_count_loop_returns (needed : Nat) (hn : needed ≤ 2 ^ 63) :
    ∀ (fuel k : Nat), k ≤ 63 → 64 ≤ fuel + k →
      ∃ c, reserve_count_loop fuel (2 ^ k) needed = some c := by
  intro fuel
  induction fuel with
  | zero =>
    intro k hk hf
    omega
  | succ fuel ih =>
    intro k hk hf
    simp only [reserve_count_loop]
    by_cases hlt : 2 ^ k < needed
    · rw [if_pos hlt]
      have hk1 : k < 63 := by
        by_contra hc
        have : k = 63 := by omega
        subst this
        omega
      have hshift : (2 ^ k <<< 1) % 2 ^ 64 = 2 ^ (k + 1) := by
        rw [Nat.shiftLeft_eq, pow_one, ← pow_succ]
        exact Nat.mod_eq_of_lt (Nat.pow_lt_pow_right (by norm_num) (by omega))
      rw [hshift]
      exact ih (k + 1) (by omega) (by omega)
    · rw [if_neg hlt]
      exact ⟨_, rfl⟩

/-- What a `reserve_space(len)` that returns does, for `len ≠ 0` and a table of `2 ^ k`
offsets: with `2 ^ m` the count found by the loop, the table is left as it is when
`2 ^ m` is not above the number of offsets or when `size()` is `0`; otherwise the
offsets are resized to `2 ^ (m - 1)` and `grow()` runs. -/
theorem reserve_space_cases {fuel : Nat} {t t1 : StringDictBase} {len r : Int} {k : Nat}
    (hlen : t.offsets.length = 2 ^ k) (h : reserve_space fuel t len = some (t1, r))
    (h0 : len ≠ 0) :
    0 < len ∧ len < 2 ^ 52
      ∧ ((r = -1 ∧ t1 = t)
        ∨ (r = 0 ∧ ∃ m, 3 ≤ m ∧ m ≤ 63 ∧ ofs_count_needed len.toNat ≤ 2 ^ m
            ∧ (m = 3 ∨ 2 ^ (m - 1) < ofs_count_needed len.toNat)
            ∧ (((m ≤ k ∨ t.size = 0) ∧ t1 = t)
              ∨ (k < m ∧ t.size > 0
                  ∧ grow fuel { t with offsets := t.offsets.take (2 ^ (m - 1))
                      ++ List.replicate (2 ^ (m - 1) - t.offsets.length) (-1) } = some t1
                  ∧ t1.offsets.length = 2 ^ m)))) := by
  unfold reserve_space at h
  rw [if_neg h0] at h
  by_cases hr : len < 0 ∨ 2 ^ 52 ≤ len
  · rw [if_pos hr] at h
    simp at h
  · rw [if_neg hr] at h
    simp only [] at h
    refine ⟨by omega, by omega, ?_⟩
    by_cases hov : ofs_count_needed len.toNat < to_size_t len
    · rw [if_pos hov] at h
      simp only [Option.some.injEq, Prod.mk.injEq] at h
      exact Or.inl ⟨h.2.symm, h.1.symm⟩
    · rw [if_neg hov] at h
      have hbound : ofs_count_needed len.toNat ≤ 2 ^ 63 := by
        have := ofs_count_needed_le len.toNat
        have : len.toNat < 2 ^ 52 := by omega
        omega
      cases hc : reserve_count_loop 64 min_buckets (ofs_count_needed len.toNat) with
      | none => simp [hc] at h
      | some count =>
        simp only [hc] at h
        obtain ⟨m, h1, h2, h3, h4, h5⟩ :=
          reserve_count_loop_spec _ hbound 64 3 count (by norm_num) hc
        subst h3
        have hmk : 2 ^ m ≤ 2 ^ k ↔ m ≤ k := Nat.pow_le_pow_iff_right (by norm_num)
        by_cases hle : 2 ^ m ≤ t.bucket_count
        · rw [if_pos hle] at h
          simp only [Option.some.injEq, Prod.mk.injEq] at h
          unfold StringDictBase.bucket_count at hle
          rw [hlen, hmk] at hle
          exact Or.inr ⟨h.2.symm, m, h1, h2, h4, h5, Or.inl ⟨Or.inl hle, h.1.symm⟩⟩
        · rw [if_neg hle] at h
          unfold StringDictBase.bucket_count at hle
          rw [hlen, hmk] at hle
          by_cases hsz : t.size > 0
          · rw [if_pos hsz] at h
            have hhalf : 2 ^ m >>> 1 = 2 ^ (m - 1) := by
              rw [Nat.shiftRight_eq_div_pow, pow_one]
              obtain ⟨j, rfl⟩ : ∃ j, m = j + 1 := ⟨m - 1, by omega⟩
              rw [pow_succ]
              simp
            rw [hhalf] at h
            simp only [Option.map_eq_some', Prod.mk.injEq] at h
            obtain ⟨t2, hg, rfl, rfl⟩ := h
            refine Or.inr ⟨rfl, m, h1, h2, h4, h5, Or.inr ⟨by omega, hsz, hg, ?_⟩⟩
            rw [(grow_frame hg).1]
            simp only [List.length_append, List.length_take, List.length_replicate]
            obtain ⟨j, rfl⟩ : ∃ j, m = j + 1 := ⟨m - 1, by omega⟩
            rw [pow_succ]
            simp only [Nat.add_sub_cancel]
            omega
          · rw [if_neg hsz] at h
            simp only [Option.some.injEq, Prod.mk.injEq] at h
            exact Or.inr ⟨h.2.symm, m, h1, h2, h4, h5, Or.inl ⟨Or.inr (by omega), h.1.symm⟩⟩

theorem reserve_space_shape {fuel : Nat} {t t1 : StringDictBase} {len r : Int}
    (hs : ShapeInv t) (h : reserve_space fuel t len = some (t1, r)) : ShapeInv t1 := by
  by_cases h0 : len = 0
  · unfold reserve_space at h
    rw [if_pos h0] at h
    simp only [Option.some.injEq, Prod.mk.injEq] at h
    rw [← h.1]
    exact hs
  · obtain ⟨k, hk, hlen⟩ := hs.pow2
    obtain ⟨_, _, ⟨_, rfl⟩ | ⟨_, m, hm, _, _, _, ⟨_, rfl⟩ | ⟨hkm, _, hg, _⟩⟩⟩ :=
      reserve_space_cases hlen h h0
    · exact hs
    · exact hs
    · refine grow_shape ⟨m - 1, by omega, ?_⟩ hg
      simp only [List.length_append, List.length_take, List.length_replicate]
      omega

/-! ### The shape of the offsets vector after an update -/

theorem update_from_kwargs_loop_shape (A fuel : Nat) :
    ∀ (kwargs : List (KeyInfo × Nat)) (t t1 : StringDict) (r : Int), ShapeInv t →
      update_from_kwargs_loop A fuel kwargs t = some (t1, r) → ShapeInv t1 := by
  intro kwargs
  induction kwargs with
  | nil =>
    intro t t1 r hs h
    simp only [update_from_kwargs_loop, Option.some.injEq, Prod.mk.injEq] at h
    rw [← h.1]
    exact hs
  | cons kv rest ih =>
    intro t t1 r hs h
    simp only [update_from_kwargs_loop] at h
    cases hset : StringDict.set A fuel t kv.1 kv.2 false with
    | none => simp [hset] at h
    | some q =>
      obtain ⟨t2, res⟩ := q
      have hs2 : ShapeInv t2 := set_shape hs hset
      cases res with
      | ok v =>
        simp only [hset] at h
        exact ih t2 t1 r hs2 h
      | raised e =>
        simp only [hset, Option.some.injEq, Prod.mk.injEq] at h
        rw [← h.1]
        exact hs2

theorem update_from_kwargs_shape {A fuel : Nat} {t t1 : StringDict}
    {kwargs : List (KeyInfo × Nat)} {r : Int} (hs : ShapeInv t)
    (h : StringDict.update_from_kwargs A fuel t kwargs = some (t1, r)) : ShapeInv t1 := by
  unfold StringDict.update_from_kwargs at h
  simp only [] at h
  split at h
  · simp at h
  · rename_i t2 r2 hres
    have hs2 : ShapeInv t2 := reserve_space_shape hs hres
    split at h
    · simp only [Option.some.injEq, Prod.mk.injEq] at h
      rw [← h.1]
      exact hs2
    · split at h
      · simp only [Option.some.injEq, Prod.mk.injEq] at h
        rw [← h.1]
        exact hs2
      · exact update_from_kwargs_loop_shape A fuel kwargs t2 t1 r hs2 h

theorem visit_nonempty_entries_loop_keeps {σ : Type} (visit : σ → Entry → σ × Bool)
    (P : σ → Prop) (hstep : ∀ s e, P s → P (visit s e).1) :
    ∀ (count : Nat) (pos : List Entry) (s : σ) (r : σ × Bool), P s →
      visit_nonempty_entries_loop visit count pos s = some r → P r.1 := by
  intro count
  induction count with
  | zero =>
    intro pos s r hp h
    simp only [visit_nonempty_entries_loop, Option.some.injEq] at h
    subst h
    exact hp
  | succ count ih =>
    intro pos s r hp h
    simp only [visit_nonempty_entries_loop] at h
    split at h
    · simp at h
    · rename_i e rest _
      split at h
      · simp only [Option.some.injEq] at h
        subst h
        exact hstep s e hp
      · exact ih rest _ r (hstep s e hp) h

theorem update_visit_other_shape (A fuel : Nat) (s : Option (StringDict × Int)) (e : Entry)
    (hp : ∀ p, s = some p → ShapeInv p.1) :
    ∀ p, (update_visit_other A fuel s e).1 = some p → ShapeInv p.1 := by
  intro p h
  unfold update_visit_other at h
  cases s with
  | none => simp at h
  | some q =>
    obtain ⟨t, err⟩ := q
    have hs : ShapeInv t := hp (t, err) rfl
    simp only [] at h
    cases hk : e.as_key_info A with
    | none => simp [hk] at h
    | some ki =>
      simp only [hk] at h
      cases hf : find_insertion A fuel t ki with
      | none => simp [hf] at h
      | some q2 =>
        obtain ⟨idx, found⟩ := q2
        cases found with
        | none =>
          simp only [hf] at h
          obtain ⟨i, o, rfl, ho, hneg⟩ := find_insertion_free hf
          cases ha : add_entry A fuel t ki (i : Int) (e.get_value A) with
          | none => simp [ha] at h
          | some q3 =>
            obtain ⟨t1, j⟩ := q3
            simp only [ha, Option.some.injEq] at h
            subst h
            exact add_entry_shape hs ho hneg ha
        | some ent =>
          simp only [hf] at h
          cases he : t.entries[ent]? with
          | none => simp [he] at h
          | some e0 =>
            simp only [he] at h
            split at h
            · cases ha : assign_entry A fuel t ki ent (e.get_value A) with
              | none => simp [ha] at h
              | some t1 =>
                simp only [ha, Option.some.injEq] at h
                subst h
                exact assign_entry_shape hs ha
            · simp only [Option.some.injEq] at h
              subst h
              exact hs.same_offsets rfl (by simp)

theorem update_from_string_dict_shape {A fuel : Nat} {t other t1 : StringDict} {r : Int}
    (hs : ShapeInv t)
    (h : StringDict.update_from_string_dict A fuel t other = some (t1, r)) : ShapeInv t1 := by
  unfold StringDict.update_from_string_dict at h
  split at h
  · simp only [Option.some.injEq, Prod.mk.injEq] at h
    rw [← h.1]
    exact hs
  · split at h
    · rename_i r0 b hv
      simp only [Option.some.injEq] at h
      subst h
      unfold visit_nonempty_entries at hv
      split at hv
      · simp only [Option.some.injEq, Prod.mk.injEq] at hv
        rw [← hv.1.1]
        exact hs
      · have := visit_nonempty_entries_loop_keeps (update_visit_other A fuel)
          (fun s => ∀ p, s = some p → ShapeInv p.1)
          (fun s e hp => update_visit_other_shape A fuel s e hp) _ _ _ _
          (by
            intro p hp
            simp only [Option.some.injEq] at hp
            subst hp
            exact hs) hv
        exact this _ rfl
    · simp at h

/-- A property of the table that every round of the visitor keeps holds after the walk
of `update_from_string_dict(*this)`. -/
theorem update_from_self_loop_keeps (A fuel : Nat) (P : StringDict → Prop)
    (hstep : ∀ (t : StringDict) (err : Int) (e : Entry) (p : StringDict × Int), P t →
      (update_visit_other A fuel (some (t, err)) e).1 = some p → P p.1) :
    ∀ (count pos : Nat) (t : StringDict) (err : Int) (r : StringDict × Int), P t →
      update_from_self_loop A fuel count pos t err = some r → P r.1 := by
  intro count
  induction count with
  | zero =>
    intro pos t err r hp h
    simp only [update_from_self_loop, Option.some.injEq] at h
    subst h
    exact hp
  | succ count ih =>
    intro pos t err r hp h
    simp only [update_from_self_loop] at h
    split at h
    · simp at h
    · rename_i e rest _
      have hst := hstep t err e
      cases hv : update_visit_other A fuel (some (t, err)) e with
      | mk s b =>
        rw [hv] at hst
        cases s with
        | none => simp [hv] at h
        | some q =>
          obtain ⟨t1, err1⟩ := q
          have hp1 : P t1 := hst (t1, err1) hp rfl
          cases b with
          | true =>
            simp only [hv, Option.some.injEq] at h
            subst h
            exact hp1
          | false =>
            simp only [hv] at h
            exact ih _ t1 err1 r hp1 h

theorem update_from_self_keeps (A fuel : Nat) (P : StringDict → Prop)
    (hstep : ∀ (t : StringDict) (err : Int) (e : Entry) (p : StringDict × Int), P t →
      (update_visit_other A fuel (some (t, err)) e).1 = some p → P p.1)
    {t : StringDict} {r : StringDict × Int} (hp : P t)
    (h : StringDict.update_from_self A fuel t = some r) : P r.1 := by
  unfold StringDict.update_from_self at h
  split at h
  · simp only [Option.some.injEq] at h
    subst h
    exact hp
  · exact update_from_self_loop_keeps A fuel P hstep _ _ t 0 r hp h

theorem update_from_self_shape {A fuel : Nat} {t : StringDict} {r : StringDict × Int}
    (hs : ShapeInv t) (h : StringDict.update_from_self A fuel t = some r) : ShapeInv r.1 :=
  update_from_self_keeps A fuel ShapeInv
    (fun t err e p hp hv => update_visit_other_shape A fuel (some (t, err)) e
      (fun q hq => by
        simp only [Option.some.injEq] at hq
        subst hq
        exact hp) p hv) hs h

theorem apply_call_shape {A fuel : Nat} {t t1 : StringDict} {c : Call} (hs : ShapeInv t)
    (h : apply_call A fuel t c = some t1) : ShapeInv t1 := by
  cases c with
  | op o => exact apply_op_shape hs h
  | update_kwargs kwargs =>
    simp only [apply_call, Option.map_eq_some'] at h
    obtain ⟨r, hr, rfl⟩ := h
    exact update_from_kwargs_shape hs hr
  | update_object o =>
    simp only [apply_call, Option.map_eq_some'] at h
    obtain ⟨r, hr, rfl⟩ := h
    cases o with
    | this => exact update_from_self_shape hs hr
    | other u =>
      simp only [StringDict.update_from_object, Option.some.injEq] at hr
      subst hr
      exact hs

theorem run_calls_shape (A fuel : Nat) :
    ∀ (calls : List Call) (t t1 : StringDict), ShapeInv t →
      run_calls A fuel calls t = some t1 → ShapeInv t1 := by
  intro calls
  induction calls with
  | nil =>
    intro t t1 hs h
    simp only [run_calls, Option.some.injEq] at h
    subst h
    exact hs
  | cons c rest ih =>
    intro t t1 hs h
    simp only [run_calls] at h
    cases hc : apply_call A fuel t c with
    | none => simp [hc] at h
    | some t2 =>
      simp only [hc] at h
      exact ih t2 t1 (apply_call_shape hs hc) h

/-! ### Growth of a table whose mask covers only a part of the offsets -/

theorem visit_loop_congr {σ : Type} (mask : Nat) (p1 p2 : σ → Nat → Option (σ × Bool))
    (h : ∀ s i, i ≤ mask → p1 s i = p2 s i) :
    ∀ (fuel : Nat) (s : σ) (idx p : Nat), idx ≤ mask →
      visit_with_hash_loop mask p1 fuel s idx p = visit_with_hash_loop mask p2 fuel s idx p := by
  intro fuel
  induction fuel with
  | zero =>
    intro s idx p _
    rfl
  | succ fuel ih =>
    intro s idx p hidx
    simp only [visit_with_hash_loop, h s idx hidx]
    cases hp : p2 s idx with
    | none => rfl
    | some q =>
      obtain ⟨s1, b⟩ := q
      cases b with
      | true => rfl
      | false =>
        simp only []
        exact ih _ _ _ (by rw [advance_index_fst]; exact next_index_le _ _)

/-- A relocation in the table cut to its first `2 ^ k` offsets is the same relocation
in the table itself, when the mask is `2 ^ k - 1`. -/
theorem grow_relocate_entry_take {fuel k : Nat} {t tn : StringDictBase} {ent : Entry} {j : Nat}
    (hmask : t.mask = 2 ^ k - 1)
    (h : grow_relocate_entry fuel { t with offsets := t.offsets.take (2 ^ k) } ent j = some tn) :
    ∃ t1, grow_relocate_entry fuel t ent j = some t1
      ∧ tn = { t1 with offsets := t1.offsets.take (2 ^ k) } ∧ t1.mask = t.mask
      ∧ t1.offsets.length = t.offsets.length := by
  have hpos : 0 < 2 ^ k := Nat.pow_pos (by norm_num)
  have hv : visit_with_hash fuel { t with offsets := t.offsets.take (2 ^ k) } ent.hash
        (grow_relocate_pred { t with offsets := t.offsets.take (2 ^ k) }) (-1)
      = visit_with_hash fuel t ent.hash (grow_relocate_pred t) (-1) := by
    unfold visit_with_hash
    apply visit_loop_congr
    · intro s i hi
      have hi2 : i < 2 ^ k := by
        simp only [hmask] at hi
        omega
      simp only [grow_relocate_pred, List.getElem?_take, if_pos hi2]
    · exact Nat.and_le_right
  unfold grow_relocate_entry at h ⊢
  rw [hv] at h
  cases hr : visit_with_hash fuel t ent.hash (grow_relocate_pred t) (-1) with
  | none => simp [hr] at h
  | some idx =>
    simp only [hr, Option.some.injEq] at h
    refine ⟨_, rfl, ?_, rfl, by simp⟩
    rw [← h]
    rw [List.set_take]

theorem grow_relocate_from_take (fuel k : Nat) :
    ∀ (rest : List Entry) (j : Nat) (t tn : StringDictBase), t.mask = 2 ^ k - 1 →
      grow_relocate_from fuel rest j { t with offsets := t.offsets.take (2 ^ k) } = some tn →
      ∃ t1, grow_relocate_from fuel rest j t = some t1 := by
  intro rest
  induction rest with
  | nil =>
    intro j t tn _ _
    exact ⟨t, rfl⟩
  | cons ent rest ih =>
    intro j t tn hmask h
    simp only [grow_relocate_from] at h ⊢
    cases hstep : grow_relocate_entry fuel { t with offsets := t.offsets.take (2 ^ k) } ent j with
    | none => simp [hstep] at h
    | some t2 =>
      simp only [hstep] at h
      obtain ⟨t1, h1, h2, h3, _⟩ := grow_relocate_entry_take hmask hstep
      rw [h1]
      simp only []
      rw [h2] at h
      exact ih (j + 1) t1 tn (by rw [h3, hmask]) h

theorem grow_remove_empty_entries_length (t : StringDictBase) :
    (grow_remove_empty_entries t).entries.length ≤ t.entries.length
      ∧ (grow_remove_empty_entries t).mask = t.mask := by
  unfold grow_remove_empty_entries
  split
  · exact ⟨le_refl _, rfl⟩
  · exact ⟨List.length_filter_le _ _, rfl⟩

/-- For a table whose mask is `2 ^ k - 1`, with at least `2 ^ k` offsets and fewer than
`2 ^ (k + 1)` entry slots, `grow()` returns. -/
theorem grow_returns_wide (fuel k : Nat) (t : StringDictBase) (hmask : t.mask = 2 ^ k - 1)
    (hlen : 2 ^ k ≤ t.offsets.length) (hent : t.entries.length < 2 ^ (k + 1))
    (hfuel : 2 ^ (k + 1) ≤ fuel) : ∃ t1, grow fuel t = some t1 := by
  unfold grow
  simp only []
  generalize hT : ({ t with offsets := List.replicate (t.offsets.length * 2) (-1),
                            mask := (t.mask <<< 1) ||| 1 } : StringDictBase) = T
  have hTo : T.offsets = List.replicate (t.offsets.length * 2) (-1) := by rw [← hT]
  have hTm : T.mask = 2 ^ (k + 1) - 1 := by rw [← hT]; simp only [hmask, mask_double]
  have hTe : T.entries = t.entries := by rw [← hT]
  obtain ⟨g1, g2, _⟩ := grow_remove_empty_entries_frame T
  obtain ⟨g3, g4⟩ := grow_remove_empty_entries_length T
  have hmin : min (2 ^ (k + 1)) (t.offsets.length * 2) = 2 ^ (k + 1) := by
    rw [pow_succ]
    omega
  obtain ⟨tn, hn, _⟩ := grow_relocate_from_ok fuel (k + 1) hfuel
    (grow_remove_empty_entries T).entries 0
    { grow_remove_empty_entries T with
      offsets := (grow_remove_empty_entries T).offsets.take (2 ^ (k + 1)) }
    (by simp only [g4, hTm])
    (by simp only [g1, hTo, List.take_replicate, List.length_replicate, hmin])
    (by rw [hTe] at g3; omega)
    (by simp only [g1, hTo, List.take_replicate, used_offsets_replicate]; exact le_refl _)
    (by
      intro o ho
      simp only [g1, hTo, List.take_replicate] at ho
      rw [List.eq_of_mem_replicate ho]
      decide)
  exact grow_relocate_from_take fuel (k + 1) _ 0 _ tn (by rw [g4, hTm]) hn

/-- For a table with `mask + 1 == len(offsets) = 2 ^ k` and fewer than `2 ^ (k + 1)`
entry slots, `reserve_space(n)` returns `0` for every `0 < n < 2 ^ 52`. -/
theorem reserve_space_returns (fuel k : Nat) (t : StringDictBase) (n : Nat)
    (hmask : t.mask = 2 ^ k - 1) (hlen : t.offsets.length = 2 ^ k)
    (hent : t.entries.length < 2 ^ (k + 1)) (hfuel : 2 ^ (k + 1) ≤ fuel)
    (hn : 0 < n) (hn2 : n < 2 ^ 52) :
    ∃ t1, reserve_space fuel t (n : Int) = some (t1, 0) := by
  unfold reserve_space
  rw [if_neg (by omega), if_neg (by omega)]
  simp only [Int.toNat_ofNat]
  have hsz : to_size_t (n : Int) = n := by
    unfold to_size_t
    rw [if_pos (by omega)]
    simp
  rw [hsz, if_neg (by have := ofs_count_needed_ge n; omega)]
  have hbound : ofs_count_needed n ≤ 2 ^ 63 := by
    have := ofs_count_needed_le n
    omega
  obtain ⟨c, hc⟩ := reserve_count_loop_returns _ hbound 64 3 (by norm_num) (by norm_num)
  obtain ⟨m, hm3, _, rfl, _, _⟩ := reserve_count_loop_spec _ hbound 64 3 c (by norm_num) hc
  have hc2 : reserve_count_loop 64 min_buckets (ofs_count_needed n) = some (2 ^ m) := hc
  rw [hc2]
  simp only []
  by_cases hle : 2 ^ m ≤ t.bucket_count
  · rw [if_pos hle]
    exact ⟨t, rfl⟩
  · rw [if_neg hle]
    by_cases hs : t.size > 0
    · rw [if_pos hs]
      unfold StringDictBase.bucket_count at hle
      rw [hlen] at hle
      have hkm : k < m := by
        by_contra hc3
        exact hle (Nat.pow_le_pow_right (by norm_num) (by omega))
      have hhalf : 2 ^ m >>> 1 = 2 ^ (m - 1) := by
        rw [Nat.shiftRight_eq_div_pow, pow_one]
        obtain ⟨j, rfl⟩ : ∃ j, m = j + 1 := ⟨m - 1, by omega⟩
        rw [pow_succ]
        simp
      rw [hhalf]
      obtain ⟨t1, h1⟩ := grow_returns_wide fuel k
        { t with offsets := t.offsets.take (2 ^ (m - 1))
            ++ List.replicate (2 ^ (m - 1) - t.offsets.length) (-1) }
        hmask
        (by
          simp only [List.length_append, List.length_take, List.length_replicate]
          have : 2 ^ k ≤ 2 ^ (m - 1) := Nat.pow_le_pow_right (by norm_num) (by omega)
          omega)
        hent hfuel
      exact ⟨t1, by rw [h1]; rfl⟩
    · rw [if_neg hs]
      exact ⟨t, rfl⟩

/-! ### Storing a key again after its removal -/

theorem find_insertion_pred_keeps_found {A : Nat} {t : StringDictBase} {ki : KeyInfo}
    {s s1 : Int × Option Nat} {idx : Nat} {b : Bool} (hs : s.2.isSome = true)
    (h : find_insertion_pred A t ki s idx = some (s1, b)) : s1.2.isSome = true := by
  obtain ⟨a, f⟩ := s
  cases f with
  | none => simp at hs
  | some j =>
    unfold find_insertion_pred at h
    cases ho : t.offsets[idx]? with
    | none => simp [ho] at h
    | some ofs =>
      simp only [ho] at h
      by_cases hneg : ofs < 0
      · simp only [hneg, if_true, Option.isNone_some, Bool.false_eq_true, if_false,
          Option.some.injEq, Prod.mk.injEq] at h
        rw [← h.1]
        rfl
      · simp only [hneg, if_false] at h
        cases he : t.entries[ofs.toNat]? with
        | none => simp [he] at h
        | some ent =>
          simp only [he, Option.isNone_some, Bool.false_eq_true, if_false] at h
          split at h
          · simp only [Option.some.injEq, Prod.mk.injEq] at h
            rw [← h.1]
            rfl
          · split at h
            · simp only [Option.some.injEq, Prod.mk.injEq] at h
              rw [← h.1]
              rfl
            · simp only [Option.some.injEq, Prod.mk.injEq] at h
              rw [← h.1]
              rfl

theorem find_insertion_loop_found (A : Nat) (t : StringDictBase) (ki : KeyInfo) :
    ∀ (fuel : Nat) (s : Int × Option Nat) (idx p : Nat) (r : Int × Option Nat),
      s.2.isSome = true →
      visit_with_hash_loop t.mask (find_insertion_pred A t ki) fuel s idx p = some r →
      r.2.isSome = true := by
  intro fuel
  induction fuel with
  | zero =>
    intro s idx p r _ h
    simp [visit_with_hash_loop] at h
  | succ fuel ih =>
    intro s idx p r hs h
    simp only [visit_with_hash_loop] at h
    cases hp : find_insertion_pred A t ki s idx with
    | none => simp [hp] at h
    | some q =>
      obtain ⟨s1, b⟩ := q
      have hs1 := find_insertion_pred_keeps_found hs hp
      cases b with
      | true =>
        simp only [hp, Option.some.injEq] at h
        rw [← h]
        exact hs1
      | false =>
        simp only [hp] at h
        exact ih _ _ _ _ hs1 h

/-- After the entry found for a key has been emptied, every search for an insertion
place for that key that returns has found a slot. -/
theorem find_insertion_after_remove (A : Nat) (t t1 : StringDictBase) (ki : KeyInfo) (j : Nat)
    (e : Entry) (i : Int) (ho1 : t1.offsets = t.offsets) (hm1 : t1.mask = t.mask)
    (he1 : t1.entries = t.entries.set j e.set_empty) :
    ∀ (fuel : Nat) (s : Int × Option Nat) (idx p : Nat), s.2 = none →
      visit_with_hash_loop t.mask (find_existing_pred A t ki) fuel s idx p = some (i, some j) →
      ∀ (fuel2 : Nat) (s2 r : Int × Option Nat),
        visit_with_hash_loop t1.mask (find_insertion_pred A t1 ki) fuel2 s2 idx p = some r →
        r.2.isSome = true := by
  intro fuel
  induction fuel with
  | zero =>
    intro s idx p _ h
    simp [visit_with_hash_loop] at h
  | succ fuel ih =>
    intro s idx p hs h fuel2 s2 r h2
    simp only [visit_with_hash_loop] at h
    cases fuel2 with
    | zero => simp [visit_with_hash_loop] at h2
    | succ fuel2 =>
      simp only [visit_with_hash_loop] at h2
      cases hp2 : find_insertion_pred A t1 ki s2 idx with
      | none => simp [hp2] at h2
      | some q2 =>
        obtain ⟨s3, b2⟩ := q2
        cases b2 with
        | true =>
          simp only [hp2, Option.some.injEq] at h2
          subst h2
          -- the search stopped here: at a free offset or at a matching entry
          unfold find_insertion_pred at hp2
          rw [ho1] at hp2
          unfold find_existing_pred at h
          cases ho : t.offsets[idx]? with
          | none => simp [ho] at h
          | some ofs =>
            simp only [ho] at h hp2
            by_cases hneg : ofs < 0
            · simp only [hneg, if_true, Option.some.injEq, Prod.mk.injEq] at h
              rw [hs] at h
              simp at h
            · simp only [hneg, if_false] at hp2
              cases he : t1.entries[ofs.toNat]? with
              | none => simp [he] at hp2
              | some ent =>
                simp only [he] at hp2
                split at hp2
                · split at hp2 <;> simp at hp2
                · split at hp2
                  · simp only [Option.some.injEq, Prod.mk.injEq, and_true] at hp2
                    rw [← hp2]
                    rfl
                  · simp at hp2
        | false =>
          simp only [hp2] at h2
          cases hp : find_existing_pred A t ki s idx with
          | none => simp [hp] at h
          | some q =>
            obtain ⟨s1, b⟩ := q
            cases b with
            | false =>
              simp only [hp] at h
              have hs1 : s1.2 = none := by
                unfold find_existing_pred at hp
                cases ho : t.offsets[idx]? with
                | none => simp [ho] at hp
                | some ofs =>
                  simp only [ho] at hp
                  split at hp
                  · simp at hp
                  · cases he : t.entries[ofs.toNat]? with
                    | none => simp [he] at hp
                    | some ent =>
                      simp only [he] at hp
                      split at hp
                      · simp at hp
                      · simp only [Option.some.injEq, Prod.mk.injEq, and_true] at hp
                        rw [← hp]
                        exact hs
              rw [hm1] at h2
              have := ih s1 _ _ hs1 h fuel2 s3 r (by rw [hm1]; exact h2)
              exact this
            | true =>
              simp only [hp, Option.some.injEq] at h
              subst h
              -- the entry found is slot `j`, which is Empty in `t1`
              have hs3 : s3.2.isSome = true := by
                unfold find_existing_pred at hp
                unfold find_insertion_pred at hp2
                rw [ho1] at hp2
                cases ho : t.offsets[idx]? with
                | none => simp [ho] at hp
                | some ofs =>
                  simp only [ho] at hp hp2
                  by_cases hneg : ofs < 0
                  · simp only [hneg, if_true, Option.some.injEq, Prod.mk.injEq, and_true] at hp
                    rw [hs] at hp
                    simp at hp
                  · simp only [hneg, if_false] at hp hp2
                    cases he : t.entries[ofs.toNat]? with
                    | none => simp [he] at hp
                    | some ent =>
                      simp only [he] at hp
                      split at hp
                      · simp only [Option.some.injEq, Prod.mk.injEq, and_true] at hp
                        have hj : ofs.toNat = j := by
                          have := hp.2
                          simpa using this
                        have hlt : j < t.entries.length := by
                          rw [← hj]
                          exact (List.getElem?_eq_some.1 he).1
                        have he2 : t1.entries[ofs.toNat]? = some e.set_empty := by
                          rw [he1, hj, List.getElem?_set_self hlt]
                        simp only [he2, Entry.set_empty, Entry.is_empty, Option.isNone_none,
                          if_true] at hp2
                        split at hp2
                        · simp only [Option.some.injEq, Prod.mk.injEq, and_true] at hp2
                          rw [← hp2]
                          rfl
                        · rename_i hsome
                          simp only [Option.some.injEq, Prod.mk.injEq, and_true] at hp2
                          rw [← hp2]
                          cases hx : s2.2 with
                          | none =>
                            rw [hx] at hsome
                            simp at hsome
                          | some x => rfl
                      · simp at hp
              exact find_insertion_loop_found A t1 ki fuel2 s3 _ _ r hs3 h2

/-- In a table below the load threshold, `remove(k)` followed by `set(k, v)`, when both
return, leaves the number of entry slots and the offsets as they were. -/
theorem remove_then_set_keeps_slots {A fuel fuel2 : Nat} {t t1 t2 : StringDict} {ki : KeyInfo}
    {v : Nat} {r : PyResult Nat}
    (hload : t.occupied * 1000 < 667 * (t.offsets.length : Int))
    (hrem : StringDict.remove A fuel t ki = some (t1, PyResult.ok ()))
    (hset : StringDict.set A fuel2 t1 ki v false = some (t2, r)) :
    t2.entries.length = t.entries.length ∧ t2.offsets = t.offsets := by
  unfold StringDict.remove at hrem
  cases hf : find_existing A fuel t ki with
  | none => simp [hf] at hrem
  | some q =>
    obtain ⟨i, found⟩ := q
    cases found with
    | none => simp [hf] at hrem
    | some j =>
      simp only [hf, Option.map_eq_some', Prod.mk.injEq, and_true] at hrem
      obtain ⟨t1a, hre, rfl⟩ := hrem
      unfold remove_entry at hre
      cases he : t.entries[j]? with
      | none => simp [he] at hre
      | some e =>
        simp only [he, Option.some.injEq] at hre
        subst hre
        unfold StringDict.set at hset
        cases hfi : find_insertion A fuel2
            { t with entries := t.entries.set j e.set_empty, occupied := t.occupied - 1 } ki with
        | none => simp [hfi] at hset
        | some q2 =>
          obtain ⟨idx, found2⟩ := q2
          have hfound := find_insertion_after_remove A t
            { t with entries := t.entries.set j e.set_empty, occupied := t.occupied - 1 }
            ki j e i rfl rfl rfl fuel _ _ _ rfl hf fuel2 _ _ hfi
          cases found2 with
          | none => simp at hfound
          | some ent =>
            simp only [hfi, Bool.false_eq_true, if_false] at hset
            cases ha : assign_entry A fuel2
                { t with entries := t.entries.set j e.set_empty, occupied := t.occupied - 1 }
                ki ent v with
            | none => simp [ha] at hset
            | some t3 =>
              simp only [ha, Option.some.injEq, Prod.mk.injEq] at hset
              obtain ⟨rfl, _⟩ := hset
              unfold assign_entry at ha
              cases he3 : (t.entries.set j e.set_empty)[ent]? with
              | none => simp [he3] at ha
              | some e3 =>
                simp only [he3] at ha
                have hno : reserve_load_factor
                    { entries := t.entries.set j e.set_empty, offsets := t.offsets,
                      mask := t.mask, occupied := t.occupied - 1 + 1 } = 0 := by
                  unfold reserve_load_factor
                  rw [if_neg]
                  simp only [sub_add_cancel]
                  omega
                split at ha
                · simp only [hno, ne_eq, not_true_eq_false, if_false, he3,
                    Option.some.injEq] at ha
                  subst ha
                  simp
                · simp only [Option.some.injEq] at ha
                  subst ha
                  simp

/-! ### The indices visited by a search -/

theorem record_index_loop (mask N : Nat) :
    ∀ (d : Nat) (s : List Nat) (idx p fuel : Nat), s.length + d + 1 = N → d < fuel →
      visit_with_hash_loop mask (record_index N) fuel s idx p
        = some (s ++ (List.range (d + 1)).map (probe_index mask idx)) := by
  intro d
  induction d with
  | zero =>
    intro s idx p fuel hN hf
    obtain ⟨f, rfl⟩ : ∃ f, fuel = f + 1 := ⟨fuel - 1, by omega⟩
    have hstop : decide (N ≤ s.length + 1) = true := by
      rw [decide_eq_true_eq]
      omega
    simp only [visit_with_hash_loop, record_index, hstop]
    rfl
  | succ d ih =>
    intro s idx p fuel hN hf
    obtain ⟨f, rfl⟩ : ∃ f, fuel = f + 1 := ⟨fuel - 1, by omega⟩
    have hgo : decide (N ≤ s.length + 1) = false := by
      rw [decide_eq_false_iff_not]
      omega
    simp only [visit_with_hash_loop, record_index, hgo]
    rw [ih (s ++ [idx]) _ _ f (by simp; omega) (by omega), advance_index_fst]
    rw [List.range_succ_eq_map (d + 1)]
    simp only [List.map_cons, List.map_map, List.append_assoc, List.singleton_append]
    congr 1

/-! ### A table without a free offset that holds a key -/

theorem full_offsets_existing_pred (s : Int × Option Nat) (idx : Nat) (h : idx < 8) :
    find_existing_pred 8 full_offsets_table (sample_key 8) s idx = some (s, false) := by
  interval_cases idx <;>
    simp [find_existing_pred, full_offsets_table, Entry.is_empty, Entry.ofKeyInfo, Entry.matches,
      sample_key]

theorem full_offsets_insertion_pred (s : Int × Option Nat) (idx : Nat) (h : idx < 8) :
    ∃ s1, find_insertion_pred 8 full_offsets_table (sample_key 8) s idx = some (s1, false) := by
  obtain ⟨a, b⟩ := s
  interval_cases idx <;> cases b <;>
    simp [find_insertion_pred, full_offsets_table, Entry.is_empty, Entry.ofKeyInfo, Entry.matches,
      sample_key]

theorem full_offsets_existing_loop :
    ∀ (fuel : Nat) (s : Int × Option Nat) (idx p : Nat), idx < 8 →
      visit_with_hash_loop 7 (find_existing_pred 8 full_offsets_table (sample_key 8)) fuel s idx p
        = none := by
  intro fuel
  induction fuel with
  | zero => intro s idx p _; rfl
  | succ fuel ih =>
    intro s idx p h
    simp only [visit_with_hash_loop, full_offsets_existing_pred s idx h]
    apply ih
    have : (advance_index 7 idx p).1 ≤ 7 := by
      rw [advance_index_fst]
      exact next_index_le 7 idx
    omega

theorem full_offsets_insertion_loop :
    ∀ (fuel : Nat) (s : Int × Option Nat) (idx p : Nat), idx < 8 →
      visit_with_hash_loop 7 (find_insertion_pred 8 full_offsets_table (sample_key 8)) fuel s idx p
        = none := by
  intro fuel
  induction fuel with
  | zero => intro s idx p _; rfl
  | succ fuel ih =>
    intro s idx p h
    obtain ⟨s1, hs1⟩ := full_offsets_insertion_pred s idx h
    simp only [visit_with_hash_loop, hs1]
    apply ih
    have : (advance_index 7 idx p).1 ≤ 7 := by
      rw [advance_index_fst]
      exact next_index_le 7 idx
    omega

/-! ### One step of a search, by what the bucket refers to -/

theorem bucket_slot_some {t : StringDictBase} {i j : Nat} (h : bucket_slot t i = some j) :
    ∃ o, t.offsets[i]? = some o ∧ ¬ o < 0 ∧ o.toNat = j := by
  unfold bucket_slot at h
  cases ho : t.offsets[i]? with
  | none => simp [ho] at h
  | some o =>
    simp only [ho] at h
    by_cases hneg : o < 0
    · simp [hneg] at h
    · simp only [hneg, if_false, Option.some.injEq] at h
      exact ⟨o, rfl, hneg, h⟩

theorem bucket_slot_free {t : StringDictBase} {i : Nat} (hi : i < t.offsets.length)
    (h : bucket_slot t i = none) : ∃ o, t.offsets[i]? = some o ∧ o < 0 := by
  unfold bucket_slot at h
  rw [List.getElem?_eq_getElem hi] at h
  simp only [] at h
  by_cases hneg : t.offsets[i] < 0
  · exact ⟨_, List.getElem?_eq_getElem hi, hneg⟩
  · simp [hneg] at h

theorem bucket_slot_of_free {t : StringDictBase} {i : Nat} {o : Int}
    (ho : t.offsets[i]? = some o) (hneg : o < 0) : bucket_slot t i = none := by
  simp [bucket_slot, ho, hneg]

theorem bucket_slot_of_used {t : StringDictBase} {i : Nat} {o : Int}
    (ho : t.offsets[i]? = some o) (hneg : ¬ o < 0) : bucket_slot t i = some o.toNat := by
  simp [bucket_slot, ho, hneg]

theorem find_insertion_pred_free {A : Nat} {t : StringDictBase} {ki : KeyInfo} {i : Nat}
    {o : Int} (s : Int × Option Nat) (ho : t.offsets[i]? = some o) (hneg : o < 0) :
    find_insertion_pred A t ki s i
      = some (if s.2.isNone then ((i : Int), s.2) else s, true) := by
  unfold find_insertion_pred
  simp only [ho, hneg, if_true]
  split <;> rfl

theorem find_insertion_pred_match {A : Nat} {t : StringDictBase} {ki : KeyInfo} {i j : Nat}
    (s : Int × Option Nat) (hb : bucket_slot t i = some j) (hm : slot_matches A t ki j = true) :
    find_insertion_pred A t ki s i = some (((i : Int), some j), true) := by
  obtain ⟨o, ho, hneg, rfl⟩ := bucket_slot_some hb
  unfold slot_matches at hm
  unfold find_insertion_pred
  cases he : t.entries[o.toNat]? with
  | none => simp [he] at hm
  | some e =>
    simp only [he, Bool.and_eq_true, Bool.not_eq_true'] at hm
    simp [ho, hneg, he, hm.1, hm.2]

theorem find_insertion_pred_skip {A : Nat} {t : StringDictBase} {ki : KeyInfo} {i j : Nat}
    (s : Int × Option Nat) (hb : bucket_slot t i = some j) (hj : j < t.entries.length)
    (hm : slot_matches A t ki j = false) :
    ∃ s1, find_insertion_pred A t ki s i = some (s1, false)
      ∧ (s.2.isSome = true → s1 = s)
      ∧ (slot_empty t j = false → s1 = s)
      ∧ (s.2 = none → slot_empty t j = true → s1 = ((i : Int), some j)) := by
  obtain ⟨o, ho, hneg, rfl⟩ := bucket_slot_some hb
  obtain ⟨e, he⟩ : ∃ e, t.entries[o.toNat]? = some e := ⟨_, List.getElem?_eq_getElem hj⟩
  unfold slot_matches at hm
  unfold slot_empty
  unfold find_insertion_pred
  simp only [he] at hm ⊢
  simp only [ho, hneg, if_false, he]
  by_cases hemp : e.is_empty = true
  · simp only [hemp, if_true]
    by_cases hs : s.2.isNone = true
    · refine ⟨_, by rw [if_pos hs], ?_, by simp, fun _ _ => rfl⟩
      intro hsome
      cases hx : s.2 with
      | none => rw [hx] at hsome; simp at hsome
      | some x => rw [hx] at hs; simp at hs
    · refine ⟨_, by rw [if_neg hs], fun _ => rfl, fun _ => rfl, ?_⟩
      intro hnone
      rw [hnone] at hs
      simp at hs
  · have hemp2 : e.is_empty = false := by simpa using hemp
    simp only [hemp2, Bool.not_false, Bool.true_and] at hm
    refine ⟨s, by simp [hemp2, hm], fun _ => rfl, fun _ => rfl, ?_⟩
    intro _ hc
    simp [hemp2] at hc

/-! ### A search for an insertion place, along the probe chain -/

theorem find_insertion_walk_match (A : Nat) (t : StringDictBase) (ki : KeyInfo) (j : Nat) :
    ∀ (n idx : Nat) (s : Int × Option Nat) (p fuel : Nat), n < fuel →
      (∀ n1, n1 < n → ∃ j1, bucket_slot t (probe_index t.mask idx n1) = some j1
          ∧ j1 < t.entries.length ∧ slot_matches A t ki j1 = false) →
      bucket_slot t (probe_index t.mask idx n) = some j → slot_matches A t ki j = true →
      visit_with_hash_loop t.mask (find_insertion_pred A t ki) fuel s idx p
        = some (((probe_index t.mask idx n : Nat) : Int), some j) := by
  intro n
  induction n with
  | zero =>
    intro idx s p fuel hf _ hb hm
    obtain ⟨f, rfl⟩ : ∃ f, fuel = f + 1 := ⟨fuel - 1, by omega⟩
    simp only [probe_index] at hb ⊢
    simp only [visit_with_hash_loop, find_insertion_pred_match s hb hm]
  | succ n ih =>
    intro idx s p fuel hf hbefore hb hm
    obtain ⟨f, rfl⟩ : ∃ f, fuel = f + 1 := ⟨fuel - 1, by omega⟩
    obtain ⟨j0, hb0, hj0, hm0⟩ := hbefore 0 (by omega)
    simp only [probe_index] at hb0
    obtain ⟨s1, hp, _⟩ := find_insertion_pred_skip s hb0 hj0 hm0
    simp only [visit_with_hash_loop, hp, advance_index_fst]
    exact ih (next_index t.mask idx) s1 _ f (by omega)
      (fun n1 h1 => hbefore (n1 + 1) (by omega)) hb hm

theorem find_insertion_walk_found (A : Nat) (t : StringDictBase) (ki : KeyInfo) :
    ∀ (m idx : Nat) (s : Int × Option Nat) (p fuel : Nat), m < fuel → s.2.isSome = true →
      (∀ n1, n1 < m → ∃ j1, bucket_slot t (probe_index t.mask idx n1) = some j1
          ∧ j1 < t.entries.length ∧ slot_matches A t ki j1 = false) →
      (∃ o, t.offsets[probe_index t.mask idx m]? = some o ∧ o < 0) →
      visit_with_hash_loop t.mask (find_insertion_pred A t ki) fuel s idx p = some s := by
  intro m
  induction m with
  | zero =>
    intro idx s p fuel hf hs _ hfree
    obtain ⟨f, rfl⟩ : ∃ f, fuel = f + 1 := ⟨fuel - 1, by omega⟩
    obtain ⟨o, ho, hneg⟩ := hfree
    simp only [probe_index] at ho
    have hnone : s.2.isNone = false := by
      cases hx : s.2 with
      | none => rw [hx] at hs; simp at hs
      | some x => rfl
    simp only [visit_with_hash_loop, find_insertion_pred_free s ho hneg, hnone]
    rfl
  | succ m ih =>
    intro idx s p fuel hf hs hbefore hfree
    obtain ⟨f, rfl⟩ : ∃ f, fuel = f + 1 := ⟨fuel - 1, by omega⟩
    obtain ⟨j0, hb0, hj0, hm0⟩ := hbefore 0 (by omega)
    simp only [probe_index] at hb0
    obtain ⟨s1, hp, hsame, _, _⟩ := find_insertion_pred_skip s hb0 hj0 hm0
    rw [hsame hs] at hp
    simp only [visit_with_hash_loop, hp, advance_index_fst]
    exact ih (next_index t.mask idx) s _ f (by omega) hs
      (fun n1 h1 => hbefore (n1 + 1) (by omega)) hfree

theorem find_insertion_walk_fresh (A : Nat) (t : StringDictBase) (ki : KeyInfo) :
    ∀ (m idx : Nat) (s : Int × Option Nat) (p fuel : Nat), m < fuel → s.2 = none →
      (∀ n1, n1 < m → ∃ j1, bucket_slot t (probe_index t.mask idx n1) = some j1
          ∧ j1 < t.entries.length ∧ slot_matches A t ki j1 = false ∧ slot_empty t j1 = false) →
      (∃ o, t.offsets[probe_index t.mask idx m]? = some o ∧ o < 0) →
      visit_with_hash_loop t.mask (find_insertion_pred A t ki) fuel s idx p
        = some (((probe_index t.mask idx m : Nat) : Int), none) := by
  intro m
  induction m with
  | zero =>
    intro idx s p fuel hf hs _ hfree
    obtain ⟨f, rfl⟩ : ∃ f, fuel = f + 1 := ⟨fuel - 1, by omega⟩
    obtain ⟨o, ho, hneg⟩ := hfree
    simp only [probe_index] at ho ⊢
    simp only [visit_with_hash_loop, find_insertion_pred_free s ho hneg, hs]
    rfl
  | succ m ih =>
    intro idx s p fuel hf hs hbefore hfree
    obtain ⟨f, rfl⟩ : ∃ f, fuel = f + 1 := ⟨fuel - 1, by omega⟩
    obtain ⟨j0, hb0, hj0, hm0, he0⟩ := hbefore 0 (by omega)
    simp only [probe_index] at hb0
    obtain ⟨s1, hp, _, hsame, _⟩ := find_insertion_pred_skip s hb0 hj0 hm0
    rw [hsame he0] at hp
    simp only [visit_with_hash_loop, hp, advance_index_fst]
    exact ih (next_index t.mask idx) s _ f (by omega) hs
      (fun n1 h1 => hbefore (n1 + 1) (by omega)) hfree

theorem find_insertion_walk_empty (A : Nat) (t : StringDictBase) (ki : KeyInfo) (j : Nat) :
    ∀ (n m idx : Nat) (s : Int × Option Nat) (p fuel : Nat), n < m → m < fuel → s.2 = none →
      (∀ n1, n1 < m → ∃ j1, bucket_slot t (probe_index t.mask idx n1) = some j1
          ∧ j1 < t.entries.length ∧ slot_matches A t ki j1 = false) →
      (∀ n1 j1, n1 < n → bucket_slot t (probe_index t.mask idx n1) = some j1 →
          slot_empty t j1 = false) →
      bucket_slot t (probe_index t.mask idx n) = some j → slot_empty t j = true →
      (∃ o, t.offsets[probe_index t.mask idx m]? = some o ∧ o < 0) →
      visit_with_hash_loop t.mask (find_insertion_pred A t ki) fuel s idx p
        = some (((probe_index t.mask idx n : Nat) : Int), some j) := by
  intro n
  induction n with
  | zero =>
    intro m idx s p fuel hnm hf hs hbefore _ hb he hfree
    obtain ⟨f, rfl⟩ : ∃ f, fuel = f + 1 := ⟨fuel - 1, by omega⟩
    obtain ⟨m1, rfl⟩ : ∃ m1, m = m1 + 1 := ⟨m - 1, by omega⟩
    obtain ⟨j0, hb0, hj0, hm0⟩ := hbefore 0 (by omega)
    simp only [probe_index] at hb hb0 ⊢
    rw [hb] at hb0
    simp only [Option.some.injEq] at hb0
    subst hb0
    obtain ⟨s1, hp, _, _, hnew⟩ := find_insertion_pred_skip s hb hj0 hm0
    rw [hnew hs he] at hp
    simp only [visit_with_hash_loop, hp, advance_index_fst]
    exact find_insertion_walk_found A t ki m1 (next_index t.mask idx) _ _ f (by omega) rfl
      (fun n1 h1 => hbefore (n1 + 1) (by omega)) hfree
  | succ n ih =>
    intro m idx s p fuel hnm hf hs hbefore hnoempty hb he hfree
    obtain ⟨f, rfl⟩ : ∃ f, fuel = f + 1 := ⟨fuel - 1, by omega⟩
    obtain ⟨m1, rfl⟩ : ∃ m1, m = m1 + 1 := ⟨m - 1, by omega⟩
    obtain ⟨j0, hb0, hj0, hm0⟩ := hbefore 0 (by omega)
    have he0 := hnoempty 0 j0 (by omega) hb0
    simp only [probe_index] at hb0
    obtain ⟨s1, hp, _, hsame, _⟩ := find_insertion_pred_skip s hb0 hj0 hm0
    rw [hsame he0] at hp
    simp only [visit_with_hash_loop, hp, advance_index_fst]
    exact ih m1 (next_index t.mask idx) s _ f (by omega) (by omega) hs
      (fun n1 h1 => hbefore (n1 + 1) (by omega))
      (fun n1 j1 h1 hb1 => hnoempty (n1 + 1) j1 (by omega) hb1) hb he hfree

/-! ### The first free bucket of a probe chain -/

theorem first_free_bucket (k : Nat) (t : StringDictBase) (h : Int)
    (hmask : t.mask = 2 ^ k - 1) (hlen : t.offsets.length = 2 ^ k)
    (hfree : ∃ i, i < t.offsets.length ∧ bucket_slot t i = none) :
    ∃ m, m < 2 ^ k ∧ bucket_slot t (chain_bucket t h m) = none
      ∧ ∀ n, n < m → bucket_slot t (chain_bucket t h n) ≠ none := by
  classical
  obtain ⟨i, hi, hb⟩ := hfree
  obtain ⟨n0, hn0, hp⟩ := probe_index_surjective k (to_uhash h &&& (2 ^ k - 1)) i
    (start_index_lt k h) (by rw [← hlen]; exact hi)
  have hex : ∃ n, bucket_slot t (chain_bucket t h n) = none :=
    ⟨n0, by unfold chain_bucket; rw [hmask, hp]; exact hb⟩
  refine ⟨Nat.find hex, ?_, Nat.find_spec hex, fun n hn => Nat.find_min hex hn⟩
  have := Nat.find_min' hex (show bucket_slot t (chain_bucket t h n0) = none by
    unfold chain_bucket; rw [hmask, hp]; exact hb)
  omega

theorem chain_bucket_lt (k : Nat) (t : StringDictBase) (h : Int) (n : Nat)
    (hmask : t.mask = 2 ^ k - 1) : chain_bucket t h n < 2 ^ k := by
  have hpos : 0 < 2 ^ k := Nat.pow_pos (by norm_num)
  have := probe_index_le t.mask (to_uhash h &&& t.mask) n Nat.and_le_right
  unfold chain_bucket
  omega

/-! ### A lookup, along the probe chain -/

theorem find_existing_pred_free {A : Nat} {t : StringDictBase} {ki : KeyInfo} {i : Nat}
    {o : Int} (s : Int × Option Nat) (ho : t.offsets[i]? = some o) (hneg : o < 0) :
    find_existing_pred A t ki s i = some (((i : Int), s.2), true) := by
  unfold find_existing_pred
  simp only [ho, hneg, if_true]

theorem find_existing_pred_match {A : Nat} {t : StringDictBase} {ki : KeyInfo} {i j : Nat}
    (s : Int × Option Nat) (hb : bucket_slot t i = some j) (hm : slot_matches A t ki j = true) :
    find_existing_pred A t ki s i = some (((i : Int), some j), true) := by
  obtain ⟨o, ho, hneg, rfl⟩ := bucket_slot_some hb
  unfold slot_matches at hm
  unfold find_existing_pred
  cases he : t.entries[o.toNat]? with
  | none => simp [he] at hm
  | some e =>
    simp only [he] at hm
    simp only [ho, hneg, if_false, he, hm, if_true]

theorem find_existing_pred_skip {A : Nat} {t : StringDictBase} {ki : KeyInfo} {i j : Nat}
    (s : Int × Option Nat) (hb : bucket_slot t i = some j) (hj : j < t.entries.length)
    (hm : slot_matches A t ki j = false) :
    find_existing_pred A t ki s i = some (s, false) := by
  obtain ⟨o, ho, hneg, rfl⟩ := bucket_slot_some hb
  obtain ⟨e, he⟩ : ∃ e, t.entries[o.toNat]? = some e := ⟨_, List.getElem?_eq_getElem hj⟩
  unfold slot_matches at hm
  unfold find_existing_pred
  simp only [he] at hm
  simp only [ho, hneg, if_false, he, hm, Bool.false_eq_true]

/-- What one step of `find_existing` has met, read off its result. -/
theorem find_existing_pred_cases {A : Nat} {t : StringDictBase} {ki : KeyInfo} {i : Nat}
    {s s1 : Int × Option Nat} {b : Bool} (h : find_existing_pred A t ki s i = some (s1, b)) :
    (b = true ∧ bucket_slot t i = none ∧ i < t.offsets.length ∧ s1 = ((i : Int), s.2))
      ∨ (b = true ∧ ∃ j, bucket_slot t i = some j ∧ slot_matches A t ki j = true
          ∧ s1 = ((i : Int), some j))
      ∨ (b = false ∧ s1 = s ∧ ∃ j, bucket_slot t i = some j ∧ j < t.entries.length
          ∧ slot_matches A t ki j = false) := by
  unfold find_existing_pred at h
  cases ho : t.offsets[i]? with
  | none => simp [ho] at h
  | some o =>
    simp only [ho] at h
    by_cases hneg : o < 0
    · simp only [hneg, if_true, Option.some.injEq, Prod.mk.injEq] at h
      exact Or.inl ⟨h.2.symm, bucket_slot_of_free ho hneg, (List.getElem?_eq_some.1 ho).1,
        h.1.symm⟩
    · simp only [hneg, if_false] at h
      cases he : t.entries[o.toNat]? with
      | none => simp [he] at h
      | some e =>
        simp only [he] at h
        have hb := bucket_slot_of_used ho hneg
        by_cases hm : (!e.is_empty && e.matches A ki) = true
        · simp only [hm, if_true, Option.some.injEq, Prod.mk.injEq] at h
          exact Or.inr (Or.inl ⟨h.2.symm, o.toNat, hb, by simp [slot_matches, he, hm],
            h.1.symm⟩)
        · have hm2 : (!e.is_empty && e.matches A ki) = false := by
            cases hx : (!e.is_empty && e.matches A ki)
            · rfl
            · exact absurd hx hm
          simp only [hm2, Bool.false_eq_true, if_false, Option.some.injEq, Prod.mk.injEq] at h
          refine Or.inr (Or.inr ⟨h.2.symm, h.1.symm, o.toNat, hb,
            (List.getElem?_eq_some.1 he).1, ?_⟩)
          simp only [slot_matches, he]
          exact hm2

theorem find_existing_walk_match (A : Nat) (t : StringDictBase) (ki : KeyInfo) (j : Nat) :
    ∀ (n idx : Nat) (s : Int × Option Nat) (p fuel : Nat), n < fuel →
      (∀ n1, n1 < n → ∃ j1, bucket_slot t (probe_index t.mask idx n1) = some j1
          ∧ j1 < t.entries.length ∧ slot_matches A t ki j1 = false) →
      bucket_slot t (probe_index t.mask idx n) = some j → slot_matches A t ki j = true →
      visit_with_hash_loop t.mask (find_existing_pred A t ki) fuel s idx p
        = some (((probe_index t.mask idx n : Nat) : Int), some j) := by
  intro n
  induction n with
  | zero =>
    intro idx s p fuel hf _ hb hm
    obtain ⟨f, rfl⟩ : ∃ f, fuel = f + 1 := ⟨fuel - 1, by omega⟩
    simp only [probe_index] at hb ⊢
    simp only [visit_with_hash_loop, find_existing_pred_match s hb hm]
  | succ n ih =>
    intro idx s p fuel hf hbefore hb hm
    obtain ⟨f, rfl⟩ : ∃ f, fuel = f + 1 := ⟨fuel - 1, by omega⟩
    obtain ⟨j0, hb0, hj0, hm0⟩ := hbefore 0 (by omega)
    simp only [probe_index] at hb0
    simp only [visit_with_hash_loop, find_existing_pred_skip s hb0 hj0 hm0, advance_index_fst]
    exact ih (next_index t.mask idx) s _ f (by omega)
      (fun n1 h1 => hbefore (n1 + 1) (by omega)) hb hm

theorem find_existing_walk_miss (A : Nat) (t : StringDictBase) (ki : KeyInfo) :
    ∀ (m idx : Nat) (s : Int × Option Nat) (p fuel : Nat), m < fuel →
      (∀ n1, n1 < m → ∃ j1, bucket_slot t (probe_index t.mask idx n1) = some j1
          ∧ j1 < t.entries.length ∧ slot_matches A t ki j1 = false) →
      (∃ o, t.offsets[probe_index t.mask idx m]? = some o ∧ o < 0) →
      visit_with_hash_loop t.mask (find_existing_pred A t ki) fuel s idx p
        = some (((probe_index t.mask idx m : Nat) : Int), s.2) := by
  intro m
  induction m with
  | zero =>
    intro idx s p fuel hf _ hfree
    obtain ⟨f, rfl⟩ : ∃ f, fuel = f + 1 := ⟨fuel - 1, by omega⟩
    obtain ⟨o, ho, hneg⟩ := hfree
    simp only [probe_index] at ho ⊢
    simp only [visit_with_hash_loop, find_existing_pred_free s ho hneg]
  | succ m ih =>
    intro idx s p fuel hf hbefore hfree
    obtain ⟨f, rfl⟩ : ∃ f, fuel = f + 1 := ⟨fuel - 1, by omega⟩
    obtain ⟨j0, hb0, hj0, hm0⟩ := hbefore 0 (by omega)
    simp only [probe_index] at hb0
    simp only [visit_with_hash_loop, find_existing_pred_skip s hb0 hj0 hm0, advance_index_fst]
    exact ih (next_index t.mask idx) s _ f (by omega)
      (fun n1 h1 => hbefore (n1 + 1) (by omega)) hfree

/-- What a lookup that returns has met on the probe chain. -/
theorem find_existing_trace (A : Nat) (t : StringDictBase) (ki : KeyInfo) :
    ∀ (fuel : Nat) (s : Int × Option Nat) (idx p : Nat) (r : Int × Option Nat), s.2 = none →
      visit_with_hash_loop t.mask (find_existing_pred A t ki) fuel s idx p = some r →
      ∃ n, (∀ n1, n1 < n → ∃ j1, bucket_slot t (probe_index t.mask idx n1) = some j1
              ∧ slot_matches A t ki j1 = false)
        ∧ ((bucket_slot t (probe_index t.mask idx n) = none ∧ r.2 = none)
          ∨ ∃ j, bucket_slot t (probe_index t.mask idx n) = some j
              ∧ slot_matches A t ki j = true ∧ r.2 = some j) := by
  intro fuel
  induction fuel with
  | zero =>
    intro s idx p r _ h
    simp [visit_with_hash_loop] at h
  | succ fuel ih =>
    intro s idx p r hs h
    simp only [visit_with_hash_loop] at h
    cases hp : find_existing_pred A t ki s idx with
    | none => simp [hp] at h
    | some q =>
      obtain ⟨s1, b⟩ := q
      rcases find_existing_pred_cases hp with ⟨rfl, hb, _, rfl⟩ | ⟨rfl, j, hb, hm, rfl⟩ |
        ⟨rfl, rfl, j, hb, _, hm⟩
      · simp only [hp, Option.some.injEq] at h
        subst h
        exact ⟨0, fun n1 h1 => absurd h1 (Nat.not_lt_zero _), Or.inl ⟨hb, hs⟩⟩
      · simp only [hp, Option.some.injEq] at h
        subst h
        exact ⟨0, fun n1 h1 => absurd h1 (Nat.not_lt_zero _), Or.inr ⟨j, hb, hm, rfl⟩⟩
      · simp only [hp, advance_index_fst] at h
        obtain ⟨n, hbefore, hend⟩ := ih _ _ _ _ hs h
        refine ⟨n + 1, ?_, hend⟩
        intro n1 h1
        cases n1 with
        | zero => exact ⟨j, hb, hm⟩
        | succ n1 => exact hbefore n1 (by omega)

/-! ### The offsets in use after a growth -/

theorem grow_relocate_from_used (fuel : Nat) :
    ∀ (rest : List Entry) (j : Nat) (t t1 : StringDictBase),
      grow_relocate_from fuel rest j t = some t1 →
      used_offsets t1.offsets ≤ used_offsets t.offsets + rest.length := by
  intro rest
  induction rest with
  | nil =>
    intro j t t1 h
    simp only [grow_relocate_from, Option.some.injEq] at h
    subst h
    simp
  | cons ent rest ih =>
    intro j t t1 h
    simp only [grow_relocate_from] at h
    cases hstep : grow_relocate_entry fuel t ent j with
    | none => simp [hstep] at h
    | some t2 =>
      simp only [hstep] at h
      obtain ⟨i, o, ho, hneg, rfl⟩ := grow_relocate_entry_free hstep
      have h1 := ih (j + 1) _ t1 h
      have h2 := used_offsets_set_le t.offsets i (j : Int) o ho hneg
      simp only [List.length_cons] at h1 ⊢
      omega

/-! ### Lookups before and after a growth -/

theorem slot_matches_entry {A : Nat} {t : StringDictBase} {v : KeyInfo} {j : Nat}
    (h : slot_matches A t v j = true) :
    ∃ e, t.entries[j]? = some e ∧ e.is_empty = false ∧ e.hash = v.hash
      ∧ j < t.entries.length := by
  unfold slot_matches at h
  cases he : t.entries[j]? with
  | none => simp [he] at h
  | some e =>
    simp only [he, Bool.and_eq_true, Bool.not_eq_true'] at h
    refine ⟨e, rfl, h.1, ?_, (List.getElem?_eq_some.1 he).1⟩
    have hm := h.2
    unfold Entry.matches at hm
    cases hs : e.entry_ with
    | none => simp [hs] at hm
    | some s =>
      simp only [hs, Bool.and_eq_true, decide_eq_true_eq] at hm
      exact hm.1

theorem found_by_own_key_lookup {A fuel : Nat} {t : StringDictBase} {j : Nat} {e : Entry}
    (he : t.entries[j]? = some e) (hne : e.is_empty = false)
    (h : found_by_own_key A fuel t j = true) :
    ∃ ki i, ki.hash = e.hash ∧ find_existing A fuel t ki = some (i, some j) := by
  unfold found_by_own_key at h
  simp only [he] at h
  cases hs : e.entry_ with
  | none => simp [Entry.is_empty, hs] at hne
  | some s =>
    simp only [Entry.as_key_info, hs, Option.map_some'] at h
    split at h
    · rename_i x j1 hf
      simp only [decide_eq_true_eq] at h
      subst h
      exact ⟨_, x, rfl, hf⟩
    · simp at h

theorem slot_matches_congr {A : Nat} {t t1 : StringDictBase} (h : t1.entries = t.entries)
    (v : KeyInfo) (j : Nat) : slot_matches A t1 v j = slot_matches A t v j := by
  unfold slot_matches
  rw [h]

/-- Growth preserves a lookup.  In a table with `mask + 1 == len(offsets) = 2 ^ k`,
fewer than `2 ^ (k + 1)` slots and a counter in the range of `Py_ssize_t`, in which every
Occupied entry is found by `find_existing` with its own key, let `v` be a key view that
matches at most one Occupied entry and for which `find_existing` returns.  After `grow()`
the entries are the same and `find_existing` returns the same slot, or none as before. -/
theorem grow_preserves_lookup (A fuel fuel2 k : Nat) (t t1 : StringDictBase) (v : KeyInfo)
    (i : Int) (r : Option Nat)
    (hmask : t.mask = 2 ^ k - 1) (hent : t.entries.length < 2 ^ (k + 1))
    (hlen : t.offsets.length = 2 ^ k)
    (h0 : -2 ^ 63 ≤ t.occupied) (h1 : t.occupied < 2 ^ 63)
    (hown : ∀ j, j < t.entries.length → found_by_own_key A fuel t j = true)
    (huniq : ∀ j1 j2, slot_matches A t v j1 = true → slot_matches A t v j2 = true → j1 = j2)
    (hgrow : grow fuel t = some t1)
    (hbefore : find_existing A fuel t v = some (i, r))
    (hfuel2 : 2 ^ (k + 1) ≤ fuel2) :
    t1.entries = t.entries ∧ ∃ i1, find_existing A fuel2 t1 v = some (i1, r) := by
  classical
  -- the table after the growth
  have hid : grow_remove_empty_entries
      { t with offsets := List.replicate (t.offsets.length * 2) (-1),
               mask := (t.mask <<< 1) ||| 1 }
      = { t with offsets := List.replicate (t.offsets.length * 2) (-1),
                 mask := (t.mask <<< 1) ||| 1 } :=
    grow_remove_empty_entries_id _ h0 h1
  unfold grow at hgrow
  simp only [] at hgrow
  rw [hid] at hgrow
  obtain ⟨hm1, he1, _, _, hchain⟩ := grow_relocate_from_chain fuel _ 0 _ t1 hgrow
  obtain ⟨_, _, _, hlen1⟩ := grow_relocate_from_frame fuel _ _ _ _ hgrow
  have hidx := grow_relocate_from_indexed fuel _ 0 _ t1 hgrow (Indexed.of_replicate _)
  have hused := grow_relocate_from_used fuel _ 0 _ t1 hgrow
  simp only [] at hm1 he1 hlen1 hidx hused hchain
  rw [hmask, mask_double] at hm1
  rw [List.length_replicate, hlen, ← pow_succ] at hlen1
  rw [used_offsets_replicate, Nat.zero_add] at hused
  rw [Nat.zero_add] at hidx
  have hfree1 : ∃ i, i < t1.offsets.length ∧ bucket_slot t1 i = none := by
    obtain ⟨target, o, ho, hneg⟩ := exists_free_of_used_lt t1.offsets (by omega)
    exact ⟨target, (List.getElem?_eq_some.1 ho).1, bucket_slot_of_free ho hneg⟩
  obtain ⟨m1, hm1lt, hfreem1, hbeforem1⟩ := first_free_bucket (k + 1) t1 v.hash hm1 hlen1 hfree1
  have hfreeo : ∃ o, t1.offsets[chain_bucket t1 v.hash m1]? = some o ∧ o < 0 :=
    bucket_slot_free (by rw [hlen1]; exact chain_bucket_lt (k + 1) t1 v.hash m1 hm1) hfreem1
  have hvalid1 : ∀ n, n < m1 → ∃ j, bucket_slot t1 (chain_bucket t1 v.hash n) = some j
      ∧ j < t1.entries.length := by
    intro n hn
    cases hb : bucket_slot t1 (chain_bucket t1 v.hash n) with
    | none => exact absurd hb (hbeforem1 n hn)
    | some j =>
      obtain ⟨o, ho, hneg, hj⟩ := bucket_slot_some hb
      have := (hidx.1 o (List.mem_iff_getElem?.2 ⟨_, ho⟩)).2
      rw [he1]
      exact ⟨j, rfl, by omega⟩
  refine ⟨he1, ?_⟩
  -- what the lookup before the growth has met
  obtain ⟨nb, hnb, hendb⟩ := find_existing_trace A t v fuel _ _ _ _ rfl hbefore
  by_cases hany : ∃ j, slot_matches A t v j = true
  · obtain ⟨j, hmj⟩ := hany
    obtain ⟨e, hej, hne, hhash, hjlt⟩ := slot_matches_entry hmj
    -- before the growth the lookup returns slot `j`
    have hr : r = some j := by
      rcases hendb with ⟨hnone, _⟩ | ⟨j2, _, hm2, hr2⟩
      · exfalso
        obtain ⟨ki, i2, hkh, hfind⟩ := found_by_own_key_lookup hej hne (hown j hjlt)
        obtain ⟨n, hn, hend⟩ := find_existing_trace A t ki fuel _ _ _ _ rfl hfind
        rw [hkh, hhash] at hn hend
        rcases hend with ⟨_, hc⟩ | ⟨j3, hb3, _, hr3⟩
        · simp at hc
        · simp only [Option.some.injEq] at hr3
          subst hr3
          rcases Nat.lt_trichotomy n nb with hlt | heq | hgt
          · obtain ⟨j4, hb4, hm4⟩ := hnb n hlt
            rw [hb3] at hb4
            simp only [Option.some.injEq] at hb4
            subst hb4
            rw [hmj] at hm4
            exact absurd hm4 (by decide)
          · subst heq
            rw [hb3] at hnone
            exact absurd hnone (by simp)
          · obtain ⟨j4, hb4, _⟩ := hn nb hgt
            rw [hnone] at hb4
            exact absurd hb4 (by simp)
      · simp only [] at hr2
        rw [hr2, huniq j2 j hm2 hmj]
    -- after the growth the slot is on the chain of its hash
    obtain ⟨n, hat, hbef⟩ := hchain j e hej
    rw [Nat.zero_add, hhash] at hat
    have hbj : bucket_slot t1 (chain_bucket t1 v.hash n) = some j := by
      have := bucket_slot_of_used hat (by omega)
      simpa [chain_bucket] using this
    have hnlt : n < m1 := by
      rcases Nat.lt_trichotomy n m1 with hlt | heq | hgt
      · exact hlt
      · subst heq
        rw [hbj] at hfreem1
        exact absurd hfreem1 (by simp)
      · obtain ⟨o, ho, hneg⟩ := hbef m1 hgt
        rw [hhash] at ho
        have := bucket_slot_of_used ho hneg
        rw [show probe_index t1.mask (to_uhash v.hash &&& t1.mask) m1
          = chain_bucket t1 v.hash m1 from rfl, hfreem1] at this
        exact absurd this (by simp)
    have hmj1 : slot_matches A t1 v j = true := by rw [slot_matches_congr he1]; exact hmj
    have hex : ∃ n0, n0 < m1 ∧ ∃ j0, bucket_slot t1 (chain_bucket t1 v.hash n0) = some j0
        ∧ slot_matches A t1 v j0 = true := ⟨n, hnlt, j, hbj, hmj1⟩
    obtain ⟨hn0, j0, hb0, hm0⟩ := Nat.find_spec hex
    have hj0 : j0 = j := huniq j0 j (by rw [← slot_matches_congr he1]; exact hm0) hmj
    have hloop := find_existing_walk_match A t1 v j0 (Nat.find hex)
      (to_uhash v.hash &&& t1.mask) (-1, none) (to_uhash v.hash) fuel2 (by omega)
      (by
        intro n1 hlt1
        obtain ⟨j1, hb1, hj1⟩ := hvalid1 n1 (by omega)
        refine ⟨j1, hb1, hj1, ?_⟩
        by_contra hc
        exact Nat.find_min hex hlt1 ⟨by omega, j1, hb1, by simpa using hc⟩)
      hb0 hm0
    rw [hr, ← hj0]
    exact ⟨_, hloop⟩
  · have hnone : ∀ j, slot_matches A t v j = false := by
      intro j
      by_contra hc
      exact hany ⟨j, by simpa using hc⟩
    have hr : r = none := by
      rcases hendb with ⟨_, hr2⟩ | ⟨j2, _, hm2, _⟩
      · exact hr2
      · rw [hnone j2] at hm2
        exact absurd hm2 (by decide)
    have hloop := find_existing_walk_miss A t1 v m1
      (to_uhash v.hash &&& t1.mask) (-1, none) (to_uhash v.hash) fuel2 (by omega)
      (by
        intro n1 hlt1
        obtain ⟨j1, hb1, hj1⟩ := hvalid1 n1 hlt1
        exact ⟨j1, hb1, hj1, by rw [slot_matches_congr he1]; exact hnone j1⟩)
      hfreeo
    rw [hr]
    exact ⟨_, hloop⟩

/-- An instance of `grow_preserves_lookup`: the lookup of the bytes object b"xyz" in
`reorder_table`, where only slot 0 matches it. -/
theorem grow_preserves_lookup_example :
    find_existing 8 16 reorder_table bytes_xyz_view = some (6, some 0)
    ∧ ∃ t1, grow 16 reorder_table = some t1 ∧ t1.entries = reorder_table.entries
      ∧ ∃ i1, find_existing 8 16 t1 bytes_xyz_view = some (i1, some 0) := by
  have hbefore : find_existing 8 16 reorder_table bytes_xyz_view = some (6, some 0) := by
    decide!
  have hsome : (grow 16 reorder_table).isSome = true := by decide!
  obtain ⟨t1, ht1⟩ := Option.isSome_iff_exists.1 hsome
  have huniq : ∀ j1 j2, slot_matches 8 reorder_table bytes_xyz_view j1 = true →
      slot_matches 8 reorder_table bytes_xyz_view j2 = true → j1 = j2 := by
    have hzero : ∀ j, slot_matches 8 reorder_table bytes_xyz_view j = true → j = 0 := by
      intro j hj
      obtain ⟨_, _, _, _, hlt⟩ := slot_matches_entry hj
      have hlt2 : j < 2 := hlt
      interval_cases j
      · rfl
      · exact absurd hj (by decide!)
    intro j1 j2 h1 h2
    rw [hzero j1 h1, hzero j2 h2]
  have hown : ∀ j, j < reorder_table.entries.length →
      found_by_own_key 8 16 reorder_table j = true := by
    intro j hj
    have hlt2 : j < 2 := hj
    interval_cases j
    · decide!
    · decide!
  obtain ⟨he, hfind⟩ := grow_preserves_lookup 8 16 16 3 reorder_table t1 bytes_xyz_view 6
    (some 0) (by decide) (by decide) (by decide) (by decide) (by decide) hown huniq ht1
    hbefore (by decide)
  exact ⟨hbefore, t1, ht1, he, hfind⟩

/-! ### Matching and the round trip of an entry -/

/-- Unless the view's origin and the entry's cached key are both null, `Entry_Matches`
is what the specification describes. -/
theorem Entry_Matches_eq_spec (A : Nat) (e : StringDictEntry) (v : KeyInfo)
    (h : v.key ≠ 0 ∨ Entry_GetKey A e ≠ 0) :
    Entry_Matches A e v = spec_matches A e v := by
  unfold Entry_Matches spec_matches Entry_Data
  by_cases hk : v.key = Entry_GetKey A e
  · have hne : v.key ≠ 0 := by
      rcases h with h | h
      · exact h
      · rw [hk]; exact h
    have h1 : decide (v.key ≠ 0) = true := decide_eq_true hne
    have h2 : decide (v.key = Entry_GetKey A e) = true := decide_eq_true hk
    rw [if_pos hk, h1, h2]
    rfl
  · by_cases hkind : v.kind = Entry_Kind A e
    · by_cases hsize : v.data_size = (Entry_DataAndSize A e).2
      · simp only [hk, if_false, ne_eq, hkind, not_true_eq_false, hsize, decide_True,
          Bool.true_and, decide_False, Bool.and_false, Bool.false_or, Bool.and_true]
        rw [Bool.eq_iff_iff]
        simp only [beq_iff_eq, decide_eq_true_eq]
        exact ⟨fun h => h.symm, fun h => h.symm⟩
      · have hsize2 : ¬ (Entry_DataAndSize A e).2 = v.data_size := fun hc => hsize hc.symm
        simp [hk, hkind, hsize, hsize2]
    · have hkind2 : ¬ Entry_Kind A e = v.kind := fun hc => hkind hc.symm
      simp [hk, hkind, hkind2]

/-- What `Entry_AsKeyInfo` reads from an entry built by `Entry_FromKeyInfo`: the length,
the data bytes and the zero byte after them for every alignment; the kind when the
alignment leaves no tag bit, and `PY_BYTES` when it leaves some. -/
theorem Entry_AsKeyInfo_FromKeyInfo (A : Nat) (ki blank : KeyInfo) (v : Nat)
    (h : ki.data_size < 2 ^ 64) :
    (Entry_AsKeyInfo A (Entry_FromKeyInfo A ki v) blank).data_size = ki.data_size
    ∧ (Entry_AsKeyInfo A (Entry_FromKeyInfo A ki v) blank).data
        = ki.data.take (ki.data_size * DataKind_ItemSize ki.kind) ++ [0]
    ∧ (pyobject_pointer_lowbits A = 0 → ki.kind < 256 →
        (Entry_AsKeyInfo A (Entry_FromKeyInfo A ki v) blank).kind = ki.kind)
    ∧ (pyobject_pointer_lowbits A ≠ 0 → PYOBJECT_MASKED_ A ki.key = ki.key →
        PYOBJECT_MASKED_ A v = v →
        (Entry_AsKeyInfo A (Entry_FromKeyInfo A ki v) blank).kind = PY_BYTES) := by
  refine ⟨?_, ?_, ?_, ?_⟩
  · simp [Entry_AsKeyInfo, Entry_Data, Entry_DataAndSize_FromKeyInfo A ki v h]
  · simp [Entry_AsKeyInfo, Entry_Data, Entry_DataAndSize_FromKeyInfo A ki v h]
  · intro h0 hkind
    simp [Entry_AsKeyInfo, Entry_Kind, h0, Entry_FromKeyInfo, Nat.mod_eq_of_lt hkind]
  · intro h0 hk hv
    have h1 : PYOBJECT_TAG_ A ki.key = 0 := tag_of_masked hk
    have h2 : PYOBJECT_TAG_ A v = 0 := tag_of_masked hv
    simp only [Entry_AsKeyInfo]
    unfold Entry_Kind
    split
    · rename_i hz
      exact absurd hz h0
    · simp [Entry_KeyTag, Entry_ValueTag, Entry_FromKeyInfo, h1, h2, PY_BYTES]
    · simp [Entry_KeyTag, Entry_FromKeyInfo, h1, PY_BYTES]
    · simp [Entry_KeyTag, Entry_FromKeyInfo, h1, PY_BYTES]
    · rfl

/-! ### A search that meets no free offset -/

theorem find_insertion_loop_never (A : Nat) (t : StringDictBase) (ki : KeyInfo)
    (hall : ∀ idx, idx ≤ t.mask → ∃ j, bucket_slot t idx = some j ∧ j < t.entries.length
      ∧ slot_matches A t ki j = false) :
    ∀ (fuel : Nat) (s : Int × Option Nat) (idx p : Nat), idx ≤ t.mask →
      visit_with_hash_loop t.mask (find_insertion_pred A t ki) fuel s idx p = none := by
  intro fuel
  induction fuel with
  | zero => intro s idx p _; rfl
  | succ fuel ih =>
    intro s idx p h
    obtain ⟨j, hb, hj, hm⟩ := hall idx h
    obtain ⟨s1, hp, _⟩ := find_insertion_pred_skip s hb hj hm
    simp only [visit_with_hash_loop, hp, advance_index_fst]
    exact ih s1 _ _ (next_index_le t.mask idx)

theorem find_existing_loop_never (A : Nat) (t : StringDictBase) (ki : KeyInfo)
    (hall : ∀ idx, idx ≤ t.mask → ∃ j, bucket_slot t idx = some j ∧ j < t.entries.length
      ∧ slot_matches A t ki j = false) :
    ∀ (fuel : Nat) (s : Int × Option Nat) (idx p : Nat), idx ≤ t.mask →
      visit_with_hash_loop t.mask (find_existing_pred A t ki) fuel s idx p = none := by
  intro fuel
  induction fuel with
  | zero => intro s idx p _; rfl
  | succ fuel ih =>
    intro s idx p h
    obtain ⟨j, hb, hj, hm⟩ := hall idx h
    simp only [visit_with_hash_loop, find_existing_pred_skip s hb hj hm, advance_index_fst]
    exact ih s _ _ (next_index_le t.mask idx)

theorem stale_mask_table_buckets (idx : Nat) (h : idx ≤ stale_mask_table.mask) :
    ∃ j, bucket_slot stale_mask_table idx = some j ∧ j < stale_mask_table.entries.length
      ∧ slot_matches 8 stale_mask_table (sample_key 16) j = false := by
  have hall : ∀ i, i < 16 →
      (match bucket_slot stale_mask_table i with
        | some j => decide (j < stale_mask_table.entries.length)
            && !slot_matches 8 stale_mask_table (sample_key 16) j
        | none => false) = true := by decide!
  have hlt : idx < 16 := Nat.lt_succ_of_le h
  have := hall idx hlt
  cases hb : bucket_slot stale_mask_table idx with
  | none => simp [hb] at this
  | some j =>
    simp only [hb, Bool.and_eq_true, decide_eq_true_eq, Bool.not_eq_true'] at this
    exact ⟨j, rfl, this.1, this.2⟩

/-! ### The load factor after an update -/

theorem stores_key_load {t t1 : StringDictBase}
    (h : StoresKey t t1 ∨ (t1.occupied = t.occupied ∧ t1.offsets.length = t.offsets.length))
    (hl : t.occupied * 1000 < 667 * (t.offsets.length : Int)) (h8 : 8 ≤ t.offsets.length) :
    t1.occupied * 1000 < 667 * (t1.offsets.length : Int) ∧ 8 ≤ t1.offsets.length := by
  rcases h with ⟨ho, ⟨hlen, hlow⟩ | ⟨hlen, _⟩⟩ | ⟨ho, hlen⟩
  · rw [ho, hlen]
    exact ⟨hlow, h8⟩
  · rw [ho, hlen]
    refine ⟨?_, by omega⟩
    push_cast
    omega
  · rw [ho, hlen]
    exact ⟨hl, h8⟩

theorem update_visit_other_load (A fuel : Nat) (t : StringDict) (err : Int) (e : Entry)
    (p : StringDict × Int)
    (hl : t.occupied * 1000 < 667 * (t.offsets.length : Int) ∧ 8 ≤ t.offsets.length)
    (h : (update_visit_other A fuel (some (t, err)) e).1 = some p) :
    p.1.occupied * 1000 < 667 * (p.1.offsets.length : Int) ∧ 8 ≤ p.1.offsets.length := by
  unfold update_visit_other at h
  simp only [] at h
  cases hk : e.as_key_info A with
  | none => simp [hk] at h
  | some ki =>
    simp only [hk] at h
    cases hf : find_insertion A fuel t ki with
    | none => simp [hf] at h
    | some q2 =>
      obtain ⟨idx, found⟩ := q2
      cases found with
      | none =>
        simp only [hf] at h
        cases ha : add_entry A fuel t ki idx (e.get_value A) with
        | none => simp [ha] at h
        | some q3 =>
          obtain ⟨t1, j⟩ := q3
          simp only [ha, Option.some.injEq] at h
          subst h
          exact stores_key_load (Or.inl (add_entry_frame ha).1) hl.1 hl.2
      | some ent =>
        simp only [hf] at h
        cases he : t.entries[ent]? with
        | none => simp [he] at h
        | some e0 =>
          simp only [he] at h
          split at h
          · cases ha : assign_entry A fuel t ki ent (e.get_value A) with
            | none => simp [ha] at h
            | some t1 =>
              simp only [ha, Option.some.injEq] at h
              subst h
              exact stores_key_load (assign_entry_frame ha).1 hl.1 hl.2
          · simp only [Option.some.injEq] at h
            subst h
            exact hl

theorem reserve_space_load {fuel : Nat} {t t1 : StringDictBase} {len r : Int}
    (hs : ShapeInv t) (h : reserve_space fuel t len = some (t1, r))
    (hl : t.occupied * 1000 < 667 * (t.offsets.length : Int)) (h8 : 8 ≤ t.offsets.length) :
    t1.occupied * 1000 < 667 * (t1.offsets.length : Int) ∧ 8 ≤ t1.offsets.length := by
  by_cases h0 : len = 0
  · unfold reserve_space at h
    rw [if_pos h0] at h
    simp only [Option.some.injEq, Prod.mk.injEq] at h
    rw [← h.1]
    exact ⟨hl, h8⟩
  · obtain ⟨k, hk, hlen⟩ := hs.pow2
    obtain ⟨_, _, ⟨_, rfl⟩ | ⟨_, m, hm, _, _, _, ⟨_, rfl⟩ | ⟨hkm, _, hg, hl1⟩⟩⟩ :=
      reserve_space_cases hlen h h0
    · exact ⟨hl, h8⟩
    · exact ⟨hl, h8⟩
    · obtain ⟨_, g2, _⟩ := grow_frame hg
      have hpow : 2 ^ k ≤ 2 ^ m := Nat.pow_le_pow_right (by norm_num) (by omega)
      rw [g2, hl1]
      rw [hlen] at hl h8
      simp only [] at hl ⊢
      have hcast : ((2 ^ k : Nat) : Int) ≤ ((2 ^ m : Nat) : Int) := by exact_mod_cast hpow
      constructor
      · omega
      · omega

theorem update_from_kwargs_loop_load (A fuel : Nat) :
    ∀ (kwargs : List (KeyInfo × Nat)) (t t1 : StringDict) (r : Int),
      update_from_kwargs_loop A fuel kwargs t = some (t1, r) →
      t.occupied * 1000 < 667 * (t.offsets.length : Int) → 8 ≤ t.offsets.length →
      t1.occupied * 1000 < 667 * (t1.offsets.length : Int) ∧ 8 ≤ t1.offsets.length := by
  intro kwargs
  induction kwargs with
  | nil =>
    intro t t1 r h hl h8
    simp only [update_from_kwargs_loop, Option.some.injEq, Prod.mk.injEq] at h
    rw [← h.1]
    exact ⟨hl, h8⟩
  | cons kv rest ih =>
    intro t t1 r h hl h8
    simp only [update_from_kwargs_loop] at h
    cases hset : StringDict.set A fuel t kv.1 kv.2 false with
    | none => simp [hset] at h
    | some q =>
      obtain ⟨t2, res⟩ := q
      obtain ⟨g1, g2⟩ := set_load hset hl h8
      cases res with
      | ok v =>
        simp only [hset] at h
        exact ih t2 t1 r h g1 g2
      | raised e =>
        simp only [hset, Option.some.injEq, Prod.mk.injEq] at h
        rw [← h.1]
        exact ⟨g1, g2⟩

theorem update_from_kwargs_load {A fuel : Nat} {t t1 : StringDict}
    {kwargs : List (KeyInfo × Nat)} {r : Int} (hs : ShapeInv t)
    (h : StringDict.update_from_kwargs A fuel t kwargs = some (t1, r))
    (hl : t.occupied * 1000 < 667 * (t.offsets.length : Int)) (h8 : 8 ≤ t.offsets.length) :
    t1.occupied * 1000 < 667 * (t1.offsets.length : Int) ∧ 8 ≤ t1.offsets.length := by
  unfold StringDict.update_from_kwargs at h
  simp only [] at h
  split at h
  · simp at h
  · rename_i t2 r2 hres
    obtain ⟨g1, g2⟩ := reserve_space_load hs hres hl h8
    split at h
    · simp only [Option.some.injEq, Prod.mk.injEq] at h
      rw [← h.1]
      exact ⟨g1, g2⟩
    · split at h
      · simp only [Option.some.injEq, Prod.mk.injEq] at h
        rw [← h.1]
        exact ⟨g1, g2⟩
      · exact update_from_kwargs_loop_load A fuel kwargs t2 t1 r h g1 g2

theorem apply_call_load {A fuel : Nat} {t t1 : StringDict} {c : Call} (hs : ShapeInv t)
    (h : apply_call A fuel t c = some t1)
    (hl : t.occupied * 1000 < 667 * (t.offsets.length : Int)) (h8 : 8 ≤ t.offsets.length) :
    t1.occupied * 1000 < 667 * (t1.offsets.length : Int) ∧ 8 ≤ t1.offsets.length := by
  cases c with
  | op o => exact apply_op_load h hl h8
  | update_kwargs kwargs =>
    simp only [apply_call, Option.map_eq_some'] at h
    obtain ⟨r, hr, rfl⟩ := h
    exact update_from_kwargs_load hs hr hl h8
  | update_object o =>
    simp only [apply_call, Option.map_eq_some'] at h
    obtain ⟨r, hr, rfl⟩ := h
    cases o with
    | this =>
      exact update_from_self_keeps A fuel
        (fun t => t.occupied * 1000 < 667 * (t.offsets.length : Int) ∧ 8 ≤ t.offsets.length)
        (fun t err e p hp hv => update_visit_other_load A fuel t err e p hp hv) ⟨hl, h8⟩ hr
    | other u =>
      simp only [StringDict.update_from_object, Option.some.injEq] at hr
      subst hr
      exact ⟨hl, h8⟩

theorem run_calls_load (A fuel : Nat) :
    ∀ (calls : List Call) (t t1 : StringDict), ShapeInv t →
      run_calls A fuel calls t = some t1 →
      t.occupied * 1000 < 667 * (t.offsets.length : Int) → 8 ≤ t.offsets.length →
      t1.occupied * 1000 < 667 * (t1.offsets.length : Int) ∧ 8 ≤ t1.offsets.length := by
  intro calls
  induction calls with
  | nil =>
    intro t t1 _ h hl h8
    simp only [run_calls, Option.some.injEq] at h
    subst h
    exact ⟨hl, h8⟩
  | cons c rest ih =>
    intro t t1 hs h hl h8
    simp only [run_calls] at h
    cases hc : apply_call A fuel t c with
    | none => simp [hc] at h
    | some t2 =>
      simp only [hc] at h
      obtain ⟨g1, g2⟩ := apply_call_load hs hc hl h8
      exact ih t2 t1 (apply_call_shape hs hc) h g1 g2

/-! ### What `find_insertion` has met when it returns -/

theorem find_insertion_loop_remembered (A : Nat) (t : StringDictBase) (ki : KeyInfo) :
    ∀ (fuel : Nat) (s : Int × Option Nat) (idx p : Nat) (r : Int × Option Nat) (j0 : Nat),
      s.2 = some j0 →
      visit_with_hash_loop t.mask (find_insertion_pred A t ki) fuel s idx p = some r →
      r.2 = some j0
        ∨ ∃ m j, r.2 = some j ∧ t.offsets[probe_index t.mask idx m]? = some (j : Int)
            ∧ ∀ n1, n1 < m →
              ∃ o, t.offsets[probe_index t.mask idx n1]? = some o ∧ ¬ o < 0 := by
  intro fuel
  induction fuel with
  | zero => intro s idx p r j0 _ h; simp [visit_with_hash_loop] at h
  | succ fuel ih =>
    intro s idx p r j0 hs h
    have hsn : s.2.isNone = false := by rw [hs]; rfl
    simp only [visit_with_hash_loop, find_insertion_pred] at h
    cases ho : t.offsets[idx]? with
    | none => simp [ho] at h
    | some o =>
      simp only [ho] at h
      by_cases hneg : o < 0
      · simp only [hneg, if_true, hsn, Bool.false_eq_true, if_false, Option.some.injEq] at h
        subst h
        exact Or.inl hs
      · simp only [hneg, if_false] at h
        have hshift : ∀ s1, s1.2 = some j0 →
            visit_with_hash_loop t.mask (find_insertion_pred A t ki) fuel s1
              (advance_index t.mask idx p).1 (advance_index t.mask idx p).2 = some r →
            r.2 = some j0
              ∨ ∃ m j, r.2 = some j ∧ t.offsets[probe_index t.mask idx m]? = some (j : Int)
                  ∧ ∀ n1, n1 < m →
                    ∃ o, t.offsets[probe_index t.mask idx n1]? = some o ∧ ¬ o < 0 := by
          intro s1 hs1 h1
          rcases ih s1 _ _ r j0 hs1 h1 with hl | ⟨m, j, hr, hat, hbefore⟩
          · exact Or.inl hl
          · refine Or.inr ⟨m + 1, j, hr, ?_, ?_⟩
            · rw [advance_index_fst] at hat
              exact hat
            · intro n1 hn1
              cases n1 with
              | zero => exact ⟨o, ho, hneg⟩
              | succ n1 =>
                have := hbefore n1 (by omega)
                rw [advance_index_fst] at this
                exact this
        cases he : t.entries[o.toNat]? with
        | none => simp [he] at h
        | some ent =>
          simp only [he] at h
          by_cases hemp : ent.is_empty = true
          · simp only [hemp, if_true, hsn, Bool.false_eq_true, if_false] at h
            exact hshift s hs h
          · simp only [hemp, Bool.false_eq_true, if_false] at h
            by_cases hm : ent.matches A ki = true
            · simp only [hm, if_true, Option.some.injEq] at h
              subst h
              refine Or.inr ⟨0, o.toNat, rfl, ?_, fun n1 h1 => absurd h1 (Nat.not_lt_zero _)⟩
              simp only [probe_index]
              rw [ho, Int.toNat_of_nonneg (by omega)]
            · simp only [hm, Bool.false_eq_true, if_false] at h
              exact hshift s hs h

theorem find_insertion_loop_trace (A : Nat) (t : StringDictBase) (ki : KeyInfo) :
    ∀ (fuel : Nat) (s : Int × Option Nat) (idx p : Nat) (r : Int × Option Nat),
      s.2 = none →
      visit_with_hash_loop t.mask (find_insertion_pred A t ki) fuel s idx p = some r →
      (r.2 = none ∧ ∃ m o, r.1 = ((probe_index t.mask idx m : Nat) : Int)
          ∧ t.offsets[probe_index t.mask idx m]? = some o ∧ o < 0
          ∧ ∀ n1, n1 < m → ∃ o1, t.offsets[probe_index t.mask idx n1]? = some o1 ∧ ¬ o1 < 0)
        ∨ ∃ m j, r.2 = some j ∧ t.offsets[probe_index t.mask idx m]? = some (j : Int)
            ∧ ∀ n1, n1 < m →
              ∃ o, t.offsets[probe_index t.mask idx n1]? = some o ∧ ¬ o < 0 := by
  intro fuel
  induction fuel with
  | zero => intro s idx p r _ h; simp [visit_with_hash_loop] at h
  | succ fuel ih =>
    intro s idx p r hs h
    have hsn : s.2.isNone = true := by rw [hs]; rfl
    simp only [visit_with_hash_loop, find_insertion_pred] at h
    cases ho : t.offsets[idx]? with
    | none => simp [ho] at h
    | some o =>
      simp only [ho] at h
      by_cases hneg : o < 0
      · simp only [hneg, if_true, hsn, Option.some.injEq] at h
        subst h
        exact Or.inl ⟨hs, 0, o, rfl, ho, hneg, fun n1 h1 => absurd h1 (Nat.not_lt_zero _)⟩
      · simp only [hneg, if_false] at h
        have hused : ∀ n1 m, n1 < m + 1 →
            (∀ n2, n2 < m → ∃ o2, t.offsets[probe_index t.mask
              (advance_index t.mask idx p).1 n2]? = some o2 ∧ ¬ o2 < 0) →
            ∃ o1, t.offsets[probe_index t.mask idx n1]? = some o1 ∧ ¬ o1 < 0 := by
          intro n1 m hn1 hbefore
          cases n1 with
          | zero => exact ⟨o, ho, hneg⟩
          | succ n1 =>
            have := hbefore n1 (by omega)
            rw [advance_index_fst] at this
            exact this
        cases he : t.entries[o.toNat]? with
        | none => simp [he] at h
        | some ent =>
          simp only [he] at h
          by_cases hemp : ent.is_empty = true
          · simp only [hemp, if_true, hsn] at h
            rcases find_insertion_loop_remembered A t ki fuel _ _ _ r o.toNat rfl h with
              hl | ⟨m, j, hr, hat, hbefore⟩
            · refine Or.inr ⟨0, o.toNat, hl, ?_, fun n1 h1 => absurd h1 (Nat.not_lt_zero _)⟩
              simp only [probe_index]
              rw [ho, Int.toNat_of_nonneg (by omega)]
            · refine Or.inr ⟨m + 1, j, hr, ?_, fun n1 hn1 => hused n1 m hn1 hbefore⟩
              rw [advance_index_fst] at hat
              exact hat
          · simp only [hemp, Bool.false_eq_true, if_false] at h
            by_cases hm : ent.matches A ki = true
            · simp only [hm, if_true, Option.some.injEq] at h
              subst h
              refine Or.inr ⟨0, o.toNat, rfl, ?_, fun n1 h1 => absurd h1 (Nat.not_lt_zero _)⟩
              simp only [probe_index]
              rw [ho, Int.toNat_of_nonneg (by omega)]
            · simp only [hm, Bool.false_eq_true, if_false] at h
              rcases ih s _ _ r hs h with ⟨hr, m, o1, hr1, hat, hneg1, hbefore⟩ |
                ⟨m, j, hr, hat, hbefore⟩
              · refine Or.inl ⟨hr, m + 1, o1, ?_, ?_, hneg1,
                  fun n1 hn1 => hused n1 m hn1 hbefore⟩
                · rw [hr1, advance_index_fst]
                  rfl
                · rw [advance_index_fst] at hat
                  exact hat
              · refine Or.inr ⟨m + 1, j, hr, ?_, fun n1 hn1 => hused n1 m hn1 hbefore⟩
                rw [advance_index_fst] at hat
                exact hat

/-- The slot `find_insertion` returns lies on the probe chain of the key, before any
free offset. -/
theorem find_insertion_chain {A fuel : Nat} {t : StringDictBase} {ki : KeyInfo} {i : Int}
    {j : Nat} (h : find_insertion A fuel t ki = some (i, some j)) : Chain t ki.hash j := by
  rcases find_insertion_loop_trace A t ki fuel _ _ _ _ rfl h with ⟨hr, _⟩ |
    ⟨m, j1, hr, hat, hbefore⟩
  · simp at hr
  · simp only [Option.some.injEq] at hr
    subst hr
    exact ⟨m, hat, hbefore⟩

/-- Without a slot, `find_insertion` returns the first free offset of the probe
chain. -/
theorem find_insertion_first_free {A fuel : Nat} {t : StringDictBase} {ki : KeyInfo} {i : Int}
    (h : find_insertion A fuel t ki = some (i, none)) :
    ∃ m o, i = ((probe_index t.mask (to_uhash ki.hash &&& t.mask) m : Nat) : Int)
      ∧ t.offsets[probe_index t.mask (to_uhash ki.hash &&& t.mask) m]? = some o ∧ o < 0
      ∧ ∀ n1, n1 < m →
        ∃ o1, t.offsets[probe_index t.mask (to_uhash ki.hash &&& t.mask) n1]? = some o1
          ∧ ¬ o1 < 0 := by
  rcases find_insertion_loop_trace A t ki fuel _ _ _ _ rfl h with ⟨_, m, o, hr, hat, hneg, hb⟩ |
    ⟨m, j1, hr, _⟩
  · exact ⟨m, o, hr, hat, hneg, hb⟩
  · simp at hr

/-! ### The probe chains of the Occupied slots after a call -/

theorem chain_of_same_offsets {t t1 : StringDictBase} (ho : t1.offsets = t.offsets)
    (hm : t1.mask = t.mask) {h : Int} {j : Nat} (hc : Chain t h j) : Chain t1 h j := by
  unfold Chain at hc ⊢
  rw [ho, hm]
  exact hc

theorem chain_inv_set_slot {t t1 : StringDictBase} (hc : ChainInv t) (j : Nat) (e1 : Entry)
    (ho : t1.offsets = t.offsets) (hm : t1.mask = t.mask)
    (he : t1.entries = t.entries.set j e1)
    (h : e1.is_empty = false → Chain t e1.hash j) : ChainInv t1 := by
  intro j1 e hj hne
  rw [he] at hj
  by_cases hjj : j = j1
  · subst hjj
    have hlt : j < t.entries.length := by
      have := (List.getElem?_eq_some.1 hj).1
      simpa using this
    rw [List.getElem?_set_self hlt] at hj
    simp only [Option.some.injEq] at hj
    subst hj
    exact chain_of_same_offsets ho hm (h hne)
  · rw [List.getElem?_set_ne hjj] at hj
    exact chain_of_same_offsets ho hm (hc j1 e hj hne)

theorem chain_inv_add_at_free {t : StringDictBase} (hc : ChainInv t) {m : Nat} {o : Int}
    (new : Entry) (occ : Int)
    (hfree : t.offsets[probe_index t.mask (to_uhash new.hash &&& t.mask) m]? = some o)
    (hneg : o < 0)
    (hbefore : ∀ n1, n1 < m →
      ∃ o1, t.offsets[probe_index t.mask (to_uhash new.hash &&& t.mask) n1]? = some o1
        ∧ ¬ o1 < 0) :
    ChainInv { entries := t.entries ++ [new],
               offsets := t.offsets.set (probe_index t.mask (to_uhash new.hash &&& t.mask) m)
                 (t.entries.length : Int),
               mask := t.mask, occupied := occ } := by
  intro j e hj hne
  simp only [] at hj
  by_cases hlt : j < t.entries.length
  · rw [List.getElem?_append_left hlt] at hj
    exact Chain.set_free hfree hneg _ _ _ (hc j e hj hne)
  · have hjlen : j = t.entries.length := by
      have := (List.getElem?_eq_some.1 hj).1
      simp only [List.length_append, List.length_singleton] at this
      omega
    subst hjlen
    rw [List.getElem?_append_right (le_refl _)] at hj
    simp only [Nat.sub_self, List.getElem?_cons_zero, Option.some.injEq] at hj
    subst hj
    refine ⟨m, ?_, ?_⟩
    · show (t.offsets.set _ _)[_]? = _
      rw [List.getElem?_set_self (List.getElem?_eq_some.1 hfree).1]
    · intro n1 hn1
      obtain ⟨o1, ho1, hn⟩ := hbefore n1 hn1
      refine ⟨o1, ?_, hn⟩
      show (t.offsets.set _ _)[_]? = _
      rw [List.getElem?_set_ne]
      · exact ho1
      · intro heq
        rw [← heq, hfree] at ho1
        simp only [Option.some.injEq] at ho1
        omega

theorem grow_chain_inv {fuel : Nat} {t t1 : StringDictBase} (h : grow fuel t = some t1) :
    ChainInv t1 := by
  unfold grow at h
  simp only [] at h
  obtain ⟨_, he, _, _, hall⟩ := grow_relocate_from_chain fuel _ 0 _ t1 h
  intro j e hj _
  rw [he] at hj
  have := hall j e hj
  rw [Nat.zero_add] at this
  exact this

theorem add_entry_chain_inv {A fuel : Nat} {t t1 : StringDictBase} {ki : KeyInfo} {v j m : Nat}
    {o : Int} (hc : ChainInv t)
    (hfree : t.offsets[probe_index t.mask (to_uhash ki.hash &&& t.mask) m]? = some o)
    (hneg : o < 0)
    (hbefore : ∀ n1, n1 < m →
      ∃ o1, t.offsets[probe_index t.mask (to_uhash ki.hash &&& t.mask) n1]? = some o1
        ∧ ¬ o1 < 0)
    (h : add_entry A fuel t ki ((probe_index t.mask (to_uhash ki.hash &&& t.mask) m : Nat) : Int)
      v = some (t1, j)) : ChainInv t1 := by
  unfold add_entry at h
  simp only [Int.toNat_ofNat, List.length_append, List.length_singleton, Nat.cast_add,
    Nat.cast_one, add_sub_cancel_right] at h
  split at h
  · split at h
    · simp at h
    · rename_i t4 hg
      simp only [Option.some.injEq, Prod.mk.injEq] at h
      rw [← h.1]
      exact grow_chain_inv hg
  · simp only [Option.some.injEq, Prod.mk.injEq] at h
    rw [← h.1]
    exact chain_inv_add_at_free hc (Entry.ofKeyInfo A ki v) _ hfree hneg hbefore

theorem remove_entry_chain_inv {t t1 : StringDictBase} {ent : Nat} (hc : ChainInv t)
    (h : remove_entry t ent = some t1) : ChainInv t1 := by
  unfold remove_entry at h
  cases he : t.entries[ent]? with
  | none => simp [he] at h
  | some e =>
    simp only [he, Option.some.injEq] at h
    subst h
    exact chain_inv_set_slot hc ent e.set_empty rfl rfl rfl
      (fun hne => by simp [Entry.set_empty, Entry.is_empty] at hne)

theorem assign_entry_chain_inv {A fuel : Nat} {t t1 : StringDictBase} {ki : KeyInfo}
    {ent v : Nat} (hc : ChainInv t) (hchain : Chain t ki.hash ent)
    (hkeep : ∀ e, t.entries[ent]? = some e → e.is_empty = true →
      reserve_load_factor { t with occupied := t.occupied + 1 } = 0)
    (h : assign_entry A fuel t ki ent v = some t1) : ChainInv t1 := by
  unfold assign_entry at h
  cases he : t.entries[ent]? with
  | none => simp [he] at h
  | some e0 =>
    simp only [he] at h
    by_cases hemp : e0.is_empty = true
    · have hr := hkeep e0 he hemp
      simp only [hemp, if_true, hr, ne_eq, not_true_eq_false, if_false, he,
        Option.some.injEq] at h
      subst h
      exact chain_inv_set_slot hc ent _ rfl rfl rfl (fun _ => hchain)
    · simp only [hemp, Bool.false_eq_true, if_false, Option.some.injEq] at h
      subst h
      refine chain_inv_set_slot hc ent _ rfl rfl rfl (fun hne => ?_)
      have hne0 : e0.is_empty = false := by simpa using hemp
      exact hc ent e0 he hne0

theorem try_assign_entry_chain_inv {A : Nat} {t t1 : StringDictBase} {ki : KeyInfo}
    {ent v : Nat} {b : Bool} (hc : ChainInv t) (hchain : Chain t ki.hash ent)
    (h : try_assign_entry A t ki ent v = some (t1, b)) : ChainInv t1 := by
  unfold try_assign_entry at h
  cases he : t.entries[ent]? with
  | none => simp [he] at h
  | some e0 =>
    simp only [he] at h
    by_cases hemp : e0.is_empty = true
    · simp only [hemp, if_true, Option.some.injEq, Prod.mk.injEq] at h
      rw [← h.1]
      exact chain_inv_set_slot hc ent _ rfl rfl rfl (fun _ => hchain)
    · simp only [hemp, Bool.false_eq_true, if_false, Option.some.injEq, Prod.mk.injEq] at h
      rw [← h.1]
      exact hc

theorem keep_of_not_grows {A fuel : Nat} {t : StringDict} {ki : KeyInfo} {i : Int} {ent : Nat}
    (hf : find_insertion A fuel t ki = some (i, some ent))
    (hk : grows_into_empty_slot A fuel t ki = false) :
    ∀ e, t.entries[ent]? = some e → e.is_empty = true →
      reserve_load_factor { t with occupied := t.occupied + 1 } = 0 := by
  intro e he hemp
  unfold grows_into_empty_slot at hk
  simp only [hf, he, hemp, Bool.true_and, decide_eq_false_iff_not, ne_eq, not_not] at hk
  exact hk

theorem set_chain_inv {A fuel : Nat} {t : StringDict} {ki : KeyInfo} {v : Nat} {sd : Bool}
    {r : StringDict × PyResult Nat} (hc : ChainInv t)
    (hkeep : sd = true ∨ grows_into_empty_slot A fuel t ki = false)
    (h : StringDict.set A fuel t ki v sd = some r) : ChainInv r.1 := by
  unfold StringDict.set at h
  cases hf : find_insertion A fuel t ki with
  | none => simp [hf] at h
  | some q =>
    obtain ⟨idx, found⟩ := q
    cases found with
    | none =>
      simp only [hf] at h
      obtain ⟨m, o, rfl, hfree, hneg, hbefore⟩ := find_insertion_first_free hf
      cases ha : add_entry A fuel t ki
          ((probe_index t.mask (to_uhash ki.hash &&& t.mask) m : Nat) : Int) v with
      | none => simp [ha] at h
      | some q2 =>
        obtain ⟨t1, j⟩ := q2
        simp only [ha, Option.map_eq_some'] at h
        obtain ⟨_, _, rfl⟩ := h
        exact add_entry_chain_inv hc hfree hneg hbefore ha
    | some ent =>
      simp only [hf] at h
      have hchain := find_insertion_chain hf
      cases sd with
      | true =>
        simp only [if_true] at h
        cases ha : try_assign_entry A t ki ent v with
        | none => simp [ha] at h
        | some q2 =>
          obtain ⟨t1, b⟩ := q2
          have := try_assign_entry_chain_inv hc hchain ha
          cases b with
          | true =>
            simp only [ha, Option.some.injEq] at h
            subst h
            exact this
          | false =>
            simp only [ha, Option.map_eq_some'] at h
            obtain ⟨_, _, rfl⟩ := h
            exact this
      | false =>
        simp only [Bool.false_eq_true, if_false] at h
        have hk : grows_into_empty_slot A fuel t ki = false := by
          rcases hkeep with hk | hk
          · exact absurd hk (by decide)
          · exact hk
        cases ha : assign_entry A fuel t ki ent v with
        | none => simp [ha] at h
        | some t1 =>
          simp only [ha, Option.some.injEq] at h
          subst h
          exact assign_entry_chain_inv hc hchain (keep_of_not_grows hf hk) ha

theorem apply_op_chain_inv {A fuel : Nat} {t t1 : StringDict} {op : Op} (hc : ChainInv t)
    (hkeep : call_keeps_keys A fuel t (Call.op op) = true)
    (h : apply_op A fuel t op = some t1) : ChainInv t1 := by
  cases op with
  | set ki v =>
    simp only [apply_op, Option.map_eq_some'] at h
    obtain ⟨r, hr, rfl⟩ := h
    simp only [call_keeps_keys, Bool.not_eq_true'] at hkeep
    exact set_chain_inv hc (Or.inr hkeep) hr
  | setdefault ki v =>
    simp only [apply_op, Option.map_eq_some'] at h
    obtain ⟨r, hr, rfl⟩ := h
    exact set_chain_inv hc (Or.inl rfl) hr
  | remove ki =>
    simp only [apply_op, Option.map_eq_some'] at h
    obtain ⟨r, hr, rfl⟩ := h
    unfold StringDict.remove at hr
    split at hr
    · simp at hr
    · simp only [Option.some.injEq] at hr
      subst hr
      exact hc
    · simp only [Option.map_eq_some'] at hr
      obtain ⟨t2, ht2, rfl⟩ := hr
      exact remove_entry_chain_inv hc ht2
  | pop ki d =>
    simp only [apply_op, Option.map_eq_some'] at h
    obtain ⟨r, hr, rfl⟩ := h
    unfold StringDict.pop at hr
    split at hr
    · split at hr <;>
      · simp only [Option.some.injEq] at hr
        subst hr
        exact hc
    · split at hr
      · simp at hr
      · split at hr
        · rename_i t2 _ ht2
          simp only [Option.some.injEq] at hr
          subst hr
          exact remove_entry_chain_inv hc ht2
        · simp at hr
      · split at hr <;>
        · simp only [Option.some.injEq] at hr
          subst hr
          exact hc
  | popitem =>
    simp only [apply_op, Option.map_eq_some'] at h
    obtain ⟨r, hr, rfl⟩ := h
    unfold StringDict.popitem at hr
    split at hr
    · simp only [Option.some.injEq] at hr
      subst hr
      exact hc
    · simp only [] at hr
      split at hr
      · simp at hr
      · split at hr
        · rename_i t2 _ ht2
          simp only [Option.some.injEq] at hr
          subst hr
          exact remove_entry_chain_inv hc ht2
        · simp at hr
  | clear =>
    simp only [apply_op, Option.some.injEq] at h
    subst h
    unfold StringDictBase.clear
    split
    · exact hc
    · intro j e hj _
      simp at hj

theorem reserve_space_chain_inv {fuel : Nat} {t t1 : StringDictBase} {len r : Int}
    (hc : ChainInv t) (h : reserve_space fuel t len = some (t1, r)) : ChainInv t1 := by
  unfold reserve_space at h
  split at h
  · simp only [Option.some.injEq, Prod.mk.injEq] at h
    rw [← h.1]
    exact hc
  · split at h
    · simp at h
    · simp only [] at h
      split at h
      · simp only [Option.some.injEq, Prod.mk.injEq] at h
        rw [← h.1]
        exact hc
      · split at h
        · simp at h
        · split at h
          · simp only [Option.some.injEq, Prod.mk.injEq] at h
            rw [← h.1]
            exact hc
          · split at h
            · simp only [Option.map_eq_some', Prod.mk.injEq] at h
              obtain ⟨t2, hg, rfl, _⟩ := h
              exact grow_chain_inv hg
            · simp only [Option.some.injEq, Prod.mk.injEq] at h
              rw [← h.1]
              exact hc

theorem update_from_kwargs_loop_chain_inv (A fuel : Nat) :
    ∀ (kwargs : List (KeyInfo × Nat)) (t t1 : StringDict) (r : Int), ChainInv t →
      kwargs_keep_keys A fuel kwargs t = true →
      update_from_kwargs_loop A fuel kwargs t = some (t1, r) → ChainInv t1 := by
  intro kwargs
  induction kwargs with
  | nil =>
    intro t t1 r hc _ h
    simp only [update_from_kwargs_loop, Option.some.injEq, Prod.mk.injEq] at h
    rw [← h.1]
    exact hc
  | cons kv rest ih =>
    intro t t1 r hc hk h
    simp only [update_from_kwargs_loop] at h
    simp only [kwargs_keep_keys, Bool.and_eq_true, Bool.not_eq_true'] at hk
    cases hset : StringDict.set A fuel t kv.1 kv.2 false with
    | none => simp [hset] at h
    | some q =>
      obtain ⟨t2, res⟩ := q
      have hc2 : ChainInv t2 := set_chain_inv hc (Or.inr hk.1) hset
      cases res with
      | ok v =>
        simp only [hset] at h hk
        exact ih t2 t1 r hc2 hk.2 h
      | raised e =>
        simp only [hset, Option.some.injEq, Prod.mk.injEq] at h
        rw [← h.1]
        exact hc2

theorem update_visit_other_chain_inv (A fuel : Nat) (t : StringDict) (err : Int) (e : Entry)
    (p : StringDict × Int) (hc : ChainInv t)
    (hk : ∀ ki, e.as_key_info A = some ki → grows_into_empty_slot A fuel t ki = false)
    (h : (update_visit_other A fuel (some (t, err)) e).1 = some p) : ChainInv p.1 := by
  unfold update_visit_other at h
  simp only [] at h
  cases hki : e.as_key_info A with
  | none => simp [hki] at h
  | some ki =>
    simp only [hki] at h
    cases hf : find_insertion A fuel t ki with
    | none => simp [hf] at h
    | some q2 =>
      obtain ⟨idx, found⟩ := q2
      cases found with
      | none =>
        simp only [hf] at h
        obtain ⟨m, o, rfl, hfree, hneg, hbefore⟩ := find_insertion_first_free hf
        cases ha : add_entry A fuel t ki
            ((probe_index t.mask (to_uhash ki.hash &&& t.mask) m : Nat) : Int)
            (e.get_value A) with
        | none => simp [ha] at h
        | some q3 =>
          obtain ⟨t1, j⟩ := q3
          simp only [ha, Option.some.injEq] at h
          subst h
          exact add_entry_chain_inv hc hfree hneg hbefore ha
      | some ent =>
        simp only [hf] at h
        have hchain := find_insertion_chain hf
        cases he : t.entries[ent]? with
        | none => simp [he] at h
        | some e0 =>
          simp only [he] at h
          split at h
          · cases ha : assign_entry A fuel t ki ent (e.get_value A) with
            | none => simp [ha] at h
            | some t1 =>
              simp only [ha, Option.some.injEq] at h
              subst h
              exact assign_entry_chain_inv hc hchain (keep_of_not_grows hf (hk ki hki)) ha
          · rename_i hemp
            simp only [Option.some.injEq] at h
            subst h
            refine chain_inv_set_slot hc ent _ rfl rfl rfl (fun _ => ?_)
            have hne0 : e0.is_empty = false := by simpa using hemp
            exact hc ent e0 he hne0

theorem update_from_self_loop_chain_inv (A fuel : Nat) :
    ∀ (count pos : Nat) (t : StringDict) (err : Int) (r : StringDict × Int), ChainInv t →
      self_update_keeps_keys A fuel count pos t err = true →
      update_from_self_loop A fuel count pos t err = some r → ChainInv r.1 := by
  intro count
  induction count with
  | zero =>
    intro pos t err r hc _ h
    simp only [update_from_self_loop, Option.some.injEq] at h
    subst h
    exact hc
  | succ count ih =>
    intro pos t err r hc hk h
    simp only [update_from_self_loop] at h
    simp only [self_update_keeps_keys] at hk
    split at h
    · simp at h
    · rename_i e rest hd
      simp only [hd, Bool.and_eq_true] at hk
      have hk1 : ∀ ki, e.as_key_info A = some ki →
          grows_into_empty_slot A fuel t ki = false := by
        intro ki hki
        have := hk.1
        simp only [hki, Bool.not_eq_true'] at this
        exact this
      have hst := update_visit_other_chain_inv A fuel t err e
      cases hv : update_visit_other A fuel (some (t, err)) e with
      | mk s b =>
        rw [hv] at hst
        cases s with
        | none => simp [hv] at h
        | some q =>
          obtain ⟨t1, err1⟩ := q
          have hc1 : ChainInv t1 := hst (t1, err1) hc hk1 rfl
          cases b with
          | true =>
            simp only [hv, Option.some.injEq] at h
            subst h
            exact hc1
          | false =>
            simp only [hv] at h hk
            exact ih _ t1 err1 r hc1 hk.2 h

theorem apply_call_chain_inv {A fuel : Nat} {t t1 : StringDict} {c : Call} (hc : ChainInv t)
    (hkeep : call_keeps_keys A fuel t c = true)
    (h : apply_call A fuel t c = some t1) : ChainInv t1 := by
  cases c with
  | op o => exact apply_op_chain_inv hc hkeep h
  | update_kwargs kwargs =>
    simp only [apply_call, Option.map_eq_some'] at h
    obtain ⟨r, hr, rfl⟩ := h
    unfold StringDict.update_from_kwargs at hr
    simp only [call_keeps_keys] at hkeep
    simp only [] at hr
    split at hr
    · simp at hr
    · rename_i t2 r2 hres
      have hc2 := reserve_space_chain_inv hc hres
      simp only [hres] at hkeep
      split at hr
      · simp only [Option.some.injEq] at hr
        subst hr
        exact hc2
      · rename_i hr0
        rw [if_neg hr0] at hkeep
        split at hr
        · simp only [Option.some.injEq] at hr
          subst hr
          exact hc2
        · rename_i hl0
          rw [if_neg hl0] at hkeep
          exact update_from_kwargs_loop_chain_inv A fuel kwargs t2 r.1 r.2 hc2 hkeep hr
  | update_object o =>
    simp only [apply_call, Option.map_eq_some'] at h
    obtain ⟨r, hr, rfl⟩ := h
    cases o with
    | this =>
      simp only [StringDict.update_from_object, StringDict.update_from_self] at hr
      simp only [call_keeps_keys] at hkeep
      split at hr
      · simp only [Option.some.injEq] at hr
        subst hr
        exact hc
      · rename_i hs0
        rw [if_neg hs0] at hkeep
        exact update_from_self_loop_chain_inv A fuel _ _ t 0 r hc hkeep hr
    | other u =>
      simp only [StringDict.update_from_object, Option.some.injEq] at hr
      subst hr
      exact hc

theorem run_calls_chain_inv (A fuel : Nat) :
    ∀ (calls : List Call) (t t1 : StringDict), ChainInv t →
      calls_keep_keys A fuel calls t = true →
      run_calls A fuel calls t = some t1 → ChainInv t1 := by
  intro calls
  induction calls with
  | nil =>
    intro t t1 hc _ h
    simp only [run_calls, Option.some.injEq] at h
    subst h
    exact hc
  | cons c rest ih =>
    intro t t1 hc hk h
    simp only [run_calls] at h
    simp only [calls_keep_keys, Bool.and_eq_true] at hk
    cases hcall : apply_call A fuel t c with
    | none => simp [hcall] at h
    | some t2 =>
      simp only [hcall] at h hk
      exact ih t2 t1 (apply_call_chain_inv hc hk.1 hcall) hk.2 h

theorem chain_inv_of_new_table : ChainInv StringDictBase.new := by
  intro j e hj _
  simp [StringDictBase.new] at hj

/-! ### Keys that are bytes objects -/

theorem bytes_spec_key_eq (a b : KeyInfo) (ha : a.kind = PY_BYTES) (hb : b.kind = PY_BYTES) :
    a.spec_key = b.spec_key
      ↔ b.data_size = a.data_size ∧ b.data.take a.data_size = a.data.take a.data_size := by
  have hitem : DataKind_ItemSize PY_BYTES = 1 := rfl
  unfold KeyInfo.spec_key
  rw [ha, hb, hitem, Nat.mul_one, Nat.mul_one]
  constructor
  · intro h
    simp only [Prod.mk.injEq, true_and] at h
    obtain ⟨h1, h2⟩ := h
    refine ⟨h1.symm, ?_⟩
    rw [h2, h1]
  · rintro ⟨h1, h2⟩
    simp only [Prod.mk.injEq, true_and]
    refine ⟨h1.symm, ?_⟩
    rw [h1, h2]

/-- An entry built from the view of a bytes object matches the view of a bytes object
exactly when the two have the same content. -/
theorem bytes_key_matches (A : Nat) (a b : KeyInfo) (v : Nat)
    (ha : a.kind = PY_BYTES) (hb : b.kind = PY_BYTES) (hak : a.key ≠ 0)
    (hwf : a.well_formed A) (hv : PYOBJECT_MASKED_ A v = v)
    (hobj : a.key = b.key → a.spec_key = b.spec_key)
    (hhash : a.spec_key = b.spec_key → a.hash = b.hash) :
    (Entry.ofKeyInfo A a v).matches A b = decide (a.spec_key = b.spec_key) := by
  obtain ⟨hmask, _, hsize, hdata⟩ := hwf
  have hitem : DataKind_ItemSize PY_BYTES = 1 := rfl
  have hget : Entry_GetKey A (Entry_FromKeyInfo A a v) = a.key := by
    simp [Entry_GetKey, Entry_FromKeyInfo, hak, hmask]
  have hkind := Entry_Kind_FromKeyInfo_bytes A a v hmask hv ha
  have hds := Entry_DataAndSize_FromKeyInfo A a v (by omega)
  rw [ha, hitem, Nat.mul_one] at hds hdata
  have htake : (a.data.take a.data_size ++ [0]).take a.data_size = a.data.take a.data_size := by
    rw [List.take_append_of_le_length (by simp; omega), List.take_take, Nat.min_self]
  have hspec := bytes_spec_key_eq a b ha hb
  have hm : Entry_Matches A (Entry_FromKeyInfo A a v) b
      = (decide (b.key = a.key) || decide (a.spec_key = b.spec_key)) := by
    unfold Entry_Matches
    rw [hget]
    by_cases hk : b.key = a.key
    · simp [hk]
    · simp only [hk, if_false, hkind, hb, ne_eq, not_true_eq_false, Entry_Data, hds, hitem,
        Nat.mul_one, htake, decide_False, Bool.false_or]
      by_cases hsz : b.data_size = a.data_size
      · simp only [hsz, not_true_eq_false, if_false]
        rw [Bool.eq_iff_iff]
        simp only [beq_iff_eq, decide_eq_true_eq]
        rw [hspec]
        simp [hsz]
      · simp only [hsz, not_false_eq_true, if_true]
        symm
        rw [decide_eq_false_iff_not, hspec]
        exact fun h => hsz h.1
  unfold Entry.matches Entry.ofKeyInfo
  simp only [hm]
  by_cases hs : a.spec_key = b.spec_key
  · simp [hs, hhash hs]
  · have hk : ¬ b.key = a.key := fun h => hs (hobj h.symm)
    simp [hs, hk]

theorem content_views_of_bytes_keys {A : Nat} {K : List KeyInfo} {V : List Nat}
    (hkeys : bytes_keys A K) (hvals : ∀ v ∈ V, PYOBJECT_MASKED_ A v = v) :
    content_views A K V := by
  obtain ⟨h1, h2, h3⟩ := hkeys
  refine ⟨hvals, ?_, h3⟩
  intro a ha v hv b hb
  exact bytes_key_matches A a b v (h1 a ha).1 (h1 b hb).1 (h1 a ha).2.1 (h1 a ha).2.2
    (hvals v hv) (h2 a ha b hb) (h3 a ha b hb)

theorem size_ne_zero_of_live {A : Nat} {K : List KeyInfo} {V : List Nat} {t : StringDictBase}
    {cells : List Cell} (inv : TombInv A K V t cells) {j : Nat} {a : KeyInfo} {v : Nat}
    (hj : cells[j]? = some (Cell.live a v)) : t.size ≠ 0 := by
  have hmem : (a, v) ∈ live_items cells := mem_live_items.2 (List.mem_iff_getElem?.2 ⟨j, hj⟩)
  have hpos : 0 < (live_items cells).length := List.length_pos_of_mem hmem
  unfold StringDictBase.size to_size_t
  rw [inv.occupied_eq]
  simp only [Int.natCast_nonneg, if_true, Int.toNat_ofNat]
  omega

theorem one_key_table_inv :
    TombInv 8 [sample_key 0, sample_key_copy 0, sample_key 1] [16] one_key_table
      [Cell.live (sample_key 0) 16] := by
  refine ⟨rfl, ?_, rfl, by simp [live_items, Cell.item], ?_⟩
  · intro j ki v hj
    cases j with
    | zero =>
      simp only [List.getElem?_cons_zero, Option.some.injEq, Cell.live.injEq] at hj
      obtain ⟨rfl, rfl⟩ := hj
      exact ⟨0, by decide!, fun n1 h1 => absurd h1 (Nat.not_lt_zero _)⟩
    | succ j => simp at hj
  · intro ki v hmem
    simp only [List.mem_singleton, Cell.live.injEq] at hmem
    obtain ⟨rfl, rfl⟩ := hmem
    simp

/-! ### A lookup returns when the probe chain meets a free offset -/

theorem find_existing_loop_returns (A : Nat) (t : StringDictBase) (ki : KeyInfo) :
    ∀ (m idx : Nat) (s : Int × Option Nat) (p fuel : Nat), m < fuel →
      (∀ n1, n1 < m → ∃ j1, bucket_slot t (probe_index t.mask idx n1) = some j1
          ∧ j1 < t.entries.length) →
      (∃ o, t.offsets[probe_index t.mask idx m]? = some o ∧ o < 0) →
      ∃ r, visit_with_hash_loop t.mask (find_existing_pred A t ki) fuel s idx p = some r := by
  intro m
  induction m with
  | zero =>
    intro idx s p fuel hf _ hfree
    obtain ⟨f, rfl⟩ : ∃ f, fuel = f + 1 := ⟨fuel - 1, by omega⟩
    obtain ⟨o, ho, hneg⟩ := hfree
    simp only [probe_index] at ho
    exact ⟨_, by simp only [visit_with_hash_loop, find_existing_pred_free s ho hneg]; rfl⟩
  | succ m ih =>
    intro idx s p fuel hf hbefore hfree
    obtain ⟨f, rfl⟩ : ∃ f, fuel = f + 1 := ⟨fuel - 1, by omega⟩
    obtain ⟨j0, hb0, hj0⟩ := hbefore 0 (by omega)
    simp only [probe_index] at hb0
    cases hm : slot_matches A t ki j0 with
    | true =>
      exact ⟨_, by simp only [visit_with_hash_loop, find_existing_pred_match s hb0 hm]; rfl⟩
    | false =>
      simp only [visit_with_hash_loop, find_existing_pred_skip s hb0 hj0 hm, advance_index_fst]
      exact ih (next_index t.mask idx) s _ f (by omega)
        (fun n1 h1 => hbefore (n1 + 1) (by omega)) hfree

/-- With the mask one less than the number of offsets, slot indices in range and a free
offset, `find_existing` returns. -/
theorem find_existing_returns (A fuel k : Nat) (t : StringDictBase) (ki : KeyInfo)
    (hmask : t.mask = 2 ^ k - 1) (hlen : t.offsets.length = 2 ^ k)
    (hrange : ∀ o ∈ t.offsets, o < (t.entries.length : Int))
    (hfree : ∃ (i : Nat) (o : Int), t.offsets[i]? = some o ∧ o < 0) (hfuel : 2 ^ k ≤ fuel) :
    ∃ r, find_existing A fuel t ki = some r := by
  obtain ⟨i, o, hio, hneg⟩ := hfree
  obtain ⟨m, hm, hnone, hbefore⟩ := first_free_bucket k t ki.hash hmask hlen
    ⟨i, (List.getElem?_eq_some.1 hio).1, bucket_slot_of_free hio hneg⟩
  have hlt : chain_bucket t ki.hash m < t.offsets.length := by
    rw [hlen]
    exact chain_bucket_lt k t ki.hash m hmask
  have hfree2 : ∃ o1, t.offsets[chain_bucket t ki.hash m]? = some o1 ∧ o1 < 0 := by
    obtain ⟨o1, ho1⟩ : ∃ o1, t.offsets[chain_bucket t ki.hash m]? = some o1 :=
      ⟨_, List.getElem?_eq_getElem hlt⟩
    refine ⟨o1, ho1, ?_⟩
    by_contra hnn
    have := bucket_slot_of_used ho1 hnn
    rw [hnone] at this
    simp at this
  unfold find_existing
  refine find_existing_loop_returns A t ki m _ _ _ fuel (by omega) ?_ hfree2
  intro n1 hn1
  have hb := hbefore n1 hn1
  cases hbs : bucket_slot t (chain_bucket t ki.hash n1) with
  | none => exact absurd hbs hb
  | some j1 =>
    refine ⟨j1, hbs, ?_⟩
    obtain ⟨o1, ho1, hnn, rfl⟩ := bucket_slot_some hbs
    have := hrange o1 (List.mem_iff_getElem?.2 ⟨_, ho1⟩)
    omega

/-! ### The claims -/

/-- C1 (failing input): on the table built by `lost_key_calls`, `set(k, 24)` for the
key `sample_key 8` returns the value, reusing the tombstone while the table grows, and
the lookup of that key afterwards finds no entry: `contains` is false and the
subscript raises `KeyError`. -/
theorem C1_set_then_lookup_misses :
    run_ops 8 16 lost_key_calls StringDictBase.new = some lost_key_table ∧
    (StringDict.set 8 16 lost_key_table (sample_key 8) 24 false).map Prod.snd
      = some (PyResult.ok 24) ∧
    (StringDict.set 8 16 lost_key_table (sample_key 8) 24 false).bind
      (fun r => StringDict.contains 8 16 r.1 (sample_key 8)) = some false ∧
    (StringDict.set 8 16 lost_key_table (sample_key 8) 24 false).bind
      (fun r => StringDict.subscript 8 16 r.1 true MissingHook.absent (sample_key 8))
      = some (PyResult.raised PyErr.KeyError) := by
  refine ⟨?_, ?_, ?_, ?_⟩ <;> decide!

/-- C2 (failing input): the text string `"abc"` and the byte string `b"abc"` are
different keys, yet after `set("abc", 16); set(b"abc", 32)` on the empty table `items()`
is `[("abc", 32)]`, not `[("abc", 16), (b"abc", 32)]`. -/
theorem C2_distinct_keys_share_one_entry :
    text_abc_view.kind = PY_UCS1 ∧ bytes_abc_view.kind = PY_BYTES
    ∧ [(text_abc_view, 16), (bytes_abc_view, 32)].map (fun kv => (kv.1.object, kv.2))
      = [(KeyObject.cached 2000, 16), (KeyObject.cached 3000, 32)]
    ∧ (run_ops 8 16 (set_calls [(text_abc_view, 16), (bytes_abc_view, 32)])
        StringDictBase.new).bind (fun t => StringDict.get_items 8 t)
      = some (PyResult.ok [(KeyObject.cached 2000, 32)]) := by
  refine ⟨?_, ?_, ?_, ?_⟩ <;> decide!

/-- Where the table tells the keys apart, insertion order is kept: for key-value pairs
`(k_1, v_1), (k_2, v_2), ...` of well-formed key views and aligned values in which no key
matches the entry of an earlier one (`Entry::matches` of the code), the calls
`set(k_i, v_i)` on the empty table all return, with any fuel from `16 * 2 ^ n` on, and
`items()` of the resulting table is `[(k_1, v_1), (k_2, v_2), ...]` in the order of the
calls, growth included. -/
theorem set_calls_items_in_insertion_order (A : Nat) (kvs : List (KeyInfo × Nat)) (fuel : Nat)
    (hlen : kvs.length < 2 ^ 63)
    (hwf : ∀ kv ∈ kvs, kv.1.well_formed A ∧ PYOBJECT_MASKED_ A kv.2 = kv.2)
    (hdist : kvs.Pairwise (fun a b => (Entry.ofKeyInfo A a.1 a.2).matches A b.1 = false))
    (hfuel : 16 * 2 ^ kvs.length ≤ fuel) :
    ∃ t, run_ops A fuel (set_calls kvs) StringDictBase.new = some t
      ∧ StringDict.get_items A t
        = some (PyResult.ok (kvs.map (fun kv => (kv.1.object, kv.2)))) := by
  obtain ⟨t, hrun, inv⟩ := set_run_ok A fuel kvs [] StringDictBase.new (SetOnlyInv.of_new A)
    (by simpa using hdist) (by simpa using hfuel)
  refine ⟨t, hrun, ?_⟩
  rw [List.nil_append] at inv
  rw [inv.items_eq hlen]
  congr 2
  apply List.map_congr_left
  intro kv hkv
  exact Entry_AsTuple_FromKeyInfo A kv.1 kv.2 (hwf kv hkv).1 (hwf kv hkv).2

/-- An instance of `set_calls_items_in_insertion_order`: the hypotheses hold for twelve
pairs, and the table has grown to 32 buckets on the way. -/
theorem set_calls_items_example :
    twelve_pairs.length < 2 ^ 63
      ∧ (∀ kv ∈ twelve_pairs, kv.1.well_formed 8 ∧ PYOBJECT_MASKED_ 8 kv.2 = kv.2)
      ∧ twelve_pairs.Pairwise (fun a b => (Entry.ofKeyInfo 8 a.1 a.2).matches 8 b.1 = false)
      ∧ 16 * 2 ^ twelve_pairs.length ≤ 65536
      ∧ ∃ t, run_ops 8 65536 (set_calls twelve_pairs) StringDictBase.new = some t
        ∧ t.offsets.length = 32
        ∧ StringDict.get_items 8 t
          = some (PyResult.ok (twelve_pairs.map (fun kv => (kv.1.object, kv.2)))) := by
  obtain ⟨t, h1, h2⟩ := set_calls_items_in_insertion_order 8 twelve_pairs 65536 (by decide!)
    (by decide!) (by decide!) (by decide!)
  refine ⟨by decide!, by decide!, by decide!, by decide!, t, h1, ?_, h2⟩
  have hlen : (run_ops 8 65536 (set_calls twelve_pairs) StringDictBase.new).map
      (fun t => t.offsets.length) = some 32 := by decide!
  rw [h1] at hlen
  simpa using hlen

/-- C3 (counterexample): after `set(k0); set(k1); remove(k0); set(k8)` the keys present
in order of insertion are `[k1, k8]`, but `keys()` returns `[k8, k1]`: `k8` was stored
in the slot left by `k0`. -/
theorem C3_keys_not_in_insertion_order :
    spec_keys reuse_calls = [sample_key 1, sample_key 8]
    ∧ (run_ops 8 16 reuse_calls StringDictBase.new).bind (fun t => StringDict.get_keys 8 t)
      = some (PyResult.ok [(sample_key 8).object, (sample_key 1).object]) := by
  refine ⟨?_, ?_⟩ <;> decide!

/-- C3 (amended): for a sequence of fewer than `2 ^ 63` `set` and `remove` calls on the
empty table, with keys that are bytes objects and with aligned values, in which every
call returns and no `set` stores its key in an Empty slot, `keys()` returns exactly the
keys currently present, ordered by the time each was inserted (earliest first); two
views are the same key when they have the same kind and content. -/
theorem C3_keys_in_insertion_order_without_reuse (A fuel : Nat) (ops : List Op)
    (t : StringDict) (hlen : ops.length < 2 ^ 63)
    (hkeys : bytes_keys A (op_keys ops))
    (hvals : ∀ v ∈ op_values ops, PYOBJECT_MASKED_ A v = v)
    (hrun : run_ops_fresh A fuel ops StringDictBase.new = some t) :
    run_ops A fuel ops StringDictBase.new = some t
      ∧ StringDict.get_keys A t
        = some (PyResult.ok ((spec_keys ops).map KeyInfo.object)) := by
  have hcan := content_views_of_bytes_keys hkeys hvals
  obtain ⟨hrun1, cells, inv, hlive, hlen1⟩ :=
    run_fresh_inv A fuel (op_keys ops) (op_values ops) hcan ops StringDictBase.new [] t
      (TombInv.of_empty A _ _) (fun _ h => h) (fun _ h => h) (by simpa using hlen) hrun
  refine ⟨hrun1, ?_⟩
  rw [inv.keys_eq (fun k hk => (hkeys.1 k hk).2.2)
    (by simp only [List.length_nil] at hlen1; omega), hlive]
  simp [spec_keys, live_items]

/-- Witness of C3: the hypotheses hold on `equal_object_calls`, where a key is removed
and a value replaced through a second object of equal content, and the theorem applies:
`keys()` is `[k1, k2]`. -/
theorem C3_keys_in_insertion_order_witness :
    equal_object_calls.length < 2 ^ 63
      ∧ bytes_keys 8 (op_keys equal_object_calls)
      ∧ (∀ v ∈ op_values equal_object_calls, PYOBJECT_MASKED_ 8 v = v)
      ∧ run_ops_fresh 8 16 equal_object_calls StringDictBase.new
        = run_ops 8 16 equal_object_calls StringDictBase.new
      ∧ (run_ops 8 16 equal_object_calls StringDictBase.new).isSome = true
      ∧ (run_ops 8 16 equal_object_calls StringDictBase.new).bind
          (fun t => StringDict.get_keys 8 t)
        = some (PyResult.ok ((spec_keys equal_object_calls).map KeyInfo.object))
      ∧ spec_keys equal_object_calls = [sample_key 1, sample_key 2] := by
  have hsome : ∃ t, run_ops_fresh 8 16 equal_object_calls StringDictBase.new = some t := by
    cases h : run_ops_fresh 8 16 equal_object_calls StringDictBase.new with
    | none => exact absurd h (by decide!)
    | some t => exact ⟨t, rfl⟩
  obtain ⟨t, ht⟩ := hsome
  have hmain := C3_keys_in_insertion_order_without_reuse 8 16 equal_object_calls t
    (by decide!) (by decide!) (by decide!) ht
  refine ⟨by decide!, by decide!, by decide!, by rw [ht, hmain.1], by rw [hmain.1]; rfl,
    by rw [hmain.1]; exact hmain.2, by decide!⟩

/-- C4 (failing input): after `duplicate_key_calls` the calls `set(k, 40)` and
`remove(k)` for `k = sample_key 8` both succeed, and `contains(k)` then returns true:
the table held a second entry for `k`. -/
theorem C4_contains_after_remove :
    ((run_ops 8 32 duplicate_key_calls StringDictBase.new).bind
        (fun t => (StringDict.set 8 32 t (sample_key 8) 40 false).map Prod.snd)
      = some (PyResult.ok 40))
    ∧ ((run_ops 8 32 (duplicate_key_calls ++ [Op.set (sample_key 8) 40]) StringDictBase.new).bind
        (fun t => (StringDict.remove 8 32 t (sample_key 8)).map Prod.snd)
      = some (PyResult.ok ()))
    ∧ ((run_ops 8 32 (duplicate_key_calls ++ [Op.set (sample_key 8) 40,
          Op.remove (sample_key 8)]) StringDictBase.new).bind
        (fun t => StringDict.contains 8 32 t (sample_key 8))
      = some true) := by
  refine ⟨?_, ?_, ?_⟩ <;> decide!

/-- C5 (failing inputs): the table left by `set(s1, 16)`, with `s1` a string object of the
text `"abc"`, contains that key; `set(s2, 32)` with a second string object of the same
text returns, `occupied` goes from 1 to 2 and `keys()` gets a second element.  The table
left by `duplicate_key_calls` lists `k8` with the value 24 in `items()`; `set(k8, 40)`
takes `occupied` from 6 to 7, appends `(k8, 40)` and leaves `(k8, 24)` in `items()`. -/
theorem C5_set_present_appends_entry :
    (text_abc_second_view.kind, text_abc_second_view.data_size, text_abc_second_view.data)
      = (text_abc_view.kind, text_abc_view.data_size, text_abc_view.data)
    ∧ (run_ops 8 16 [Op.set text_abc_view 16] StringDictBase.new).bind
        (fun t => (StringDict.set 8 16 t text_abc_second_view 32 false).map
          (fun r => (r.2, t.occupied, r.1.occupied)))
      = some (PyResult.ok 32, 1, 2)
    ∧ (run_ops 8 16 [Op.set text_abc_view 16] StringDictBase.new).bind
        (fun t => StringDict.get_keys 8 t) = some (PyResult.ok [KeyObject.cached 2000])
    ∧ (run_ops 8 16 [Op.set text_abc_view 16, Op.set text_abc_second_view 32]
        StringDictBase.new).bind (fun t => StringDict.get_keys 8 t)
      = some (PyResult.ok [KeyObject.cached 2000, KeyObject.cached 2008])
    ∧ (run_ops 8 32 duplicate_key_calls StringDictBase.new).bind
        (fun t => (StringDict.set 8 32 t (sample_key 8) 40 false).map
          (fun r => (r.2, t.occupied, r.1.occupied)))
      = some (PyResult.ok 40, 6, 7)
    ∧ (run_ops 8 32 duplicate_key_calls StringDictBase.new).bind
        (fun t => StringDict.get_items 8 t)
      = some (PyResult.ok [(KeyObject.cached 1000, 16), (KeyObject.cached 1064, 24),
          (KeyObject.cached 1008, 16), (KeyObject.cached 1016, 16), (KeyObject.cached 1024, 16),
          (KeyObject.cached 1032, 16)])
    ∧ (run_ops 8 32 (duplicate_key_calls ++ [Op.set (sample_key 8) 40])
        StringDictBase.new).bind (fun t => StringDict.get_items 8 t)
      = some (PyResult.ok [(KeyObject.cached 1000, 16), (KeyObject.cached 1064, 24),
          (KeyObject.cached 1008, 16), (KeyObject.cached 1016, 16), (KeyObject.cached 1024, 16),
          (KeyObject.cached 1032, 16), (KeyObject.cached 1064, 40)]) := by
  refine ⟨?_, ?_, ?_, ?_, ?_, ?_, ?_⟩ <;> decide!

/-- When the lookup of the key view finds the key (the subscript returns some `v`) and
`v2` is an aligned handle, `set(k, v2)` returns `v2` and replaces the value in place:
`len` (with `occupied`, `offsets` and `mask`) is unchanged, `keys()` is unchanged, the
subscript of `k` now returns `v2`, every lookup lands where it landed before, every
slot but the one of `k` is unchanged, and a key whose lookup does not land on the slot
of `k` keeps its value. -/
theorem set_found_replaces_value (A fuel : Nat) (t : StringDict) (ki : KeyInfo)
    (v v2 : Nat) (hv : PYOBJECT_MASKED_ A v2 = v2)
    (h : StringDict.subscript A fuel t true MissingHook.absent ki = some (PyResult.ok v)) :
    ∃ t1 i j, StringDict.set A fuel t ki v2 false = some (t1, PyResult.ok v2)
      ∧ find_existing A fuel t ki = some (i, some j)
      ∧ t1.size = t.size ∧ t1.occupied = t.occupied ∧ t1.offsets = t.offsets
      ∧ t1.mask = t.mask
      ∧ StringDict.get_keys A t1 = StringDict.get_keys A t
      ∧ StringDict.subscript A fuel t1 true MissingHook.absent ki = some (PyResult.ok v2)
      ∧ (∀ fuel1 ki1, find_existing A fuel1 t1 ki1 = find_existing A fuel1 t ki1)
      ∧ (∀ n, n ≠ j → t1.entries[n]? = t.entries[n]?)
      ∧ (∀ fuel1 ki1 d, (∀ i1, find_existing A fuel1 t ki1 ≠ some (i1, some j)) →
          StringDict.getdefault A fuel1 t1 ki1 d = StringDict.getdefault A fuel1 t ki1 d) := by
  obtain ⟨i, j, e, hfe, hj, _⟩ := subscript_ok_slot h
  obtain ⟨hfi, e1, hj1, hne, _⟩ := find_insertion_of_hit hfe
  rw [hj] at hj1
  cases hj1
  have hlt : j < t.entries.length := (List.getElem?_eq_some.1 hj).1
  have hfe1 : ∀ fuel1 ki1,
      find_existing A fuel1 { t with entries := t.entries.set j (e.set_value A v2) } ki1
        = find_existing A fuel1 t ki1 := fun fuel1 ki1 =>
    find_existing_set_value t j e hv hj fuel1 ki1
  refine ⟨{ t with entries := t.entries.set j (e.set_value A v2) }, i, j, ?_, hfe, rfl, rfl,
    rfl, rfl, ?_, ?_, hfe1, ?_, ?_⟩
  · simp [StringDict.set, hfi, assign_entry, hj, hne]
  · exact make_itemlist_set_rel t j e _ hj
      ⟨(Entry.set_value_is_empty A v2 e).symm, (Entry.set_value_get_key A v2 e).symm⟩
  · unfold StringDict.subscript
    rw [hfe1, hfe]
    simp only [List.getElem?_set_self hlt, Option.map_some',
      Entry.set_value_get_value e hv hne]
  · intro n hn
    exact List.getElem?_set_ne (Ne.symm hn)
  · intro fuel1 ki1 d hother
    unfold StringDict.getdefault
    rw [hfe1]
    cases hr : find_existing A fuel1 t ki1 with
    | none => rfl
    | some r =>
      obtain ⟨i1, found⟩ := r
      cases found with
      | none => rfl
      | some j1 =>
        have hne1 : j ≠ j1 := by
          intro hjj
          subst hjj
          exact hother i1 hr
        simp only [List.getElem?_set_ne hne1]

/-- An instance of `set_found_replaces_value` on a concrete table. -/
theorem set_found_replaces_value_example :
    PYOBJECT_MASKED_ 8 32 = 32
      ∧ StringDict.subscript 8 16 one_key_table true MissingHook.absent (sample_key 0)
        = some (PyResult.ok 16)
      ∧ ∃ t1 i j, StringDict.set 8 16 one_key_table (sample_key 0) 32 false
          = some (t1, PyResult.ok 32)
        ∧ find_existing 8 16 one_key_table (sample_key 0) = some (i, some j)
        ∧ t1.size = one_key_table.size ∧ t1.occupied = one_key_table.occupied
        ∧ t1.offsets = one_key_table.offsets ∧ t1.mask = one_key_table.mask
        ∧ StringDict.get_keys 8 t1 = StringDict.get_keys 8 one_key_table
        ∧ StringDict.subscript 8 16 t1 true MissingHook.absent (sample_key 0)
          = some (PyResult.ok 32)
        ∧ (∀ fuel1 ki1, find_existing 8 fuel1 t1 ki1 = find_existing 8 fuel1 one_key_table ki1)
        ∧ (∀ n, n ≠ j → t1.entries[n]? = one_key_table.entries[n]?)
        ∧ (∀ fuel1 ki1 d,
            (∀ i1, find_existing 8 fuel1 one_key_table ki1 ≠ some (i1, some j)) →
            StringDict.getdefault 8 fuel1 t1 ki1 d
              = StringDict.getdefault 8 fuel1 one_key_table ki1 d) :=
  ⟨by decide!, by decide!,
    set_found_replaces_value 8 16 one_key_table (sample_key 0) 16 32 (by decide!)
      (by decide!)⟩

/-- C6 (failing input): in the table left by `set(k0, 16); remove(k0)` the key `k0` is
absent; `setdefault(k0, 32)` returns `32` and stores the key in the tombstone, the
subscript returns `32`, but `occupied` (and so `len`) stays `0`. -/
theorem C6_setdefault_len_not_increased :
    run_ops 8 16 tombstone_calls StringDictBase.new = some tombstone_table
    ∧ StringDict.contains 8 16 tombstone_table (sample_key 0) = some false
    ∧ StringDict.set 8 16 tombstone_table (sample_key 0) 32 true
      = some (miscount_table, PyResult.ok 32)
    ∧ StringDict.subscript 8 16 miscount_table true MissingHook.absent (sample_key 0)
      = some (PyResult.ok 32)
    ∧ tombstone_table.size = 0 ∧ miscount_table.size = 0 := by
  refine ⟨?_, ?_, ?_, ?_, ?_, ?_⟩ <;> decide!

/-- C7 (failing inputs): on the table left by `set(s1, 16)`, with `s1` a string object of
the text `"abc"`, `setdefault(s2, 32)` with a second string object of the same text
returns 32, not 16, and changes the table (`occupied` goes from 1 to 2).  On the table
left by `duplicate_key_calls`, whose `items()` lists `k8` with the value 24,
`setdefault(k8, 40)` returns 40 and takes `occupied` from 6 to 7. -/
theorem C7_setdefault_present_returns_default :
    (text_abc_second_view.kind, text_abc_second_view.data_size, text_abc_second_view.data)
      = (text_abc_view.kind, text_abc_view.data_size, text_abc_view.data)
    ∧ (run_ops 8 16 [Op.set text_abc_view 16] StringDictBase.new).bind
        (fun t => (StringDict.set 8 16 t text_abc_second_view 32 true).map
          (fun r => (r.2, t.occupied, r.1.occupied, decide (r.1 = t))))
      = some (PyResult.ok 32, 1, 2, false)
    ∧ (run_ops 8 32 duplicate_key_calls StringDictBase.new).bind
        (fun t => (StringDict.get_items 8 t).map
          (fun r => decide (r = PyResult.ok [(KeyObject.cached 1000, 16),
            (KeyObject.cached 1064, 24), (KeyObject.cached 1008, 16),
            (KeyObject.cached 1016, 16), (KeyObject.cached 1024, 16),
            (KeyObject.cached 1032, 16)])))
      = some true
    ∧ (sample_key 8).object = KeyObject.cached 1064
    ∧ (run_ops 8 32 duplicate_key_calls StringDictBase.new).bind
        (fun t => (StringDict.set 8 32 t (sample_key 8) 40 true).map
          (fun r => (r.2, t.occupied, r.1.occupied, decide (r.1 = t))))
      = some (PyResult.ok 40, 6, 7, false) := by
  refine ⟨?_, ?_, ?_, ?_, ?_⟩ <;> decide!

/-- When the lookup of the key view finds the key with value `v` (the subscript returns
`v`), `setdefault(k, d)` returns `v` and the table it leaves is the table it was given:
`entries`, `offsets`, `mask` and `occupied` are the same, so the subscript still
returns `v`. -/
theorem setdefault_found_returns_value (A fuel : Nat) (t : StringDict) (ki : KeyInfo)
    (d v : Nat)
    (h : StringDict.subscript A fuel t true MissingHook.absent ki = some (PyResult.ok v)) :
    StringDict.set A fuel t ki d true = some (t, PyResult.ok v) := by
  obtain ⟨i, j, e, hfe, hj, hval⟩ := subscript_ok_slot h
  obtain ⟨hfi, e1, hj1, hne, _⟩ := find_insertion_of_hit hfe
  rw [hj] at hj1
  cases hj1
  simp [StringDict.set, hfi, try_assign_entry, hj, hne, hval]

/-- An instance of `setdefault_found_returns_value` on a concrete table. -/
theorem setdefault_found_example :
    StringDict.subscript 8 16 one_key_table true MissingHook.absent (sample_key 0)
        = some (PyResult.ok 16)
      ∧ StringDict.set 8 16 one_key_table (sample_key 0) 32 true
        = some (one_key_table, PyResult.ok 16) :=
  ⟨by decide!, setdefault_found_returns_value 8 16 one_key_table (sample_key 0) 32 16
    (by decide!)⟩

/-- C8 (failing input): in the table left by `miscount_calls` followed by `set(k1, 64)`
the key `k1` is present with value `64` and `keys()` is `[k0]`; `remove(k1)` succeeds
and `keys()` is then empty, not `[k0]`. -/
theorem C8_keys_after_remove :
    run_ops 8 16 (miscount_calls ++ [Op.set (sample_key 1) 64]) StringDictBase.new
      = some miscount_table_two
    ∧ StringDict.subscript 8 16 miscount_table_two true MissingHook.absent (sample_key 1)
      = some (PyResult.ok 64)
    ∧ StringDict.get_keys 8 miscount_table_two
      = some (PyResult.ok [KeyObject.cached (sample_key 0).key])
    ∧ (StringDict.remove 8 16 miscount_table_two (sample_key 1)).map Prod.snd
      = some (PyResult.ok ())
    ∧ (StringDict.remove 8 16 miscount_table_two (sample_key 1)).bind
        (fun r => StringDict.get_keys 8 r.1)
      = some (PyResult.ok []) := by
  refine ⟨?_, ?_, ?_, ?_, ?_⟩ <;> decide!

/-- C9 (counterexample): on an instance of a subtype that provides `__missing__`, the
subscript of an absent key returns what the method returns instead of raising
`KeyError`. -/
theorem C9_subscript_missing_method :
    StringDict.contains 8 16 StringDictBase.new (sample_key 0) = some false
    ∧ StringDict.subscript 8 16 StringDictBase.new false
        (MissingHook.present (PyResult.ok 7)) (sample_key 0) = some (PyResult.ok 7) := by
  refine ⟨?_, ?_⟩ <;> decide!

/-- C9 (amended): in a table whose slots are Empty or hold entries built from bytes
objects and aligned values, in which every Occupied slot is referenced from the probe
chain of the hash of its key before any free offset, no two Occupied slots hold equal
keys, `occupied` is the number of Occupied slots, the mask is the number of offsets
minus one (a power of two), every offset is below the number of slots, and some offset
is free: `remove(k)`, `pop(k)` without a default, and the subscript on an exact strdict
or on a subtype without `__missing__` all return, and each raises `KeyError` exactly
when no Occupied slot holds a key of the kind and content of `k`; when `remove` or `pop`
raises, the table is unchanged (the subscript never changes it); on a subtype with
`__missing__` the subscript of an absent key returns the outcome of that method. -/
theorem C9_key_error_iff_absent (A fuel n : Nat) (K : List KeyInfo) (V : List Nat)
    (t : StringDict) (cells : List Cell) (k : KeyInfo) (hook : MissingHook)
    (hkeys : bytes_keys A K) (hvals : ∀ v ∈ V, PYOBJECT_MASKED_ A v = v)
    (inv : TombInv A K V t cells) (hk : k ∈ K)
    (hmask : t.mask = 2 ^ n - 1) (hlen : t.offsets.length = 2 ^ n)
    (hrange : ∀ o ∈ t.offsets, o < (t.entries.length : Int))
    (hfree : ∃ (i : Nat) (o : Int), t.offsets[i]? = some o ∧ o < 0) (hfuel : 2 ^ n ≤ fuel) :
    (∃ t1 r, StringDict.remove A fuel t k = some (t1, r)
        ∧ (r = PyResult.raised PyErr.KeyError ↔ ¬ holds_key cells k)
        ∧ (r = PyResult.raised PyErr.KeyError → t1 = t))
    ∧ (∃ t1 r, StringDict.pop A fuel t k none = some (t1, r)
        ∧ (r = PyResult.raised PyErr.KeyError ↔ ¬ holds_key cells k)
        ∧ (r = PyResult.raised PyErr.KeyError → t1 = t))
    ∧ (∃ r, StringDict.subscript A fuel t true hook k = some r
        ∧ (r = PyResult.raised PyErr.KeyError ↔ ¬ holds_key cells k))
    ∧ (∃ r, StringDict.subscript A fuel t false MissingHook.absent k = some r
        ∧ (r = PyResult.raised PyErr.KeyError ↔ ¬ holds_key cells k))
    ∧ (¬ holds_key cells k → ∀ outcome,
        StringDict.subscript A fuel t false (MissingHook.present outcome) k = some outcome) := by
  have hcan := content_views_of_bytes_keys hkeys hvals
  obtain ⟨r, hfe⟩ := find_existing_returns A fuel n t k hmask hlen hrange hfree hfuel
  have hloop : visit_with_hash_loop t.mask (find_existing_pred A t k) fuel (-1, none)
      (to_uhash k.hash &&& t.mask) (to_uhash k.hash) = some r := hfe
  by_cases hpres : holds_key cells k
  · obtain ⟨j, a, v, hj, hak⟩ := id hpres
    obtain ⟨m, hat, hbefore⟩ := inv.chain j a v hj
    have hhash : a.hash = k.hash :=
      hcan.2.2 a (inv.members a v (List.mem_iff_getElem?.2 ⟨j, hj⟩)).1 k hk hak
    rw [hhash] at hat hbefore
    have hr2 := inv.find_existing_hit hcan hj hak hk m _ fuel _ _ r hat hbefore hloop
    obtain ⟨i, found⟩ := r
    simp only at hr2
    subst hr2
    have hent := inv.entry_of_cell hj
    have hs : t.size ≠ 0 := size_ne_zero_of_live inv hj
    refine ⟨⟨{ t with entries := t.entries.set j (Cell.entry A (Cell.live a v)).set_empty,
                       occupied := t.occupied - 1 },
          PyResult.ok (), by simp [StringDict.remove, hfe, remove_entry, hent],
          by simp [hpres], by simp⟩,
        ⟨{ t with entries := t.entries.set j (Cell.entry A (Cell.live a v)).set_empty,
                  occupied := t.occupied - 1 },
          PyResult.ok ((Cell.entry A (Cell.live a v)).get_value A),
          by simp [StringDict.pop, hs, hfe, remove_entry, hent], by simp [hpres], by simp⟩,
        ⟨PyResult.ok ((Cell.entry A (Cell.live a v)).get_value A),
          by simp [StringDict.subscript, hfe, hent], by simp [hpres]⟩,
        ⟨PyResult.ok ((Cell.entry A (Cell.live a v)).get_value A),
          by simp [StringDict.subscript, hfe, hent], by simp [hpres]⟩,
        fun h => absurd hpres h⟩
  · have habs : k.spec_key ∉ (live_items cells).map (fun kv => kv.1.spec_key) :=
      fun h => hpres (spec_key_mem_live_items.1 h)
    have hr2 := inv.find_existing_miss hcan hk habs fuel _ _ _ r rfl hloop
    obtain ⟨i, found⟩ := r
    simp only at hr2
    subst hr2
    refine ⟨⟨t, PyResult.raised PyErr.KeyError, by simp [StringDict.remove, hfe],
          by simp [hpres], fun _ => rfl⟩, ?_,
        ⟨PyResult.raised PyErr.KeyError, by simp [StringDict.subscript, hfe], by simp [hpres]⟩,
        ⟨PyResult.raised PyErr.KeyError, by simp [StringDict.subscript, hfe], by simp [hpres]⟩,
        ?_⟩
    · by_cases hs : t.size = 0
      · exact ⟨t, PyResult.raised PyErr.KeyError, by simp [StringDict.pop, hs],
          by simp [hpres], fun _ => rfl⟩
      · exact ⟨t, PyResult.raised PyErr.KeyError, by simp [StringDict.pop, hs, hfe],
          by simp [hpres], fun _ => rfl⟩
    · intro _ outcome
      simp [StringDict.subscript, hfe]

/-- Witness of C9: the hypotheses hold on the table after `set(k0, 16)`, for the view of
a second object with the content of `k0`, and the theorem applies: the key is present
in slot 0, and `remove`, `pop` and the subscript do not raise `KeyError`. -/
theorem C9_key_error_iff_absent_witness :
    bytes_keys 8 [sample_key 0, sample_key_copy 0, sample_key 1]
    ∧ holds_key [Cell.live (sample_key 0) 16] (sample_key_copy 0)
    ∧ (∃ t1 r, StringDict.remove 8 16 one_key_table (sample_key_copy 0) = some (t1, r)
        ∧ (r = PyResult.raised PyErr.KeyError
            ↔ ¬ holds_key [Cell.live (sample_key 0) 16] (sample_key_copy 0))
        ∧ (r = PyResult.raised PyErr.KeyError → t1 = one_key_table))
    ∧ (∃ t1 r, StringDict.pop 8 16 one_key_table (sample_key_copy 0) none = some (t1, r)
        ∧ (r = PyResult.raised PyErr.KeyError
            ↔ ¬ holds_key [Cell.live (sample_key 0) 16] (sample_key_copy 0))
        ∧ (r = PyResult.raised PyErr.KeyError → t1 = one_key_table))
    ∧ (∃ r, StringDict.subscript 8 16 one_key_table true MissingHook.absent (sample_key_copy 0)
          = some r
        ∧ (r = PyResult.raised PyErr.KeyError
            ↔ ¬ holds_key [Cell.live (sample_key 0) 16] (sample_key_copy 0)))
    ∧ (∃ r, StringDict.subscript 8 16 one_key_table false MissingHook.absent
          (sample_key_copy 0) = some r
        ∧ (r = PyResult.raised PyErr.KeyError
            ↔ ¬ holds_key [Cell.live (sample_key 0) 16] (sample_key_copy 0)))
    ∧ (¬ holds_key [Cell.live (sample_key 0) 16] (sample_key_copy 0) → ∀ outcome,
        StringDict.subscript 8 16 one_key_table false (MissingHook.present outcome)
          (sample_key_copy 0) = some outcome) :=
  ⟨by decide!, ⟨0, sample_key 0, 16, rfl, by decide!⟩,
    C9_key_error_iff_absent 8 16 3 [sample_key 0, sample_key_copy 0, sample_key 1] [16]
      one_key_table [Cell.live (sample_key 0) 16] (sample_key_copy 0) MissingHook.absent
      (by decide!) (by decide!) one_key_table_inv (by simp) (by decide) (by decide)
      (by decide) ⟨1, -1, by decide⟩ (by decide)⟩

/-- C10 (failing input): in the table left by `miscount_calls` the key `k0` is present
with value `32`, yet `pop(k0, 48)` returns the default `48` and removes nothing, and
`pop(k0)` without a default raises `KeyError`. -/
theorem C10_pop_present_returns_default :
    run_ops 8 16 miscount_calls StringDictBase.new = some miscount_table
    ∧ StringDict.subscript 8 16 miscount_table true MissingHook.absent (sample_key 0)
      = some (PyResult.ok 32)
    ∧ StringDict.pop 8 16 miscount_table (sample_key 0) (some 48)
      = some (miscount_table, PyResult.ok 48)
    ∧ StringDict.pop 8 16 miscount_table (sample_key 0) none
      = some (miscount_table, PyResult.raised PyErr.KeyError) := by
  refine ⟨?_, ?_, ?_, ?_⟩ <;> decide!

/-- C11 (failing input): after `lost_key_twice_calls` the table holds seven keys;
`popitem` returns the pair `(k8, 24)` of the first Occupied slot and `len` is one less,
but the key `k8` is still present afterwards, with value 40. -/
theorem C11_popitem_key_still_present :
    (run_ops 8 16 lost_key_twice_calls StringDictBase.new).map (fun t => t.occupied) = some 7
    ∧ (run_ops 8 16 lost_key_twice_calls StringDictBase.new).bind
        (fun t => (StringDict.popitem 8 t).map (fun r => (r.2, r.1.occupied)))
      = some (PyResult.ok ((sample_key 8).object, 24), 6)
    ∧ (run_ops 8 16 lost_key_twice_calls StringDictBase.new).bind
        (fun t => (StringDict.popitem 8 t).bind
          (fun r => StringDict.contains 8 16 r.1 (sample_key 8))) = some true
    ∧ (run_ops 8 16 lost_key_twice_calls StringDictBase.new).bind
        (fun t => (StringDict.popitem 8 t).bind
          (fun r => StringDict.subscript 8 16 r.1 true MissingHook.absent (sample_key 8)))
      = some (PyResult.ok 40) := by
  refine ⟨?_, ?_, ?_, ?_⟩ <;> decide!

/-- C12 (failing input): `clear()` on the table left by `set(k0, 16); remove(k0)`, whose
`len` is 0, changes nothing: the Empty slot stays in `entries` and `offsets[0]` still
refers to it.  On the table left by `miscount_calls`, whose `len` is 0 as well,
`clear()` changes nothing either and `contains(k0)` is true afterwards. -/
theorem C12_clear_keeps_slots :
    run_ops 8 16 tombstone_calls StringDictBase.new = some tombstone_table
    ∧ tombstone_table.size = 0
    ∧ StringDictBase.clear tombstone_table = tombstone_table
    ∧ (StringDictBase.clear tombstone_table).entries.length = 1
    ∧ (StringDictBase.clear tombstone_table).offsets[0]? = some 0
    ∧ run_ops 8 16 (miscount_calls ++ [Op.clear]) StringDictBase.new = some miscount_table
    ∧ StringDict.contains 8 16 (StringDictBase.clear miscount_table) (sample_key 0)
      = some true := by
  refine ⟨?_, ?_, ?_, ?_, ?_, ?_, ?_⟩ <;> decide!

/-- C13 (failing input): the copy of a table has the offsets, mask and occupied counter
of the table and as many slots; slot by slot it holds the same entry block or is Empty
as well, and an Occupied slot keeps its hash.  For the table left by `lost_key_calls`
and `set(k8, 24)` the comparison of the copy with the table returns false, in either
order. -/
theorem C13_copy_compares_unequal :
    (∀ t : StringDict, ∃ c, strdict_copy t = PyResult.ok c
      ∧ c.offsets = t.offsets ∧ c.mask = t.mask ∧ c.occupied = t.occupied
      ∧ c.entries.length = t.entries.length
      ∧ c.entries.map Entry.entry_ = t.entries.map Entry.entry_
      ∧ c.entries.map (fun e => if e.is_empty then (-1 : Int) else e.hash_)
        = t.entries.map (fun e => if e.is_empty then (-1 : Int) else e.hash_))
    ∧ (StringDict.set 8 16 lost_key_table (sample_key 8) 24 false).bind
        (fun r =>
          match strdict_copy r.1 with
          | PyResult.ok c => StringDict.operator_eq 8 16 identity_compare c r.1
          | PyResult.raised _ => none) = some 0
    ∧ (StringDict.set 8 16 lost_key_table (sample_key 8) 24 false).bind
        (fun r =>
          match strdict_copy r.1 with
          | PyResult.ok c => StringDict.operator_eq 8 16 identity_compare r.1 c
          | PyResult.raised _ => none) = some 0 := by
  refine ⟨fun t => ⟨_, strdict_copy_eq t, rfl, rfl, rfl, by simp, ?_, ?_⟩, by decide!,
    by decide!⟩
  · simp only [List.map_map]
    apply List.map_congr_left
    intro e _
    by_cases h : e.is_empty = true
    · have : e.entry_ = none := by simpa [Entry.is_empty] using h
      simp [h, this]
    · simp [h]
  · simp only [List.map_map]
    apply List.map_congr_left
    intro e _
    by_cases h : e.is_empty = true
    · have : e.entry_ = none := by simpa [Entry.is_empty] using h
      simp [Entry.is_empty, this]
    · simp [h]

/-- C14 (failing input): the table left by `miscount_calls` holds the key `k0` and has
`len` 0, as the empty table has; the comparison of the two returns true in either
order, although `k0` is present in one and absent from the other. -/
theorem C14_equal_with_different_keys :
    run_ops 8 16 miscount_calls StringDictBase.new = some miscount_table
    ∧ miscount_table.size = StringDictBase.new.size
    ∧ StringDict.contains 8 16 miscount_table (sample_key 0) = some true
    ∧ StringDict.contains 8 16 StringDictBase.new (sample_key 0) = some false
    ∧ StringDict.operator_eq 8 16 identity_compare miscount_table StringDictBase.new = some 1
    ∧ StringDict.operator_eq 8 16 identity_compare StringDictBase.new miscount_table
      = some 1 := by
  refine ⟨?_, ?_, ?_, ?_, ?_, ?_⟩ <;> decide!

/-- C15 (failing input): `update_from_object` with another table as argument returns 0
and leaves the table as it is, whatever the two tables hold.  For the empty table and
the table holding `k0` with value 16, the key `k0` is absent after the update, while
`update_from_string_dict`, the branch the test was meant to take, stores it. -/
theorem C15_update_from_other_table_does_nothing :
    (∀ (A fuel : Nat) (t u : StringDict),
      StringDict.update_from_object A fuel t (StringDictArg.other u) = some (t, 0))
    ∧ StringDict.contains 8 16 one_key_table (sample_key 0) = some true
    ∧ (StringDict.update_from_object 8 16 StringDictBase.new
        (StringDictArg.other one_key_table)).bind
        (fun r => StringDict.contains 8 16 r.1 (sample_key 0)) = some false
    ∧ (StringDict.update_from_string_dict 8 16 StringDictBase.new one_key_table).bind
        (fun r => StringDict.subscript 8 16 r.1 true MissingHook.absent (sample_key 0))
      = some (PyResult.ok 16) := by
  refine ⟨fun _ _ _ _ => rfl, ?_, ?_, ?_⟩ <;> decide!

/-- C16 (failing input): with `alignof(PyObject) = 8` the entry built from the text view
of `"abc"` matches the byte-string view of `b"abc"` (the two are well-formed views with
the same code units and the same hash); after `set("abc", 16); set(b"abc", 32)` the
table has `len` 1 and the text key has the value 32. -/
theorem C16_text_entry_matches_bytes_view :
    text_abc_view.well_formed 8 ∧ bytes_abc_view.well_formed 8
    ∧ (Entry.ofKeyInfo 8 text_abc_view 16).matches 8 bytes_abc_view = true
    ∧ (Entry.ofKeyInfo 8 text_abc_view 16).entry_.map (Entry_Kind 8) = some PY_BYTES
    ∧ (run_ops 8 16 [Op.set text_abc_view 16, Op.set bytes_abc_view 32]
        StringDictBase.new).map (fun t => t.occupied) = some 1
    ∧ (run_ops 8 16 [Op.set text_abc_view 16, Op.set bytes_abc_view 32]
        StringDictBase.new).bind
        (fun t => StringDict.subscript 8 16 t true MissingHook.absent text_abc_view)
      = some (PyResult.ok 32)
    ∧ (run_ops 8 16 [Op.set text_abc_view 16, Op.set bytes_abc_view 32]
        StringDictBase.new).bind (fun t => StringDict.get_items 8 t)
      = some (PyResult.ok [(text_abc_view.object, 32)]) := by
  refine ⟨?_, ?_, ?_, ?_, ?_, ?_, ?_⟩ <;> decide!

/-- C17 (failing input): on the table built by `lost_key_calls`, which holds the key of
the single byte 8 under no view, `set` with the raw-buffer view of that byte returns, and
the lookup with the view of the bytes object of the same byte and hash finds nothing;
conversely after `set` with the view of the object the lookup with the raw-buffer view
finds nothing. -/
theorem C17_raw_buffer_key_not_found :
    raw_eight_view.key = 0 ∧ (sample_key 8).key ≠ 0
    ∧ (raw_eight_view.kind, raw_eight_view.hash, raw_eight_view.data_size, raw_eight_view.data)
      = ((sample_key 8).kind, (sample_key 8).hash, (sample_key 8).data_size, (sample_key 8).data)
    ∧ run_ops 8 16 lost_key_calls StringDictBase.new = some lost_key_table
    ∧ (∀ e ∈ lost_key_table.entries,
        e.matches 8 raw_eight_view = false ∧ e.matches 8 (sample_key 8) = false)
    ∧ (StringDict.set 8 16 lost_key_table raw_eight_view 24 false).map Prod.snd
      = some (PyResult.ok 24)
    ∧ (StringDict.set 8 16 lost_key_table raw_eight_view 24 false).bind
        (fun r => StringDict.contains 8 16 r.1 (sample_key 8)) = some false
    ∧ (StringDict.set 8 16 lost_key_table (sample_key 8) 24 false).map Prod.snd
      = some (PyResult.ok 24)
    ∧ (StringDict.set 8 16 lost_key_table (sample_key 8) 24 false).bind
        (fun r => StringDict.contains 8 16 r.1 raw_eight_view) = some false := by
  refine ⟨?_, ?_, ?_, ?_, ?_, ?_, ?_, ?_, ?_⟩ <;> decide!

/-- The two views of a byte string are treated alike: let `kr` be the view of a raw
buffer and `ko` the view of a byte-string object with the same bytes and the same hash.
An entry built from either view matches the other.  In a table that holds the key under
neither view, after `set(kr, v)` a lookup with `ko` returns what a lookup with `kr`
returns (the same bucket and the same slot), and after `set(ko, v)` a lookup with `kr`
returns what a lookup with `ko` returns. -/
theorem raw_buffer_and_object_views_agree (A fuel : Nat) (t : StringDict)
    (kr ko : KeyInfo) (v : Nat) (hr : kr.well_formed A) (ho : ko.well_formed A)
    (hrk : kr.key = 0) (_hok : ko.key ≠ 0) (hkind : ko.kind = PY_BYTES)
    (hhash : kr.hash = ko.hash) (hsize : kr.data_size = ko.data_size)
    (hdata : kr.data.take kr.data_size = ko.data.take ko.data_size)
    (hv : PYOBJECT_MASKED_ A v = v)
    (habs : ∀ e ∈ t.entries, e.matches A kr = false ∧ e.matches A ko = false) :
    (Entry.ofKeyInfo A kr v).matches A ko = true
      ∧ (Entry.ofKeyInfo A ko v).matches A kr = true
      ∧ (∀ r, StringDict.set A fuel t kr v false = some r →
          find_existing A fuel r.1 ko = find_existing A fuel r.1 kr)
      ∧ (∀ r, StringDict.set A fuel t ko v false = some r →
          find_existing A fuel r.1 kr = find_existing A fuel r.1 ko) := by
  have hrkind : kr.kind = PY_BYTES := hr.2.1 hrk
  have h1 := matches_same_bytes A kr ko v hr hv hrkind hkind hhash hsize hdata
  have h2 := matches_same_bytes A ko kr v ho hv hkind hrkind hhash.symm hsize.symm hdata.symm
  have h3 := matches_same_bytes A kr kr v hr hv hrkind hrkind rfl rfl rfl
  have h4 := matches_same_bytes A ko ko v ho hv hkind hkind rfl rfl rfl
  refine ⟨h1, h2, ?_, ?_⟩
  · intro r hset
    exact find_existing_congr A fuel r.1 ko kr hhash.symm
      (set_keeps_views_together hv (fun e he => ⟨(habs e he).2, (habs e he).1⟩)
        (by rw [h1, h3]) hset)
  · intro r hset
    exact find_existing_congr A fuel r.1 kr ko hhash
      (set_keeps_views_together hv habs (by rw [h2, h4]) hset)

/-- An instance of `raw_buffer_and_object_views_agree`: the hypotheses hold for the views
`raw_abc_view` and `bytes_abc_view` on a table holding another key; after `set` with one
view the subscript with the other returns the value. -/
theorem raw_buffer_and_object_views_example :
    raw_abc_view.well_formed 8 ∧ bytes_abc_view.well_formed 8
      ∧ (∀ e ∈ one_key_table.entries,
          e.matches 8 raw_abc_view = false ∧ e.matches 8 bytes_abc_view = false)
      ∧ (Entry.ofKeyInfo 8 raw_abc_view 16).matches 8 bytes_abc_view = true
      ∧ (Entry.ofKeyInfo 8 bytes_abc_view 16).matches 8 raw_abc_view = true
      ∧ (StringDict.set 8 16 one_key_table raw_abc_view 16 false).bind
          (fun r => StringDict.subscript 8 16 r.1 true MissingHook.absent bytes_abc_view)
        = some (PyResult.ok 16)
      ∧ (StringDict.set 8 16 one_key_table bytes_abc_view 16 false).bind
          (fun r => StringDict.subscript 8 16 r.1 true MissingHook.absent raw_abc_view)
        = some (PyResult.ok 16) := by
  have h := raw_buffer_and_object_views_agree 8 16 one_key_table raw_abc_view
    bytes_abc_view 16 (by decide!) (by decide!) rfl (by decide) rfl rfl rfl rfl (by decide!)
    (by decide!)
  exact ⟨by decide!, by decide!, by decide!, h.1, h.2.1, by decide!, by decide!⟩

/-- C18: for every `n < 2 ^ 63`, `leb128_decode` applied to the bytes written by
`leb128_encode(n)` returns `n`, and the count it reports is the `len` field of the
encoding; what follows the bytes in memory does not matter. -/
theorem C18_leb128_round_trip (n : Nat) (h : n < 2 ^ 63) :
    leb128_decode (leb128_encode n).encoding = (n, (leb128_encode n).len)
      ∧ ∀ rest, leb128_decode ((leb128_encode n).encoding ++ rest)
          = (n, (leb128_encode n).len) := by
  have hlen : (leb128_encode n).encoding.take (leb128_encode n).len
      = (leb128_encode n).encoding := by
    simp [leb128_encode]
  have hmain : ∀ rest, leb128_decode ((leb128_encode n).encoding ++ rest)
      = (n, (leb128_encode n).len) := by
    intro rest
    have := leb128_decode_encode n rest (by omega)
    rw [hlen] at this
    exact this
  refine ⟨?_, hmain⟩
  have := hmain []
  rw [List.append_nil] at this
  exact this

/-- Witness of C18: the length 300 is encoded in two bytes and decoded from them. -/
theorem C18_leb128_round_trip_witness :
    (300 : Nat) < 2 ^ 63 ∧ (leb128_encode 300).encoding = [172, 2]
      ∧ leb128_decode (leb128_encode 300).encoding = (300, (leb128_encode 300).len) :=
  ⟨by norm_num, by decide, (C18_leb128_round_trip 300 (by norm_num)).1⟩

/-- C19: for every `n < 2 ^ 63`, `leb128_encode(n)` is the unsigned LEB128 encoding of
`n`: `len` is the number of bytes written and lies between 1 and 9; byte `j` has the
bits `7j .. 7j+6` of `n` in its low seven bits and its most significant bit set exactly
when it is not the last byte; the bytes cover all of `n`, and no shorter encoding
does. -/
theorem C19_leb128_encode_standard (n : Nat) (h : n < 2 ^ 63) :
    (leb128_encode n).len = (leb128_encode n).encoding.length
      ∧ 1 ≤ (leb128_encode n).len ∧ (leb128_encode n).len ≤ 9
      ∧ (∀ j, j < (leb128_encode n).len →
          ∃ b, (leb128_encode n).encoding[j]? = some b ∧ b < 256
            ∧ b &&& 0x7f = (n >>> (7 * j)) &&& 0x7f
            ∧ (b &&& 0x80 ≠ 0 ↔ j + 1 < (leb128_encode n).len))
      ∧ n < 2 ^ (7 * (leb128_encode n).len)
      ∧ (1 < (leb128_encode n).len → 2 ^ (7 * ((leb128_encode n).len - 1)) ≤ n) := by
  have hmod : n % 2 ^ 64 = n := Nat.mod_eq_of_lt (by omega)
  obtain ⟨h1, h2, h3, h4⟩ := leb128_encode_loop_spec 9 n (by omega)
  have henc : (leb128_encode n).encoding = leb128_encode_loop (9 + 1) n := by
    unfold leb128_encode
    simp only [hmod]
  have hlen : (leb128_encode n).len = (leb128_encode_loop (9 + 1) n).length := by
    unfold leb128_encode
    simp only [hmod]
  rw [henc, hlen]
  generalize leb128_encode_loop (9 + 1) n = l at h1 h2 h3 h4
  refine ⟨rfl, h1, ?_, ?_, h2, h3⟩
  · by_contra hc
    have h5 := h3 (by omega)
    have : 2 ^ 63 ≤ 2 ^ (7 * (l.length - 1)) := Nat.pow_le_pow_right (by norm_num) (by omega)
    omega
  · intro j hj
    have hlow : (n >>> (7 * j)) &&& 0x7f < 128 := by
      rw [show (0x7f : Nat) = 2 ^ 7 - 1 by norm_num, Nat.and_pow_two_sub_one_eq_mod]
      exact Nat.mod_lt _ (by norm_num)
    refine ⟨_, h4 j hj, ?_, ?_, ?_⟩
    · apply leb128_byte_lt _ hlow
      split <;> norm_num
    · by_cases hlast : j + 1 < l.length
      · simp only [hlast, if_true]
        rw [Nat.and_comm]
        exact (leb128_byte_facts _ hlow 1 (by norm_num)).1
      · simp only [hlast, if_false]
        rw [Nat.and_comm]
        exact (leb128_byte_facts _ hlow 0 (by norm_num)).1
    · by_cases hlast : j + 1 < l.length
      · simp only [hlast, if_true, iff_true]
        intro hz
        have := (leb128_byte_facts _ hlow 1 (by norm_num)).2.1 hz
        omega
      · simp only [hlast, if_false, iff_false, ne_eq, not_not]
        exact (leb128_byte_facts _ hlow 0 (by norm_num)).2.2 rfl

/-- Witness of C19: the theorem at the length 300, whose encoding is `[0xAC, 0x02]`. -/
theorem C19_leb128_encode_standard_witness :
    (300 : Nat) < 2 ^ 63 ∧ (leb128_encode 300).encoding = [0xAC, 0x02]
      ∧ (leb128_encode 300).len = 2 ∧ (leb128_encode 300).len ≤ 9 :=
  ⟨by norm_num, by decide, by decide, (C19_leb128_encode_standard 300 (by norm_num)).2.2.1⟩

/-- C20 (counterexample): after `set` of 2731 different keys on the empty table, which
all return, the table has 4096 buckets and `occupied / len(offsets) = 2731 / 4096`,
which is not below `2/3`. -/
theorem C20_load_factor_reaches_two_thirds :
    ∃ t, run_ops 8 (16 * 2 ^ 2731) (set_calls load_pairs) StringDictBase.new = some t
      ∧ t.occupied = 2731 ∧ t.offsets.length = 4096
      ∧ ¬ (3 * t.occupied < 2 * (t.offsets.length : Int)) := by
  obtain ⟨t, hrun, inv⟩ := set_run_ok 8 (16 * 2 ^ 2731) load_pairs [] StringDictBase.new
    (SetOnlyInv.of_new 8) (by simpa using load_pairs_pairwise 8)
    (by rw [List.length_nil, Nat.zero_add, load_pairs_length])
  rw [List.nil_append] at inv
  have hocc : t.occupied = 2731 := by rw [inv.occupied_eq, load_pairs_length]; rfl
  have hlate := set_calls_late_growth 8 _ load_pairs StringDictBase.new t hrun (Or.inl rfl)
  have hload := inv.load
  rw [load_pairs_length] at hload
  obtain ⟨k, _, _, hlen⟩ := inv.pow2
  have hlen4096 : t.offsets.length = 4096 := by
    rw [hlen] at hload hlate ⊢
    rw [hocc] at hlate
    have hk13 : k < 13 := by
      by_contra hc
      have : 2 ^ 13 ≤ 2 ^ k := Nat.pow_le_pow_right (by norm_num) (by omega)
      rcases hlate with h | h
      · omega
      · have h2 : (8192 : Int) ≤ ((2 ^ k : Nat) : Int) := by exact_mod_cast this
        omega
    have hk11 : 11 < k := by
      by_contra hc
      have : 2 ^ k ≤ 2 ^ 11 := Nat.pow_le_pow_right (by norm_num) (by omega)
      have h2 : ((2 ^ k : Nat) : Int) ≤ 2048 := by exact_mod_cast this
      omega
    have : k = 12 := by omega
    subst this
    norm_num
  refine ⟨t, hrun, hocc, hlen4096, ?_⟩
  rw [hocc, hlen4096]
  decide

/-- C20 (amended): in every table reached from the empty table by public calls that
return (`set`, `setdefault`, `remove`, `pop`, `popitem`, `clear`, `update` with keyword
arguments or a dictionary, and `update` with a table), `occupied / len(offsets)` is
strictly less than `0.667`, the constant `max_load_factor`. -/
theorem C20_load_factor_below_max (A fuel : Nat) (calls : List Call) (t : StringDict)
    (hrun : run_calls A fuel calls StringDictBase.new = some t) :
    t.occupied * 1000 < 667 * (t.offsets.length : Int) :=
  (run_calls_load A fuel calls StringDictBase.new t ShapeInv.of_new_table hrun (by decide)
    (by decide)).1

/-- Witness of C20: the calls of `stale_mask_calls`, an `update` among them, return a
table with 16 keys in 32 offsets. -/
theorem C20_load_factor_below_max_witness :
    run_calls 8 64 stale_mask_calls StringDictBase.new = some stale_mask_table
      ∧ stale_mask_table.occupied = 16 ∧ stale_mask_table.offsets.length = 32
      ∧ stale_mask_table.occupied * 1000 < 667 * (stale_mask_table.offsets.length : Int) :=
  ⟨by decide!, by decide, by decide!,
    C20_load_factor_below_max 8 64 stale_mask_calls stale_mask_table (by decide!)⟩

/-- C21 (failing input): after `set(k0, 16); remove(k0); setdefault(k0, 32)` the table
has one Occupied slot and `occupied` is 0; `set(k0, 32)` in place of the `setdefault`
leaves `occupied` at 1. -/
theorem C21_occupied_miscounts :
    run_ops 8 16 miscount_calls StringDictBase.new = some miscount_table
    ∧ miscount_table.occupied = 0
    ∧ (miscount_table.entries.filter Entry.is_closed).length = 1
    ∧ (run_ops 8 16 (tombstone_calls ++ [Op.set (sample_key 0) 32]) StringDictBase.new).map
        (fun t => (t.occupied, (t.entries.filter Entry.is_closed).length)) = some (1, 1) := by
  refine ⟨?_, ?_, ?_, ?_⟩ <;> decide!

/-- C22 (failing input): after `set(k0, 16)` and an `update` with eleven more keys, both
of which succeed, the table has 32 offsets and `mask` is 15: `reserve_space` resized the
offsets to 16 before `grow` doubled them, and `grow` only doubled the mask. -/
theorem C22_mask_after_reserve_space :
    (run_calls 8 64 [Call.op (Op.set (sample_key 0) 16), Call.update_kwargs eleven_kwargs]
        StringDictBase.new).map (fun t => (t.mask, t.offsets.length, t.occupied))
      = some (15, 32, 12)
    ∧ (reserve_space 64 one_key_table 12).map (fun r => (r.2, r.1.mask, r.1.offsets.length))
      = some (0, 15, 32) := by
  refine ⟨?_, ?_⟩ <;> decide!

/-- C23: in every table reached from the empty table by calls that all return (`set`,
`setdefault`, `remove`, `pop`, `popitem`, `clear`, `update` with keyword arguments, which
goes through `reserve_space`, and `update` with a table), `len(offsets)` is a power of
two and at least 8. -/
theorem C23_offsets_length_power_of_two (A fuel : Nat) (calls : List Call) (t : StringDict)
    (h : run_calls A fuel calls StringDictBase.new = some t) :
    (∃ k, t.offsets.length = 2 ^ k) ∧ 8 ≤ t.offsets.length := by
  obtain ⟨k, hk, hlen⟩ := (run_calls_shape A fuel calls _ t ShapeInv.of_new_table h).pow2
  refine ⟨⟨k, hlen⟩, ?_⟩
  rw [hlen]
  calc 8 = 2 ^ 3 := by norm_num
    _ ≤ 2 ^ k := Nat.pow_le_pow_right (by norm_num) hk

/-- Witness of C23: the calls of `update_example_calls` return, and the table they build
has 32 offsets. -/
theorem C23_offsets_length_power_of_two_witness :
    (run_calls 8 64 update_example_calls StringDictBase.new).map (fun t => t.offsets.length)
        = some 32
      ∧ (run_calls 8 64 update_example_calls StringDictBase.new).map
          (fun t => decide (8 ≤ t.offsets.length)) = some true := by
  have hsome : ∃ t, run_calls 8 64 update_example_calls StringDictBase.new = some t := by
    cases h : run_calls 8 64 update_example_calls StringDictBase.new with
    | none => exact absurd h (by decide!)
    | some t => exact ⟨t, rfl⟩
  obtain ⟨t, ht⟩ := hsome
  have hmain := C23_offsets_length_power_of_two 8 64 update_example_calls t ht
  refine ⟨by decide!, ?_⟩
  rw [ht]
  simp [hmain.2]

/-- C24 (counterexample): after `set(k0, 16); remove(k0)` the offset of bucket 0 is 0
and slot 0 of `entries` is Empty. -/
theorem C24_offset_refers_to_empty_slot :
    run_ops 8 16 tombstone_calls StringDictBase.new = some tombstone_table
    ∧ tombstone_table.offsets[0]? = some 0
    ∧ tombstone_table.entries[0]?.map Entry.is_empty = some true := by
  refine ⟨?_, ?_, ?_⟩ <;> decide!

/-- C24 (amended): in every table reached from the empty table by public calls that all
return (`set`, `setdefault`, `remove`, `pop`, `popitem`, `clear` and `update`), none of
which fills an Empty slot after growing the table, every non-negative `offsets[i]` is the
index of a slot of `entries`; the slot is Occupied or, after a removal, Empty, and an
Occupied slot is referenced from the probe chain of the hash of its key before any free
offset. -/
theorem C24_offsets_refer_to_slots (A fuel : Nat) (calls : List Call) (t : StringDict)
    (hkeep : calls_keep_keys A fuel calls StringDictBase.new = true)
    (hrun : run_calls A fuel calls StringDictBase.new = some t) :
    ∀ (i : Nat) (o : Int), t.offsets[i]? = some o → 0 ≤ o →
      ∃ e, t.entries[o.toNat]? = some e
        ∧ (e.is_empty = false → Chain t e.hash o.toNat) := by
  have hs := run_calls_shape A fuel calls _ t ShapeInv.of_new_table hrun
  have hc := run_calls_chain_inv A fuel calls _ t chain_inv_of_new_table hkeep hrun
  intro i o ho h0
  have hlt : o.toNat < t.entries.length := by
    have := (hs.indexed.1 o (List.mem_iff_getElem?.2 ⟨i, ho⟩)).2
    omega
  exact ⟨t.entries[o.toNat], List.getElem?_eq_getElem hlt,
    fun hne => hc _ _ (List.getElem?_eq_getElem hlt) hne⟩

/-- Witness of C24: the calls of `kept_calls`, among them a `set` that fills an Empty
slot without growth and two updates, return a table in which position 0 of `offsets`
holds slot 0, and the entry of `k8` in that slot is referenced from the probe chain of
its hash. -/
theorem C24_offsets_refer_to_slots_witness :
    calls_keep_keys 8 16 kept_calls StringDictBase.new = true
      ∧ ∃ t, run_calls 8 16 kept_calls StringDictBase.new = some t
          ∧ t.offsets[0]? = some 0
          ∧ ∃ e, t.entries[0]? = some e ∧ e.hash = 8
            ∧ (e.is_empty = false → Chain t e.hash 0) := by
  have hsome : ∃ t, run_calls 8 16 kept_calls StringDictBase.new = some t := by
    cases h : run_calls 8 16 kept_calls StringDictBase.new with
    | none => exact absurd h (by decide!)
    | some t => exact ⟨t, rfl⟩
  obtain ⟨t, ht⟩ := hsome
  have hmain := C24_offsets_refer_to_slots 8 16 kept_calls t (by decide!) ht
  have h1 : (run_calls 8 16 kept_calls StringDictBase.new).map
      (fun t => (t.offsets[0]?, t.entries[0]?.map Entry.hash)) = some (some 0, some 8) := by
    decide!
  rw [ht] at h1
  simp only [Option.map_some', Option.some.injEq, Prod.mk.injEq, Option.map_eq_some'] at h1
  obtain ⟨h2, e0, he0, hh0⟩ := h1
  obtain ⟨e, he, hch⟩ := hmain 0 0 h2 (by norm_num)
  simp only [Int.toNat_zero] at he hch
  rw [he0] at he
  simp only [Option.some.injEq] at he
  subst he
  exact ⟨by decide!, t, ht, h2, e0, he0, hh0, hch⟩

/-- C25: in every table reached from the empty table by calls that all return, the
non-negative elements of `offsets` are valid indices into `entries`, no two positions of
`offsets` hold the same non-negative element, and every slot index of `entries` is held
by exactly one position of `offsets`. -/
theorem C25_offsets_index_each_slot_once (A fuel : Nat) (calls : List Call) (t : StringDict)
    (h : run_calls A fuel calls StringDictBase.new = some t) :
    (∀ (i : Nat) (o : Int), t.offsets[i]? = some o → 0 ≤ o → o.toNat < t.entries.length)
      ∧ (∀ (i1 i2 : Nat) (o : Int),
          t.offsets[i1]? = some o → t.offsets[i2]? = some o → 0 ≤ o → i1 = i2)
      ∧ (∀ j : Nat, j < t.entries.length → ∃! i : Nat, t.offsets[i]? = some (j : Int)) := by
  obtain ⟨hr, hinj, hsurj⟩ :=
    (run_calls_shape A fuel calls _ t ShapeInv.of_new_table h).indexed
  refine ⟨?_, hinj, ?_⟩
  · intro i o ho h0
    have := (hr o (List.mem_iff_getElem?.2 ⟨i, ho⟩)).2
    omega
  · intro j hj
    obtain ⟨i, hi⟩ := hsurj j hj
    exact ⟨i, hi, fun i2 hi2 => hinj i2 i (j : Int) hi2 hi (by omega)⟩

/-- Witness of C25: the calls of `update_example_calls` return a table of twelve slots
in which slot 11 is held by position 11 of `offsets` and by no other. -/
theorem C25_offsets_index_each_slot_once_witness :
    ∃ t, run_calls 8 64 update_example_calls StringDictBase.new = some t
      ∧ t.entries.length = 12 ∧ t.offsets[11]? = some 11
      ∧ ∀ i2 : Nat, t.offsets[i2]? = some 11 → i2 = 11 := by
  have hsome : ∃ t, run_calls 8 64 update_example_calls StringDictBase.new = some t := by
    cases h : run_calls 8 64 update_example_calls StringDictBase.new with
    | none => exact absurd h (by decide!)
    | some t => exact ⟨t, rfl⟩
  obtain ⟨t, ht⟩ := hsome
  have hmain := C25_offsets_index_each_slot_once 8 64 update_example_calls t ht
  have h1 : (run_calls 8 64 update_example_calls StringDictBase.new).map
      (fun t => (t.entries.length, t.offsets[11]?)) = some (12, some 11) := by decide!
  rw [ht] at h1
  simp only [Option.map_some', Option.some.injEq, Prod.mk.injEq] at h1
  exact ⟨t, ht, h1.1, h1.2, fun i2 hi2 => hmain.2.1 i2 11 11 hi2 h1.2 (by norm_num)⟩

/-- C26 (failing inputs): `reserve_space(11)` on the table holding one key succeeds and
leaves 16 offsets, and `11 < 2/3 * 16` does not hold: setting ten more keys, eleven in
all, makes the table grow to 32 offsets, as does `update` with these ten keys, which
calls `reserve_space(11)` first.  `reserve_space(12)` on the empty table succeeds and
leaves the 8 offsets as they are. -/
theorem C26_reserve_space_not_two_thirds :
    (reserve_space 16 one_key_table 11).map (fun r => (r.2, r.1.offsets.length))
      = some (0, 16)
    ∧ ¬ (3 * 11 < 2 * 16)
    ∧ (reserve_space 16 one_key_table 11).bind
        (fun r => (run_ops 8 64 (set_calls ten_kwargs) r.1).map
          (fun t => (t.occupied, t.offsets.length)))
      = some (11, 32)
    ∧ (run_calls 8 64 [Call.op (Op.set (sample_key 0) 16), Call.update_kwargs ten_kwargs]
        StringDictBase.new).map (fun t => (t.occupied, t.offsets.length)) = some (11, 32)
    ∧ (reserve_space 16 StringDictBase.new 12).map (fun r => (r.2, r.1.offsets.length))
      = some (0, 8)
    ∧ ¬ (3 * 12 < 2 * 8) := by
  refine ⟨?_, ?_, ?_, ?_, ?_, ?_⟩ <;> decide!

/-- What `reserve_space` computes: for a table of `2 ^ k ≥ 8` offsets and
`0 < n < 2 ^ 52`, when `reserve_space(n)` returns `0`: a table with `size() == 0` is left
as it is; for a table with `size() > 0`, `len(offsets)` afterwards is the smallest power
of two, not below 8 and not below the previous length, that is not below
`ofs_count_needed`, the double quotient `n / 0.667` truncated to an integer.  The call
returns `0` when `mask + 1` is `len(offsets)` and there are fewer than `2 ^ (k + 1)` entry
slots. -/
theorem reserve_space_smallest_power (fuel : Nat) (t : StringDictBase) (n k : Nat)
    (hk : 3 ≤ k) (hlen : t.offsets.length = 2 ^ k) (hn : 0 < n) (hn2 : n < 2 ^ 52) :
    (∀ t1, reserve_space fuel t (n : Int) = some (t1, 0) →
        (t.size = 0 → t1 = t)
          ∧ (t.size > 0 →
              ∃ m, t1.offsets.length = 2 ^ m ∧ 3 ≤ m ∧ k ≤ m ∧ ofs_count_needed n ≤ 2 ^ m
                ∧ ∀ j, 3 ≤ j → k ≤ j → ofs_count_needed n ≤ 2 ^ j → m ≤ j))
      ∧ (t.mask = 2 ^ k - 1 → t.entries.length < 2 ^ (k + 1) → 2 ^ (k + 1) ≤ fuel →
          ∃ t1, reserve_space fuel t (n : Int) = some (t1, 0)) := by
  refine ⟨?_, fun hmask hent hfuel =>
    reserve_space_returns fuel k t n hmask hlen hent hfuel hn hn2⟩
  intro t1 h
  obtain ⟨_, _, ⟨hr, _⟩ | ⟨_, m, hm3, _, hneed, hmin, ⟨hcase, rfl⟩ | ⟨hkm, hsz, _, hl⟩⟩⟩ :=
    reserve_space_cases hlen h (by omega)
  · omega
  · simp only [Int.toNat_ofNat] at hneed hmin
    refine ⟨fun _ => rfl, fun hsz => ?_⟩
    rcases hcase with hmk | h0
    · refine ⟨k, hlen, hk, le_refl _, ?_, fun j _ hj _ => hj⟩
      calc ofs_count_needed n ≤ 2 ^ m := hneed
        _ ≤ 2 ^ k := Nat.pow_le_pow_right (by norm_num) hmk
    · omega
  · simp only [Int.toNat_ofNat] at hneed hmin
    refine ⟨fun h0 => by omega, fun _ => ⟨m, hl, hm3, by omega, hneed, ?_⟩⟩
    intro j _ hj hnj
    rcases hmin with h3 | hlt
    · omega
    · have h2 : 2 ^ (m - 1) < 2 ^ j := by omega
      have := (Nat.pow_lt_pow_iff_right (by norm_num : 1 < 2)).1 h2
      omega

/-- An instance of `reserve_space_smallest_power`: on the table holding one key, which has
8 offsets, `reserve_space(7)` returns `0` and leaves 16 offsets;
`ofs_count_needed 7 = 10`. -/
theorem reserve_space_smallest_power_example :
    3 ≤ 3 ∧ one_key_table.offsets.length = 2 ^ 3 ∧ 0 < 7 ∧ 7 < 2 ^ 52
      ∧ ofs_count_needed 7 = 10
      ∧ ∃ t1, reserve_space 16 one_key_table ((7 : Nat) : Int) = some (t1, 0)
          ∧ t1.offsets.length = 2 ^ 4 := by
  have hmain := reserve_space_smallest_power 16 one_key_table 7 3 (le_refl _) (by decide!)
    (by norm_num) (by norm_num)
  obtain ⟨t1, ht⟩ := hmain.2 (by decide!) (by decide!) (by norm_num)
  obtain ⟨m, hm, h3, _, hge, hmin⟩ := (hmain.1 t1 ht).2 (by decide!)
  have h10 : ofs_count_needed 7 = 10 := by decide!
  rw [h10] at hge hmin
  have h4 : m ≤ 4 := hmin 4 (by norm_num) (by norm_num) (by norm_num)
  have hm4 : m = 4 := by
    interval_cases m
    · norm_num at hge
    · rfl
  subst hm4
  exact ⟨le_refl _, by decide!, by norm_num, by norm_num, h10, t1, ht, hm⟩

/-- C27: for every table whose counter is a `Py_ssize_t` value, a call of `grow()` that
returns leaves `entries` as it was, so the pairs of the Occupied slots are the same, in
the same order, before and after; and `grow()` returns whenever the table has `2 ^ k`
offsets, the mask `2 ^ k - 1` and fewer than `2 ^ (k + 1)` slots. -/
theorem C27_grow_keeps_iteration_order (A fuel : Nat) (t : StringDictBase)
    (h0 : -2 ^ 63 ≤ t.occupied) (h1 : t.occupied < 2 ^ 63) :
    (∀ t1, grow fuel t = some t1 →
        t1.entries = t.entries
          ∧ t1.entries.filterMap (Entry.as_tuple A) = t.entries.filterMap (Entry.as_tuple A))
      ∧ (∀ k, t.mask = 2 ^ k - 1 → t.offsets.length = 2 ^ k → t.entries.length < 2 ^ (k + 1) →
          2 ^ (k + 1) ≤ fuel → ∃ t1, grow fuel t = some t1) := by
  have hid : grow_remove_empty_entries
      { t with offsets := List.replicate (t.offsets.length * 2) (-1),
               mask := (t.mask <<< 1) ||| 1 }
      = { t with offsets := List.replicate (t.offsets.length * 2) (-1),
                 mask := (t.mask <<< 1) ||| 1 } :=
    grow_remove_empty_entries_id _ h0 h1
  constructor
  · intro t1 h
    unfold grow at h
    simp only [] at h
    rw [hid] at h
    obtain ⟨g1, _, _, _⟩ := grow_relocate_from_frame fuel _ _ _ _ h
    exact ⟨g1, by rw [g1]⟩
  · intro k hmask hlen hfit hfuel
    obtain ⟨t1, g1, _⟩ := grow_relocate_from_ok fuel (k + 1) hfuel t.entries 0
      { t with offsets := List.replicate (t.offsets.length * 2) (-1),
               mask := (t.mask <<< 1) ||| 1 }
      (by simp only [hmask]; exact mask_double k)
      (by simp only [List.length_replicate, hlen, pow_succ])
      (by simpa using hfit)
      (by simp only [used_offsets_replicate]; omega)
      (by
        intro o ho
        rw [List.eq_of_mem_replicate ho]
        decide)
    refine ⟨t1, ?_⟩
    unfold grow
    simp only []
    rw [hid]
    exact g1

/-- Witness of C27: the hypotheses hold for the table built by `lost_key_calls`, whose
slot 0 is Empty, and `grow()` returns on it. -/
theorem C27_grow_keeps_iteration_order_witness :
    -2 ^ 63 ≤ lost_key_table.occupied ∧ lost_key_table.occupied < 2 ^ 63
      ∧ (∃ t1, grow 16 lost_key_table = some t1)
      ∧ (∀ t1, grow 16 lost_key_table = some t1 →
          t1.entries = lost_key_table.entries
            ∧ t1.entries.filterMap (Entry.as_tuple 8)
              = lost_key_table.entries.filterMap (Entry.as_tuple 8)) :=
  have h := C27_grow_keeps_iteration_order 8 16 lost_key_table (by decide) (by decide)
  ⟨by decide, by decide, h.2 3 (by decide) (by decide) (by decide) (by decide), h.1⟩

/-- C28 (failing input): when `malloc` fails in `Entry_FromKeyInfo`, `add_entry` on the
empty table returns a slot all the same: `occupied` is 1, `entries` has a slot without
an entry and offset 0 refers to it, and `set` then reads the value through the null
pointer.  On the table left by `set(k0, 16); remove(k0)`, `set(k0, 16)` reports success
with `occupied` 1 while the slot stays without an entry. -/
theorem C28_failed_malloc_changes_table :
    (add_entry_malloc 8 16 false StringDictBase.new (sample_key 0) 0 16).map
        (fun r => (r.2, r.1.occupied, r.1.entries.map Entry.is_empty, r.1.offsets))
      = some (0, 1, [true], [0, -1, -1, -1, -1, -1, -1, -1])
    ∧ StringDict.set_malloc 8 16 false StringDictBase.new (sample_key 0) 16 = none
    ∧ (StringDict.set_malloc 8 16 false tombstone_table (sample_key 0) 16).map
        (fun r => (r.2, r.1.occupied, r.1.entries.map Entry.is_empty))
      = some (PyResult.ok 16, 1, [true])
    ∧ StringDict.set_malloc 8 16 true StringDictBase.new (sample_key 0) 16
      = StringDict.set 8 16 StringDictBase.new (sample_key 0) 16 false := by
  refine ⟨?_, ?_, ?_, ?_⟩ <;> decide!

/-- C29 (failing input): after `full_offsets_calls` the table holds the key `k7`;
`remove(k7)` returns and leaves a table in which every offset refers to an Empty slot,
and `set(k7, 32)` then does not return, whatever the fuel: `find_insertion` finds no
free offset and no entry for the key. -/
theorem C29_set_after_remove_never_returns :
    (run_ops 8 16 full_offsets_calls StringDictBase.new).bind
        (fun t => StringDict.contains 8 16 t (sample_key 7)) = some true
    ∧ (run_ops 8 16 full_offsets_calls StringDictBase.new).bind
        (fun t => StringDict.remove 8 16 t (sample_key 7))
      = some (all_tombstones_table, PyResult.ok ())
    ∧ ∀ fuel, StringDict.set 8 fuel all_tombstones_table (sample_key 7) 32 false = none := by
  refine ⟨by decide!, by decide!, ?_⟩
  intro fuel
  unfold StringDict.set
  rw [all_tombstones_find_insertion]

/-- C30 (failing input): for the hash 32 and mask 7 the first four indices visited by
`visit_with_hash` are `0, 5, 6, 3`, and the sequence of the claim is `0, 6, 3, 4`:
`advance_index` shifts `perturb` and does not add it to the index. -/
theorem C30_probe_sequence_ignores_perturb :
    visit_with_hash 4 StringDictBase.new 32 (record_index 4) [] = some [0, 5, 6, 3]
    ∧ spec_probe_indices 7 4 (to_uhash 32 &&& 7) (to_uhash 32) = [0, 6, 3, 4]
    ∧ advance_index 7 0 32 = (5, 1)
    ∧ spec_advance_index 7 0 32 = (6, 1) := by
  refine ⟨?_, ?_, ?_, ?_⟩ <;> decide!

/-- C31: for a table whose mask is `2 ^ k - 1` and every hash `h`, the first `2 ^ k`
indices visited by `visit_with_hash` (start `h & mask`, then repeated `advance_index`)
contain every index in `[0, mask]`. -/
theorem C31_probe_sequence_visits_every_index (k : Nat) (t : StringDictBase) (h : Int)
    (hmask : t.mask = 2 ^ k - 1) :
    ∃ l, visit_with_hash (2 ^ k) t h (record_index (2 ^ k)) [] = some l
      ∧ l.length = 2 ^ k ∧ l.head? = some (to_uhash h &&& t.mask)
      ∧ ∀ i, i ≤ t.mask → i ∈ l := by
  have hpos : 0 < 2 ^ k := Nat.pow_pos (by norm_num)
  refine ⟨(List.range (2 ^ k)).map (probe_index t.mask (to_uhash h &&& t.mask)), ?_, ?_, ?_, ?_⟩
  · unfold visit_with_hash
    have := record_index_loop t.mask (2 ^ k) (2 ^ k - 1) [] (to_uhash h &&& t.mask)
      (to_uhash h) (2 ^ k) (by simp; omega) (by omega)
    rw [this, show 2 ^ k - 1 + 1 = 2 ^ k by omega]
    simp
  · simp
  · obtain ⟨n, hn⟩ : ∃ n, 2 ^ k = n + 1 := ⟨2 ^ k - 1, by omega⟩
    rw [hn, List.range_succ_eq_map]
    simp [probe_index]
  · intro i hi
    rw [hmask] at hi ⊢
    obtain ⟨n, hn, hp⟩ := probe_index_surjective k (to_uhash h &&& (2 ^ k - 1)) i
      (start_index_lt k h) (by omega)
    exact List.mem_map.2 ⟨n, List.mem_range.2 hn, hp⟩

/-- Witness of C31: in the empty table, whose mask is 7, the search for the hash 32
visits `0, 5, 6, 3, 4, 1, 2, 7`. -/
theorem C31_probe_sequence_witness :
    StringDictBase.new.mask = 2 ^ 3 - 1
      ∧ visit_with_hash (2 ^ 3) StringDictBase.new 32 (record_index (2 ^ 3)) []
        = some [0, 5, 6, 3, 4, 1, 2, 7]
      ∧ ∃ l, visit_with_hash (2 ^ 3) StringDictBase.new 32 (record_index (2 ^ 3)) [] = some l
          ∧ l.length = 2 ^ 3 ∧ l.head? = some (to_uhash 32 &&& StringDictBase.new.mask)
          ∧ ∀ i, i ≤ StringDictBase.new.mask → i ∈ l :=
  ⟨by decide, by decide!,
    C31_probe_sequence_visits_every_index 3 StringDictBase.new 32 (by decide)⟩

/-- C32 (failing input): the table built by `full_offsets_calls` holds one key in eight
buckets and has no free offset; `find_existing` and `find_insertion` for the absent key
`k8` do not return, whatever the fuel. -/
theorem C32_no_free_offset_left :
    run_ops 8 16 full_offsets_calls StringDictBase.new = some full_offsets_table
    ∧ full_offsets_table.occupied = 1 ∧ full_offsets_table.offsets.length = 8
    ∧ (∀ o ∈ full_offsets_table.offsets, 0 ≤ o)
    ∧ (∀ fuel, find_existing 8 fuel full_offsets_table (sample_key 8) = none)
    ∧ (∀ fuel, find_insertion 8 fuel full_offsets_table (sample_key 8) = none) := by
  refine ⟨by decide!, by decide, by decide, by decide, ?_, ?_⟩
  · intro fuel
    unfold find_existing visit_with_hash
    apply full_offsets_existing_loop
    have : to_uhash (sample_key 8).hash &&& 7 ≤ 7 := Nat.and_le_right
    show to_uhash (sample_key 8).hash &&& 7 < 8
    omega
  · intro fuel
    unfold find_insertion visit_with_hash
    apply full_offsets_insertion_loop
    have : to_uhash (sample_key 8).hash &&& 7 ≤ 7 := Nat.and_le_right
    show to_uhash (sample_key 8).hash &&& 7 < 8
    omega

/-- C33 (failing input): after `set(k0, 16); remove(k0); set(k1, 16); ...; set(k6, 16)`,
whose last call grows the table to 16 offsets, `entries` still has the Empty slot of
`k0`: seven slots for `occupied = 6`.  `grow()` called on the table built by
`lost_key_calls` leaves its Empty slot in place as well. -/
theorem C33_growth_keeps_empty_slots :
    (run_ops 8 16 growth_calls StringDictBase.new).map
        (fun t => (t.offsets.length, t.entries.length, t.occupied, t.entries.map Entry.is_empty))
      = some (16, 7, 6, [true, false, false, false, false, false, false])
    ∧ (grow 16 lost_key_table).map
        (fun t => (t.offsets.length, t.entries.length, t.occupied, t.entries.map Entry.is_empty))
      = some (16, 6, 5, [true, false, false, false, false, false]) := by
  refine ⟨?_, ?_⟩ <;> decide!

/-- C34 (failing input): the entry built from the raw-buffer view of the bytes `abc`
has no cached key, and `Entry_Matches` returns true for the raw-buffer view of the bytes
`xyz`, whose origin is null as well; by the words of the claim the two do not match. -/
theorem C34_null_origin_matches_any_data :
    Entry_GetKey 8 (Entry_FromKeyInfo 8 raw_abc_view 16) = 0
    ∧ raw_xyz_view.key = 0
    ∧ Entry_Matches 8 (Entry_FromKeyInfo 8 raw_abc_view 16) raw_xyz_view = true
    ∧ spec_matches 8 (Entry_FromKeyInfo 8 raw_abc_view 16) raw_xyz_view = false
    ∧ Entry_Matches 1 (Entry_FromKeyInfo 1 raw_abc_view 16) raw_xyz_view = true
    ∧ spec_matches 1 (Entry_FromKeyInfo 1 raw_abc_view 16) raw_xyz_view = false := by
  refine ⟨?_, ?_, ?_, ?_, ?_, ?_⟩ <;> decide!

/-- C35 (failing input): the table built by `stale_mask_calls` has 32 offsets, sixteen of
them free, and the mask 15; the sixteen offsets the mask reaches are in use, and
`find_insertion` for the absent key `k16` does not return, whatever the fuel. -/
theorem C35_find_insertion_never_returns :
    run_calls 8 64 stale_mask_calls StringDictBase.new = some stale_mask_table
    ∧ stale_mask_table.mask = 15 ∧ stale_mask_table.offsets.length = 32
    ∧ bucket_slot stale_mask_table 16 = none
    ∧ used_offsets stale_mask_table.offsets = 16
    ∧ (∀ e ∈ stale_mask_table.entries, e.matches 8 (sample_key 16) = false)
    ∧ (∀ fuel, find_insertion 8 fuel stale_mask_table (sample_key 16) = none) := by
  refine ⟨by decide!, by decide, by decide!, by decide!, by decide!, by decide!, ?_⟩
  intro fuel
  unfold find_insertion visit_with_hash
  exact find_insertion_loop_never 8 stale_mask_table (sample_key 16) stale_mask_table_buckets
    fuel _ _ _ Nat.and_le_right

/-- What `find_insertion` returns in a table whose mask covers the offsets: for a table
with `mask + 1 == len(offsets) = 2 ^ k`, offsets below `len(entries)` and at least one
free offset, and every key view, `find_insertion` returns a pair `(i, e)`.  With `m` the
first step of the view's probe chain at a free bucket: if an Occupied entry matching the
view lies on the chain before step `m`, `e` is the first such entry and `i` its bucket;
otherwise, if an Empty slot lies on the chain before step `m`, `e` is the first such slot
and `i` its bucket; otherwise `e` is absent and `i` is the bucket of step `m`. -/
theorem find_insertion_result (A fuel k : Nat) (t : StringDictBase) (ki : KeyInfo)
    (hmask : t.mask = 2 ^ k - 1) (hlen : t.offsets.length = 2 ^ k)
    (hvalid : ∀ o ∈ t.offsets, o < (t.entries.length : Int))
    (hfree : ∃ i, i < t.offsets.length ∧ bucket_slot t i = none) (hfuel : 2 ^ k ≤ fuel) :
    ∃ (m : Nat) (i : Int) (e : Option Nat),
      find_insertion A fuel t ki = some (i, e)
      ∧ bucket_slot t (chain_bucket t ki.hash m) = none
      ∧ (∀ n, n < m → bucket_slot t (chain_bucket t ki.hash n) ≠ none)
      ∧ (∀ n j, n < m → bucket_slot t (chain_bucket t ki.hash n) = some j →
          slot_matches A t ki j = true →
          (∀ n1 j1, n1 < n → bucket_slot t (chain_bucket t ki.hash n1) = some j1 →
            slot_matches A t ki j1 = false) →
          i = (chain_bucket t ki.hash n : Nat) ∧ e = some j)
      ∧ ((∀ n j, n < m → bucket_slot t (chain_bucket t ki.hash n) = some j →
            slot_matches A t ki j = false) →
          ∀ n j, n < m → bucket_slot t (chain_bucket t ki.hash n) = some j →
            slot_empty t j = true →
            (∀ n1 j1, n1 < n → bucket_slot t (chain_bucket t ki.hash n1) = some j1 →
              slot_empty t j1 = false) →
            i = (chain_bucket t ki.hash n : Nat) ∧ e = some j)
      ∧ ((∀ n j, n < m → bucket_slot t (chain_bucket t ki.hash n) = some j →
            slot_matches A t ki j = false ∧ slot_empty t j = false) →
          i = (chain_bucket t ki.hash m : Nat) ∧ e = none) := by
  classical
  obtain ⟨m, hm, hfreem, hbeforem⟩ := first_free_bucket k t ki.hash hmask hlen hfree
  have hvalidm : ∀ n, n < m → ∃ j, bucket_slot t (chain_bucket t ki.hash n) = some j
      ∧ j < t.entries.length := by
    intro n hn
    cases hb : bucket_slot t (chain_bucket t ki.hash n) with
    | none => exact absurd hb (hbeforem n hn)
    | some j =>
      obtain ⟨o, ho, hneg, hj⟩ := bucket_slot_some hb
      have := hvalid o (List.mem_iff_getElem?.2 ⟨_, ho⟩)
      exact ⟨j, rfl, by omega⟩
  have hfreeo : ∃ o, t.offsets[chain_bucket t ki.hash m]? = some o ∧ o < 0 :=
    bucket_slot_free (by rw [hlen]; exact chain_bucket_lt k t ki.hash m hmask) hfreem
  by_cases hany : ∃ n, n < m ∧ ∃ j, bucket_slot t (chain_bucket t ki.hash n) = some j
      ∧ slot_matches A t ki j = true
  · -- an Occupied entry matches before the first free bucket
    obtain ⟨hn0, j0, hb0, hm0⟩ := Nat.find_spec hany
    have hmin0 : ∀ n1 j1, n1 < Nat.find hany →
        bucket_slot t (chain_bucket t ki.hash n1) = some j1 → slot_matches A t ki j1 = false := by
      intro n1 j1 h1 hb1
      by_contra hc
      exact Nat.find_min hany h1 ⟨by omega, j1, hb1, by simpa using hc⟩
    have hloop := find_insertion_walk_match A t ki j0 (Nat.find hany)
      (to_uhash ki.hash &&& t.mask) (-1, none) (to_uhash ki.hash) fuel (by omega)
      (by
        intro n1 h1
        obtain ⟨j1, hb1, hj1⟩ := hvalidm n1 (by omega)
        exact ⟨j1, hb1, hj1, hmin0 n1 j1 h1 hb1⟩)
      hb0 hm0
    refine ⟨m, _, _, hloop, hfreem, hbeforem, ?_, ?_, ?_⟩
    · intro n j hn hb hmt hminn
      have hnn : n = Nat.find hany := by
        rcases Nat.lt_trichotomy n (Nat.find hany) with h1 | h1 | h1
        · exact absurd ⟨hn, j, hb, hmt⟩ (Nat.find_min hany h1)
        · exact h1
        · have := hminn _ j0 h1 hb0
          rw [hm0] at this
          exact absurd this (by decide)
      subst hnn
      rw [hb0] at hb
      simp only [Option.some.injEq] at hb
      subst hb
      exact ⟨rfl, rfl⟩
    · intro hno
      have := hno _ j0 hn0 hb0
      rw [hm0] at this
      exact absurd this (by decide)
    · intro hno
      have := (hno _ j0 hn0 hb0).1
      rw [hm0] at this
      exact absurd this (by decide)
  · have hnomatch : ∀ n j, n < m → bucket_slot t (chain_bucket t ki.hash n) = some j →
        slot_matches A t ki j = false := by
      intro n j hn hb
      by_contra hc
      exact hany ⟨n, hn, j, hb, by simpa using hc⟩
    have hvalid2 : ∀ n1, n1 < m → ∃ j1, bucket_slot t (chain_bucket t ki.hash n1) = some j1
        ∧ j1 < t.entries.length ∧ slot_matches A t ki j1 = false := by
      intro n1 h1
      obtain ⟨j1, hb1, hj1⟩ := hvalidm n1 h1
      exact ⟨j1, hb1, hj1, hnomatch n1 j1 h1 hb1⟩
    by_cases hemp : ∃ n, n < m ∧ ∃ j, bucket_slot t (chain_bucket t ki.hash n) = some j
        ∧ slot_empty t j = true
    · -- no match, and an Empty slot before the first free bucket
      obtain ⟨hn0, j0, hb0, he0⟩ := Nat.find_spec hemp
      have hmin0 : ∀ n1 j1, n1 < Nat.find hemp →
          bucket_slot t (chain_bucket t ki.hash n1) = some j1 → slot_empty t j1 = false := by
        intro n1 j1 h1 hb1
        by_contra hc
        exact Nat.find_min hemp h1 ⟨by omega, j1, hb1, by simpa using hc⟩
      have hloop := find_insertion_walk_empty A t ki j0 (Nat.find hemp) m
        (to_uhash ki.hash &&& t.mask) (-1, none) (to_uhash ki.hash) fuel hn0 (by omega) rfl
        hvalid2 hmin0 hb0 he0 hfreeo
      refine ⟨m, _, _, hloop, hfreem, hbeforem, ?_, ?_, ?_⟩
      · intro n j hn hb hmt _
        have := hnomatch n j hn hb
        rw [hmt] at this
        exact absurd this (by decide)
      · intro _ n j hn hb het hminn
        have hnn : n = Nat.find hemp := by
          rcases Nat.lt_trichotomy n (Nat.find hemp) with h1 | h1 | h1
          · exact absurd ⟨hn, j, hb, het⟩ (Nat.find_min hemp h1)
          · exact h1
          · have := hminn _ j0 h1 hb0
            rw [he0] at this
            exact absurd this (by decide)
        subst hnn
        rw [hb0] at hb
        simp only [Option.some.injEq] at hb
        subst hb
        exact ⟨rfl, rfl⟩
      · intro hno
        have := (hno _ j0 hn0 hb0).2
        rw [he0] at this
        exact absurd this (by decide)
    · -- neither: the first free bucket is the insertion place
      have hloop := find_insertion_walk_fresh A t ki m
        (to_uhash ki.hash &&& t.mask) (-1, none) (to_uhash ki.hash) fuel (by omega) rfl
        (by
          intro n1 h1
          obtain ⟨j1, hb1, hj1, hm1⟩ := hvalid2 n1 h1
          refine ⟨j1, hb1, hj1, hm1, ?_⟩
          by_contra hc
          exact hemp ⟨n1, h1, j1, hb1, by simpa using hc⟩)
        hfreeo
      refine ⟨m, _, _, hloop, hfreem, hbeforem, ?_, ?_, ?_⟩
      · intro n j hn hb hmt _
        have := hnomatch n j hn hb
        rw [hmt] at this
        exact absurd this (by decide)
      · intro _ n j hn hb het _
        exact absurd ⟨n, hn, j, hb, het⟩ hemp
      · intro _
        exact ⟨rfl, rfl⟩

/-- An instance of `find_insertion_result`: on the table built by `lost_key_calls` the key
`k8` meets the Empty slot 0 in bucket 0 and then the free bucket 6, and `find_insertion`
returns bucket 0 and slot 0. -/
theorem find_insertion_result_example :
    lost_key_table.mask = 2 ^ 3 - 1 ∧ lost_key_table.offsets.length = 2 ^ 3
      ∧ (∀ o ∈ lost_key_table.offsets, o < (lost_key_table.entries.length : Int))
      ∧ (∃ i, i < lost_key_table.offsets.length ∧ bucket_slot lost_key_table i = none)
      ∧ 2 ^ 3 ≤ 8
      ∧ find_insertion 8 8 lost_key_table (sample_key 8) = some (0, some 0)
      ∧ chain_bucket lost_key_table (sample_key 8).hash 2 = 6
      ∧ ∃ (m : Nat) (i : Int) (e : Option Nat),
          find_insertion 8 8 lost_key_table (sample_key 8) = some (i, e)
          ∧ bucket_slot lost_key_table (chain_bucket lost_key_table (sample_key 8).hash m) = none
          ∧ (∀ n, n < m →
              bucket_slot lost_key_table (chain_bucket lost_key_table (sample_key 8).hash n)
                ≠ none)
          ∧ (∀ n j, n < m →
              bucket_slot lost_key_table (chain_bucket lost_key_table (sample_key 8).hash n)
                = some j →
              slot_matches 8 lost_key_table (sample_key 8) j = true →
              (∀ n1 j1, n1 < n →
                bucket_slot lost_key_table (chain_bucket lost_key_table (sample_key 8).hash n1)
                  = some j1 →
                slot_matches 8 lost_key_table (sample_key 8) j1 = false) →
              i = (chain_bucket lost_key_table (sample_key 8).hash n : Nat) ∧ e = some j)
          ∧ ((∀ n j, n < m →
                bucket_slot lost_key_table (chain_bucket lost_key_table (sample_key 8).hash n)
                  = some j →
                slot_matches 8 lost_key_table (sample_key 8) j = false) →
              ∀ n j, n < m →
                bucket_slot lost_key_table (chain_bucket lost_key_table (sample_key 8).hash n)
                  = some j →
                slot_empty lost_key_table j = true →
                (∀ n1 j1, n1 < n →
                  bucket_slot lost_key_table
                    (chain_bucket lost_key_table (sample_key 8).hash n1) = some j1 →
                  slot_empty lost_key_table j1 = false) →
                i = (chain_bucket lost_key_table (sample_key 8).hash n : Nat) ∧ e = some j)
          ∧ ((∀ n j, n < m →
                bucket_slot lost_key_table (chain_bucket lost_key_table (sample_key 8).hash n)
                  = some j →
                slot_matches 8 lost_key_table (sample_key 8) j = false
                  ∧ slot_empty lost_key_table j = false) →
              i = (chain_bucket lost_key_table (sample_key 8).hash m : Nat) ∧ e = none) :=
  ⟨by decide, by decide, by decide, ⟨6, by decide, by decide⟩, by norm_num, by decide!,
    by decide!,
    find_insertion_result 8 8 3 lost_key_table (sample_key 8) (by decide) (by decide)
      (by decide) ⟨6, by decide, by decide⟩ (by norm_num)⟩

/-- C36 (failing input): with `alignof(PyObject) = 8` the entry built from the text view
of `"abc"` (kind `PY_UCS1`) gives back the kind `PY_BYTES` through `Entry_AsKeyInfo`; the
length, the data bytes and the zero byte after them are those of the view.  With
`alignof(PyObject) = 1` the kind comes back as well. -/
theorem C36_kind_lost_in_round_trip :
    text_abc_view.kind = PY_UCS1
    ∧ (Entry_AsKeyInfo 8 (Entry_FromKeyInfo 8 text_abc_view 16) blank_key_info).kind = PY_BYTES
    ∧ (Entry_AsKeyInfo 8 (Entry_FromKeyInfo 8 text_abc_view 16) blank_key_info).data_size = 3
    ∧ (Entry_AsKeyInfo 8 (Entry_FromKeyInfo 8 text_abc_view 16) blank_key_info).data
      = [97, 98, 99, 0]
    ∧ (Entry_AsKeyInfo 1 (Entry_FromKeyInfo 1 text_abc_view 16) blank_key_info).kind = PY_UCS1 := by
  refine ⟨?_, ?_, ?_, ?_, ?_⟩ <;> decide!

/-- C37 (failing input): with `alignof(PyObject) = 4`, after `Entry_SetKind` has stored
the kind `PY_UCS1` in an entry with the key handle 1000 and the value handle 16,
`Entry_Kind` reads `PY_BYTES` and `Entry_GetKey` returns 1001; the kind `PY_UCS4` reads
back as `PY_UCS2`.  With an alignment of 2 or of 8 the four kinds and the handles come
back on this entry. -/
theorem C37_kind_tag_lost_for_alignment_four :
    Entry_Kind 4 (Entry_SetKind 4 { cached_key := 1000, value := 16, data := [] } PY_UCS1).1
      = PY_BYTES
    ∧ Entry_GetKey 4 (Entry_SetKind 4 { cached_key := 1000, value := 16, data := [] } PY_UCS1).1
      = 1001
    ∧ Entry_Kind 4 (Entry_SetKind 4 { cached_key := 1000, value := 16, data := [] } PY_UCS4).1
      = PY_UCS2
    ∧ Entry_GetKey 4 (Entry_SetKind 4 { cached_key := 1000, value := 16, data := [] } PY_UCS4).1
      = 1001
    ∧ pyobject_pointer_lowbits 4 = 2
    ∧ (∀ kind ∈ [PY_BYTES, PY_UCS1, PY_UCS2, PY_UCS4], ∀ A ∈ [2, 8],
        Entry_Kind A (Entry_SetKind A { cached_key := 1000, value := 16, data := [] } kind).1
          = kind
        ∧ Entry_GetKey A (Entry_SetKind A { cached_key := 1000, value := 16, data := [] } kind).1
          = 1000
        ∧ Entry_GetValue A
            (Entry_SetKind A { cached_key := 1000, value := 16, data := [] } kind).1 = 16) := by
  refine ⟨?_, ?_, ?_, ?_, ?_, ?_⟩ <;> decide!

/-- C38: `DataKind_ItemSize` gives 1 for `PY_BYTES`, 1 for `PY_UCS1`, 2 for `PY_UCS2` and
4 for `PY_UCS4`. -/
theorem C38_item_size_of_each_kind :
    DataKind_ItemSize PY_BYTES = 1 ∧ DataKind_ItemSize PY_UCS1 = 1
      ∧ DataKind_ItemSize PY_UCS2 = 2 ∧ DataKind_ItemSize PY_UCS4 = 4 := by
  refine ⟨?_, ?_, ?_, ?_⟩ <;> decide

/-- C39 (failing input): after `duplicate_key_calls` and `set(k8, 40)` the slots 1 and 6
are Occupied and hold the same key (kind, length and data bytes of `sample_key 8`).
With `alignof(PyObject) = 8`, `set("abc", 16)` followed by `set("abc", 32)` with a second
string object of the same text leaves two Occupied slots with the same key. -/
theorem C39_two_entries_with_one_key :
    (run_ops 8 32 (duplicate_key_calls ++ [Op.set (sample_key 8) 40]) StringDictBase.new).map
        (fun t => (t.entries[1]?.bind (Entry.as_key_info 8)).map
          (fun k => (k.kind, k.data_size, k.data)))
      = some (some (PY_BYTES, 1, [8, 0]))
    ∧ (run_ops 8 32 (duplicate_key_calls ++ [Op.set (sample_key 8) 40]) StringDictBase.new).map
        (fun t => (t.entries[6]?.bind (Entry.as_key_info 8)).map
          (fun k => (k.kind, k.data_size, k.data)))
      = some (some (PY_BYTES, 1, [8, 0]))
    ∧ (run_ops 8 16 [Op.set text_abc_view 16, Op.set text_abc_second_view 32]
        StringDictBase.new).map (fun t => t.occupied) = some 2
    ∧ (run_ops 8 16 [Op.set text_abc_view 16, Op.set text_abc_second_view 32]
        StringDictBase.new).map
        (fun t => t.entries.map (fun e => (e.as_key_info 8).map
          (fun k => (k.kind, k.data_size, k.data))))
      = some [some (PY_BYTES, 3, [97, 98, 99, 0]), some (PY_BYTES, 3, [97, 98, 99, 0])] := by
  refine ⟨?_, ?_, ?_, ?_⟩ <;> decide!

/-- C40 (failing inputs): in the table built by `kind_reorder_calls` each of the two
entries is found by `find_existing` with the string object it was stored under; the view
of the byte string `b"abc"` finds slot 1 (value 24) before `grow()` and slot 0 (value 32)
after it.  In the table built by `reorder_calls` every Occupied entry is found by
`find_existing` with the key view `Entry::as_key_info` gives of it; the raw-buffer view
of the bytes `xyz` finds slot 1 (value 24) before `grow()` and slot 0 (value 32) after
it. -/
theorem C40_lookup_changes_with_growth :
    run_ops 8 16 kind_reorder_calls StringDictBase.new = some kind_reorder_table
    ∧ find_existing 8 16 kind_reorder_table text_abc_view = some (5, some 1)
    ∧ find_existing 8 16 kind_reorder_table text_abc_second_view = some (6, some 0)
    ∧ (find_existing 8 16 kind_reorder_table bytes_abc_view).map
        (fun r => r.2.bind (fun j => kind_reorder_table.entries[j]?.map (Entry.get_value 8)))
      = some (some 24)
    ∧ (grow 16 kind_reorder_table).bind (fun t1 => (find_existing 8 16 t1 bytes_abc_view).map
        (fun r => r.2.bind (fun j => t1.entries[j]?.map (Entry.get_value 8))))
      = some (some 32)
    ∧ run_ops 8 16 reorder_calls StringDictBase.new = some reorder_table
    ∧ (List.range reorder_table.entries.length).all (found_by_own_key 8 16 reorder_table) = true
    ∧ (find_existing 8 16 reorder_table raw_xyz_view).map
        (fun r => r.2.bind (fun j => reorder_table.entries[j]?.map (Entry.get_value 8)))
      = some (some 24)
    ∧ (grow 16 reorder_table).bind (fun t1 => (find_existing 8 16 t1 raw_xyz_view).map
        (fun r => r.2.bind (fun j => t1.entries[j]?.map (Entry.get_value 8))))
      = some (some 32) := by
  refine ⟨?_, ?_, ?_, ?_, ?_, ?_, ?_, ?_, ?_⟩ <;> decide!

end StrDict
